import Mathlib

/-!
Verification of the graph library: immutable directed multigraph,
event-driven depth-first traversal (tree- and graph-scoped) and
Tarjan strongly connected components, shallowly embedded from the
Rust sources (src/graph.rs, src/algorithms/enumeration/detailed/tree.rs,
src/algorithms/enumeration/detailed/graph.rs, src/algorithms/scc/stack.rs,
src/algorithms/scc/algorithm.rs).
-/

set_option linter.unusedVariables false

/-- Embeds `VertexId(pub usize)` from src/graph.rs: a dense integer id. -/
abbrev VertexId := Nat

/-- Embeds `Edge(pub VertexId, pub VertexId)` from src/graph.rs: (from, to). -/
abbrev Edge := VertexId × VertexId

/-- Embeds `struct Graph` from src/graph.rs: vertex list, edge list and a
precomputed out-adjacency index. -/
structure Graph where
  vertices : List VertexId
  edges : List Edge
  out_index : List (List VertexId)
  deriving Repr, DecidableEq

/-- Appends `t` to the bucket of source `f` in the out-adjacency index,
embedding `out_index[from.0].push(to.clone())` in `Graph::from`. -/
def pushAt (oi : List (List VertexId)) (f : Nat) (t : VertexId) : List (List VertexId) :=
  oi.set f (oi.getD f [] ++ [t])

/-- Embeds the `edges.into_iter().map(...).collect::<Result<Vec<Edge>, String>>()`
pass of `Graph::from`: validates the edges one by one, accumulating the
out-adjacency index, failing on the first dangling edge. -/
def Graph.buildEdges (vertex_count : Nat) :
    List (Nat × Nat) → List (List VertexId) → Except String (List Edge × List (List VertexId))
  | [], out_index => .ok ([], out_index)
  | (f, t) :: rest, out_index =>
    if vertex_count > f && vertex_count > t then
      match Graph.buildEdges vertex_count rest (pushAt out_index f t) with
      | .ok (es, oi) => .ok ((f, t) :: es, oi)
      | .error e => .error e
    else
      .error "Dangling edges are not allowed"

/-- Embeds `Graph::from(vertex_count, edges)` from src/graph.rs. -/
def Graph.from' (vertex_count : Nat) (edges : List (Nat × Nat)) : Except String Graph :=
  match Graph.buildEdges vertex_count edges (List.replicate vertex_count []) with
  | .ok (es, oi) => .ok ⟨List.range vertex_count, es, oi⟩
  | .error e => .error e

/-- Embeds `Graph::contains`: `self.vertices.len() > vertex.0`. -/
def Graph.contains (g : Graph) (v : VertexId) : Bool :=
  decide (g.vertices.length > v)

/-- Embeds `Graph::out_neighbors`: looks up the out-adjacency bucket of
`vertex`; the `unwrap()` panic on an out-of-range vertex is embedded as
`none`. -/
def Graph.out_neighbors (g : Graph) (v : VertexId) : Option (List VertexId) :=
  g.out_index[v]?

/-! Tree-scoped depth-first event traversal, embedded from
src/algorithms/enumeration/detailed/tree.rs.  The Rust stack `Vec<Vertex>`
is a Lean list whose head is the top of the stack; the `VecDeque` output
queue is a list whose head is the deque front (`push_front` is `cons`,
`pop_back` takes the last element); the `HashSet` explored set is a list
queried by membership; the boxed lazy neighbour iterator is the list of
not-yet-produced out-neighbours. -/

/-- Embeds `struct Vertex` (a traversal frame) from tree.rs. -/
structure Frame where
  id : VertexId
  current_neighbour : Option VertexId
  neighbours : List VertexId
  dropped : Bool
  deriving Repr, DecidableEq

/-- Embeds `Vertex::from(vertex, graph)`: a fresh frame whose neighbour
iterator is `graph.out_neighbors(vertex)` (all callers guarantee the vertex
is in the graph, so the `unwrap` inside `out_neighbors` cannot fire; an
out-of-range vertex here yields the empty neighbour list). -/
def Frame.fromId (v : VertexId) (g : Graph) : Frame :=
  { id := v, current_neighbour := none, neighbours := (g.out_neighbors v).getD [], dropped := false }

/-- Embeds `Vertex::next_neighbour`: advances the neighbour iterator and
records the produced neighbour as `current_neighbour`. -/
def Frame.next_neighbour (f : Frame) : Frame :=
  { f with current_neighbour := f.neighbours.head?, neighbours := f.neighbours.tail }

/-- Embeds `Vertex::drop`: marks the frame as dropped. -/
def Frame.dropFrame (f : Frame) : Frame :=
  { f with dropped := true }

/-- Embeds `enum DFSEntry` from tree.rs. -/
inductive DFSEntry where
  | BeginVertex (v : VertexId)
  | BeginEdge (e : Edge)
  | EndVertex (v : VertexId)
  | EndEdge (e : Edge)
  deriving Repr, DecidableEq

namespace tree

/-- Embeds `struct DepthFirst` (tree-scoped) from tree.rs. -/
structure DepthFirst where
  graph : Graph
  stack : List Frame
  explored : List VertexId
  output_queue : List DFSEntry
  deriving Repr, DecidableEq

/-- Embeds `DepthFirst::on(graph, start)` from tree.rs. -/
def DepthFirst.on (g : Graph) (start : VertexId) : DepthFirst :=
  if g.contains start then
    { graph := g, stack := [Frame.fromId start g], explored := [], output_queue := [] }
  else
    { graph := g, stack := [], explored := [], output_queue := [] }

/-- Embeds `DepthFirst::drop_current_vertex`: marks the top-of-stack frame
as dropped, if any. -/
def DepthFirst.drop_current_vertex (d : DepthFirst) : DepthFirst :=
  match d.stack with
  | [] => d
  | v :: rest => { d with stack := v.dropFrame :: rest }

/-- Embeds `DepthFirst::begin_vertex`: first discovery of a vertex inserts
it into the explored set and produces `BeginVertex`. -/
def DepthFirst.begin_vertex (d : DepthFirst) (v : VertexId) : Option DFSEntry × DepthFirst :=
  if v ∈ d.explored then (none, d)
  else (some (DFSEntry.BeginVertex v), { d with explored := v :: d.explored })

/-- Embeds `DepthFirst::end_previous_edge`: closes the pending edge to the
frame's current neighbour, if one exists. -/
def end_previous_edge (f : Frame) : Option DFSEntry :=
  f.current_neighbour.map (fun n => DFSEntry.EndEdge (f.id, n))

/-- Embeds `DepthFirst::end_vertex`: once the neighbour cursor is exhausted
a non-dropped frame produces `EndVertex`. -/
def end_vertex (f : Frame) : Option DFSEntry :=
  match f.current_neighbour with
  | none => if f.dropped then none else some (DFSEntry.EndVertex f.id)
  | some _ => none

/-- Embeds `DepthFirst::begin_next_edge`: opens the edge to the current
neighbour and pushes a fresh frame for it when it is unexplored. -/
def DepthFirst.begin_next_edge (d : DepthFirst) (vid : VertexId) (curr : Option VertexId) :
    Option DFSEntry × DepthFirst :=
  match curr with
  | none => (none, d)
  | some n =>
    let d' := if n ∈ d.explored then d
              else { d with stack := Frame.fromId n d.graph :: d.stack }
    (some (DFSEntry.BeginEdge (vid, n)), d')

/-- Embeds `VecDeque::pop_back` on the output queue. -/
def popBack (q : List DFSEntry) : Option (DFSEntry × List DFSEntry) :=
  match q.getLast? with
  | none => none
  | some e => some (e, q.dropLast)

/-- The body of `<DepthFirst as Iterator>::next` after the `begin_vertex`
early return, for an already explored popped `vertex` (whose frame has
been removed from `d1.stack`): queue the `EndEdge` of the previous edge,
advance the neighbour cursor, queue `EndVertex` or push the frame back,
and open the next edge. -/
def DepthFirst.processFrame (d1 : DepthFirst) (vertex : Frame) : DepthFirst :=
  let q1 := match end_previous_edge vertex with
            | some e => e :: d1.output_queue
            | none => d1.output_queue
  let uv := vertex.next_neighbour
  let st1 := match end_vertex uv with
             | some _ => d1.stack
             | none => if uv.dropped then d1.stack else uv :: d1.stack
  let q2 := match end_vertex uv with
            | some e => e :: q1
            | none => q1
  let d2 := { d1 with stack := st1, output_queue := q2 }
  if uv.dropped then d2
  else match d2.begin_next_edge uv.id uv.current_neighbour with
       | (some e, dd) => { dd with output_queue := e :: dd.output_queue }
       | (none, dd) => dd

/-- Embeds one unfolding of `<DepthFirst as Iterator>::next` from tree.rs.
The Rust method is recursive (it loops until an event is ready) and
mutates its receiver in place; here it returns the yielded event (if any)
together with the state after the call.  The recursion is fuelled, the
outer `none` meaning the fuel ran out before the call returned. -/
def DepthFirst.nextF : Nat → DepthFirst → Option (Option DFSEntry × DepthFirst)
  | 0, _ => none
  | fuel + 1, d =>
    match popBack d.output_queue with
    | some (e, q) => some (some e, { d with output_queue := q })
    | none =>
      match d.stack with
      | [] => some (none, d)
      | vertex :: rest =>
        let d0 := { d with stack := rest }
        match d0.begin_vertex vertex.id with
        | (some e, d1) => some (some e, { d1 with stack := vertex :: d1.stack })
        | (none, d1) => DepthFirst.nextF fuel (d1.processFrame vertex)

/-- The externally observable `next()`: runs the recursion with enough fuel
(shown sufficient by the fuel-stability theorem below). -/
def DepthFirst.next (d : DepthFirst) : Option DFSEntry × DepthFirst :=
  match DepthFirst.nextF (d.stack.length + 2) d with
  | some r => r
  | none => (none, d)

/-- Collects up to `fuel` events of the iterator, embedding repeated calls
of `next()`. -/
def DepthFirst.events : Nat → DepthFirst → List DFSEntry
  | 0, _ => []
  | fuel + 1, d =>
    match d.next with
    | (none, _) => []
    | (some e, d') => e :: DepthFirst.events fuel d'

/-- The traversal state after `n` calls of `next()`. -/
def DepthFirst.afterN : Nat → DepthFirst → DepthFirst
  | 0, d => d
  | n + 1, d => DepthFirst.afterN n (d.next).2

end tree

/-- Event predicate used for the cancellation claim: the event is neither
`EndVertex v` nor an edge event whose source is `v`. -/
def avoidsVertex (v : VertexId) (e : DFSEntry) : Prop :=
  e ≠ DFSEntry.EndVertex v ∧ ∀ t, e ≠ DFSEntry.BeginEdge (v, t) ∧ e ≠ DFSEntry.EndEdge (v, t)

/-- State predicate: `v` is explored, no frame for `v` is on the stack, and
no pending queue event is an `EndVertex v` or an edge event with source
`v`.  Such a state can never again produce one of those events. -/
def tree.Avoids (v : VertexId) (d : tree.DepthFirst) : Prop :=
  v ∈ d.explored ∧ (∀ f ∈ d.stack, f.id ≠ v) ∧ ∀ e ∈ d.output_queue, avoidsVertex v e

/-- Well-formedness of a graph value: the vertex list is `0..n` where `n`
is the number of adjacency buckets, and every recorded out-neighbour is in
range.  `Graph::from` only produces such graphs. -/
def Graph.WF (g : Graph) : Prop :=
  g.vertices = List.range g.out_index.length ∧
  ∀ l ∈ g.out_index, ∀ t ∈ l, t < g.out_index.length

/-- The out-neighbour list the traversal machine reads for `v`. -/
def Graph.adj (g : Graph) (v : VertexId) : List VertexId :=
  (g.out_neighbors v).getD []

/-- One-edge step relation of the graph as read by the traversal. -/
def Graph.Step (g : Graph) (u w : VertexId) : Prop :=
  w ∈ g.adj u

/-- Reachability along directed edges. -/
def Graph.Reaches (g : Graph) (r v : VertexId) : Prop :=
  Relation.ReflTransGen g.Step r v

/-- State invariant of every tree-traversal state reachable from
`DepthFirst::on` without external cancellation: no frame is dropped, frame
ids are pairwise distinct, every frame below the top is explored, a frame
whose id is not yet explored is fresh (no pending edge, full neighbour
cursor), and all ids are in range. -/
def tree.Inv (d : tree.DepthFirst) : Prop :=
  (∀ f ∈ d.stack, f.dropped = false) ∧
  (d.stack.map Frame.id).Nodup ∧
  (∀ f ∈ d.stack.tail, f.id ∈ d.explored) ∧
  (∀ f ∈ d.stack, f.id ∉ d.explored →
      f.current_neighbour = none ∧ f.neighbours = d.graph.adj f.id) ∧
  (∀ f ∈ d.stack, f.id < d.graph.out_index.length ∧
      (∀ t ∈ f.neighbours, t < d.graph.out_index.length) ∧
      (∀ c, f.current_neighbour = some c → c < d.graph.out_index.length)) ∧
  (∀ v ∈ d.explored, v < d.graph.out_index.length)

/-- Termination credit of a still-unexplored vertex. -/
def vertexCredit (g : Graph) (v : VertexId) : Nat :=
  3 * (g.adj v).length + 3

/-- Termination weight of an open frame. -/
def frameWeight (f : Frame) : Nat :=
  3 * f.neighbours.length + (if f.current_neighbour.isSome then 1 else 0) + 2

/-- Termination potential of a traversal state: credits of unexplored
vertices, weights of the explored open frames, pending queue length.
Every yielded event strictly decreases it (on invariant states). -/
def tree.phi (d : tree.DepthFirst) : Nat :=
  (((List.range d.graph.out_index.length).filter (fun v => decide (v ∉ d.explored))).map
      (vertexCredit d.graph)).sum +
    ((d.stack.filter (fun f => decide (f.id ∈ d.explored))).map frameWeight).sum +
    d.output_queue.length

/-- The events of a state that are already determined: the emitted trace
followed by the queued events in emission order (the deque pops from the
back, so the queue list is reversed). -/
def tree.vtrace (tr : List DFSEntry) (d : tree.DepthFirst) : List DFSEntry :=
  tr ++ d.output_queue.reverse

/-- Ids of the frames of a stack. -/
def idsOf (st : List Frame) : List VertexId :=
  st.map Frame.id

/-- Number of frames of `u` in `st` whose pending edge points at `t`. -/
def pendCount (u t : VertexId) (st : List Frame) : Nat :=
  (st.filter (fun f => f.id == u && f.current_neighbour == some t)).length

/-- Trace-counting invariant tying the emitted trace `tr` to the state:
the queue holds at most one event (an `EndVertex`, or a `BeginEdge` whose
source frame is on the stack with that pending edge); `BeginVertex v`
occurs exactly once iff `v` is explored; `EndVertex v` occurs exactly once
iff `v` is explored and retired from the stack; `BeginEdge` occurrences
exceed `EndEdge` occurrences exactly by the pending-edge count; an emitted
`BeginEdge` has an explored source. -/
def tree.TraceInv (tr : List DFSEntry) (d : tree.DepthFirst) : Prop :=
  (d.output_queue = [] ∨ (∃ x, d.output_queue = [DFSEntry.EndVertex x]) ∨
    ∃ u t, d.output_queue = [DFSEntry.BeginEdge (u, t)] ∧
      ∃ f ∈ d.stack, f.id = u ∧ f.current_neighbour = some t) ∧
  (∀ v, (tree.vtrace tr d).count (DFSEntry.BeginVertex v)
      = if v ∈ d.explored then 1 else 0) ∧
  (∀ v, (tree.vtrace tr d).count (DFSEntry.EndVertex v)
      = if v ∈ d.explored ∧ v ∉ idsOf d.stack then 1 else 0) ∧
  (∀ u t, (tree.vtrace tr d).count (DFSEntry.BeginEdge (u, t))
      = (tree.vtrace tr d).count (DFSEntry.EndEdge (u, t)) + pendCount u t d.stack) ∧
  (∀ u t, 1 ≤ (tree.vtrace tr d).count (DFSEntry.BeginEdge (u, t)) → u ∈ d.explored)

/-- Reachability and closure invariant of pure tree-traversal runs rooted
at `r`: explored vertices and open frames are reachable from `r`; each
frame's consumed neighbour prefix is explored; every pending edge target
is explored, except the single just-opened edge whose fresh target frame
sits on top; an explored vertex is open or has all out-neighbours
explored. -/
def tree.Inv2 (r : VertexId) (d : tree.DepthFirst) : Prop :=
  (∀ v ∈ d.explored, d.graph.Reaches r v) ∧
  (∀ f ∈ d.stack, d.graph.Reaches r f.id) ∧
  (∀ f ∈ d.stack, ∃ pre, d.graph.adj f.id = pre ++ f.current_neighbour.toList ++ f.neighbours ∧
      ∀ x ∈ pre, x ∈ d.explored) ∧
  ((∀ f ∈ d.stack, ∀ c, f.current_neighbour = some c → c ∈ d.explored) ∨
    (∃ c rest2, d.stack = Frame.fromId c d.graph :: rest2 ∧ c ∉ d.explored ∧
      ∀ f ∈ rest2, ∀ c', f.current_neighbour = some c' → c' ∈ d.explored ∨ c' = c)) ∧
  (∀ v ∈ d.explored, v ∈ idsOf d.stack ∨ ∀ t ∈ d.graph.adj v, t ∈ d.explored)

/-- Well-nested prefix condition on an event list: every `EndVertex` is
preceded by its `BeginVertex` and every `EndEdge` by a matching
`BeginEdge` (count-wise). -/
def PrefOK (l : List DFSEntry) : Prop :=
  (∀ v, l.count (DFSEntry.EndVertex v) ≤ l.count (DFSEntry.BeginVertex v)) ∧
  ∀ u t, l.count (DFSEntry.EndEdge (u, t)) ≤ l.count (DFSEntry.BeginEdge (u, t))

/-- Position `i` of the event list witnesses that `v` was discovered
through the edge `(u, v)`: the `BeginEdge (u, v)` is immediately followed
by `BeginVertex v`. -/
def Discover (u v : VertexId) (l : List DFSEntry) (i : Nat) : Prop :=
  l[i]? = some (DFSEntry.BeginEdge (u, v)) ∧ l[i + 1]? = some (DFSEntry.BeginVertex v)

/-- Discovery-ordering property of an event list: after `v` was discovered
through `(u, v)`, every later `EndEdge (u, v)` is preceded by the
`EndVertex v` (strictly between discovery and edge closure). -/
def PropD (u v : VertexId) (l : List DFSEntry) : Prop :=
  ∀ i j, Discover u v l i → i < j → l[j]? = some (DFSEntry.EndEdge (u, v)) →
    ∃ m, i < m ∧ m < j ∧ l[m]? = some (DFSEntry.EndVertex v)

/-- Last-event invariant: when the determined event sequence ends with a
`BeginEdge (u, w)` whose target `w` is still unexplored, the stack top is
the fresh frame of `w` sitting directly on its discovering parent frame
(id `u`, pending edge to `w`). -/
def tree.LInv (tr : List DFSEntry) (d : tree.DepthFirst) : Prop :=
  ∀ u w, (tree.vtrace tr d).getLast? = some (DFSEntry.BeginEdge (u, w)) →
    w ∉ d.explored →
    ∃ fu rest', d.stack = Frame.fromId w d.graph :: fu :: rest' ∧
      fu.id = u ∧ fu.current_neighbour = some w

/-- Open-discovery invariant for the pair `(u, v)`: while `v` was
discovered through `(u, v)` but its `EndVertex` has not yet been
determined, the discovering frame of `u` still pends on the edge to `v`
and sits strictly below an open frame of `v`. -/
def tree.DInv (u v : VertexId) (tr : List DFSEntry) (d : tree.DepthFirst) : Prop :=
  (∃ i, Discover u v (tree.vtrace tr d) i) →
    (tree.vtrace tr d).count (DFSEntry.EndVertex v) = 0 →
    ∃ A f B, d.stack = A ++ f :: B ∧ f.id = u ∧ f.current_neighbour = some v ∧
      v ∈ idsOf A

/-- Combined invariant of a pure tree-traversal run rooted at `r` with
emitted trace `tr`: the structural state invariant, the reachability and
closure invariant, the trace-counting invariant, the last-event and
open-discovery invariants, well-nestedness of all emitted prefixes, and
the discovery-ordering property of the determined event sequence. -/
def tree.RunInv (r : VertexId) (tr : List DFSEntry) (d : tree.DepthFirst) : Prop :=
  tree.Inv d ∧ tree.Inv2 r d ∧ tree.TraceInv tr d ∧ tree.LInv tr d ∧
  (∀ u v, tree.DInv u v tr d) ∧
  (∀ j, PrefOK (tr.take j)) ∧
  ∀ u v, PropD u v (tree.vtrace tr d)

/-- Exhaustive description of one `next()` call on a state without dropped
frames: either a pending queue event is flushed, or the iterator is
finished, or the top frame is begun, ended, or advances over one edge
(opening the edge and, when the target is new, pushing its fresh frame). -/
inductive tree.NextCase (d : tree.DepthFirst) : Prop
  | queuePop (e : DFSEntry) (q' : List DFSEntry)
      (hq : d.output_queue = q' ++ [e])
      (hn : d.next = (some e, { d with output_queue := q' }))
  | finished (hst : d.stack = []) (hq : d.output_queue = [])
      (hn : d.next = (none, d))
  | beginV (f : Frame) (rest : List Frame)
      (hst : d.stack = f :: rest) (hq : d.output_queue = [])
      (hf : f.id ∉ d.explored)
      (hn : d.next = (some (DFSEntry.BeginVertex f.id),
          ⟨d.graph, f :: rest, f.id :: d.explored, []⟩))
  | endV (fid : VertexId) (rest : List Frame)
      (hst : d.stack = ⟨fid, none, [], false⟩ :: rest) (hq : d.output_queue = [])
      (hf : fid ∈ d.explored)
      (hn : d.next = (some (DFSEntry.EndVertex fid), ⟨d.graph, rest, d.explored, []⟩))
  | endELast (fid c : VertexId) (rest : List Frame)
      (hst : d.stack = ⟨fid, some c, [], false⟩ :: rest) (hq : d.output_queue = [])
      (hf : fid ∈ d.explored)
      (hn : d.next = (some (DFSEntry.EndEdge (fid, c)),
          ⟨d.graph, rest, d.explored, [DFSEntry.EndVertex fid]⟩))
  | beginEOld (fid n : VertexId) (ns : List VertexId) (rest : List Frame)
      (hst : d.stack = ⟨fid, none, n :: ns, false⟩ :: rest) (hq : d.output_queue = [])
      (hf : fid ∈ d.explored) (hn_old : n ∈ d.explored)
      (hn : d.next = (some (DFSEntry.BeginEdge (fid, n)),
          ⟨d.graph, ⟨fid, some n, ns, false⟩ :: rest, d.explored, []⟩))
  | beginENew (fid n : VertexId) (ns : List VertexId) (rest : List Frame)
      (hst : d.stack = ⟨fid, none, n :: ns, false⟩ :: rest) (hq : d.output_queue = [])
      (hf : fid ∈ d.explored) (hn_new : n ∉ d.explored)
      (hn : d.next = (some (DFSEntry.BeginEdge (fid, n)),
          ⟨d.graph, Frame.fromId n d.graph :: ⟨fid, some n, ns, false⟩ :: rest,
            d.explored, []⟩))
  | endEOld (fid c n : VertexId) (ns : List VertexId) (rest : List Frame)
      (hst : d.stack = ⟨fid, some c, n :: ns, false⟩ :: rest) (hq : d.output_queue = [])
      (hf : fid ∈ d.explored) (hn_old : n ∈ d.explored)
      (hn : d.next = (some (DFSEntry.EndEdge (fid, c)),
          ⟨d.graph, ⟨fid, some n, ns, false⟩ :: rest, d.explored,
            [DFSEntry.BeginEdge (fid, n)]⟩))
  | endENew (fid c n : VertexId) (ns : List VertexId) (rest : List Frame)
      (hst : d.stack = ⟨fid, some c, n :: ns, false⟩ :: rest) (hq : d.output_queue = [])
      (hf : fid ∈ d.explored) (hn_new : n ∉ d.explored)
      (hn : d.next = (some (DFSEntry.EndEdge (fid, c)),
          ⟨d.graph, Frame.fromId n d.graph :: ⟨fid, some n, ns, false⟩ :: rest,
            d.explored, [DFSEntry.BeginEdge (fid, n)]⟩))

/-- Possible shapes of the tree machine's output queue on reachable states:
empty, a single pending `EndVertex`, or a single pending `BeginEdge`. -/
def tree.QShape (en : tree.DepthFirst) : Prop :=
  en.output_queue = [] ∨ (∃ x, en.output_queue = [DFSEntry.EndVertex x]) ∨
    ∃ u t, en.output_queue = [DFSEntry.BeginEdge (u, t)]

/-- The vertex whose `EndVertex` is pending in an output queue, if any. -/
def tree.queueReq : List DFSEntry → List VertexId
  | [DFSEntry.EndVertex x] => [x]
  | _ => []

/-- The still-open vertices of a tree machine state, most recent first:
the target of a queued `EndVertex` followed by the explored ids on the
stack, top first. -/
def tree.ReqT (en : tree.DepthFirst) : List VertexId :=
  tree.queueReq en.output_queue ++
    idsOf (en.stack.filter (fun f => decide (f.id ∈ en.explored)))

/-- Every stack frame reaches every frame above it (the stack spells out a
directed path of discovery). -/
def tree.ChainStk (g : Graph) (st : List Frame) : Prop :=
  ∀ A u B, idsOf st = A ++ u :: B → ∀ c ∈ A, g.Reaches u c

/-- Each frame's neighbour cursor walks its adjacency list: the consumed
prefix, the pending neighbour, and the not-yet-produced suffix partition
`adj`. -/
def tree.Frames (g : Graph) (st : List Frame) : Prop :=
  ∀ f ∈ st, ∃ pre, g.adj f.id = pre ++ f.current_neighbour.toList ++ f.neighbours

/-- Every pending edge target is explored, except the single just-opened
edge whose fresh target frame sits on top. -/
def tree.PendExpl (g : Graph) (st : List Frame) (ex : List VertexId) : Prop :=
  (∀ f ∈ st, ∀ c, f.current_neighbour = some c → c ∈ ex) ∨
  (∃ c rest2, st = Frame.fromId c g :: rest2 ∧ c ∉ ex ∧
    ∀ f ∈ rest2, ∀ c2, f.current_neighbour = some c2 → c2 ∈ ex ∨ c2 = c)

/-- Below every frame sits its discovering parent, whose pending edge
points at it. -/
def tree.PAR (st : List Frame) : Prop :=
  ∀ A f f2 B, st = A ++ f :: f2 :: B → f2.current_neighbour = some f.id

/-- Bundle of the extra structural invariants of tree machine states used
by the SCC correctness proof. -/
def tree.XInv (en : tree.DepthFirst) : Prop :=
  tree.ChainStk en.graph en.stack ∧ tree.Frames en.graph en.stack ∧
  tree.PendExpl en.graph en.stack en.explored ∧ tree.PAR en.stack

namespace graph

/-- Embeds `struct DepthFirst` (graph-scoped) from
src/algorithms/enumeration/detailed/graph.rs: the active tree traversal,
the remaining global vertex iterator, and the merged outer explored set. -/
structure DepthFirst where
  graph : Graph
  enumeration : tree.DepthFirst
  vertices : List VertexId
  explored : List VertexId
  deriving Repr, DecidableEq

/-- Embeds `DepthFirst::on(graph)` (graph-scoped): starts a tree at the
first vertex, or at `VertexId(0)` when the graph has no vertices. -/
def DepthFirst.on (g : Graph) : DepthFirst :=
  match g.vertices with
  | [] => { graph := g, enumeration := tree.DepthFirst.on g 0, vertices := [], explored := [] }
  | v :: rest =>
    { graph := g, enumeration := tree.DepthFirst.on g v, vertices := rest, explored := [] }

/-- Embeds `DepthFirst::start_new_tree`: replaces the finished tree by a
fresh one rooted at `v` and merges the old tree's explored set into the
outer explored set. -/
def DepthFirst.start_new_tree (d : DepthFirst) (v : VertexId) : DepthFirst :=
  { d with
    enumeration := tree.DepthFirst.on d.graph v,
    explored := d.explored ++ d.enumeration.explored }

/-- Embeds `DepthFirst::make_sure_that_entry_was_not_already_given`:
suppresses a `BeginVertex` for a vertex already in the outer explored set
and drops the corresponding frame in the active tree. -/
def DepthFirst.make_sure_that_entry_was_not_already_given (d : DepthFirst) (entry : DFSEntry) :
    Option DFSEntry × DepthFirst :=
  match entry with
  | DFSEntry.BeginVertex v =>
    if v ∈ d.explored then
      (none, { d with enumeration := d.enumeration.drop_current_vertex })
    else (some entry, d)
  | e => (some e, d)

/-- Embeds one unfolding of `<DepthFirst as Iterator>::next` (graph-scoped),
fuelled like the tree-scoped one (`none` = fuel exhausted). -/
def DepthFirst.nextF : Nat → DepthFirst → Option (Option DFSEntry × DepthFirst)
  | 0, _ => none
  | fuel + 1, d =>
    match d.enumeration.next with
    | (some entry, en') =>
      let d' := { d with enumeration := en' }
      match d'.make_sure_that_entry_was_not_already_given entry with
      | (some e, d'') => some (some e, d'')
      | (none, d'') => DepthFirst.nextF fuel d''
    | (none, en') =>
      let d' := { d with enumeration := en' }
      match d'.vertices with
      | [] => some (none, d')
      | v :: rest => DepthFirst.nextF fuel (({ d' with vertices := rest }).start_new_tree v)

/-- A fuel bound that dominates the recursion depth of one `next()` call:
suppressed `BeginVertex` entries each grow the active tree's explored set
(whose members come from the fixed graph), and tree restarts consume the
remaining global vertex list. -/
def DepthFirst.fuelBound (d : DepthFirst) : Nat :=
  (d.vertices.length + 1) *
      (d.explored.length + d.enumeration.explored.length + d.graph.vertices.length +
        (d.graph.out_index.map List.length).sum + 3) + 2

/-- The externally observable graph-scoped `next()`. -/
def DepthFirst.next (d : DepthFirst) : Option DFSEntry × DepthFirst :=
  match DepthFirst.nextF d.fuelBound d with
  | some r => r
  | none => (none, d)

/-- Collects up to `fuel` events of the graph-scoped iterator. -/
def DepthFirst.events : Nat → DepthFirst → List DFSEntry
  | 0, _ => []
  | fuel + 1, d =>
    match d.next with
    | (none, _) => []
    | (some e, d') => e :: DepthFirst.events fuel d'

/-- Combined visited set of a graph-scoped traversal state: the merged
outer explored set plus the active tree's explored set. -/
def DepthFirst.visited (d : DepthFirst) : List VertexId :=
  d.explored ++ d.enumeration.explored

/-- One more than the termination potential of a fresh tree traversal on
`g`: an upper bound on the potential of the active tree at any time. -/
def totalCredit (g : Graph) : Nat :=
  ((List.range g.out_index.length).map (vertexCredit g)).sum + 1

/-- Stream measure of a graph-scoped state: strictly decreases with each
emitted event. -/
def DepthFirst.mu (d : DepthFirst) : Nat :=
  d.vertices.length * totalCredit d.graph + tree.phi d.enumeration + 1

/-- Depth measure of a graph-scoped state: strictly decreases with each
internal recursion step (suppression or tree restart) of one `next()`
call, bounding its recursion depth. -/
def DepthFirst.rho (d : DepthFirst) : Nat :=
  d.vertices.length * (d.graph.out_index.length + 2) +
    ((List.range d.graph.out_index.length).filter
      (fun v => decide (v ∉ d.enumeration.explored))).length + 1

/-- State invariant of graph-scoped traversal states: the active tree runs
on the same graph and satisfies the tree invariant, its queue never holds
a `BeginVertex`, the outer explored set is in range, and the global vertex
iterator has consumed a prefix of the vertex list all of whose members are
visited, except possibly the current tree's root, which is either already
explored by the active tree or the root of a still fresh tree. -/
def GInv (d : DepthFirst) : Prop :=
  d.enumeration.graph = d.graph ∧
  tree.Inv d.enumeration ∧
  (∀ e ∈ d.enumeration.output_queue, ∀ w, e ≠ DFSEntry.BeginVertex w) ∧
  tree.QShape d.enumeration ∧
  (∀ v ∈ d.explored, v < d.graph.out_index.length) ∧
  ∃ consumed, d.graph.vertices = consumed ++ d.vertices ∧
    (consumed = [] ∨ ∃ rt, (∀ v ∈ consumed, v ∈ d.visited ∨ v = rt) ∧
      (rt ∈ d.enumeration.explored ∨
        (d.enumeration = tree.DepthFirst.on d.graph rt ∧ d.graph.contains rt = true)))

/-- Trace-counting invariant of the graph-scoped traversal: the emitted
trace contains `BeginVertex v` exactly once for every visited vertex and
never for an unvisited one. -/
def GTr (gtr : List DFSEntry) (d : DepthFirst) : Prop :=
  ∀ v, gtr.count (DFSEntry.BeginVertex v) = if v ∈ d.visited then 1 else 0

/-- The vertices whose `EndVertex` events the graph-scoped traversal will
still emit, most recent first (the active tree's `ReqT`). -/
def Req (d : DepthFirst) : List VertexId :=
  tree.ReqT d.enumeration

/-- How one graph-scoped `next()` call produced its emitted event: directly
from the active tree; from the active tree after exactly one suppressed
`BeginVertex` (whose fresh frame was dropped); or as the opening
`BeginVertex` of a freshly started tree after the previous tree finished
with no vertex still open. -/
def EmitShape (d : DepthFirst) (e : DFSEntry) (d' : DepthFirst) : Prop :=
  (∃ en2, d.enumeration.next = (some e, en2) ∧
    d' = ⟨d.graph, en2, d.vertices, d.explored⟩ ∧
    ∀ v, e = DFSEntry.BeginVertex v → v ∉ d.explored) ∨
  (∃ f0 S en2, d.enumeration.stack = f0 :: S ∧ f0.id ∉ d.enumeration.explored ∧
    f0.id ∈ d.explored ∧
    (⟨d.graph, S, f0.id :: d.enumeration.explored, []⟩ : tree.DepthFirst).next
      = (some e, en2) ∧
    d' = ⟨d.graph, en2, d.vertices, d.explored⟩ ∧
    ∀ v, e ≠ DFSEntry.BeginVertex v) ∨
  (Req d = [] ∧ ∃ rt, e = DFSEntry.BeginVertex rt ∧ d.graph.contains rt = true ∧
    d'.enumeration = ⟨d.graph, [Frame.fromId rt d.graph], [rt], []⟩)

end graph

/-- Embeds `struct Component` from src/algorithms/component.rs: a set of
vertex ids (the `HashSet` is a duplicate-free list). -/
structure Component where
  members : List VertexId
  deriving Repr, DecidableEq

/-- Embeds `Component::new`. -/
def Component.new : Component := ⟨[]⟩

/-- Embeds `Component::add` (`HashSet::insert`). -/
def Component.add (c : Component) (v : VertexId) : Component :=
  if v ∈ c.members then c else ⟨v :: c.members⟩

namespace scc

/-- Embeds `struct Vertex` from src/algorithms/scc/stack.rs: discovery
index and current low link (`VertexIndex` is a plain numeric index). -/
structure Vertex where
  index : Nat
  low_link : Nat
  deriving Repr, DecidableEq

/-- Embeds `Vertex::is_root`: the vertex is the root of its component when
its low link equals its discovery index. -/
def Vertex.is_root (v : Vertex) : Bool :=
  v.index == v.low_link

/-- Lookup in the `HashMap<VertexId, Vertex>` of live entries. -/
def lookupV (m : List (VertexId × Vertex)) (k : VertexId) : Option Vertex :=
  match m.find? (fun p => p.1 == k) with
  | some p => some p.2
  | none => none

/-- Insert (replace-or-add) in the `HashMap<VertexId, Vertex>`. -/
def insertV (m : List (VertexId × Vertex)) (k : VertexId) (v : Vertex) :
    List (VertexId × Vertex) :=
  if (m.find? (fun p => p.1 == k)).isSome then
    m.map (fun p => if p.1 == k then (k, v) else p)
  else (k, v) :: m

/-- Remove in the `HashMap<VertexId, Vertex>`. -/
def removeV (m : List (VertexId × Vertex)) (k : VertexId) : List (VertexId × Vertex) :=
  m.filter (fun p => ¬ p.1 == k)

/-- Embeds `struct Stack` from stack.rs: the Tarjan stack in push order
(list head = top), the table of live `(index, low_link)` entries, and the
next discovery index. -/
structure Stack where
  stack : List VertexId
  vertices : List (VertexId × Vertex)
  next_vertex_index : Nat
  deriving Repr, DecidableEq

/-- Embeds `Stack::new`. -/
def Stack.new : Stack := ⟨[], [], 0⟩

/-- Embeds `Stack::push`: assign the next discovery index as both index and
initial low link, and push the vertex. -/
def Stack.push (s : Stack) (vertex : VertexId) : Stack :=
  { stack := vertex :: s.stack,
    vertices := insertV s.vertices vertex ⟨s.next_vertex_index, s.next_vertex_index⟩,
    next_vertex_index := s.next_vertex_index + 1 }

/-- Embeds `Stack::update_with_minimum`: when `update_id` still has a live
entry, lower `vertex_id`'s low link to the minimum of both low links (the
`unwrap` on `vertex_id`'s own entry is embedded as `none` = panic);
otherwise leave the state untouched. -/
def Stack.update_with_minimum (s : Stack) (vertex_id update_id : VertexId) : Option Stack :=
  match lookupV s.vertices update_id with
  | none => some s
  | some update =>
    match lookupV s.vertices vertex_id with
    | none => none
    | some vertex =>
      some { s with
        vertices := insertV s.vertices vertex_id ⟨vertex.index, min vertex.low_link update.low_link⟩ }

/-- Embeds `Stack::is_root` (the `unwrap` is embedded as `none` = panic). -/
def Stack.is_root (s : Stack) (vertex_id : VertexId) : Option Bool :=
  (lookupV s.vertices vertex_id).map Vertex.is_root

/-- Embeds the loop of `Stack::pop_until`: pops and removes entries down to
and including `vertex`, collecting the component; popping an empty stack is
the `panic!`, embedded as `none`. -/
def popUntilGo (vertex : VertexId) :
    List VertexId → List (VertexId × Vertex) → Component →
      Option (Component × List VertexId × List (VertexId × Vertex))
  | [], _, _ => none
  | v :: rest, m, component =>
    let m' := removeV m v
    let component' := component.add v
    if v == vertex then some (component', rest, m')
    else popUntilGo vertex rest m' component'

/-- Embeds `Stack::pop_until`. -/
def Stack.pop_until (s : Stack) (vertex : VertexId) : Option (Component × Stack) :=
  match popUntilGo vertex s.stack s.vertices Component.new with
  | none => none
  | some (c, st, m) => some (c, { s with stack := st, vertices := m })

end scc

/-- Embeds `struct SCC` from src/algorithms/scc/algorithm.rs. -/
structure SCC where
  dfs : graph.DepthFirst
  unfinished_components : scc.Stack
  deriving Repr, DecidableEq

/-- Embeds `SCC::on(graph)`. -/
def SCC.on (g : Graph) : SCC :=
  { dfs := graph.DepthFirst.on g, unfinished_components := scc.Stack.new }

/-- One outcome of `<SCC as Iterator>::next`: the stream ended, a component
was yielded, or an internal invariant panic fired. -/
inductive SCCStep where
  | done
  | yield (c : Component) (s : SCC)
  | panic
  deriving Repr

/-- Embeds the loop of `<SCC as Iterator>::next` from algorithm.rs, fuelled
(`none` = fuel exhausted). -/
def SCC.nextF : Nat → SCC → Option SCCStep
  | 0, _ => none
  | fuel + 1, s =>
    match s.dfs.next with
    | (none, _) => some SCCStep.done
    | (some entry, dfs') =>
      let s' : SCC := { s with dfs := dfs' }
      match entry with
      | DFSEntry.BeginVertex v =>
        SCC.nextF fuel { s' with unfinished_components := s'.unfinished_components.push v }
      | DFSEntry.EndEdge e =>
        match s'.unfinished_components.update_with_minimum e.1 e.2 with
        | none => some SCCStep.panic
        | some st => SCC.nextF fuel { s' with unfinished_components := st }
      | DFSEntry.EndVertex v =>
        match s'.unfinished_components.is_root v with
        | none => some SCCStep.panic
        | some true =>
          match s'.unfinished_components.pop_until v with
          | none => some SCCStep.panic
          | some (c, st) => some (SCCStep.yield c { s' with unfinished_components := st })
        | some false => SCC.nextF fuel s'
      | DFSEntry.BeginEdge _ => SCC.nextF fuel s'

/-- Collects up to `fuel` components of the SCC iterator, each `next()`
call itself running on `innerFuel`. -/
def SCC.componentsF (innerFuel : Nat) : Nat → SCC → List Component
  | 0, _ => []
  | fuel + 1, s =>
    match SCC.nextF innerFuel s with
    | some (SCCStep.yield c s') => c :: SCC.componentsF innerFuel fuel s'
    | _ => []

/-- Invariant tying the Tarjan bookkeeping of an SCC iterator state to its
depth-first stream state: the traversal state satisfies its own invariant
and some trace witnesses its counting invariant; the Tarjan stack and the
live-entry table hold exactly the same vertices; the stack is
duplicate-free and contains only visited vertices; and the still-open
vertices of the traversal form a subsequence of the Tarjan stack, most
recently opened first. -/
def SCCInv (s : SCC) : Prop :=
  graph.GInv s.dfs ∧
  (∃ gtr, graph.GTr gtr s.dfs) ∧
  (∀ w, w ∈ s.unfinished_components.stack ↔ (scc.lookupV s.unfinished_components.vertices w).isSome) ∧
  s.unfinished_components.stack.Nodup ∧
  (graph.Req s.dfs).Sublist s.unfinished_components.stack ∧
  (∀ w ∈ s.unfinished_components.stack, w ∈ s.dfs.visited)

/-- The SCC iterator states reachable from `SCC::on(g)` by yielding
components (with any fuel). -/
inductive SCC.Reach (g : Graph) : SCC → Prop
  | init : SCC.Reach g (SCC.on g)
  | step (s : SCC) (c : Component) (s' : SCC) (fuel : Nat)
      (h : SCC.nextF fuel s = some (SCCStep.yield c s')) :
      SCC.Reach g s → SCC.Reach g s'

/-- Low link recorded for `w` in the live-entry table (`0` when absent). -/
def scc.llOf (m : List (VertexId × scc.Vertex)) (w : VertexId) : Nat :=
  match scc.lookupV m w with
  | some vx => vx.low_link
  | none => 0

/-- Discovery index recorded for `w` in the live-entry table (`0` when
absent). -/
def scc.idxOf (m : List (VertexId × scc.Vertex)) (w : VertexId) : Nat :=
  match scc.lookupV m w with
  | some vx => vx.index
  | none => 0

/-- Payload the Tarjan invariant records for a fully processed edge
`u → w`: the target has been visited by the traversal, and while the
target is still live, `u`'s current low link is at most the target's
discovery index (the `EndEdge` minimum was taken against a value bounded
by that index). -/
def scc.EDGp (m : List (VertexId × scc.Vertex)) (V : List VertexId) (u w : VertexId) : Prop :=
  w ∈ V ∧ ∀ vw, scc.lookupV m w = some vw → scc.llOf m u ≤ vw.index

/-- A vertex is dead for the SCC iterator when the traversal has visited
it but it is no longer on the Tarjan stack: its component has already
been emitted. -/
def SCC.DeadP (s : SCC) (w : VertexId) : Prop :=
  w ∈ s.dfs.visited ∧ w ∉ s.unfinished_components.stack

/-- Fallback bound available to the top segment of the Tarjan stack while
an `EndEdge` into a live vertex `x` is about to be emitted (the subtree of
`x` has just closed, or a back edge to `x` has just been begun): the
fresh closures above the top open vertex are bounded by `x`'s low link,
which the upcoming `EndEdge` will fold into the top open vertex. -/
def SCC.XF (s : SCC) (a : VertexId) : Prop :=
  s.dfs.enumeration.output_queue = [] ∧
  ∃ r x ns rest, s.dfs.enumeration.stack = (⟨r, some x, ns, false⟩ : Frame) :: rest ∧
    x ∈ s.unfinished_components.stack ∧
    scc.llOf s.unfinished_components.vertices x ≤ scc.llOf s.unfinished_components.vertices a

/-- Decomposition of the Tarjan stack along the still-open vertices
(most recent first): above each open vertex `r` sits a block `A` of
closed live vertices, each reachable from `r`, each closed strictly
(low link below its own index), and each with low link bounded below by
`r`'s low link — except that members of the top block may instead rely
on the fallback bound `FB` of a pending `EndEdge`. -/
inductive Segs (g : Graph) (m : List (VertexId × scc.Vertex)) :
    (VertexId → Prop) → List VertexId → List VertexId → Prop where
  | nil (FB : VertexId → Prop) : Segs g m FB [] []
  | cons (FB : VertexId → Prop) (A : List VertexId) (r : VertexId)
      (T' R' : List VertexId)
      (hreach : ∀ a ∈ A, g.Reaches r a)
      (hcls : ∀ a ∈ A, scc.llOf m a < scc.idxOf m a)
      (hbnd : ∀ a ∈ A, scc.llOf m r ≤ scc.llOf m a ∨ FB a)
      (htail : Segs g m (fun _ => False) T' R') :
      Segs g m FB (A ++ r :: T') (r :: R')

/-- The full Tarjan invariant of an SCC iterator state, on top of
`SCCInv`: the tree machine keeps its structural invariants; the Tarjan
stack decomposes into segments along the open vertices; table entries
carry indices below the next index with low links at most the index;
indices strictly decrease down the stack; every live low link is bounded
below by the index of the deepest open vertex; every live vertex reaches
a live vertex whose index equals its low link; live vertices belong to
the current tree; the dead set is closed under edges; every fully
processed edge of a closed live vertex, of the consumed cursor prefix of
an explored frame, or of a vertex whose `EndVertex` is queued carries the
processed-edge payload; and a queued `EndVertex` sits right above the
frame whose pending edge discovered it. -/
def TarInv (s : SCC) : Prop :=
  tree.XInv s.dfs.enumeration ∧
  Segs s.dfs.graph s.unfinished_components.vertices (SCC.XF s)
    s.unfinished_components.stack (graph.Req s.dfs) ∧
  (∀ w vx, scc.lookupV s.unfinished_components.vertices w = some vx →
      vx.index < s.unfinished_components.next_vertex_index ∧ vx.low_link ≤ vx.index) ∧
  s.unfinished_components.stack.Pairwise
    (fun a b => scc.idxOf s.unfinished_components.vertices b <
      scc.idxOf s.unfinished_components.vertices a) ∧
  (∀ r0, (graph.Req s.dfs).getLast? = some r0 →
      ∀ w ∈ s.unfinished_components.stack,
        scc.idxOf s.unfinished_components.vertices r0 ≤
          scc.llOf s.unfinished_components.vertices w) ∧
  (∀ w ∈ s.unfinished_components.stack, ∃ z ∈ s.unfinished_components.stack,
      scc.idxOf s.unfinished_components.vertices z =
        scc.llOf s.unfinished_components.vertices w ∧ s.dfs.graph.Reaches w z) ∧
  (∀ w ∈ s.unfinished_components.stack, w ∈ s.dfs.enumeration.explored) ∧
  (∀ u, u ∈ s.dfs.visited → u ∉ s.unfinished_components.stack →
      ∀ w, s.dfs.graph.Step u w → w ∈ s.dfs.visited ∧ w ∉ s.unfinished_components.stack) ∧
  (∀ u ∈ s.unfinished_components.stack, u ∉ graph.Req s.dfs →
      ∀ w ∈ s.dfs.graph.adj u, scc.EDGp s.unfinished_components.vertices s.dfs.visited u w) ∧
  (∀ f ∈ s.dfs.enumeration.stack, f.id ∈ s.dfs.enumeration.explored →
      ∀ pre, s.dfs.graph.adj f.id = pre ++ f.current_neighbour.toList ++ f.neighbours →
        ∀ w ∈ pre, scc.EDGp s.unfinished_components.vertices s.dfs.visited f.id w) ∧
  (∀ v, s.dfs.enumeration.output_queue = [DFSEntry.EndVertex v] →
      ∀ w ∈ s.dfs.graph.adj v, scc.EDGp s.unfinished_components.vertices s.dfs.visited v w) ∧
  (∀ v, s.dfs.enumeration.output_queue = [DFSEntry.EndVertex v] →
      s.dfs.enumeration.stack = [] ∨
      ∃ f rest, s.dfs.enumeration.stack = f :: rest ∧ f.id ∈ s.dfs.enumeration.explored ∧
        f.current_neighbour = some v)

/-- Correctness bundle for the list of components collected from the SCC
iterator on `g`: the components cover all vertices, are non-empty, stay
inside the vertex set, are internally mutually reachable, are pairwise
disjoint, and are emitted in reverse topological order (no edge leaves an
earlier component into a later one). -/
def SCCOutputOK (g : Graph) (comps : List Component) : Prop :=
  (∀ v ∈ g.vertices, ∃ c ∈ comps, v ∈ c.members) ∧
  (∀ c ∈ comps, c.members ≠ []) ∧
  (∀ c ∈ comps, ∀ v ∈ c.members, v ∈ g.vertices) ∧
  (∀ c ∈ comps, ∀ u ∈ c.members, ∀ v ∈ c.members, g.Reaches u v) ∧
  comps.Pairwise (fun c1 c2 => ∀ v ∈ c1.members, v ∉ c2.members) ∧
  comps.Pairwise (fun c1 c2 => ∀ u ∈ c1.members, ∀ w ∈ c2.members, ¬ g.Step u w)

section GraphLemmas

theorem buildEdges_error_iff (n : Nat) (es : List (Nat × Nat)) (oi : List (List VertexId)) :
    (∃ s, Graph.buildEdges n es oi = .error s) ↔ ∃ p ∈ es, n ≤ p.1 ∨ n ≤ p.2 := by
  induction es generalizing oi with
  | nil => simp [Graph.buildEdges]
  | cons hd tl ih =>
    obtain ⟨f, t⟩ := hd
    by_cases hv : n > f ∧ n > t
    · have hb : (n > f && n > t) = true := by simp [hv.1, hv.2]
      simp only [Graph.buildEdges, hb, if_true]
      constructor
      · rintro ⟨s, hs⟩
        rcases hmatch : Graph.buildEdges n tl (pushAt oi f t) with e' | es'
        · obtain ⟨p, hp, hc⟩ := (ih (pushAt oi f t)).mp ⟨_, hmatch⟩
          exact ⟨p, List.mem_cons_of_mem _ hp, hc⟩
        · rw [hmatch] at hs; simp at hs
      · rintro ⟨p, hp, hcase⟩
        rcases List.mem_cons.mp hp with rfl | hmem
        · exact absurd hcase (by simp; omega)
        · obtain ⟨s, hs⟩ := (ih (pushAt oi f t)).mpr ⟨p, hmem, hcase⟩
          rw [hs]
          exact ⟨s, rfl⟩
    · have hb : (n > f && n > t) = false := by
        rcases not_and_or.mp hv with h | h <;> simp at h <;> simp [h]
      simp only [Graph.buildEdges, hb, Bool.false_eq_true, if_false]
      constructor
      · intro _
        refine ⟨(f, t), List.mem_cons_self _ _, ?_⟩
        simp only [not_and_or, not_lt] at hv
        exact hv.symm.imp id id |>.symm.imp id id
      · intro _
        exact ⟨_, rfl⟩

theorem pushAt_length (oi : List (List VertexId)) (f : Nat) (t : VertexId) :
    (pushAt oi f t).length = oi.length := by
  simp [pushAt]

theorem pushAt_get (oi : List (List VertexId)) (f : Nat) (t : VertexId) (v : Nat)
    (hf : f < oi.length) :
    (pushAt oi f t)[v]? = if v = f then some (oi.getD f [] ++ [t]) else oi[v]? := by
  by_cases h : v = f
  · subst h
    simp [pushAt, List.getElem?_set_self, hf]
  · simp [pushAt, List.getElem?_set_ne (fun hx => h hx.symm), h]

theorem buildEdges_ok_out_index (n : Nat) (es : List (Nat × Nat))
    (oi : List (List VertexId)) (hlen : oi.length = n)
    (es' : List Edge) (oi' : List (List VertexId))
    (hok : Graph.buildEdges n es oi = .ok (es', oi')) :
    es' = es ∧ oi'.length = n ∧
      ∀ v, oi'[v]? = (oi[v]?).map (fun l => l ++ (es.filter (fun p => p.1 = v)).map (·.2)) := by
  induction es generalizing oi es' oi' with
  | nil =>
    simp only [Graph.buildEdges] at hok
    injection hok with h
    injection h with h1 h2
    subst h1; subst h2
    refine ⟨rfl, hlen, fun v => ?_⟩
    simp
  | cons hd tl ih =>
    obtain ⟨f, t⟩ := hd
    by_cases hv : n > f ∧ n > t
    · have hb : (n > f && n > t) = true := by simp [hv.1, hv.2]
      simp only [Graph.buildEdges, hb, if_true] at hok
      rcases hmatch : Graph.buildEdges n tl (pushAt oi f t) with e'' | p''
      · rw [hmatch] at hok; simp at hok
      · rw [hmatch] at hok
        obtain ⟨es'', oi''⟩ := p''
        injection hok with h
        injection h with h1 h2
        rw [h2] at hmatch
        have := ih (pushAt oi f t) (by rw [pushAt_length, hlen]) es'' oi' hmatch
        obtain ⟨htl, hlen', hidx⟩ := this
        refine ⟨by rw [← h1, htl], hlen', fun v => ?_⟩
        rw [hidx v, pushAt_get oi f t v (by omega)]
        by_cases hvf : v = f
        · subst hvf
          have : oi[v]? = some (oi.getD v []) := by
            rw [List.getD_eq_getElem?_getD, List.getElem?_eq_getElem (by omega)]
            simp
          rw [this]
          simp [List.filter_cons, List.append_assoc]
        · have : ¬ ((f, t).1 = v) := by simpa using fun h => hvf h.symm
          simp only [if_neg hvf, List.filter_cons, decide_eq_true_eq]
          rw [if_neg this]
    · have hb : (n > f && n > t) = false := by
        rcases not_and_or.mp hv with h | h <;> simp at h <;> simp [h]
      simp only [Graph.buildEdges, hb, Bool.false_eq_true, if_false] at hok
      simp at hok

end GraphLemmas

/-- C5: `Graph::from(n, edges)` returns an error if and only if some edge
references an endpoint not less than `n`; since the result is an `Except`
value, no graph is returned in the error case (all-or-nothing); and on
success `contains i` is `true` exactly for `i < n`. -/
theorem C5_graph_from_all_or_nothing (n : Nat) (edges : List (Nat × Nat)) :
    ((∃ s, Graph.from' n edges = .error s) ↔ ∃ p ∈ edges, n ≤ p.1 ∨ n ≤ p.2) ∧
    (∀ g, Graph.from' n edges = .ok g → ∀ i, g.contains i = true ↔ i < n) := by
  constructor
  · rw [← buildEdges_error_iff n edges (List.replicate n [])]
    constructor
    · rintro ⟨s, hs⟩
      unfold Graph.from' at hs
      rcases h : Graph.buildEdges n edges (List.replicate n []) with e | p
      · exact ⟨e, rfl⟩
      · rw [h] at hs
        obtain ⟨a, b⟩ := p
        simp at hs
    · rintro ⟨s, hs⟩
      refine ⟨s, ?_⟩
      unfold Graph.from'
      rw [hs]
  · intro g hg i
    unfold Graph.from' at hg
    rcases h : Graph.buildEdges n edges (List.replicate n []) with e | p
    · rw [h] at hg
      simp at hg
    · rw [h] at hg
      obtain ⟨a, b⟩ := p
      injection hg with hg
      rw [← hg]
      simp [Graph.contains]

/-- Witness for C5 at `n = 2`, `edges = [(0, 1)]`. -/
theorem C5_graph_from_all_or_nothing_witness :
    Graph.from' 2 [(0, 1)] = .ok ⟨[0, 1], [(0, 1)], [[1], []]⟩ ∧
    ((⟨[0, 1], [(0, 1)], [[1], []]⟩ : Graph).contains 1 = true ↔ 1 < 2) :=
  ⟨by rfl, (C5_graph_from_all_or_nothing 2 [(0, 1)]).2 _ (by rfl) 1⟩

/-- C8: on a graph built by `Graph::from(n, edges)`, `out_neighbors v` for
`v < n` is the finite list of the targets of the edges whose source is `v`,
in original edge insertion order (duplicates kept); for `v ≥ n` the lookup
fails (the `unwrap()` panic, embedded as `none`). -/
theorem C8_out_neighbors_from_edges (n : Nat) (edges : List (Nat × Nat)) (g : Graph)
    (hg : Graph.from' n edges = .ok g) :
    (∀ v, v < n →
        g.out_neighbors v = some ((edges.filter (fun p => p.1 = v)).map (·.2))) ∧
    (∀ v, n ≤ v → g.out_neighbors v = none) := by
  unfold Graph.from' at hg
  rcases h : Graph.buildEdges n edges (List.replicate n []) with e | p
  · rw [h] at hg
    simp at hg
  · rw [h] at hg
    obtain ⟨es', oi'⟩ := p
    injection hg with hg
    obtain ⟨-, hlen, hidx⟩ :=
      buildEdges_ok_out_index n edges (List.replicate n []) (by simp) es' oi' h
    have hoi : g.out_index = oi' := by rw [← hg]
    constructor
    · intro v hv
      unfold Graph.out_neighbors
      rw [hoi, hidx v, List.getElem?_replicate, if_pos hv]
      simp
    · intro v hv
      unfold Graph.out_neighbors
      rw [hoi, hidx v, List.getElem?_replicate, if_neg (by omega)]
      simp

/-- Witness for C8 at the doc example `Graph::from(4, [(1,3),(2,1),(0,0),(1,0)])`. -/
theorem C8_out_neighbors_from_edges_witness :
    (⟨[0, 1, 2, 3], [(1, 3), (2, 1), (0, 0), (1, 0)], [[0], [3, 0], [1], []]⟩ : Graph).out_neighbors 1
        = some [3, 0] ∧
    (⟨[0, 1, 2, 3], [(1, 3), (2, 1), (0, 0), (1, 0)], [[0], [3, 0], [1], []]⟩ : Graph).out_neighbors 7
        = none := by
  have h := C8_out_neighbors_from_edges 4 [(1, 3), (2, 1), (0, 0), (1, 0)]
      ⟨[0, 1, 2, 3], [(1, 3), (2, 1), (0, 0), (1, 0)], [[0], [3, 0], [1], []]⟩ (by rfl)
  exact ⟨h.1 1 (by decide), h.2 7 (by decide)⟩

/-- C10: starting a tree-scoped traversal on a vertex that is not in the
graph yields a traversal with an empty stack whose iterator immediately and
permanently returns `none`, and whose explored set stays empty. -/
theorem C10_on_out_of_range_start (g : Graph) (s : VertexId)
    (h : g.contains s = false) :
    (tree.DepthFirst.on g s).stack = [] ∧
    (tree.DepthFirst.on g s).next = (none, tree.DepthFirst.on g s) ∧
    (tree.DepthFirst.on g s).explored = [] ∧
    ∀ k, (tree.DepthFirst.on g s).events k = [] := by
  have hon : tree.DepthFirst.on g s
      = { graph := g, stack := [], explored := [], output_queue := [] } := by
    unfold tree.DepthFirst.on
    rw [h]
    simp
  have hnext : (tree.DepthFirst.on g s).next = (none, tree.DepthFirst.on g s) := by
    rw [hon]
    rfl
  refine ⟨by rw [hon], hnext, by rw [hon], fun k => ?_⟩
  cases k with
  | zero => rfl
  | succ k =>
    unfold tree.DepthFirst.events
    rw [hnext]

namespace tree

theorem popBack_none_iff (q : List DFSEntry) : popBack q = none ↔ q = [] := by
  constructor
  · intro h
    by_contra hq
    have hs : q.getLast?.isSome := List.getLast?_isSome.mpr hq
    unfold popBack at h
    cases hl : q.getLast? with
    | none => rw [hl] at hs; simp at hs
    | some e => rw [hl] at h; simp at h
  · rintro rfl
    rfl

theorem processFrame_no_output (d1 : DepthFirst) (vertex : Frame)
    (hq1 : d1.output_queue = [])
    (hq : (d1.processFrame vertex).output_queue = []) :
    d1.processFrame vertex = d1 ∧ vertex.dropped = true := by
  obtain ⟨g, st, ex, oq⟩ := d1
  obtain ⟨vid, vcur, vnb, vdr⟩ := vertex
  simp only at hq1
  subst hq1
  cases vcur with
  | some c =>
    exfalso
    cases vnb with
    | nil =>
      cases vdr <;>
        simp [DepthFirst.processFrame, end_previous_edge, end_vertex, Frame.next_neighbour,
          DepthFirst.begin_next_edge] at hq
    | cons n rest =>
      cases vdr <;>
        simp [DepthFirst.processFrame, end_previous_edge, end_vertex, Frame.next_neighbour,
          DepthFirst.begin_next_edge] at hq
  | none =>
    cases vnb with
    | nil =>
      cases vdr with
      | false =>
        exfalso
        simp [DepthFirst.processFrame, end_previous_edge, end_vertex, Frame.next_neighbour,
          DepthFirst.begin_next_edge] at hq
      | true =>
        constructor
        · simp [DepthFirst.processFrame, end_previous_edge, end_vertex, Frame.next_neighbour]
        · rfl
    | cons n rest =>
      cases vdr with
      | false =>
        exfalso
        simp [DepthFirst.processFrame, end_previous_edge, end_vertex, Frame.next_neighbour,
          DepthFirst.begin_next_edge] at hq
      | true =>
        constructor
        · simp [DepthFirst.processFrame, end_previous_edge, end_vertex, Frame.next_neighbour]
        · rfl

theorem nextF_succ_of_queue_pop (fuel : Nat) (d : DepthFirst) (e : DFSEntry)
    (q : List DFSEntry) (h : popBack d.output_queue = some (e, q)) :
    DepthFirst.nextF (fuel + 1) d = some (some e, { d with output_queue := q }) := by
  simp only [DepthFirst.nextF, h]

theorem nextF_stable (f₁ : Nat) :
    ∀ (d : DepthFirst) (f₂ : Nat), d.stack.length < f₁ → d.stack.length < f₂ →
      DepthFirst.nextF f₁ d = DepthFirst.nextF f₂ d := by
  induction f₁ with
  | zero =>
    intro d f₂ h₁ h₂
    omega
  | succ n ih =>
    intro d f₂ h₁ h₂
    obtain ⟨m, rfl⟩ : ∃ m, f₂ = m + 1 := ⟨f₂ - 1, by omega⟩
    obtain ⟨g, st, ex, oq⟩ := d
    cases hq : popBack oq with
    | some p =>
      obtain ⟨e, q⟩ := p
      simp only [DepthFirst.nextF, hq]
    | none =>
      have hqe : oq = [] := (popBack_none_iff _).mp hq
      subst hqe
      cases st with
      | nil => rfl
      | cons vertex rest =>
        simp only [List.length_cons] at h₁ h₂
        by_cases hmem : vertex.id ∈ ex
        · have hred : ∀ k, DepthFirst.nextF (k + 1) ⟨g, vertex :: rest, ex, []⟩
              = DepthFirst.nextF k ((⟨g, rest, ex, []⟩ : DepthFirst).processFrame vertex) := by
            intro k
            simp [DepthFirst.nextF, DepthFirst.begin_vertex, hmem, popBack]
          rw [hred n, hred m]
          cases hq3 : ((⟨g, rest, ex, []⟩ : DepthFirst).processFrame vertex).output_queue with
          | nil =>
            have hpf := processFrame_no_output ⟨g, rest, ex, []⟩ vertex rfl hq3
            rw [hpf.1]
            exact ih _ m (by simpa using (by omega : rest.length < n))
              (by simpa using (by omega : rest.length < m))
          | cons e' q' =>
            obtain ⟨n', rfl⟩ : ∃ n', n = n' + 1 := ⟨n - 1, by omega⟩
            obtain ⟨m', rfl⟩ : ∃ m', m = m' + 1 := ⟨m - 1, by omega⟩
            cases hpb : popBack ((⟨g, rest, ex, []⟩ : DepthFirst).processFrame vertex).output_queue with
            | none =>
              rw [popBack_none_iff, hq3] at hpb
              simp at hpb
            | some p =>
              obtain ⟨e'', q''⟩ := p
              rw [nextF_succ_of_queue_pop n' _ e'' q'' hpb,
                nextF_succ_of_queue_pop m' _ e'' q'' hpb]
        · simp [DepthFirst.nextF, DepthFirst.begin_vertex, hmem, popBack]

theorem nextF_total (f : Nat) :
    ∀ d : DepthFirst, d.stack.length < f → ∃ r, DepthFirst.nextF f d = some r := by
  induction f with
  | zero =>
    intro d h
    omega
  | succ n ih =>
    intro d h
    obtain ⟨g, st, ex, oq⟩ := d
    cases hq : popBack oq with
    | some p =>
      obtain ⟨e, q⟩ := p
      refine ⟨(some e, { graph := g, stack := st, explored := ex, output_queue := q }), ?_⟩
      simp only [DepthFirst.nextF, hq]
    | none =>
      have hqe : oq = [] := (popBack_none_iff _).mp hq
      subst hqe
      cases st with
      | nil => exact ⟨_, rfl⟩
      | cons vertex rest =>
        simp only [List.length_cons] at h
        by_cases hmem : vertex.id ∈ ex
        · have hred : DepthFirst.nextF (n + 1) ⟨g, vertex :: rest, ex, []⟩
              = DepthFirst.nextF n ((⟨g, rest, ex, []⟩ : DepthFirst).processFrame vertex) := by
            simp [DepthFirst.nextF, DepthFirst.begin_vertex, hmem, popBack]
          rw [hred]
          cases hq3 : ((⟨g, rest, ex, []⟩ : DepthFirst).processFrame vertex).output_queue with
          | nil =>
            have hpf := processFrame_no_output ⟨g, rest, ex, []⟩ vertex rfl hq3
            rw [hpf.1]
            exact ih _ (by simpa using (by omega : rest.length < n))
          | cons e' q' =>
            obtain ⟨n', rfl⟩ : ∃ n', n = n' + 1 := ⟨n - 1, by omega⟩
            cases hpb : popBack ((⟨g, rest, ex, []⟩ : DepthFirst).processFrame vertex).output_queue with
            | none =>
              rw [popBack_none_iff, hq3] at hpb
              simp at hpb
            | some p =>
              obtain ⟨e'', q''⟩ := p
              exact ⟨_, nextF_succ_of_queue_pop n' _ e'' q'' hpb⟩
        · refine ⟨(some (DFSEntry.BeginVertex vertex.id),
              ⟨g, vertex :: rest, vertex.id :: ex, []⟩), ?_⟩
          simp [DepthFirst.nextF, DepthFirst.begin_vertex, hmem, popBack]

theorem nextF_eq_next (d : DepthFirst) (fuel : Nat) (h : d.stack.length < fuel) :
    DepthFirst.nextF fuel d = some d.next := by
  obtain ⟨r, hr⟩ := nextF_total (d.stack.length + 2) d (by omega)
  have hst := nextF_stable fuel d (d.stack.length + 2) h (by omega)
  rw [hst, hr]
  unfold DepthFirst.next
  rw [hr]

theorem nextF_none_end (f : Nat) :
    ∀ (d : DepthFirst) (r : Option DFSEntry × DepthFirst), DepthFirst.nextF f d = some r →
      r.1 = none → r.2.stack = [] ∧ r.2.output_queue = [] := by
  induction f with
  | zero =>
    intro d r h
    simp [DepthFirst.nextF] at h
  | succ n ih =>
    intro d r h hnone
    obtain ⟨g, st, ex, oq⟩ := d
    cases hq : popBack oq with
    | some p =>
      obtain ⟨e, q⟩ := p
      rw [nextF_succ_of_queue_pop n _ e q hq] at h
      injection h with h
      rw [← h] at hnone
      simp at hnone
    | none =>
      have hqe : oq = [] := (popBack_none_iff _).mp hq
      subst hqe
      cases st with
      | nil =>
        have : r = (none, ⟨g, [], ex, []⟩) := by
          have h' : DepthFirst.nextF (n + 1) (⟨g, [], ex, []⟩ : DepthFirst)
              = some (none, ⟨g, [], ex, []⟩) := rfl
          rw [h'] at h
          injection h with h
          exact h.symm
        rw [this]
        exact ⟨rfl, rfl⟩
      | cons vertex rest =>
        by_cases hmem : vertex.id ∈ ex
        · have hred : DepthFirst.nextF (n + 1) ⟨g, vertex :: rest, ex, []⟩
              = DepthFirst.nextF n ((⟨g, rest, ex, []⟩ : DepthFirst).processFrame vertex) := by
            simp [DepthFirst.nextF, DepthFirst.begin_vertex, hmem, popBack]
          rw [hred] at h
          exact ih _ r h hnone
        · have : DepthFirst.nextF (n + 1) (⟨g, vertex :: rest, ex, []⟩ : DepthFirst)
              = some (some (DFSEntry.BeginVertex vertex.id),
                  ⟨g, vertex :: rest, vertex.id :: ex, []⟩) := by
            simp [DepthFirst.nextF, DepthFirst.begin_vertex, hmem, popBack]
          rw [this] at h
          injection h with h
          rw [← h] at hnone
          simp at hnone

theorem next_of_empty (d : DepthFirst) (hs : d.stack = []) (hq : d.output_queue = []) :
    d.next = (none, d) := by
  obtain ⟨g, st, ex, oq⟩ := d
  simp only at hs hq
  subst hs
  subst hq
  rfl

theorem events_of_empty (d : DepthFirst) (hs : d.stack = []) (hq : d.output_queue = []) :
    ∀ k, d.events k = [] := by
  intro k
  cases k with
  | zero => rfl
  | succ k =>
    unfold DepthFirst.events
    rw [next_of_empty d hs hq]

theorem processFrame_dropped_fresh (g : Graph) (st : List Frame) (ex : List VertexId)
    (v : VertexId) (nbs : List VertexId) :
    (⟨g, st, ex, []⟩ : DepthFirst).processFrame ⟨v, none, nbs, true⟩ = ⟨g, st, ex, []⟩ := by
  cases nbs <;>
    simp [DepthFirst.processFrame, end_previous_edge, end_vertex, Frame.next_neighbour]

theorem next_after_drop (g : Graph) (v : VertexId) (nbs : List VertexId)
    (rest : List Frame) (ex : List VertexId) (hmem : v ∈ ex) :
    (⟨g, Frame.mk v none nbs true :: rest, ex, []⟩ : DepthFirst).next
      = (⟨g, rest, ex, []⟩ : DepthFirst).next := by
  have h1 : DepthFirst.nextF (rest.length + 1 + 2)
        (⟨g, Frame.mk v none nbs true :: rest, ex, []⟩ : DepthFirst)
      = DepthFirst.nextF (rest.length + 2)
        ((⟨g, rest, ex, []⟩ : DepthFirst).processFrame (Frame.mk v none nbs true)) := by
    simp [DepthFirst.nextF, DepthFirst.begin_vertex, hmem, popBack]
  rw [processFrame_dropped_fresh] at h1
  obtain ⟨r, hr⟩ := nextF_total (rest.length + 2) ⟨g, rest, ex, []⟩ (by simp)
  unfold DepthFirst.next
  simp only [List.length_cons]
  rw [h1, hr]

theorem events_after_drop (g : Graph) (v : VertexId) (nbs : List VertexId)
    (rest : List Frame) (ex : List VertexId) (hmem : v ∈ ex) :
    ∀ k, (⟨g, Frame.mk v none nbs true :: rest, ex, []⟩ : DepthFirst).events k
      = (⟨g, rest, ex, []⟩ : DepthFirst).events k := by
  intro k
  cases k with
  | zero => rfl
  | succ k =>
    unfold DepthFirst.events
    rw [next_after_drop g v nbs rest ex hmem]

/-! Explicit result shapes of `processFrame`, one per combination of
pending edge (`current_neighbour`), remaining neighbour cursor, dropped
flag, and (when a next edge is opened) target-explored status. -/

theorem processFrame_none_nil_live (g : Graph) (st : List Frame) (ex : List VertexId)
    (q : List DFSEntry) (fid : VertexId) :
    (⟨g, st, ex, q⟩ : DepthFirst).processFrame ⟨fid, none, [], false⟩
      = ⟨g, st, ex, DFSEntry.EndVertex fid :: q⟩ := by
  simp [DepthFirst.processFrame, end_previous_edge, end_vertex, Frame.next_neighbour,
    DepthFirst.begin_next_edge]

theorem processFrame_none_nil_dropped (g : Graph) (st : List Frame) (ex : List VertexId)
    (q : List DFSEntry) (fid : VertexId) :
    (⟨g, st, ex, q⟩ : DepthFirst).processFrame ⟨fid, none, [], true⟩
      = ⟨g, st, ex, q⟩ := by
  simp [DepthFirst.processFrame, end_previous_edge, end_vertex, Frame.next_neighbour]

theorem processFrame_some_nil_live (g : Graph) (st : List Frame) (ex : List VertexId)
    (q : List DFSEntry) (fid : VertexId) (c : VertexId) :
    (⟨g, st, ex, q⟩ : DepthFirst).processFrame ⟨fid, some c, [], false⟩
      = ⟨g, st, ex, DFSEntry.EndVertex fid :: DFSEntry.EndEdge (fid, c) :: q⟩ := by
  simp [DepthFirst.processFrame, end_previous_edge, end_vertex, Frame.next_neighbour,
    DepthFirst.begin_next_edge]

theorem processFrame_some_nil_dropped (g : Graph) (st : List Frame) (ex : List VertexId)
    (q : List DFSEntry) (fid : VertexId) (c : VertexId) :
    (⟨g, st, ex, q⟩ : DepthFirst).processFrame ⟨fid, some c, [], true⟩
      = ⟨g, st, ex, DFSEntry.EndEdge (fid, c) :: q⟩ := by
  simp [DepthFirst.processFrame, end_previous_edge, end_vertex, Frame.next_neighbour]

theorem processFrame_none_cons_dropped (g : Graph) (st : List Frame) (ex : List VertexId)
    (q : List DFSEntry) (fid : VertexId) (n : VertexId) (ns : List VertexId) :
    (⟨g, st, ex, q⟩ : DepthFirst).processFrame ⟨fid, none, n :: ns, true⟩
      = ⟨g, st, ex, q⟩ := by
  simp [DepthFirst.processFrame, end_previous_edge, end_vertex, Frame.next_neighbour]

theorem processFrame_some_cons_dropped (g : Graph) (st : List Frame) (ex : List VertexId)
    (q : List DFSEntry) (fid : VertexId) (c : VertexId) (n : VertexId) (ns : List VertexId) :
    (⟨g, st, ex, q⟩ : DepthFirst).processFrame ⟨fid, some c, n :: ns, true⟩
      = ⟨g, st, ex, DFSEntry.EndEdge (fid, c) :: q⟩ := by
  simp [DepthFirst.processFrame, end_previous_edge, end_vertex, Frame.next_neighbour]

theorem processFrame_none_cons_live_explored (g : Graph) (st : List Frame)
    (ex : List VertexId) (q : List DFSEntry) (fid : VertexId) (n : VertexId)
    (ns : List VertexId) (hn : n ∈ ex) :
    (⟨g, st, ex, q⟩ : DepthFirst).processFrame ⟨fid, none, n :: ns, false⟩
      = ⟨g, ⟨fid, some n, ns, false⟩ :: st, ex, DFSEntry.BeginEdge (fid, n) :: q⟩ := by
  simp [DepthFirst.processFrame, end_previous_edge, end_vertex, Frame.next_neighbour,
    DepthFirst.begin_next_edge, hn]

theorem processFrame_none_cons_live_new (g : Graph) (st : List Frame)
    (ex : List VertexId) (q : List DFSEntry) (fid : VertexId) (n : VertexId)
    (ns : List VertexId) (hn : n ∉ ex) :
    (⟨g, st, ex, q⟩ : DepthFirst).processFrame ⟨fid, none, n :: ns, false⟩
      = ⟨g, Frame.fromId n g :: ⟨fid, some n, ns, false⟩ :: st, ex,
          DFSEntry.BeginEdge (fid, n) :: q⟩ := by
  simp [DepthFirst.processFrame, end_previous_edge, end_vertex, Frame.next_neighbour,
    DepthFirst.begin_next_edge, hn]

theorem processFrame_some_cons_live_explored (g : Graph) (st : List Frame)
    (ex : List VertexId) (q : List DFSEntry) (fid : VertexId) (c : VertexId) (n : VertexId)
    (ns : List VertexId) (hn : n ∈ ex) :
    (⟨g, st, ex, q⟩ : DepthFirst).processFrame ⟨fid, some c, n :: ns, false⟩
      = ⟨g, ⟨fid, some n, ns, false⟩ :: st, ex,
          DFSEntry.BeginEdge (fid, n) :: DFSEntry.EndEdge (fid, c) :: q⟩ := by
  simp [DepthFirst.processFrame, end_previous_edge, end_vertex, Frame.next_neighbour,
    DepthFirst.begin_next_edge, hn]

theorem processFrame_some_cons_live_new (g : Graph) (st : List Frame)
    (ex : List VertexId) (q : List DFSEntry) (fid : VertexId) (c : VertexId) (n : VertexId)
    (ns : List VertexId) (hn : n ∉ ex) :
    (⟨g, st, ex, q⟩ : DepthFirst).processFrame ⟨fid, some c, n :: ns, false⟩
      = ⟨g, Frame.fromId n g :: ⟨fid, some n, ns, false⟩ :: st, ex,
          DFSEntry.BeginEdge (fid, n) :: DFSEntry.EndEdge (fid, c) :: q⟩ := by
  simp [DepthFirst.processFrame, end_previous_edge, end_vertex, Frame.next_neighbour,
    DepthFirst.begin_next_edge, hn]

theorem processFrame_avoids (v : VertexId) (g : Graph) (st : List Frame)
    (ex : List VertexId) (q : List DFSEntry) (f : Frame)
    (hid : f.id ≠ v) (hex : v ∈ ex) (hst : ∀ fr ∈ st, fr.id ≠ v)
    (hq : ∀ e ∈ q, avoidsVertex v e) :
    Avoids v ((⟨g, st, ex, q⟩ : DepthFirst).processFrame f) := by
  obtain ⟨fid, fcur, fnb, fdr⟩ := f
  simp only at hid
  have havoid_ee : ∀ t, avoidsVertex v (DFSEntry.EndEdge (fid, t)) :=
    fun t => ⟨by simp, fun u => ⟨by simp, by simp [hid]⟩⟩
  have havoid_be : ∀ t, avoidsVertex v (DFSEntry.BeginEdge (fid, t)) :=
    fun t => ⟨by simp, fun u => ⟨by simp [hid], by simp⟩⟩
  have havoid_ev : avoidsVertex v (DFSEntry.EndVertex fid) :=
    ⟨by simp [hid], fun u => ⟨by simp, by simp⟩⟩
  cases fnb with
  | nil =>
    cases fcur with
    | none =>
      cases fdr with
      | false =>
        rw [processFrame_none_nil_live]
        exact ⟨hex, hst, by simpa [havoid_ev] using hq⟩
      | true =>
        rw [processFrame_none_nil_dropped]
        exact ⟨hex, hst, hq⟩
    | some c =>
      cases fdr with
      | false =>
        rw [processFrame_some_nil_live]
        exact ⟨hex, hst, by simpa [havoid_ev, havoid_ee c] using hq⟩
      | true =>
        rw [processFrame_some_nil_dropped]
        exact ⟨hex, hst, by simpa [havoid_ee c] using hq⟩
  | cons n ns =>
    have hnid : n ∉ ex → n ≠ v := fun hn hnv => hn (hnv ▸ hex)
    cases fcur with
    | none =>
      cases fdr with
      | true =>
        rw [processFrame_none_cons_dropped]
        exact ⟨hex, hst, hq⟩
      | false =>
        by_cases hn : n ∈ ex
        · rw [processFrame_none_cons_live_explored g st ex q fid n ns hn]
          refine ⟨hex, ?_, by simpa [havoid_be n] using hq⟩
          intro fr hfr
          rcases List.mem_cons.mp hfr with rfl | hfr
          · exact hid
          · exact hst fr hfr
        · rw [processFrame_none_cons_live_new g st ex q fid n ns hn]
          refine ⟨hex, ?_, by simpa [havoid_be n] using hq⟩
          intro fr hfr
          rcases List.mem_cons.mp hfr with rfl | hfr
          · simpa [Frame.fromId] using hnid hn
          · rcases List.mem_cons.mp hfr with rfl | hfr
            · exact hid
            · exact hst fr hfr
    | some c =>
      cases fdr with
      | true =>
        rw [processFrame_some_cons_dropped]
        exact ⟨hex, hst, by simpa [havoid_ee c] using hq⟩
      | false =>
        by_cases hn : n ∈ ex
        · rw [processFrame_some_cons_live_explored g st ex q fid c n ns hn]
          refine ⟨hex, ?_, by simpa [havoid_be n, havoid_ee c] using hq⟩
          intro fr hfr
          rcases List.mem_cons.mp hfr with rfl | hfr
          · exact hid
          · exact hst fr hfr
        · rw [processFrame_some_cons_live_new g st ex q fid c n ns hn]
          refine ⟨hex, ?_, by simpa [havoid_be n, havoid_ee c] using hq⟩
          intro fr hfr
          rcases List.mem_cons.mp hfr with rfl | hfr
          · simpa [Frame.fromId] using hnid hn
          · rcases List.mem_cons.mp hfr with rfl | hfr
            · exact hid
            · exact hst fr hfr

theorem popBack_concat (q' : List DFSEntry) (e : DFSEntry) :
    popBack (q' ++ [e]) = some (e, q') := by
  unfold popBack
  rw [List.getLast?_concat]
  simp [List.dropLast_concat]

theorem next_of_queue (d : DepthFirst) (e : DFSEntry) (q' : List DFSEntry)
    (hq : d.output_queue = q' ++ [e]) :
    d.next = (some e, { d with output_queue := q' }) := by
  have hpop : popBack d.output_queue = some (e, q') := by
    rw [hq]
    exact popBack_concat q' e
  unfold DepthFirst.next
  rw [nextF_succ_of_queue_pop (d.stack.length + 1) d e q' hpop]

theorem next_of_processFrame (d : DepthFirst) (f : Frame) (rest : List Frame)
    (hst : d.stack = f :: rest) (hq : d.output_queue = [])
    (hmem : f.id ∈ d.explored) (e : DFSEntry) (q' : List DFSEntry)
    (hpq : ((⟨d.graph, rest, d.explored, []⟩ : DepthFirst).processFrame f).output_queue
        = q' ++ [e]) :
    d.next = (some e,
      { (⟨d.graph, rest, d.explored, []⟩ : DepthFirst).processFrame f with
          output_queue := q' }) := by
  obtain ⟨g, st, ex, oq⟩ := d
  simp only at hst hq hmem hpq ⊢
  subst hst
  subst hq
  have h1 : DepthFirst.nextF (rest.length + 1 + 2) (⟨g, f :: rest, ex, []⟩ : DepthFirst)
      = DepthFirst.nextF (rest.length + 2)
          ((⟨g, rest, ex, []⟩ : DepthFirst).processFrame f) := by
    simp [DepthFirst.nextF, DepthFirst.begin_vertex, hmem, popBack]
  have hpop : popBack ((⟨g, rest, ex, []⟩ : DepthFirst).processFrame f).output_queue
      = some (e, q') := by
    rw [hpq]
    exact popBack_concat q' e
  have h2 := nextF_succ_of_queue_pop (rest.length + 1)
      ((⟨g, rest, ex, []⟩ : DepthFirst).processFrame f) e q' hpop
  unfold DepthFirst.next
  simp only [List.length_cons]
  rw [h1, h2]

theorem next_spec (d : DepthFirst) (hdrop : ∀ f ∈ d.stack, f.dropped = false) :
    NextCase d := by
  cases hq : d.output_queue with
  | cons e0 q0 =>
    have hne : d.output_queue ≠ [] := by rw [hq]; simp
    have hsplit : d.output_queue.dropLast ++ [d.output_queue.getLast hne] = d.output_queue :=
      List.dropLast_append_getLast hne
    exact NextCase.queuePop (d.output_queue.getLast hne) d.output_queue.dropLast
      hsplit.symm (next_of_queue d _ _ hsplit.symm)
  | nil =>
    cases hst : d.stack with
    | nil =>
      refine NextCase.finished hst hq ?_
      exact next_of_empty d hst hq
    | cons f rest =>
      have hfd : f.dropped = false := hdrop f (by rw [hst]; exact List.mem_cons_self _ _)
      by_cases hmem : f.id ∈ d.explored
      · obtain ⟨fid, fcur, fnb, fdr⟩ := f
        simp only at hfd
        subst hfd
        simp only at hmem
        cases fcur with
        | none =>
          cases fnb with
          | nil =>
            refine NextCase.endV fid rest hst hq hmem ?_
            have := next_of_processFrame d ⟨fid, none, [], false⟩ rest hst hq hmem
                (DFSEntry.EndVertex fid) []
                (by rw [processFrame_none_nil_live]; rfl)
            rw [processFrame_none_nil_live] at this
            exact this
          | cons n ns =>
            by_cases hn : n ∈ d.explored
            · refine NextCase.beginEOld fid n ns rest hst hq hmem hn ?_
              have := next_of_processFrame d ⟨fid, none, n :: ns, false⟩ rest hst hq hmem
                  (DFSEntry.BeginEdge (fid, n)) []
                  (by rw [processFrame_none_cons_live_explored _ _ _ _ _ _ _ hn]; rfl)
              rw [processFrame_none_cons_live_explored _ _ _ _ _ _ _ hn] at this
              exact this
            · refine NextCase.beginENew fid n ns rest hst hq hmem hn ?_
              have := next_of_processFrame d ⟨fid, none, n :: ns, false⟩ rest hst hq hmem
                  (DFSEntry.BeginEdge (fid, n)) []
                  (by rw [processFrame_none_cons_live_new _ _ _ _ _ _ _ hn]; rfl)
              rw [processFrame_none_cons_live_new _ _ _ _ _ _ _ hn] at this
              exact this
        | some c =>
          cases fnb with
          | nil =>
            refine NextCase.endELast fid c rest hst hq hmem ?_
            have := next_of_processFrame d ⟨fid, some c, [], false⟩ rest hst hq hmem
                (DFSEntry.EndEdge (fid, c)) [DFSEntry.EndVertex fid]
                (by rw [processFrame_some_nil_live]; rfl)
            rw [processFrame_some_nil_live] at this
            exact this
          | cons n ns =>
            by_cases hn : n ∈ d.explored
            · refine NextCase.endEOld fid c n ns rest hst hq hmem hn ?_
              have := next_of_processFrame d ⟨fid, some c, n :: ns, false⟩ rest hst hq hmem
                  (DFSEntry.EndEdge (fid, c)) [DFSEntry.BeginEdge (fid, n)]
                  (by rw [processFrame_some_cons_live_explored _ _ _ _ _ _ _ _ hn]; rfl)
              rw [processFrame_some_cons_live_explored _ _ _ _ _ _ _ _ hn] at this
              exact this
            · refine NextCase.endENew fid c n ns rest hst hq hmem hn ?_
              have := next_of_processFrame d ⟨fid, some c, n :: ns, false⟩ rest hst hq hmem
                  (DFSEntry.EndEdge (fid, c)) [DFSEntry.BeginEdge (fid, n)]
                  (by rw [processFrame_some_cons_live_new _ _ _ _ _ _ _ _ hn]; rfl)
              rw [processFrame_some_cons_live_new _ _ _ _ _ _ _ _ hn] at this
              exact this
      · refine NextCase.beginV f rest hst hq hmem ?_
        obtain ⟨g, st, ex, oq⟩ := d
        simp only at hst hq hmem ⊢
        subst hst
        subst hq
        unfold DepthFirst.next
        simp [DepthFirst.nextF, DepthFirst.begin_vertex, hmem, popBack]

theorem mem_of_index {α : Type} {l : List α} {i : Nat} {a : α} (h : l[i]? = some a) :
    a ∈ l := by
  obtain ⟨hlt, rfl⟩ := List.getElem?_eq_some_iff.mp h
  exact List.getElem_mem hlt

theorem Inv_on (g : Graph) (s : VertexId) (hwf : g.WF) :
    Inv (DepthFirst.on g s) := by
  unfold DepthFirst.on
  by_cases hc : g.contains s = true
  · rw [if_pos hc]
    have hs : s < g.out_index.length := by
      unfold Graph.contains at hc
      rw [hwf.1] at hc
      simpa using hc
    refine ⟨?_, ?_, ?_, ?_, ?_, ?_⟩
    · intro f hf
      simp only [List.mem_singleton] at hf
      subst hf
      rfl
    · simp
    · intro f hf
      simp at hf
    · intro f hf _
      simp only [List.mem_singleton] at hf
      subst hf
      exact ⟨rfl, rfl⟩
    · intro f hf
      simp only [List.mem_singleton] at hf
      subst hf
      refine ⟨hs, ?_, ?_⟩
      · intro t ht
        simp only [Frame.fromId] at ht
        have : (g.out_neighbors s).getD [] = g.adj s := rfl
        rw [this] at ht
        unfold Graph.adj Graph.out_neighbors at ht
        cases hl : g.out_index[s]? with
        | none => rw [hl] at ht; simp at ht
        | some l =>
          rw [hl] at ht
          simp only [Option.getD_some] at ht
          exact hwf.2 l (mem_of_index hl) t ht
      · intro c hc'
        simp [Frame.fromId] at hc'
    · intro v hv
      simp at hv
  · rw [if_neg hc]
    exact ⟨by simp, by simp, by simp, by simp, by simp, by simp⟩

theorem Inv_next (d : DepthFirst) (hwf : d.graph.WF) (hinv : Inv d) :
    ∀ (e : Option DFSEntry) (d' : DepthFirst), d.next = (e, d') →
      Inv d' ∧ d'.graph = d.graph ∧ ∀ v ∈ d.explored, v ∈ d'.explored := by
  obtain ⟨hdrop, hnodup, htail, hfresh, hbound, hexb⟩ := hinv
  intro e d' h
  rcases next_spec d hdrop with
    ⟨e0, q0, hq, hn⟩ | ⟨hst, hq, hn⟩ | ⟨f, rest, hst, hq, hf, hn⟩ |
    ⟨fid, rest, hst, hq, hf, hn⟩ | ⟨fid, c, rest, hst, hq, hf, hn⟩ |
    ⟨fid, n, ns, rest, hst, hq, hf, hold, hn⟩ |
    ⟨fid, n, ns, rest, hst, hq, hf, hnew, hn⟩ |
    ⟨fid, c, n, ns, rest, hst, hq, hf, hold, hn⟩ |
    ⟨fid, c, n, ns, rest, hst, hq, hf, hnew, hn⟩ <;>
    rw [h] at hn <;>
    (injection hn with hn1 hn2) <;>
    subst hn2
  -- queuePop: state differs only in the output queue
  · exact ⟨⟨hdrop, hnodup, htail, hfresh, hbound, hexb⟩, rfl, fun v hv => hv⟩
  -- finished
  · exact ⟨⟨hdrop, hnodup, htail, hfresh, hbound, hexb⟩, rfl, fun v hv => hv⟩
  -- beginV
  · rw [hst] at hdrop hnodup htail hfresh hbound
    refine ⟨⟨hdrop, hnodup, ?_, ?_, hbound, ?_⟩, rfl, fun v hv => List.mem_cons_of_mem _ hv⟩
    · intro fr hfr
      exact List.mem_cons_of_mem _ (htail fr hfr)
    · intro fr hfr hfr'
      have h4 := hfresh fr hfr (fun hmem => hfr' (List.mem_cons_of_mem _ hmem))
      exact h4
    · intro v hv
      rcases List.mem_cons.mp hv with rfl | hv
      · exact (hbound _ (List.mem_cons_self _ _)).1
      · exact hexb v hv
  -- endV
  · rw [hst] at hdrop hnodup htail hfresh hbound
    refine ⟨⟨?_, ?_, ?_, ?_, ?_, hexb⟩, rfl, fun v hv => hv⟩
    · intro fr hfr
      exact hdrop fr (List.mem_cons_of_mem _ hfr)
    · exact (List.nodup_cons.mp (by simpa using hnodup)).2
    · intro fr hfr
      exact htail fr (List.mem_of_mem_tail hfr)
    · intro fr hfr hfr'
      exact hfresh fr (List.mem_cons_of_mem _ hfr) hfr'
    · intro fr hfr
      exact hbound fr (List.mem_cons_of_mem _ hfr)
  -- endELast
  · rw [hst] at hdrop hnodup htail hfresh hbound
    refine ⟨⟨?_, ?_, ?_, ?_, ?_, hexb⟩, rfl, fun v hv => hv⟩
    · intro fr hfr
      exact hdrop fr (List.mem_cons_of_mem _ hfr)
    · exact (List.nodup_cons.mp (by simpa using hnodup)).2
    · intro fr hfr
      exact htail fr (List.mem_of_mem_tail hfr)
    · intro fr hfr hfr'
      exact hfresh fr (List.mem_cons_of_mem _ hfr) hfr'
    · intro fr hfr
      exact hbound fr (List.mem_cons_of_mem _ hfr)
  -- beginEOld
  · rw [hst] at hdrop hnodup htail hfresh hbound
    refine ⟨⟨?_, ?_, ?_, ?_, ?_, hexb⟩, rfl, fun v hv => hv⟩
    · intro fr hfr
      rcases List.mem_cons.mp hfr with rfl | hfr
      · rfl
      · exact hdrop fr (List.mem_cons_of_mem _ hfr)
    · simpa using (by simpa using hnodup : (fid :: rest.map Frame.id).Nodup)
    · intro fr hfr
      exact htail fr hfr
    · intro fr hfr hfr'
      rcases List.mem_cons.mp hfr with rfl | hfr
      · exact absurd hf hfr'
      · exact hfresh fr (List.mem_cons_of_mem _ hfr) hfr'
    · intro fr hfr
      rcases List.mem_cons.mp hfr with rfl | hfr
      · have hb := hbound _ (List.mem_cons_self _ _)
        refine ⟨hb.1, ?_, ?_⟩
        · intro t ht
          exact hb.2.1 t (List.mem_cons_of_mem _ ht)
        · intro c' hc'
          injection hc' with hc'
          subst hc'
          exact hb.2.1 n (List.mem_cons_self _ _)
      · exact hbound fr (List.mem_cons_of_mem _ hfr)
  -- beginENew
  · rw [hst] at hdrop hnodup htail hfresh hbound
    have hnn : n < d.graph.out_index.length :=
      (hbound _ (List.mem_cons_self _ _)).2.1 n (List.mem_cons_self _ _)
    have hadjn : ∀ t ∈ d.graph.adj n, t < d.graph.out_index.length := by
      intro t ht
      unfold Graph.adj Graph.out_neighbors at ht
      cases hl : d.graph.out_index[n]? with
      | none => rw [hl] at ht; simp at ht
      | some l =>
        rw [hl] at ht
        simp only [Option.getD_some] at ht
        exact hwf.2 l (mem_of_index hl) t ht
    have hnid : n ∉ (⟨fid, some n, ns, false⟩ :: rest : List Frame).map Frame.id := by
      intro hmem
      simp only [List.map_cons, List.mem_cons] at hmem
      rcases hmem with rfl | hmem
      · exact hnew hf
      · obtain ⟨fr, hfr, hfr'⟩ := List.mem_map.mp hmem
        exact hnew (hfr' ▸ htail fr hfr)
    refine ⟨⟨?_, ?_, ?_, ?_, ?_, hexb⟩, rfl, fun v hv => hv⟩
    · intro fr hfr
      rcases List.mem_cons.mp hfr with rfl | hfr
      · rfl
      · rcases List.mem_cons.mp hfr with rfl | hfr
        · rfl
        · exact hdrop fr (List.mem_cons_of_mem _ hfr)
    · refine List.nodup_cons.mpr ⟨by simpa [Frame.fromId] using hnid, ?_⟩
      simpa using (by simpa using hnodup : (fid :: rest.map Frame.id).Nodup)
    · intro fr hfr
      rcases List.mem_cons.mp hfr with rfl | hfr
      · exact hf
      · exact htail fr hfr
    · intro fr hfr hfr'
      rcases List.mem_cons.mp hfr with rfl | hfr
      · exact ⟨rfl, rfl⟩
      · rcases List.mem_cons.mp hfr with rfl | hfr
        · exact absurd hf hfr'
        · exact hfresh fr (List.mem_cons_of_mem _ hfr) hfr'
    · intro fr hfr
      rcases List.mem_cons.mp hfr with rfl | hfr
      · refine ⟨hnn, ?_, ?_⟩
        · intro t ht
          simp only [Frame.fromId] at ht
          exact hadjn t ht
        · intro c' hc'
          simp [Frame.fromId] at hc'
      · rcases List.mem_cons.mp hfr with rfl | hfr
        · have hb := hbound _ (List.mem_cons_self _ _)
          refine ⟨hb.1, ?_, ?_⟩
          · intro t ht
            exact hb.2.1 t (List.mem_cons_of_mem _ ht)
          · intro c' hc'
            injection hc' with hc'
            subst hc'
            exact hb.2.1 n (List.mem_cons_self _ _)
        · exact hbound fr (List.mem_cons_of_mem _ hfr)
  -- endEOld
  · rw [hst] at hdrop hnodup htail hfresh hbound
    refine ⟨⟨?_, ?_, ?_, ?_, ?_, hexb⟩, rfl, fun v hv => hv⟩
    · intro fr hfr
      rcases List.mem_cons.mp hfr with rfl | hfr
      · rfl
      · exact hdrop fr (List.mem_cons_of_mem _ hfr)
    · simpa using (by simpa using hnodup : (fid :: rest.map Frame.id).Nodup)
    · intro fr hfr
      exact htail fr hfr
    · intro fr hfr hfr'
      rcases List.mem_cons.mp hfr with rfl | hfr
      · exact absurd hf hfr'
      · exact hfresh fr (List.mem_cons_of_mem _ hfr) hfr'
    · intro fr hfr
      rcases List.mem_cons.mp hfr with rfl | hfr
      · have hb := hbound _ (List.mem_cons_self _ _)
        refine ⟨hb.1, ?_, ?_⟩
        · intro t ht
          exact hb.2.1 t (List.mem_cons_of_mem _ ht)
        · intro c' hc'
          injection hc' with hc'
          subst hc'
          exact hb.2.1 n (List.mem_cons_self _ _)
      · exact hbound fr (List.mem_cons_of_mem _ hfr)
  -- endENew
  · rw [hst] at hdrop hnodup htail hfresh hbound
    have hnn : n < d.graph.out_index.length :=
      (hbound _ (List.mem_cons_self _ _)).2.1 n (List.mem_cons_self _ _)
    have hadjn : ∀ t ∈ d.graph.adj n, t < d.graph.out_index.length := by
      intro t ht
      unfold Graph.adj Graph.out_neighbors at ht
      cases hl : d.graph.out_index[n]? with
      | none => rw [hl] at ht; simp at ht
      | some l =>
        rw [hl] at ht
        simp only [Option.getD_some] at ht
        exact hwf.2 l (mem_of_index hl) t ht
    have hnid : n ∉ (⟨fid, some n, ns, false⟩ :: rest : List Frame).map Frame.id := by
      intro hmem
      simp only [List.map_cons, List.mem_cons] at hmem
      rcases hmem with rfl | hmem
      · exact hnew hf
      · obtain ⟨fr, hfr, hfr'⟩ := List.mem_map.mp hmem
        exact hnew (hfr' ▸ htail fr hfr)
    refine ⟨⟨?_, ?_, ?_, ?_, ?_, hexb⟩, rfl, fun v hv => hv⟩
    · intro fr hfr
      rcases List.mem_cons.mp hfr with rfl | hfr
      · rfl
      · rcases List.mem_cons.mp hfr with rfl | hfr
        · rfl
        · exact hdrop fr (List.mem_cons_of_mem _ hfr)
    · refine List.nodup_cons.mpr ⟨by simpa [Frame.fromId] using hnid, ?_⟩
      simpa using (by simpa using hnodup : (fid :: rest.map Frame.id).Nodup)
    · intro fr hfr
      rcases List.mem_cons.mp hfr with rfl | hfr
      · exact hf
      · exact htail fr hfr
    · intro fr hfr hfr'
      rcases List.mem_cons.mp hfr with rfl | hfr
      · exact ⟨rfl, rfl⟩
      · rcases List.mem_cons.mp hfr with rfl | hfr
        · exact absurd hf hfr'
        · exact hfresh fr (List.mem_cons_of_mem _ hfr) hfr'
    · intro fr hfr
      rcases List.mem_cons.mp hfr with rfl | hfr
      · refine ⟨hnn, ?_, ?_⟩
        · intro t ht
          simp only [Frame.fromId] at ht
          exact hadjn t ht
        · intro c' hc'
          simp [Frame.fromId] at hc'
      · rcases List.mem_cons.mp hfr with rfl | hfr
        · have hb := hbound _ (List.mem_cons_self _ _)
          refine ⟨hb.1, ?_, ?_⟩
          · intro t ht
            exact hb.2.1 t (List.mem_cons_of_mem _ ht)
          · intro c' hc'
            injection hc' with hc'
            subst hc'
            exact hb.2.1 n (List.mem_cons_self _ _)
        · exact hbound fr (List.mem_cons_of_mem _ hfr)

theorem sum_filter_notmem_cons (f : VertexId → Nat) (ex : List VertexId) (v0 : VertexId) :
    ∀ l : List VertexId, l.Nodup → v0 ∈ l → v0 ∉ ex →
      ((l.filter (fun v => decide (v ∉ v0 :: ex))).map f).sum + f v0
        = ((l.filter (fun v => decide (v ∉ ex))).map f).sum := by
  intro l
  induction l with
  | nil => intro _ hv; simp at hv
  | cons a l ih =>
    intro hnd hv hex
    have hnd' := List.nodup_cons.mp hnd
    rcases List.mem_cons.mp hv with rfl | hv'
    · rw [List.filter_cons, List.filter_cons, if_neg (by simp),
        if_pos (by simpa using hex)]
      have hcongr : l.filter (fun v => decide (v ∉ v0 :: ex))
          = l.filter (fun v => decide (v ∉ ex)) := by
        apply List.filter_congr
        intro v hvl
        have hne : v ≠ v0 := fun hh => hnd'.1 (hh ▸ hvl)
        simp [hne, hex]
      rw [hcongr]
      simp only [List.map_cons, List.sum_cons]
      omega
    · have hne : a ≠ v0 := fun hh => hnd'.1 (hh ▸ hv')
      rw [List.filter_cons, List.filter_cons]
      have heq : (decide (a ∉ v0 :: ex)) = (decide (a ∉ ex)) := by
        simp [hne]
      rw [heq]
      cases hd : decide (a ∉ ex) with
      | true =>
        rw [if_pos (rfl : true = true), if_pos (rfl : true = true)]
        simp only [List.map_cons, List.sum_cons]
        have := ih hnd'.2 hv' hex
        omega
      | false =>
        rw [if_neg (by simp : ¬(false = true)), if_neg (by simp : ¬(false = true))]
        exact ih hnd'.2 hv' hex

theorem filter_all_explored (rest : List Frame) (ex : List VertexId)
    (h : ∀ fr ∈ rest, fr.id ∈ ex) :
    rest.filter (fun f => decide (f.id ∈ ex)) = rest := by
  apply List.filter_eq_self.mpr
  intro fr hfr
  simpa using h fr hfr

theorem phi_next (d : DepthFirst) (hwf : d.graph.WF) (hinv : Inv d)
    (e : DFSEntry) (d' : DepthFirst) (h : d.next = (some e, d')) :
    phi d' < phi d := by
  obtain ⟨hdrop, hnodup, htail, hfresh, hbound, hexb⟩ := hinv
  rcases next_spec d hdrop with
    ⟨e0, q0, hq, hn⟩ | ⟨hst, hq, hn⟩ | ⟨f, rest, hst, hq, hf, hn⟩ |
    ⟨fid, rest, hst, hq, hf, hn⟩ | ⟨fid, c, rest, hst, hq, hf, hn⟩ |
    ⟨fid, n, ns, rest, hst, hq, hf, hold, hn⟩ |
    ⟨fid, n, ns, rest, hst, hq, hf, hnew, hn⟩ |
    ⟨fid, c, n, ns, rest, hst, hq, hf, hold, hn⟩ |
    ⟨fid, c, n, ns, rest, hst, hq, hf, hnew, hn⟩ <;>
    rw [h] at hn <;> (injection hn with hn1 hn2)
  -- queuePop
  · subst hn2
    unfold phi
    simp only [hq, List.length_append, List.length_cons, List.length_nil]
    omega
  -- finished: contradiction
  · exact absurd hn1 (by simp)
  -- beginV
  · subst hn2
    rw [hst] at htail hfresh hbound hnodup
    have hfid : f.id < d.graph.out_index.length := (hbound f (List.mem_cons_self _ _)).1
    have hfr := hfresh f (List.mem_cons_self _ _) hf
    unfold phi
    simp only [hst, hq, List.length_nil]
    have hU := sum_filter_notmem_cons (vertexCredit d.graph) d.explored f.id
      (List.range d.graph.out_index.length) (List.nodup_range _)
      (List.mem_range.mpr hfid) hf
    have hFold : (f :: rest).filter (fun fr => decide (fr.id ∈ d.explored))
        = rest.filter (fun fr => decide (fr.id ∈ d.explored)) := by
      rw [List.filter_cons]
      simp [hf]
    have hFnew : (f :: rest).filter (fun fr => decide (fr.id ∈ f.id :: d.explored))
        = f :: rest := by
      apply List.filter_eq_self.mpr
      intro fr hfr'
      rcases List.mem_cons.mp hfr' with rfl | hfr'
      · simp
      · simpa using List.mem_cons_of_mem _ (htail fr hfr')
    have hFrest : rest.filter (fun fr => decide (fr.id ∈ d.explored)) = rest :=
      filter_all_explored rest d.explored htail
    rw [hFold, hFnew, hFrest]
    have hw : frameWeight f = 3 * (d.graph.adj f.id).length + 2 := by
      unfold frameWeight
      rw [hfr.2, hfr.1]
      simp
    have hcred : vertexCredit d.graph f.id = 3 * (d.graph.adj f.id).length + 3 := rfl
    simp only [List.map_cons, List.sum_cons]
    omega
  -- endV
  · subst hn2
    rw [hst] at htail hfresh hbound hnodup
    unfold phi
    simp only [hst, hq, List.length_nil, List.length_cons]
    have hFold : ((⟨fid, none, [], false⟩ : Frame) :: rest).filter
          (fun fr => decide (fr.id ∈ d.explored))
        = (⟨fid, none, [], false⟩ : Frame) :: rest := by
      apply List.filter_eq_self.mpr
      intro fr hfr'
      rcases List.mem_cons.mp hfr' with rfl | hfr'
      · simpa using hf
      · simpa using htail fr hfr'
    have hFrest : rest.filter (fun fr => decide (fr.id ∈ d.explored)) = rest :=
      filter_all_explored rest d.explored htail
    rw [hFold, hFrest]
    have hw : frameWeight ⟨fid, none, [], false⟩ = 2 := rfl
    simp only [List.map_cons, List.sum_cons, hw]
    omega
  -- endELast
  · subst hn2
    rw [hst] at htail hfresh hbound hnodup
    unfold phi
    simp only [hst, hq, List.length_nil, List.length_cons]
    have hFold : ((⟨fid, some c, [], false⟩ : Frame) :: rest).filter
          (fun fr => decide (fr.id ∈ d.explored))
        = (⟨fid, some c, [], false⟩ : Frame) :: rest := by
      apply List.filter_eq_self.mpr
      intro fr hfr'
      rcases List.mem_cons.mp hfr' with rfl | hfr'
      · simpa using hf
      · simpa using htail fr hfr'
    have hFrest : rest.filter (fun fr => decide (fr.id ∈ d.explored)) = rest :=
      filter_all_explored rest d.explored htail
    rw [hFold, hFrest]
    have hw : frameWeight ⟨fid, some c, [], false⟩ = 3 := rfl
    simp only [List.map_cons, List.sum_cons, hw]
    omega
  -- beginEOld
  · subst hn2
    rw [hst] at htail hfresh hbound hnodup
    unfold phi
    simp only [hst, hq, List.length_nil]
    have hFold : ((⟨fid, none, n :: ns, false⟩ : Frame) :: rest).filter
          (fun fr => decide (fr.id ∈ d.explored))
        = (⟨fid, none, n :: ns, false⟩ : Frame) :: rest := by
      apply List.filter_eq_self.mpr
      intro fr hfr'
      rcases List.mem_cons.mp hfr' with rfl | hfr'
      · simpa using hf
      · simpa using htail fr hfr'
    have hFnew : ((⟨fid, some n, ns, false⟩ : Frame) :: rest).filter
          (fun fr => decide (fr.id ∈ d.explored))
        = (⟨fid, some n, ns, false⟩ : Frame) :: rest := by
      apply List.filter_eq_self.mpr
      intro fr hfr'
      rcases List.mem_cons.mp hfr' with rfl | hfr'
      · simpa using hf
      · simpa using htail fr hfr'
    rw [hFold, hFnew]
    have hw1 : frameWeight ⟨fid, none, n :: ns, false⟩ = 3 * (ns.length + 1) + 2 := by
      unfold frameWeight
      simp
    have hw2 : frameWeight ⟨fid, some n, ns, false⟩ = 3 * ns.length + 3 := by
      unfold frameWeight
      simp
    simp only [List.map_cons, List.sum_cons, hw1, hw2]
    omega
  -- beginENew
  · subst hn2
    rw [hst] at htail hfresh hbound hnodup
    unfold phi
    simp only [hst, hq, List.length_nil]
    have hFold : ((⟨fid, none, n :: ns, false⟩ : Frame) :: rest).filter
          (fun fr => decide (fr.id ∈ d.explored))
        = (⟨fid, none, n :: ns, false⟩ : Frame) :: rest := by
      apply List.filter_eq_self.mpr
      intro fr hfr'
      rcases List.mem_cons.mp hfr' with rfl | hfr'
      · simpa using hf
      · simpa using htail fr hfr'
    have hFnew : (Frame.fromId n d.graph :: (⟨fid, some n, ns, false⟩ : Frame) :: rest).filter
          (fun fr => decide (fr.id ∈ d.explored))
        = (⟨fid, some n, ns, false⟩ : Frame) :: rest := by
      rw [List.filter_cons]
      have : (decide ((Frame.fromId n d.graph).id ∈ d.explored)) = false := by
        simpa [Frame.fromId] using hnew
      rw [this]
      simp only [Bool.false_eq_true, if_false]
      apply List.filter_eq_self.mpr
      intro fr hfr'
      rcases List.mem_cons.mp hfr' with rfl | hfr'
      · simpa using hf
      · simpa using htail fr hfr'
    rw [hFold, hFnew]
    have hw1 : frameWeight ⟨fid, none, n :: ns, false⟩ = 3 * (ns.length + 1) + 2 := by
      unfold frameWeight
      simp
    have hw2 : frameWeight ⟨fid, some n, ns, false⟩ = 3 * ns.length + 3 := by
      unfold frameWeight
      simp
    simp only [List.map_cons, List.sum_cons, hw1, hw2]
    omega
  -- endEOld
  · subst hn2
    rw [hst] at htail hfresh hbound hnodup
    unfold phi
    simp only [hst, hq, List.length_nil, List.length_cons]
    have hFold : ((⟨fid, some c, n :: ns, false⟩ : Frame) :: rest).filter
          (fun fr => decide (fr.id ∈ d.explored))
        = (⟨fid, some c, n :: ns, false⟩ : Frame) :: rest := by
      apply List.filter_eq_self.mpr
      intro fr hfr'
      rcases List.mem_cons.mp hfr' with rfl | hfr'
      · simpa using hf
      · simpa using htail fr hfr'
    have hFnew : ((⟨fid, some n, ns, false⟩ : Frame) :: rest).filter
          (fun fr => decide (fr.id ∈ d.explored))
        = (⟨fid, some n, ns, false⟩ : Frame) :: rest := by
      apply List.filter_eq_self.mpr
      intro fr hfr'
      rcases List.mem_cons.mp hfr' with rfl | hfr'
      · simpa using hf
      · simpa using htail fr hfr'
    rw [hFold, hFnew]
    have hw1 : frameWeight ⟨fid, some c, n :: ns, false⟩ = 3 * (ns.length + 1) + 3 := by
      unfold frameWeight
      simp
    have hw2 : frameWeight ⟨fid, some n, ns, false⟩ = 3 * ns.length + 3 := by
      unfold frameWeight
      simp
    simp only [List.map_cons, List.sum_cons, hw1, hw2]
    omega
  -- endENew
  · subst hn2
    rw [hst] at htail hfresh hbound hnodup
    unfold phi
    simp only [hst, hq, List.length_nil, List.length_cons]
    have hFold : ((⟨fid, some c, n :: ns, false⟩ : Frame) :: rest).filter
          (fun fr => decide (fr.id ∈ d.explored))
        = (⟨fid, some c, n :: ns, false⟩ : Frame) :: rest := by
      apply List.filter_eq_self.mpr
      intro fr hfr'
      rcases List.mem_cons.mp hfr' with rfl | hfr'
      · simpa using hf
      · simpa using htail fr hfr'
    have hFnew : (Frame.fromId n d.graph :: (⟨fid, some n, ns, false⟩ : Frame) :: rest).filter
          (fun fr => decide (fr.id ∈ d.explored))
        = (⟨fid, some n, ns, false⟩ : Frame) :: rest := by
      rw [List.filter_cons]
      have : (decide ((Frame.fromId n d.graph).id ∈ d.explored)) = false := by
        simpa [Frame.fromId] using hnew
      rw [this]
      simp only [Bool.false_eq_true, if_false]
      apply List.filter_eq_self.mpr
      intro fr hfr'
      rcases List.mem_cons.mp hfr' with rfl | hfr'
      · simpa using hf
      · simpa using htail fr hfr'
    rw [hFold, hFnew]
    have hw1 : frameWeight ⟨fid, some c, n :: ns, false⟩ = 3 * (ns.length + 1) + 3 := by
      unfold frameWeight
      simp
    have hw2 : frameWeight ⟨fid, some n, ns, false⟩ = 3 * ns.length + 3 := by
      unfold frameWeight
      simp
    simp only [List.map_cons, List.sum_cons, hw1, hw2]
    omega

theorem next_none_of_phi_zero (d : DepthFirst) (hinv : Inv d) (h : phi d = 0) :
    d.next = (none, d) := by
  obtain ⟨hdrop, hnodup, htail, hfresh, hbound, hexb⟩ := hinv
  have hq : d.output_queue = [] := by
    unfold phi at h
    cases hqc : d.output_queue with
    | nil => rfl
    | cons a l => rw [hqc] at h; simp at h
  have hst : d.stack = [] := by
    cases hstc : d.stack with
    | nil => rfl
    | cons f rest =>
      exfalso
      by_cases hmem : f.id ∈ d.explored
      · have hfmem : f ∈ d.stack.filter (fun fr => decide (fr.id ∈ d.explored)) := by
          rw [hstc]
          rw [List.filter_cons, if_pos (by simpa using hmem)]
          exact List.mem_cons_self _ _
        have hle : frameWeight f
            ≤ ((d.stack.filter (fun fr => decide (fr.id ∈ d.explored))).map frameWeight).sum :=
          List.single_le_sum (fun x _ => Nat.zero_le x) _
            (List.mem_map.mpr ⟨f, hfmem, rfl⟩)
        have hw : 2 ≤ frameWeight f := by
          unfold frameWeight
          omega
        unfold phi at h
        omega
      · have hfid : f.id < d.graph.out_index.length :=
          (hbound f (by rw [hstc]; exact List.mem_cons_self _ _)).1
        have hfmem : f.id ∈ (List.range d.graph.out_index.length).filter
            (fun v => decide (v ∉ d.explored)) := by
          rw [List.mem_filter]
          exact ⟨List.mem_range.mpr hfid, by simpa using hmem⟩
        have hle : vertexCredit d.graph f.id
            ≤ (((List.range d.graph.out_index.length).filter
                (fun v => decide (v ∉ d.explored))).map (vertexCredit d.graph)).sum :=
          List.single_le_sum (fun x _ => Nat.zero_le x) _
            (List.mem_map.mpr ⟨f.id, hfmem, rfl⟩)
        have hw : 3 ≤ vertexCredit d.graph f.id := by
          unfold vertexCredit
          omega
        unfold phi at h
        omega
  exact next_of_empty d hst hq

theorem events_succ_eq (k : Nat) :
    ∀ d : DepthFirst, d.graph.WF → Inv d → phi d ≤ k →
      d.events k = d.events (k + 1) := by
  induction k with
  | zero =>
    intro d hwf hinv hp
    have hz : phi d = 0 := Nat.le_zero.mp hp
    have hn := next_none_of_phi_zero d hinv hz
    unfold DepthFirst.events
    rw [hn]
  | succ n ih =>
    intro d hwf hinv hp
    conv_lhs => unfold DepthFirst.events
    conv_rhs => unfold DepthFirst.events
    cases hn : d.next with
    | mk e d' =>
      cases e with
      | none => rfl
      | some ev =>
        simp only
        obtain ⟨hinv', hg, -⟩ := Inv_next d hwf hinv _ _ hn
        have hwf' : d'.graph.WF := hg ▸ hwf
        have hlt : phi d' < phi d := phi_next d hwf hinv ev d' hn
        rw [ih d' hwf' hinv' (by omega)]

theorem events_add_eq (d : DepthFirst) (hwf : d.graph.WF) (hinv : Inv d) :
    ∀ m, d.events (phi d + m) = d.events (phi d) := by
  intro m
  induction m with
  | zero => rfl
  | succ n ih =>
    rw [← ih]
    exact (events_succ_eq (phi d + n) d hwf hinv (by omega)).symm

theorem events_eq_of_le (d : DepthFirst) (hwf : d.graph.WF) (hinv : Inv d)
    (k : Nat) (h : phi d ≤ k) : d.events k = d.events (phi d) := by
  obtain ⟨m, rfl⟩ : ∃ m, k = phi d + m := ⟨k - phi d, by omega⟩
  exact events_add_eq d hwf hinv m

theorem count_append_single (tr : List DFSEntry) (e a : DFSEntry) :
    (tr ++ [e]).count a = tr.count a + if e = a then 1 else 0 := by
  simp [List.count_append, List.count_singleton']

theorem pendCount_cons (u t : VertexId) (f : Frame) (st : List Frame) :
    pendCount u t (f :: st)
      = (if f.id = u ∧ f.current_neighbour = some t then 1 else 0) + pendCount u t st := by
  unfold pendCount
  rw [List.filter_cons]
  by_cases h : f.id = u ∧ f.current_neighbour = some t
  · rw [if_pos (by simp [h.1, h.2]), if_pos h]
    simp [Nat.add_comm]
  · rw [if_neg (by simpa using h), if_neg h]
    simp

theorem pendCount_fromId_cons (u t n : VertexId) (g : Graph) (st : List Frame) :
    pendCount u t (Frame.fromId n g :: st) = pendCount u t st := by
  unfold pendCount Frame.fromId
  rw [List.filter_cons]
  simp

theorem ite_BE (fid n u t : VertexId) :
    (if DFSEntry.BeginEdge (fid, n) = DFSEntry.BeginEdge (u, t) then (1 : Nat) else 0)
      = (if fid = u ∧ (some n : Option VertexId) = some t then (1 : Nat) else 0) := by
  by_cases hh : fid = u ∧ n = t
  · rw [if_pos (by simp [hh.1, hh.2]), if_pos ⟨hh.1, by rw [hh.2]⟩]
  · rw [if_neg (by simpa using hh), if_neg (by simpa using hh)]

theorem ite_EE (fid n u t : VertexId) :
    (if DFSEntry.EndEdge (fid, n) = DFSEntry.EndEdge (u, t) then (1 : Nat) else 0)
      = (if fid = u ∧ (some n : Option VertexId) = some t then (1 : Nat) else 0) := by
  by_cases hh : fid = u ∧ n = t
  · rw [if_pos (by simp [hh.1, hh.2]), if_pos ⟨hh.1, by rw [hh.2]⟩]
  · rw [if_neg (by simpa using hh), if_neg (by simpa using hh)]

theorem TraceInv_on (g : Graph) (r : VertexId) : tree.TraceInv [] (DepthFirst.on g r) := by
  unfold DepthFirst.on
  by_cases hc : g.contains r = true
  · rw [if_pos hc]
    refine ⟨Or.inl rfl, ?_, ?_, ?_, ?_⟩ <;>
      simp [tree.vtrace, pendCount, Frame.fromId]
  · rw [if_neg hc]
    refine ⟨Or.inl rfl, ?_, ?_, ?_, ?_⟩ <;>
      simp [tree.vtrace, pendCount]

theorem TraceInv_next (tr : List DFSEntry) (d : DepthFirst) (hinv : Inv d)
    (htr : tree.TraceInv tr d) (e : DFSEntry) (d' : DepthFirst)
    (h : d.next = (some e, d')) : tree.TraceInv (tr ++ [e]) d' := by
  obtain ⟨hdrop, hnodup, htail, hfresh, hbound, hexb⟩ := hinv
  obtain ⟨hqs, hBV, hEV, hE, hBEex⟩ := htr
  rcases next_spec d hdrop with
    ⟨e0, q0, hq, hn⟩ | ⟨hst, hq, hn⟩ | ⟨f, rest, hst, hq, hf, hn⟩ |
    ⟨fid, rest, hst, hq, hf, hn⟩ | ⟨fid, c, rest, hst, hq, hf, hn⟩ |
    ⟨fid, n, ns, rest, hst, hq, hf, hold, hn⟩ |
    ⟨fid, n, ns, rest, hst, hq, hf, hnew, hn⟩ |
    ⟨fid, c, n, ns, rest, hst, hq, hf, hold, hn⟩ |
    ⟨fid, c, n, ns, rest, hst, hq, hf, hnew, hn⟩ <;>
    rw [h] at hn <;> (injection hn with hn1 hn2)
  -- queuePop
  · injection hn1 with hn1
    rw [hn1, hn2]
    have hq0 : q0 = [] := by
      cases q0 with
      | nil => rfl
      | cons a l =>
        rcases hqs with hq' | ⟨x, hq'⟩ | ⟨u, t, hq', -⟩ <;> rw [hq'] at hq
        · simp at hq
        · rw [List.cons_append] at hq
          injection hq with hq3 hq4
          simp at hq4
        · rw [List.cons_append] at hq
          injection hq with hq3 hq4
          simp at hq4
    subst hq0
    simp only [List.nil_append] at hq
    have hveq : tree.vtrace (tr ++ [e0]) { d with output_queue := [] }
        = tree.vtrace tr d := by
      unfold tree.vtrace
      rw [hq]
      simp
    refine ⟨Or.inl rfl, ?_, ?_, ?_, ?_⟩
    · intro v
      rw [hveq]
      exact hBV v
    · intro v
      rw [hveq]
      exact hEV v
    · intro u t
      rw [hveq]
      exact hE u t
    · intro u t
      rw [hveq]
      exact hBEex u t
  -- finished
  · exact absurd hn1 (by simp)
  -- beginV
  · injection hn1 with hn1
    subst hn1
    subst hn2
    have hvold : tree.vtrace tr d = tr := by
      unfold tree.vtrace
      rw [hq]
      simp
    have hvnew : ∀ a : DFSEntry,
        (tree.vtrace (tr ++ [DFSEntry.BeginVertex f.id])
            (⟨d.graph, f :: rest, f.id :: d.explored, []⟩ : DepthFirst)).count a
          = tr.count a + if DFSEntry.BeginVertex f.id = a then 1 else 0 := by
      intro a
      unfold tree.vtrace
      simp only [List.reverse_nil, List.append_nil]
      exact count_append_single tr _ a
    refine ⟨Or.inl rfl, ?_, ?_, ?_, ?_⟩
    · intro v
      rw [hvnew]
      have h2 := hBV v
      rw [hvold] at h2
      rw [h2]
      by_cases hv : v = f.id
      · subst hv
        simp [hf]
      · simp [hv, Ne.symm hv]
    · intro v
      rw [hvnew]
      have h2 := hEV v
      rw [hvold] at h2
      simp only [reduceCtorEq, if_false, Nat.add_zero]
      rw [h2, hst]
      by_cases hv : v = f.id
      · subst hv
        have hvin : f.id ∈ idsOf (f :: rest) := by
          unfold idsOf
          simp
        simp [hf, hvin]
      · simp only [idsOf]
        by_cases hvex : v ∈ d.explored
        · simp [hvex, hv, Ne.symm hv]
        · simp [hvex, hv, Ne.symm hv]
    · intro u t
      rw [hvnew, hvnew]
      have h2 := hE u t
      rw [hvold, hst] at h2
      simp only [reduceCtorEq, if_false, Nat.add_zero]
      exact h2
    · intro u t
      rw [hvnew]
      intro hcnt
      have h2 := hBEex u t
      rw [hvold] at h2
      simp only [reduceCtorEq, if_false, Nat.add_zero] at hcnt
      exact List.mem_cons_of_mem _ (h2 hcnt)
  -- endV
  · injection hn1 with hn1
    subst hn1
    subst hn2
    have hvold : tree.vtrace tr d = tr := by
      unfold tree.vtrace
      rw [hq]
      simp
    have hvnew : ∀ a : DFSEntry,
        (tree.vtrace (tr ++ [DFSEntry.EndVertex fid])
            (⟨d.graph, rest, d.explored, []⟩ : DepthFirst)).count a
          = tr.count a + if DFSEntry.EndVertex fid = a then 1 else 0 := by
      intro a
      unfold tree.vtrace
      simp only [List.reverse_nil, List.append_nil]
      exact count_append_single tr _ a
    have hnodup' : fid ∉ idsOf rest := by
      unfold idsOf
      rw [hst] at hnodup
      simp only [List.map_cons, List.nodup_cons] at hnodup
      exact hnodup.1
    refine ⟨Or.inl rfl, ?_, ?_, ?_, ?_⟩
    · intro v
      rw [hvnew]
      have h2 := hBV v
      rw [hvold] at h2
      simp only [reduceCtorEq, if_false, Nat.add_zero]
      exact h2
    · intro v
      rw [hvnew]
      have h2 := hEV v
      rw [hvold, hst] at h2
      rw [h2]
      by_cases hv : v = fid
      · subst hv
        have hvin : v ∈ idsOf ((⟨v, none, [], false⟩ : Frame) :: rest) := by
          unfold idsOf
          simp
        simp [hf, hvin, hnodup']
      · have hcond : (v ∈ idsOf ((⟨fid, none, [], false⟩ : Frame) :: rest)) ↔ v ∈ idsOf rest := by
          unfold idsOf
          simp [hv]
        by_cases hvex : v ∈ d.explored <;>
          by_cases hvid : v ∈ idsOf rest <;>
            simp [hvex, hvid, hcond, hv, Ne.symm hv]
    · intro u t
      rw [hvnew, hvnew]
      have h2 := hE u t
      rw [hvold, hst] at h2
      rw [pendCount_cons] at h2
      simp only [reduceCtorEq, if_false, Nat.add_zero]
      simpa using h2
    · intro u t
      rw [hvnew]
      intro hcnt
      have h2 := hBEex u t
      rw [hvold] at h2
      simp only [reduceCtorEq, if_false, Nat.add_zero] at hcnt
      exact h2 hcnt
  -- endELast
  · injection hn1 with hn1
    subst hn1
    subst hn2
    have hvold : tree.vtrace tr d = tr := by
      unfold tree.vtrace
      rw [hq]
      simp
    have hvnew : ∀ a : DFSEntry,
        (tree.vtrace (tr ++ [DFSEntry.EndEdge (fid, c)])
            (⟨d.graph, rest, d.explored, [DFSEntry.EndVertex fid]⟩ : DepthFirst)).count a
          = (tr.count a + if DFSEntry.EndEdge (fid, c) = a then 1 else 0)
            + if DFSEntry.EndVertex fid = a then 1 else 0 := by
      intro a
      unfold tree.vtrace
      have : tr ++ [DFSEntry.EndEdge (fid, c)] ++ [DFSEntry.EndVertex fid].reverse
          = (tr ++ [DFSEntry.EndEdge (fid, c)]) ++ [DFSEntry.EndVertex fid] := by
        simp
      rw [this, count_append_single, count_append_single]
    have hnodup' : fid ∉ idsOf rest := by
      unfold idsOf
      rw [hst] at hnodup
      simp only [List.map_cons, List.nodup_cons] at hnodup
      exact hnodup.1
    refine ⟨Or.inr (Or.inl ⟨fid, rfl⟩), ?_, ?_, ?_, ?_⟩
    · intro v
      rw [hvnew]
      have h2 := hBV v
      rw [hvold] at h2
      simp only [reduceCtorEq, if_false, Nat.add_zero]
      exact h2
    · intro v
      rw [hvnew]
      have h2 := hEV v
      rw [hvold, hst] at h2
      rw [h2]
      by_cases hv : v = fid
      · subst hv
        have hvin : v ∈ idsOf ((⟨v, some c, [], false⟩ : Frame) :: rest) := by
          unfold idsOf
          simp
        simp [hf, hvin, hnodup']
      · have hcond : (v ∈ idsOf ((⟨fid, some c, [], false⟩ : Frame) :: rest)) ↔ v ∈ idsOf rest := by
          unfold idsOf
          simp [hv]
        by_cases hvex : v ∈ d.explored <;>
          by_cases hvid : v ∈ idsOf rest <;>
            simp [hvex, hvid, hcond, hv, Ne.symm hv]
    · intro u t
      rw [hvnew, hvnew]
      have h2 := hE u t
      rw [hvold, hst] at h2
      rw [pendCount_cons] at h2
      simp only [reduceCtorEq, if_false, Nat.add_zero]
      by_cases hut : fid = u ∧ c = t
      · obtain ⟨hu, ht⟩ := hut
        subst hu
        subst ht
        rw [if_pos ⟨rfl, rfl⟩] at h2
        rw [if_pos rfl]
        omega
      · have hne : DFSEntry.EndEdge (fid, c) ≠ DFSEntry.EndEdge (u, t) := by
          simp only [ne_eq, DFSEntry.EndEdge.injEq, Prod.mk.injEq]
          exact hut
        rw [if_neg (by simpa using hut)] at h2
        rw [if_neg hne]
        omega
    · intro u t
      rw [hvnew]
      intro hcnt
      have h2 := hBEex u t
      rw [hvold] at h2
      simp only [reduceCtorEq, if_false, Nat.add_zero] at hcnt
      exact h2 hcnt
  -- beginEOld
  · injection hn1 with hn1
    subst hn1
    subst hn2
    have hvold : tree.vtrace tr d = tr := by
      unfold tree.vtrace
      rw [hq]
      simp
    have hvnew : ∀ a : DFSEntry,
        (tree.vtrace (tr ++ [DFSEntry.BeginEdge (fid, n)])
            (⟨d.graph, ⟨fid, some n, ns, false⟩ :: rest, d.explored, []⟩ : DepthFirst)).count a
          = tr.count a + if DFSEntry.BeginEdge (fid, n) = a then 1 else 0 := by
      intro a
      unfold tree.vtrace
      simp only [List.reverse_nil, List.append_nil]
      exact count_append_single tr _ a
    refine ⟨Or.inl rfl, ?_, ?_, ?_, ?_⟩
    · intro v
      rw [hvnew]
      have h2 := hBV v
      rw [hvold] at h2
      simp only [reduceCtorEq, if_false, Nat.add_zero]
      exact h2
    · intro v
      rw [hvnew]
      have h2 := hEV v
      rw [hvold, hst] at h2
      rw [h2]
      have hcond : (v ∈ idsOf ((⟨fid, some n, ns, false⟩ : Frame) :: rest))
          ↔ (v ∈ idsOf ((⟨fid, none, n :: ns, false⟩ : Frame) :: rest)) := by
        unfold idsOf
        simp
      simp only [reduceCtorEq, if_false, Nat.add_zero]
      by_cases hvex : v ∈ d.explored <;>
        by_cases hvid : v ∈ idsOf ((⟨fid, none, n :: ns, false⟩ : Frame) :: rest) <;>
          simp [hvex, hvid, hcond]
    · intro u t
      rw [hvnew, hvnew]
      have h2 := hE u t
      rw [hvold, hst] at h2
      rw [pendCount_cons] at h2
      rw [pendCount_cons]
      simp only [reduceCtorEq, if_false, Nat.add_zero] at h2 ⊢
      rw [ite_BE]
      rw [if_neg (by simp)] at h2
      omega
    · intro u t
      rw [hvnew]
      intro hcnt
      have h2 := hBEex u t
      rw [hvold] at h2
      by_cases hut : DFSEntry.BeginEdge (fid, n) = DFSEntry.BeginEdge (u, t)
      · have : fid = u := by
          injection hut with h'
          exact (Prod.mk.injEq _ _ _ _ ▸ h').1
        exact this ▸ hf
      · rw [if_neg hut] at hcnt
        simp only [Nat.add_zero] at hcnt
        exact h2 hcnt
  -- beginENew
  · injection hn1 with hn1
    subst hn1
    subst hn2
    have hvold : tree.vtrace tr d = tr := by
      unfold tree.vtrace
      rw [hq]
      simp
    have hvnew : ∀ a : DFSEntry,
        (tree.vtrace (tr ++ [DFSEntry.BeginEdge (fid, n)])
            (⟨d.graph, Frame.fromId n d.graph :: ⟨fid, some n, ns, false⟩ :: rest,
              d.explored, []⟩ : DepthFirst)).count a
          = tr.count a + if DFSEntry.BeginEdge (fid, n) = a then 1 else 0 := by
      intro a
      unfold tree.vtrace
      simp only [List.reverse_nil, List.append_nil]
      exact count_append_single tr _ a
    refine ⟨Or.inl rfl, ?_, ?_, ?_, ?_⟩
    · intro v
      rw [hvnew]
      have h2 := hBV v
      rw [hvold] at h2
      simp only [reduceCtorEq, if_false, Nat.add_zero]
      exact h2
    · intro v
      rw [hvnew]
      have h2 := hEV v
      rw [hvold, hst] at h2
      rw [h2]
      simp only [reduceCtorEq, if_false, Nat.add_zero]
      by_cases hvn : v = n
      · subst hvn
        have h1 : v ∈ idsOf (Frame.fromId v d.graph :: (⟨fid, some v, ns, false⟩ : Frame) :: rest) := by
          unfold idsOf Frame.fromId
          simp
        simp [hnew, h1]
      · have hcond : (v ∈ idsOf (Frame.fromId n d.graph :: (⟨fid, some n, ns, false⟩ : Frame) :: rest))
            ↔ (v ∈ idsOf ((⟨fid, none, n :: ns, false⟩ : Frame) :: rest)) := by
          unfold idsOf Frame.fromId
          simp [hvn]
        by_cases hvex : v ∈ d.explored <;>
          by_cases hvid : v ∈ idsOf ((⟨fid, none, n :: ns, false⟩ : Frame) :: rest) <;>
            simp [hvex, hvid, hcond]
    · intro u t
      rw [hvnew, hvnew]
      have h2 := hE u t
      rw [hvold, hst] at h2
      rw [pendCount_cons] at h2
      rw [pendCount_fromId_cons, pendCount_cons]
      simp only [reduceCtorEq, if_false, Nat.add_zero] at h2 ⊢
      rw [ite_BE]
      rw [if_neg (by simp)] at h2
      omega
    · intro u t
      rw [hvnew]
      intro hcnt
      have h2 := hBEex u t
      rw [hvold] at h2
      by_cases hut : DFSEntry.BeginEdge (fid, n) = DFSEntry.BeginEdge (u, t)
      · have : fid = u := by
          injection hut with h'
          exact (Prod.mk.injEq _ _ _ _ ▸ h').1
        exact this ▸ hf
      · rw [if_neg hut] at hcnt
        simp only [Nat.add_zero] at hcnt
        exact h2 hcnt
  -- endEOld
  · injection hn1 with hn1
    subst hn1
    subst hn2
    have hvold : tree.vtrace tr d = tr := by
      unfold tree.vtrace
      rw [hq]
      simp
    have hvnew : ∀ a : DFSEntry,
        (tree.vtrace (tr ++ [DFSEntry.EndEdge (fid, c)])
            (⟨d.graph, ⟨fid, some n, ns, false⟩ :: rest, d.explored,
              [DFSEntry.BeginEdge (fid, n)]⟩ : DepthFirst)).count a
          = (tr.count a + if DFSEntry.EndEdge (fid, c) = a then 1 else 0)
            + if DFSEntry.BeginEdge (fid, n) = a then 1 else 0 := by
      intro a
      unfold tree.vtrace
      have : tr ++ [DFSEntry.EndEdge (fid, c)] ++ [DFSEntry.BeginEdge (fid, n)].reverse
          = (tr ++ [DFSEntry.EndEdge (fid, c)]) ++ [DFSEntry.BeginEdge (fid, n)] := by
        simp
      rw [this, count_append_single, count_append_single]
    refine ⟨Or.inr (Or.inr ⟨fid, n, rfl, ⟨fid, some n, ns, false⟩,
        List.mem_cons_self _ _, rfl, rfl⟩), ?_, ?_, ?_, ?_⟩
    · intro v
      rw [hvnew]
      have h2 := hBV v
      rw [hvold] at h2
      simp only [reduceCtorEq, if_false, Nat.add_zero]
      exact h2
    · intro v
      rw [hvnew]
      have h2 := hEV v
      rw [hvold, hst] at h2
      rw [h2]
      have hcond : (v ∈ idsOf ((⟨fid, some n, ns, false⟩ : Frame) :: rest))
          ↔ (v ∈ idsOf ((⟨fid, some c, n :: ns, false⟩ : Frame) :: rest)) := by
        unfold idsOf
        simp
      simp only [reduceCtorEq, if_false, Nat.add_zero]
      by_cases hvex : v ∈ d.explored <;>
        by_cases hvid : v ∈ idsOf ((⟨fid, some c, n :: ns, false⟩ : Frame) :: rest) <;>
          simp [hvex, hvid, hcond]
    · intro u t
      rw [hvnew, hvnew]
      have h2 := hE u t
      rw [hvold, hst] at h2
      rw [pendCount_cons] at h2
      rw [pendCount_cons]
      simp only [reduceCtorEq, if_false, Nat.add_zero] at h2 ⊢
      rw [ite_BE, ite_EE]
      omega
    · intro u t
      rw [hvnew]
      intro hcnt
      have h2 := hBEex u t
      rw [hvold] at h2
      by_cases hut : DFSEntry.BeginEdge (fid, n) = DFSEntry.BeginEdge (u, t)
      · have : fid = u := by
          injection hut with h'
          exact (Prod.mk.injEq _ _ _ _ ▸ h').1
        exact this ▸ hf
      · rw [if_neg hut] at hcnt
        simp only [reduceCtorEq, if_false, Nat.add_zero] at hcnt
        exact h2 hcnt
  -- endENew
  · injection hn1 with hn1
    subst hn1
    subst hn2
    have hvold : tree.vtrace tr d = tr := by
      unfold tree.vtrace
      rw [hq]
      simp
    have hvnew : ∀ a : DFSEntry,
        (tree.vtrace (tr ++ [DFSEntry.EndEdge (fid, c)])
            (⟨d.graph, Frame.fromId n d.graph :: ⟨fid, some n, ns, false⟩ :: rest,
              d.explored, [DFSEntry.BeginEdge (fid, n)]⟩ : DepthFirst)).count a
          = (tr.count a + if DFSEntry.EndEdge (fid, c) = a then 1 else 0)
            + if DFSEntry.BeginEdge (fid, n) = a then 1 else 0 := by
      intro a
      unfold tree.vtrace
      have : tr ++ [DFSEntry.EndEdge (fid, c)] ++ [DFSEntry.BeginEdge (fid, n)].reverse
          = (tr ++ [DFSEntry.EndEdge (fid, c)]) ++ [DFSEntry.BeginEdge (fid, n)] := by
        simp
      rw [this, count_append_single, count_append_single]
    refine ⟨Or.inr (Or.inr ⟨fid, n, rfl, ⟨fid, some n, ns, false⟩,
        List.mem_cons_of_mem _ (List.mem_cons_self _ _), rfl, rfl⟩), ?_, ?_, ?_, ?_⟩
    · intro v
      rw [hvnew]
      have h2 := hBV v
      rw [hvold] at h2
      simp only [reduceCtorEq, if_false, Nat.add_zero]
      exact h2
    · intro v
      rw [hvnew]
      have h2 := hEV v
      rw [hvold, hst] at h2
      rw [h2]
      simp only [reduceCtorEq, if_false, Nat.add_zero]
      by_cases hvn : v = n
      · subst hvn
        have h1 : v ∈ idsOf (Frame.fromId v d.graph :: (⟨fid, some v, ns, false⟩ : Frame) :: rest) := by
          unfold idsOf Frame.fromId
          simp
        simp [hnew, h1]
      · have hcond : (v ∈ idsOf (Frame.fromId n d.graph :: (⟨fid, some n, ns, false⟩ : Frame) :: rest))
            ↔ (v ∈ idsOf ((⟨fid, some c, n :: ns, false⟩ : Frame) :: rest)) := by
          unfold idsOf Frame.fromId
          simp [hvn]
        by_cases hvex : v ∈ d.explored <;>
          by_cases hvid : v ∈ idsOf ((⟨fid, some c, n :: ns, false⟩ : Frame) :: rest) <;>
            simp [hvex, hvid, hcond]
    · intro u t
      rw [hvnew, hvnew]
      have h2 := hE u t
      rw [hvold, hst] at h2
      rw [pendCount_cons] at h2
      rw [pendCount_fromId_cons, pendCount_cons]
      simp only [reduceCtorEq, if_false, Nat.add_zero] at h2 ⊢
      rw [ite_BE, ite_EE]
      omega
    · intro u t
      rw [hvnew]
      intro hcnt
      have h2 := hBEex u t
      rw [hvold] at h2
      by_cases hut : DFSEntry.BeginEdge (fid, n) = DFSEntry.BeginEdge (u, t)
      · have : fid = u := by
          injection hut with h'
          exact (Prod.mk.injEq _ _ _ _ ▸ h').1
        exact this ▸ hf
      · rw [if_neg hut] at hcnt
        simp only [reduceCtorEq, if_false, Nat.add_zero] at hcnt
        exact h2 hcnt

theorem Inv2_on (g : Graph) (r : VertexId) : tree.Inv2 r (DepthFirst.on g r) := by
  unfold DepthFirst.on
  by_cases hc : g.contains r = true
  · rw [if_pos hc]
    refine ⟨by simp, ?_, ?_, Or.inl ?_, by simp⟩
    · intro f hf
      simp only [List.mem_singleton] at hf
      subst hf
      exact Relation.ReflTransGen.refl
    · intro f hf
      simp only [List.mem_singleton] at hf
      subst hf
      exact ⟨[], by simp [Frame.fromId, Graph.adj], by simp⟩
    · intro f hf c hc'
      simp only [List.mem_singleton] at hf
      subst hf
      simp [Frame.fromId] at hc'
  · rw [if_neg hc]
    exact ⟨by simp, by simp, by simp, Or.inl (by simp), by simp⟩

theorem Inv2_next (r : VertexId) (d : DepthFirst) (hinv : Inv d)
    (hinv2 : Inv2 r d) (oe : Option DFSEntry) (d' : DepthFirst)
    (h : d.next = (oe, d')) : Inv2 r d' := by
  obtain ⟨hdrop, hnodup, htail, hfresh, hbound, hexb⟩ := hinv
  obtain ⟨hR1, hR2, hC1, hC2, hC3⟩ := hinv2
  rcases next_spec d hdrop with
    ⟨e0, q0, hq, hn⟩ | ⟨hst, hq, hn⟩ | ⟨f, rest, hst, hq, hf, hn⟩ |
    ⟨fid, rest, hst, hq, hf, hn⟩ | ⟨fid, c, rest, hst, hq, hf, hn⟩ |
    ⟨fid, n, ns, rest, hst, hq, hf, hold, hn⟩ |
    ⟨fid, n, ns, rest, hst, hq, hf, hnew, hn⟩ |
    ⟨fid, c, n, ns, rest, hst, hq, hf, hold, hn⟩ |
    ⟨fid, c, n, ns, rest, hst, hq, hf, hnew, hn⟩ <;>
    rw [h] at hn <;> (injection hn with hn1 hn2) <;> subst hn2
  -- queuePop
  · exact ⟨hR1, hR2, hC1, hC2, hC3⟩
  -- finished
  · exact ⟨hR1, hR2, hC1, hC2, hC3⟩
  -- beginV
  · refine ⟨?_, ?_, ?_, Or.inl ?_, ?_⟩
    · intro v hv
      rcases List.mem_cons.mp hv with rfl | hvex
      · exact hR2 f (by rw [hst]; exact List.mem_cons_self _ _)
      · exact hR1 v hvex
    · intro f' hf'
      exact hR2 f' (by rw [hst]; exact hf')
    · intro f' hf'
      obtain ⟨pre, hpre, hsub⟩ := hC1 f' (by rw [hst]; exact hf')
      exact ⟨pre, hpre, fun x hx => List.mem_cons_of_mem _ (hsub x hx)⟩
    · intro f' hf' c hc'
      rcases hC2 with hC2a | ⟨c0, rest2, hsteq, hc0, hrest⟩
      · exact List.mem_cons_of_mem _ (hC2a f' (by rw [hst]; exact hf') c hc')
      · rw [hst] at hsteq
        injection hsteq with h1 h2
        have hfid : f.id = c0 := congrArg Frame.id h1
        rcases List.mem_cons.mp hf' with rfl | hmem
        · rw [h1] at hc'
          simp [Frame.fromId] at hc'
        · have hcc := hrest f' (by rw [← h2]; exact hmem) c hc'
          rcases hcc with hcin | heq
          · exact List.mem_cons_of_mem _ hcin
          · rw [hfid, heq]
            exact List.mem_cons_self _ _
    · intro v hv
      rcases List.mem_cons.mp hv with rfl | hvex
      · left
        simp [idsOf]
      · rcases hC3 v hvex with hin | hcl
        · left
          rw [hst] at hin
          exact hin
        · right
          intro t ht
          exact List.mem_cons_of_mem _ (hcl t ht)
  -- endV
  · refine ⟨hR1, ?_, ?_, Or.inl ?_, ?_⟩
    · intro f' hf'
      exact hR2 f' (by rw [hst]; exact List.mem_cons_of_mem _ hf')
    · intro f' hf'
      exact hC1 f' (by rw [hst]; exact List.mem_cons_of_mem _ hf')
    · intro f' hf' c' hc'
      rcases hC2 with hC2a | ⟨c0, rest2, hsteq, hc0, hrest⟩
      · exact hC2a f' (by rw [hst]; exact List.mem_cons_of_mem _ hf') c' hc'
      · exfalso
        rw [hst] at hsteq
        injection hsteq with h1 h2
        have hfc : fid = c0 := congrArg Frame.id h1
        exact hc0 (hfc ▸ hf)
    · intro v hv
      rcases hC3 v hv with hin | hcl
      · rw [hst] at hin
        by_cases hvfid : v = fid
        · right
          subst hvfid
          obtain ⟨pre, hpre, hsub⟩ :=
            hC1 ⟨v, none, [], false⟩ (by rw [hst]; exact List.mem_cons_self _ _)
          have hpre' : d.graph.adj v = pre := by simpa using hpre
          intro t ht
          rw [hpre'] at ht
          exact hsub t ht
        · left
          simp only [idsOf, List.map_cons] at hin
          rcases List.mem_cons.mp hin with h' | h'
          · exact absurd h' hvfid
          · exact h'
      · right
        exact hcl
  -- endELast
  · have hC2a : ∀ f' ∈ d.stack, ∀ c', f'.current_neighbour = some c' → c' ∈ d.explored := by
      rcases hC2 with h' | ⟨c0, rest2, hsteq, hc0, hrest⟩
      · exact h'
      · exfalso
        rw [hst] at hsteq
        injection hsteq with h1 h2
        have hfc : fid = c0 := congrArg Frame.id h1
        exact hc0 (hfc ▸ hf)
    have hcex : c ∈ d.explored :=
      hC2a ⟨fid, some c, [], false⟩ (by rw [hst]; exact List.mem_cons_self _ _) c rfl
    refine ⟨hR1, ?_, ?_, Or.inl ?_, ?_⟩
    · intro f' hf'
      exact hR2 f' (by rw [hst]; exact List.mem_cons_of_mem _ hf')
    · intro f' hf'
      exact hC1 f' (by rw [hst]; exact List.mem_cons_of_mem _ hf')
    · intro f' hf' c' hc'
      exact hC2a f' (by rw [hst]; exact List.mem_cons_of_mem _ hf') c' hc'
    · intro v hv
      rcases hC3 v hv with hin | hcl
      · rw [hst] at hin
        by_cases hvfid : v = fid
        · right
          subst hvfid
          obtain ⟨pre, hpre, hsub⟩ :=
            hC1 ⟨v, some c, [], false⟩ (by rw [hst]; exact List.mem_cons_self _ _)
          have hpre' : d.graph.adj v = pre ++ [c] := by simpa using hpre
          intro t ht
          rw [hpre'] at ht
          rcases List.mem_append.mp ht with h' | h'
          · exact hsub t h'
          · rw [List.mem_singleton.mp h']
            exact hcex
        · left
          simp only [idsOf, List.map_cons] at hin
          rcases List.mem_cons.mp hin with h' | h'
          · exact absurd h' hvfid
          · exact h'
      · right
        exact hcl
  -- beginEOld
  · have hC2a : ∀ f' ∈ d.stack, ∀ c', f'.current_neighbour = some c' → c' ∈ d.explored := by
      rcases hC2 with h' | ⟨c0, rest2, hsteq, hc0, hrest⟩
      · exact h'
      · exfalso
        rw [hst] at hsteq
        injection hsteq with h1 h2
        have hfc : fid = c0 := congrArg Frame.id h1
        exact hc0 (hfc ▸ hf)
    refine ⟨hR1, ?_, ?_, Or.inl ?_, ?_⟩
    · intro f' hf'
      rcases List.mem_cons.mp hf' with rfl | hmem
      · exact hR2 ⟨fid, none, n :: ns, false⟩ (by rw [hst]; exact List.mem_cons_self _ _)
      · exact hR2 f' (by rw [hst]; exact List.mem_cons_of_mem _ hmem)
    · intro f' hf'
      rcases List.mem_cons.mp hf' with rfl | hmem
      · obtain ⟨pre, hpre, hsub⟩ :=
          hC1 ⟨fid, none, n :: ns, false⟩ (by rw [hst]; exact List.mem_cons_self _ _)
        have hpre' : d.graph.adj fid = pre ++ (n :: ns) := by simpa using hpre
        refine ⟨pre, ?_, hsub⟩
        show d.graph.adj fid = pre ++ [n] ++ ns
        rw [hpre']
        simp
      · exact hC1 f' (by rw [hst]; exact List.mem_cons_of_mem _ hmem)
    · intro f' hf' c' hc'
      rcases List.mem_cons.mp hf' with rfl | hmem
      · injection hc' with hc'
        rw [← hc']
        exact hold
      · exact hC2a f' (by rw [hst]; exact List.mem_cons_of_mem _ hmem) c' hc'
    · intro v hv
      rcases hC3 v hv with hin | hcl
      · left
        rw [hst] at hin
        simp only [idsOf, List.map_cons] at hin ⊢
        exact hin
      · right
        exact hcl
  -- beginENew
  · have hC2a : ∀ f' ∈ d.stack, ∀ c', f'.current_neighbour = some c' → c' ∈ d.explored := by
      rcases hC2 with h' | ⟨c0, rest2, hsteq, hc0, hrest⟩
      · exact h'
      · exfalso
        rw [hst] at hsteq
        injection hsteq with h1 h2
        have hfc : fid = c0 := congrArg Frame.id h1
        exact hc0 (hfc ▸ hf)
    have hreach_fid : d.graph.Reaches r fid :=
      hR2 ⟨fid, none, n :: ns, false⟩ (by rw [hst]; exact List.mem_cons_self _ _)
    obtain ⟨pre, hpre, hsub⟩ :=
      hC1 ⟨fid, none, n :: ns, false⟩ (by rw [hst]; exact List.mem_cons_self _ _)
    have hpre' : d.graph.adj fid = pre ++ (n :: ns) := by simpa using hpre
    have hstep : d.graph.Step fid n := by
      unfold Graph.Step
      rw [hpre']
      simp
    have hreach_n : d.graph.Reaches r n := Relation.ReflTransGen.tail hreach_fid hstep
    refine ⟨hR1, ?_, ?_, Or.inr ⟨n, ⟨fid, some n, ns, false⟩ :: rest, rfl, hnew, ?_⟩, ?_⟩
    · intro f' hf'
      rcases List.mem_cons.mp hf' with rfl | hmem
      · exact hreach_n
      · rcases List.mem_cons.mp hmem with rfl | hmem2
        · exact hreach_fid
        · exact hR2 f' (by rw [hst]; exact List.mem_cons_of_mem _ hmem2)
    · intro f' hf'
      rcases List.mem_cons.mp hf' with rfl | hmem
      · exact ⟨[], by simp [Frame.fromId, Graph.adj], by simp⟩
      · rcases List.mem_cons.mp hmem with rfl | hmem2
        · refine ⟨pre, ?_, hsub⟩
          show d.graph.adj fid = pre ++ [n] ++ ns
          rw [hpre']
          simp
        · exact hC1 f' (by rw [hst]; exact List.mem_cons_of_mem _ hmem2)
    · intro f' hf' c' hc'
      rcases List.mem_cons.mp hf' with rfl | hmem
      · injection hc' with hc'
        right
        exact hc'.symm
      · left
        exact hC2a f' (by rw [hst]; exact List.mem_cons_of_mem _ hmem) c' hc'
    · intro v hv
      rcases hC3 v hv with hin | hcl
      · left
        rw [hst] at hin
        simp only [idsOf, List.map_cons] at hin ⊢
        exact List.mem_cons_of_mem _ hin
      · right
        exact hcl
  -- endEOld
  · have hC2a : ∀ f' ∈ d.stack, ∀ c', f'.current_neighbour = some c' → c' ∈ d.explored := by
      rcases hC2 with h' | ⟨c0, rest2, hsteq, hc0, hrest⟩
      · exact h'
      · exfalso
        rw [hst] at hsteq
        injection hsteq with h1 h2
        have hfc : fid = c0 := congrArg Frame.id h1
        exact hc0 (hfc ▸ hf)
    have hcex : c ∈ d.explored :=
      hC2a ⟨fid, some c, n :: ns, false⟩ (by rw [hst]; exact List.mem_cons_self _ _) c rfl
    refine ⟨hR1, ?_, ?_, Or.inl ?_, ?_⟩
    · intro f' hf'
      rcases List.mem_cons.mp hf' with rfl | hmem
      · exact hR2 ⟨fid, some c, n :: ns, false⟩ (by rw [hst]; exact List.mem_cons_self _ _)
      · exact hR2 f' (by rw [hst]; exact List.mem_cons_of_mem _ hmem)
    · intro f' hf'
      rcases List.mem_cons.mp hf' with rfl | hmem
      · obtain ⟨pre, hpre, hsub⟩ :=
          hC1 ⟨fid, some c, n :: ns, false⟩ (by rw [hst]; exact List.mem_cons_self _ _)
        have hpre' : d.graph.adj fid = pre ++ [c] ++ (n :: ns) := hpre
        refine ⟨pre ++ [c], ?_, ?_⟩
        · show d.graph.adj fid = pre ++ [c] ++ [n] ++ ns
          rw [hpre']
          simp
        · intro x hx
          rcases List.mem_append.mp hx with h' | h'
          · exact hsub x h'
          · rw [List.mem_singleton.mp h']
            exact hcex
      · exact hC1 f' (by rw [hst]; exact List.mem_cons_of_mem _ hmem)
    · intro f' hf' c' hc'
      rcases List.mem_cons.mp hf' with rfl | hmem
      · injection hc' with hc'
        rw [← hc']
        exact hold
      · exact hC2a f' (by rw [hst]; exact List.mem_cons_of_mem _ hmem) c' hc'
    · intro v hv
      rcases hC3 v hv with hin | hcl
      · left
        rw [hst] at hin
        simp only [idsOf, List.map_cons] at hin ⊢
        exact hin
      · right
        exact hcl
  -- endENew
  · have hC2a : ∀ f' ∈ d.stack, ∀ c', f'.current_neighbour = some c' → c' ∈ d.explored := by
      rcases hC2 with h' | ⟨c0, rest2, hsteq, hc0, hrest⟩
      · exact h'
      · exfalso
        rw [hst] at hsteq
        injection hsteq with h1 h2
        have hfc : fid = c0 := congrArg Frame.id h1
        exact hc0 (hfc ▸ hf)
    have hcex : c ∈ d.explored :=
      hC2a ⟨fid, some c, n :: ns, false⟩ (by rw [hst]; exact List.mem_cons_self _ _) c rfl
    have hreach_fid : d.graph.Reaches r fid :=
      hR2 ⟨fid, some c, n :: ns, false⟩ (by rw [hst]; exact List.mem_cons_self _ _)
    obtain ⟨pre, hpre, hsub⟩ :=
      hC1 ⟨fid, some c, n :: ns, false⟩ (by rw [hst]; exact List.mem_cons_self _ _)
    have hpre' : d.graph.adj fid = pre ++ [c] ++ (n :: ns) := hpre
    have hstep : d.graph.Step fid n := by
      unfold Graph.Step
      rw [hpre']
      simp
    have hreach_n : d.graph.Reaches r n := Relation.ReflTransGen.tail hreach_fid hstep
    refine ⟨hR1, ?_, ?_, Or.inr ⟨n, ⟨fid, some n, ns, false⟩ :: rest, rfl, hnew, ?_⟩, ?_⟩
    · intro f' hf'
      rcases List.mem_cons.mp hf' with rfl | hmem
      · exact hreach_n
      · rcases List.mem_cons.mp hmem with rfl | hmem2
        · exact hreach_fid
        · exact hR2 f' (by rw [hst]; exact List.mem_cons_of_mem _ hmem2)
    · intro f' hf'
      rcases List.mem_cons.mp hf' with rfl | hmem
      · exact ⟨[], by simp [Frame.fromId, Graph.adj], by simp⟩
      · rcases List.mem_cons.mp hmem with rfl | hmem2
        · refine ⟨pre ++ [c], ?_, ?_⟩
          · show d.graph.adj fid = pre ++ [c] ++ [n] ++ ns
            rw [hpre']
            simp
          · intro x hx
            rcases List.mem_append.mp hx with h' | h'
            · exact hsub x h'
            · rw [List.mem_singleton.mp h']
              exact hcex
        · exact hC1 f' (by rw [hst]; exact List.mem_cons_of_mem _ hmem2)
    · intro f' hf' c' hc'
      rcases List.mem_cons.mp hf' with rfl | hmem
      · injection hc' with hc'
        right
        exact hc'.symm
      · left
        exact hC2a f' (by rw [hst]; exact List.mem_cons_of_mem _ hmem) c' hc'
    · intro v hv
      rcases hC3 v hv with hin | hcl
      · left
        rw [hst] at hin
        simp only [idsOf, List.map_cons] at hin ⊢
        exact List.mem_cons_of_mem _ hin
      · right
        exact hcl

theorem index_lt_of_some {α : Type} {l : List α} {n : Nat} {a : α}
    (h : l[n]? = some a) : n < l.length := by
  rw [List.getElem?_eq_some_iff] at h
  exact h.1

theorem count_take_add_drop (l : List DFSEntry) (a : DFSEntry) (k : Nat) :
    l.count a = (l.take k).count a + (l.drop k).count a := by
  conv_lhs => rw [← List.take_append_drop k l]
  rw [List.count_append]

theorem count_pos_of_index {l : List DFSEntry} {a : DFSEntry} {m : Nat}
    (h : l[m]? = some a) : 1 ≤ l.count a := by
  have hm : a ∈ l := mem_of_index h
  have := List.count_pos_iff.mpr hm
  omega

theorem count_take_of_index {l : List DFSEntry} {a : DFSEntry} {m k : Nat}
    (h : l[m]? = some a) (hmk : m < k) : 1 ≤ (l.take k).count a := by
  apply count_pos_of_index (m := m)
  rw [List.getElem?_take, if_pos hmk]
  exact h

theorem count_drop_of_index {l : List DFSEntry} {a : DFSEntry} {m k : Nat}
    (h : l[m]? = some a) (hkm : k ≤ m) : 1 ≤ (l.drop k).count a := by
  apply count_pos_of_index (m := m - k)
  rw [List.getElem?_drop]
  rw [show k + (m - k) = m by omega]
  exact h

theorem Discover_concat {u v : VertexId} {l : List DFSEntry} {e : DFSEntry} {i : Nat}
    (h : Discover u v (l ++ [e]) i) :
    Discover u v l i ∨
      (i + 1 = l.length ∧ e = DFSEntry.BeginVertex v ∧
        l[i]? = some (DFSEntry.BeginEdge (u, v))) := by
  obtain ⟨h1, h2⟩ := h
  rcases Nat.lt_trichotomy (i + 1) l.length with hlt | heq | hgt
  · left
    constructor
    · rw [List.getElem?_append, if_pos (by omega)] at h1
      exact h1
    · rw [List.getElem?_append, if_pos hlt] at h2
      exact h2
  · right
    refine ⟨heq, ?_, ?_⟩
    · rw [heq, List.getElem?_concat_length] at h2
      injection h2 with h2
    · rw [List.getElem?_append, if_pos (by omega)] at h1
      exact h1
  · exfalso
    rw [List.getElem?_eq_none (by simp; omega)] at h2
    exact Option.noConfusion h2

theorem PropD_concat {u v : VertexId} {l : List DFSEntry} {e : DFSEntry}
    (hP : PropD u v l)
    (hEE : e = DFSEntry.EndEdge (u, v) →
      ∀ i, Discover u v l i → ∃ m, i < m ∧ l[m]? = some (DFSEntry.EndVertex v)) :
    PropD u v (l ++ [e]) := by
  intro i j hdisc hij hj
  rcases Discover_concat hdisc with hd | ⟨hi1, he, hbe⟩
  · rcases Nat.lt_or_ge j l.length with hjl | hjl
    · have hj' : l[j]? = some (DFSEntry.EndEdge (u, v)) := by
        rw [List.getElem?_append, if_pos hjl] at hj
        exact hj
      obtain ⟨m, hm1, hm2, hm3⟩ := hP i j hd hij hj'
      refine ⟨m, hm1, hm2, ?_⟩
      rw [List.getElem?_append, if_pos (index_lt_of_some hm3)]
      exact hm3
    · have hjlen : j = l.length := by
        have hlt := index_lt_of_some hj
        simp only [List.length_append, List.length_cons, List.length_nil] at hlt
        omega
      have he' : e = DFSEntry.EndEdge (u, v) := by
        rw [hjlen, List.getElem?_concat_length] at hj
        injection hj with h'
      obtain ⟨m, hm1, hm3⟩ := hEE he' i hd
      have hmlen : m < l.length := index_lt_of_some hm3
      refine ⟨m, hm1, by omega, ?_⟩
      rw [List.getElem?_append, if_pos hmlen]
      exact hm3
  · have hjlt : j < l.length + 1 := by
      have := index_lt_of_some hj
      simpa using this
    have hji : j = i + 1 := by omega
    rw [hji, hi1, List.getElem?_concat_length, he] at hj
    exact absurd hj (by simp)

theorem pendCount_pos {u t : VertexId} {st : List Frame} {f : Frame}
    (hf : f ∈ st) (hid : f.id = u) (hc : f.current_neighbour = some t) :
    1 ≤ pendCount u t st := by
  unfold pendCount
  have hmem : f ∈ st.filter (fun f => f.id == u && f.current_neighbour == some t) :=
    List.mem_filter.mpr ⟨hf, by simp [hid, hc]⟩
  have := List.length_pos.mpr (List.ne_nil_of_mem hmem)
  omega

theorem PrefOK_of_TraceInv (tr : List DFSEntry) (d : DepthFirst)
    (h : TraceInv tr d) : PrefOK tr := by
  obtain ⟨hqs, hBV, hEV, hE, hBEex⟩ := h
  constructor
  · intro v
    have h1 := hBV v
    have h2 := hEV v
    have hq0 : (d.output_queue.reverse).count (DFSEntry.BeginVertex v) = 0 := by
      rcases hqs with hq | ⟨x, hq⟩ | ⟨u0, t0, hq, -⟩ <;> rw [hq] <;> simp
    have hsplitBV : (tree.vtrace tr d).count (DFSEntry.BeginVertex v)
        = tr.count (DFSEntry.BeginVertex v)
          + (d.output_queue.reverse).count (DFSEntry.BeginVertex v) := by
      unfold tree.vtrace
      rw [List.count_append]
    have hle : tr.count (DFSEntry.EndVertex v)
        ≤ (tree.vtrace tr d).count (DFSEntry.EndVertex v) := by
      unfold tree.vtrace
      rw [List.count_append]
      omega
    by_cases hv : v ∈ d.explored
    · rw [if_pos hv] at h1
      have hb : (if v ∈ d.explored ∧ v ∉ idsOf d.stack then 1 else 0) ≤ 1 := by
        split <;> omega
      omega
    · rw [if_neg hv] at h1
      rw [if_neg (by simp [hv])] at h2
      omega
  · intro u t
    have hEut := hE u t
    have hqEE : (d.output_queue.reverse).count (DFSEntry.EndEdge (u, t)) = 0 := by
      rcases hqs with hq | ⟨x, hq⟩ | ⟨u0, t0, hq, -⟩ <;> rw [hq] <;> simp
    have hsplitBE : (tree.vtrace tr d).count (DFSEntry.BeginEdge (u, t))
        = tr.count (DFSEntry.BeginEdge (u, t))
          + (d.output_queue.reverse).count (DFSEntry.BeginEdge (u, t)) := by
      unfold tree.vtrace
      rw [List.count_append]
    have hsplitEE : (tree.vtrace tr d).count (DFSEntry.EndEdge (u, t))
        = tr.count (DFSEntry.EndEdge (u, t))
          + (d.output_queue.reverse).count (DFSEntry.EndEdge (u, t)) := by
      unfold tree.vtrace
      rw [List.count_append]
    rcases hqs with hq | ⟨x, hq⟩ | ⟨u0, t0, hq, f0, hf0, hfid, hfc⟩
    · rw [hq] at hsplitBE
      simp only [List.reverse_nil, List.count_nil] at hsplitBE
      omega
    · rw [hq] at hsplitBE
      have hz : ([DFSEntry.EndVertex x].reverse).count (DFSEntry.BeginEdge (u, t)) = 0 := by
        simp
      omega
    · rw [hq] at hsplitBE
      by_cases hut : DFSEntry.BeginEdge (u0, t0) = DFSEntry.BeginEdge (u, t)
      · injection hut with h'
        injection h' with hu ht
        subst hu
        subst ht
        have hpend : 1 ≤ pendCount u0 t0 d.stack := pendCount_pos hf0 hfid hfc
        have hone : ([DFSEntry.BeginEdge (u0, t0)].reverse).count
            (DFSEntry.BeginEdge (u0, t0)) = 1 := by simp
        omega
      · have hz : ([DFSEntry.BeginEdge (u0, t0)].reverse).count
            (DFSEntry.BeginEdge (u, t)) = 0 := by
          simp only [List.reverse_cons, List.reverse_nil, List.nil_append]
          rw [List.count_singleton]
          simp [hut]
        omega

theorem vtrace_on (g : Graph) (r : VertexId) :
    tree.vtrace [] (DepthFirst.on g r) = [] := by
  unfold tree.vtrace DepthFirst.on
  split <;> rfl

theorem LInv_on (g : Graph) (r : VertexId) : LInv [] (DepthFirst.on g r) := by
  intro u w hlast hw
  rw [vtrace_on] at hlast
  simp at hlast

theorem DInv_on (g : Graph) (r : VertexId) : ∀ u v, DInv u v [] (DepthFirst.on g r) := by
  intro u v hdisc hcnt
  exfalso
  obtain ⟨i, hd⟩ := hdisc
  have hd1 := hd.1
  rw [vtrace_on] at hd1
  simp at hd1

theorem LInv_next (tr : List DFSEntry) (d : DepthFirst) (hinv : Inv d)
    (hl : LInv tr d) (e : DFSEntry) (d' : DepthFirst)
    (h : d.next = (some e, d')) : LInv (tr ++ [e]) d' := by
  obtain ⟨hdrop, hnodup, htail, hfresh, hbound, hexb⟩ := hinv
  rcases next_spec d hdrop with
    ⟨e0, q0, hq, hn⟩ | ⟨hst, hq, hn⟩ | ⟨f, rest, hst, hq, hf, hn⟩ |
    ⟨fid, rest, hst, hq, hf, hn⟩ | ⟨fid, c, rest, hst, hq, hf, hn⟩ |
    ⟨fid, n, ns, rest, hst, hq, hf, hold, hn⟩ |
    ⟨fid, n, ns, rest, hst, hq, hf, hnew, hn⟩ |
    ⟨fid, c, n, ns, rest, hst, hq, hf, hold, hn⟩ |
    ⟨fid, c, n, ns, rest, hst, hq, hf, hnew, hn⟩ <;>
    rw [h] at hn <;> (injection hn with hn1 hn2)
  -- queuePop
  · injection hn1 with hn1
    rw [hn1, hn2]
    intro u w hlast hw
    have hveq : tree.vtrace (tr ++ [e0]) { d with output_queue := q0 }
        = tree.vtrace tr d := by
      unfold tree.vtrace
      rw [hq]
      simp
    rw [hveq] at hlast
    exact hl u w hlast hw
  -- finished
  · exact absurd hn1 (by simp)
  -- beginV
  · injection hn1 with hn1
    subst hn1
    subst hn2
    intro u w hlast hw
    have hvpost : tree.vtrace (tr ++ [DFSEntry.BeginVertex f.id])
        (⟨d.graph, f :: rest, f.id :: d.explored, []⟩ : DepthFirst)
        = tr ++ [DFSEntry.BeginVertex f.id] := by
      unfold tree.vtrace
      simp
    rw [hvpost, List.getLast?_concat] at hlast
    exact absurd hlast (by simp)
  -- endV
  · injection hn1 with hn1
    subst hn1
    subst hn2
    intro u w hlast hw
    have hvpost : tree.vtrace (tr ++ [DFSEntry.EndVertex fid])
        (⟨d.graph, rest, d.explored, []⟩ : DepthFirst)
        = tr ++ [DFSEntry.EndVertex fid] := by
      unfold tree.vtrace
      simp
    rw [hvpost, List.getLast?_concat] at hlast
    exact absurd hlast (by simp)
  -- endELast
  · injection hn1 with hn1
    subst hn1
    subst hn2
    intro u w hlast hw
    have hvpost : tree.vtrace (tr ++ [DFSEntry.EndEdge (fid, c)])
        (⟨d.graph, rest, d.explored, [DFSEntry.EndVertex fid]⟩ : DepthFirst)
        = (tr ++ [DFSEntry.EndEdge (fid, c)]) ++ [DFSEntry.EndVertex fid] := by
      unfold tree.vtrace
      simp
    rw [hvpost, List.getLast?_concat] at hlast
    exact absurd hlast (by simp)
  -- beginEOld
  · injection hn1 with hn1
    subst hn1
    subst hn2
    intro u w hlast hw
    have hvpost : tree.vtrace (tr ++ [DFSEntry.BeginEdge (fid, n)])
        (⟨d.graph, ⟨fid, some n, ns, false⟩ :: rest, d.explored, []⟩ : DepthFirst)
        = tr ++ [DFSEntry.BeginEdge (fid, n)] := by
      unfold tree.vtrace
      simp
    rw [hvpost, List.getLast?_concat] at hlast
    injection hlast with h1
    injection h1 with h2
    injection h2 with hfn hnw
    exact absurd (hnw ▸ hold) hw
  -- beginENew
  · injection hn1 with hn1
    subst hn1
    subst hn2
    intro u w hlast hw
    have hvpost : tree.vtrace (tr ++ [DFSEntry.BeginEdge (fid, n)])
        (⟨d.graph, Frame.fromId n d.graph :: ⟨fid, some n, ns, false⟩ :: rest,
          d.explored, []⟩ : DepthFirst)
        = tr ++ [DFSEntry.BeginEdge (fid, n)] := by
      unfold tree.vtrace
      simp
    rw [hvpost, List.getLast?_concat] at hlast
    injection hlast with h1
    injection h1 with h2
    injection h2 with hfn hnw
    subst hfn
    subst hnw
    exact ⟨_, _, rfl, rfl, rfl⟩
  -- endEOld
  · injection hn1 with hn1
    subst hn1
    subst hn2
    intro u w hlast hw
    have hvpost : tree.vtrace (tr ++ [DFSEntry.EndEdge (fid, c)])
        (⟨d.graph, ⟨fid, some n, ns, false⟩ :: rest, d.explored,
          [DFSEntry.BeginEdge (fid, n)]⟩ : DepthFirst)
        = (tr ++ [DFSEntry.EndEdge (fid, c)]) ++ [DFSEntry.BeginEdge (fid, n)] := by
      unfold tree.vtrace
      simp
    rw [hvpost, List.getLast?_concat] at hlast
    injection hlast with h1
    injection h1 with h2
    injection h2 with hfn hnw
    exact absurd (hnw ▸ hold) hw
  -- endENew
  · injection hn1 with hn1
    subst hn1
    subst hn2
    intro u w hlast hw
    have hvpost : tree.vtrace (tr ++ [DFSEntry.EndEdge (fid, c)])
        (⟨d.graph, Frame.fromId n d.graph :: ⟨fid, some n, ns, false⟩ :: rest,
          d.explored, [DFSEntry.BeginEdge (fid, n)]⟩ : DepthFirst)
        = (tr ++ [DFSEntry.EndEdge (fid, c)]) ++ [DFSEntry.BeginEdge (fid, n)] := by
      unfold tree.vtrace
      simp
    rw [hvpost, List.getLast?_concat] at hlast
    injection hlast with h1
    injection h1 with h2
    injection h2 with hfn hnw
    subst hfn
    subst hnw
    exact ⟨_, _, rfl, rfl, rfl⟩

theorem DInv_next (tr : List DFSEntry) (d : DepthFirst) (hinv : Inv d)
    (hl : LInv tr d) (hD : ∀ u v, DInv u v tr d) (e : DFSEntry) (d' : DepthFirst)
    (h : d.next = (some e, d')) : ∀ u v, DInv u v (tr ++ [e]) d' := by
  obtain ⟨hdrop, hnodup, htail, hfresh, hbound, hexb⟩ := hinv
  intro u v
  rcases next_spec d hdrop with
    ⟨e0, q0, hq, hn⟩ | ⟨hst, hq, hn⟩ | ⟨f, rest, hst, hq, hf, hn⟩ |
    ⟨fid, rest, hst, hq, hf, hn⟩ | ⟨fid, c, rest, hst, hq, hf, hn⟩ |
    ⟨fid, n, ns, rest, hst, hq, hf, hold, hn⟩ |
    ⟨fid, n, ns, rest, hst, hq, hf, hnew, hn⟩ |
    ⟨fid, c, n, ns, rest, hst, hq, hf, hold, hn⟩ |
    ⟨fid, c, n, ns, rest, hst, hq, hf, hnew, hn⟩ <;>
    rw [h] at hn <;> (injection hn with hn1 hn2)
  -- queuePop
  · injection hn1 with hn1
    rw [hn1, hn2]
    intro hdisc hcnt
    have hveq : tree.vtrace (tr ++ [e0]) { d with output_queue := q0 }
        = tree.vtrace tr d := by
      unfold tree.vtrace
      rw [hq]
      simp
    rw [hveq] at hdisc hcnt
    exact hD u v hdisc hcnt
  -- finished
  · exact absurd hn1 (by simp)
  -- beginV
  · injection hn1 with hn1
    subst hn1
    subst hn2
    intro hdisc hcnt
    have hvpre : tree.vtrace tr d = tr := by
      unfold tree.vtrace
      rw [hq]
      simp
    have hvpost : tree.vtrace (tr ++ [DFSEntry.BeginVertex f.id])
        (⟨d.graph, f :: rest, f.id :: d.explored, []⟩ : DepthFirst)
        = tr ++ [DFSEntry.BeginVertex f.id] := by
      unfold tree.vtrace
      simp
    rw [hvpost] at hdisc hcnt
    have hcnt' : tr.count (DFSEntry.EndVertex v) = 0 := by
      rw [count_append_single] at hcnt
      omega
    obtain ⟨i, hdi⟩ := hdisc
    rcases Discover_concat hdi with hd | ⟨hi1, he, hbe⟩
    · obtain ⟨A, fD, B, hsp, hid, hcur, hvA⟩ :=
        hD u v (by rw [hvpre]; exact ⟨i, hd⟩) (by rw [hvpre]; exact hcnt')
      refine ⟨A, fD, B, ?_, hid, hcur, hvA⟩
      show f :: rest = A ++ fD :: B
      rw [← hst]
      exact hsp
    · injection he with hfv
      have hlastBE : tr.getLast? = some (DFSEntry.BeginEdge (u, v)) := by
        rw [List.getLast?_eq_getElem?]
        rw [show tr.length - 1 = i by
          have := index_lt_of_some hbe
          omega]
        exact hbe
      obtain ⟨fu, rest', hstk, hfuid, hfucur⟩ :=
        hl u v (by rw [hvpre]; exact hlastBE) (by rw [← hfv]; exact hf)
      refine ⟨[Frame.fromId v d.graph], fu, rest', ?_, hfuid, hfucur, ?_⟩
      · show f :: rest = [Frame.fromId v d.graph] ++ fu :: rest'
        rw [← hst]
        simpa using hstk
      · simp [idsOf, Frame.fromId]
  -- endV
  · injection hn1 with hn1
    subst hn1
    subst hn2
    intro hdisc hcnt
    have hvpre : tree.vtrace tr d = tr := by
      unfold tree.vtrace
      rw [hq]
      simp
    have hvpost : tree.vtrace (tr ++ [DFSEntry.EndVertex fid])
        (⟨d.graph, rest, d.explored, []⟩ : DepthFirst)
        = tr ++ [DFSEntry.EndVertex fid] := by
      unfold tree.vtrace
      simp
    rw [hvpost] at hdisc hcnt
    have hvfid : v ≠ fid := by
      intro hvf
      rw [hvf, count_append_single] at hcnt
      simp at hcnt
    have hcnt' : tr.count (DFSEntry.EndVertex v) = 0 := by
      rw [count_append_single] at hcnt
      omega
    obtain ⟨i, hdi⟩ := hdisc
    rcases Discover_concat hdi with hd | ⟨-, he, -⟩
    · obtain ⟨A, fD, B, hsp, hid, hcur, hvA⟩ :=
        hD u v (by rw [hvpre]; exact ⟨i, hd⟩) (by rw [hvpre]; exact hcnt')
      rw [hst] at hsp
      cases A with
      | nil =>
        exfalso
        simp [idsOf] at hvA
      | cons a A' =>
        rw [List.cons_append] at hsp
        injection hsp with h1 h2
        refine ⟨A', fD, B, h2, hid, hcur, ?_⟩
        simp only [idsOf, List.map_cons, List.mem_cons] at hvA ⊢
        rcases hvA with h' | h'
        · exfalso
          rw [← h1] at h'
          exact hvfid (by simpa using h')
        · exact h'
    · exact absurd he (by simp)
  -- endELast
  · injection hn1 with hn1
    subst hn1
    subst hn2
    intro hdisc hcnt
    have hvpre : tree.vtrace tr d = tr := by
      unfold tree.vtrace
      rw [hq]
      simp
    have hvpost : tree.vtrace (tr ++ [DFSEntry.EndEdge (fid, c)])
        (⟨d.graph, rest, d.explored, [DFSEntry.EndVertex fid]⟩ : DepthFirst)
        = (tr ++ [DFSEntry.EndEdge (fid, c)]) ++ [DFSEntry.EndVertex fid] := by
      unfold tree.vtrace
      simp
    rw [hvpost] at hdisc hcnt
    have hvfid : v ≠ fid := by
      intro hvf
      have hpos := count_pos_of_index
        (l := (tr ++ [DFSEntry.EndEdge (fid, c)]) ++ [DFSEntry.EndVertex fid])
        (m := (tr ++ [DFSEntry.EndEdge (fid, c)]).length)
        (a := DFSEntry.EndVertex fid) (by rw [List.getElem?_concat_length])
      rw [hvf] at hcnt
      omega
    have hcnt' : tr.count (DFSEntry.EndVertex v) = 0 := by
      rw [List.count_append, List.count_append] at hcnt
      omega
    obtain ⟨i, hdi⟩ := hdisc
    rcases Discover_concat hdi with hd2 | ⟨-, he, -⟩
    swap
    · exact absurd he (by simp)
    rcases Discover_concat hd2 with hd | ⟨-, he, -⟩
    swap
    · exact absurd he (by simp)
    obtain ⟨A, fD, B, hsp, hid, hcur, hvA⟩ :=
      hD u v (by rw [hvpre]; exact ⟨i, hd⟩) (by rw [hvpre]; exact hcnt')
    rw [hst] at hsp
    cases A with
    | nil =>
      exfalso
      simp [idsOf] at hvA
    | cons a A' =>
      rw [List.cons_append] at hsp
      injection hsp with h1 h2
      refine ⟨A', fD, B, h2, hid, hcur, ?_⟩
      simp only [idsOf, List.map_cons, List.mem_cons] at hvA ⊢
      rcases hvA with h' | h'
      · exfalso
        rw [← h1] at h'
        exact hvfid (by simpa using h')
      · exact h'
  -- beginEOld
  · injection hn1 with hn1
    subst hn1
    subst hn2
    intro hdisc hcnt
    have hvpre : tree.vtrace tr d = tr := by
      unfold tree.vtrace
      rw [hq]
      simp
    have hvpost : tree.vtrace (tr ++ [DFSEntry.BeginEdge (fid, n)])
        (⟨d.graph, ⟨fid, some n, ns, false⟩ :: rest, d.explored, []⟩ : DepthFirst)
        = tr ++ [DFSEntry.BeginEdge (fid, n)] := by
      unfold tree.vtrace
      simp
    rw [hvpost] at hdisc hcnt
    have hcnt' : tr.count (DFSEntry.EndVertex v) = 0 := by
      rw [count_append_single] at hcnt
      omega
    obtain ⟨i, hdi⟩ := hdisc
    rcases Discover_concat hdi with hd | ⟨-, he, -⟩
    swap
    · exact absurd he (by simp)
    obtain ⟨A, fD, B, hsp, hid, hcur, hvA⟩ :=
      hD u v (by rw [hvpre]; exact ⟨i, hd⟩) (by rw [hvpre]; exact hcnt')
    rw [hst] at hsp
    cases A with
    | nil =>
      exfalso
      simp only [List.nil_append] at hsp
      injection hsp with h1 h2
      rw [← h1] at hcur
      exact Option.noConfusion hcur
    | cons a A' =>
      rw [List.cons_append] at hsp
      injection hsp with h1 h2
      refine ⟨⟨fid, some n, ns, false⟩ :: A', fD, B, ?_, hid, hcur, ?_⟩
      · show (⟨fid, some n, ns, false⟩ : Frame) :: rest
            = ((⟨fid, some n, ns, false⟩ : Frame) :: A') ++ fD :: B
        rw [List.cons_append, h2]
      · simp only [idsOf, List.map_cons, List.mem_cons] at hvA ⊢
        rcases hvA with h' | h'
        · left
          rw [← h1] at h'
          exact h'
        · right
          exact h'
  -- beginENew
  · injection hn1 with hn1
    subst hn1
    subst hn2
    intro hdisc hcnt
    have hvpre : tree.vtrace tr d = tr := by
      unfold tree.vtrace
      rw [hq]
      simp
    have hvpost : tree.vtrace (tr ++ [DFSEntry.BeginEdge (fid, n)])
        (⟨d.graph, Frame.fromId n d.graph :: ⟨fid, some n, ns, false⟩ :: rest,
          d.explored, []⟩ : DepthFirst)
        = tr ++ [DFSEntry.BeginEdge (fid, n)] := by
      unfold tree.vtrace
      simp
    rw [hvpost] at hdisc hcnt
    have hcnt' : tr.count (DFSEntry.EndVertex v) = 0 := by
      rw [count_append_single] at hcnt
      omega
    obtain ⟨i, hdi⟩ := hdisc
    rcases Discover_concat hdi with hd | ⟨-, he, -⟩
    swap
    · exact absurd he (by simp)
    obtain ⟨A, fD, B, hsp, hid, hcur, hvA⟩ :=
      hD u v (by rw [hvpre]; exact ⟨i, hd⟩) (by rw [hvpre]; exact hcnt')
    rw [hst] at hsp
    cases A with
    | nil =>
      exfalso
      simp only [List.nil_append] at hsp
      injection hsp with h1 h2
      rw [← h1] at hcur
      exact Option.noConfusion hcur
    | cons a A' =>
      rw [List.cons_append] at hsp
      injection hsp with h1 h2
      refine ⟨Frame.fromId n d.graph :: ⟨fid, some n, ns, false⟩ :: A', fD, B,
        ?_, hid, hcur, ?_⟩
      · show Frame.fromId n d.graph :: (⟨fid, some n, ns, false⟩ : Frame) :: rest
            = (Frame.fromId n d.graph :: (⟨fid, some n, ns, false⟩ : Frame) :: A')
              ++ fD :: B
        rw [List.cons_append, List.cons_append, h2]
      · simp only [idsOf, List.map_cons, List.mem_cons] at hvA ⊢
        rcases hvA with h' | h'
        · right
          left
          rw [← h1] at h'
          exact h'
        · right
          right
          exact h'
  -- endEOld
  · injection hn1 with hn1
    subst hn1
    subst hn2
    intro hdisc hcnt
    have hvpre : tree.vtrace tr d = tr := by
      unfold tree.vtrace
      rw [hq]
      simp
    have hvpost : tree.vtrace (tr ++ [DFSEntry.EndEdge (fid, c)])
        (⟨d.graph, ⟨fid, some n, ns, false⟩ :: rest, d.explored,
          [DFSEntry.BeginEdge (fid, n)]⟩ : DepthFirst)
        = (tr ++ [DFSEntry.EndEdge (fid, c)]) ++ [DFSEntry.BeginEdge (fid, n)] := by
      unfold tree.vtrace
      simp
    rw [hvpost] at hdisc hcnt
    have hcnt' : tr.count (DFSEntry.EndVertex v) = 0 := by
      rw [List.count_append, List.count_append] at hcnt
      omega
    obtain ⟨i, hdi⟩ := hdisc
    rcases Discover_concat hdi with hd2 | ⟨-, he, -⟩
    swap
    · exact absurd he (by simp)
    rcases Discover_concat hd2 with hd | ⟨-, he, -⟩
    swap
    · exact absurd he (by simp)
    obtain ⟨A, fD, B, hsp, hid, hcur, hvA⟩ :=
      hD u v (by rw [hvpre]; exact ⟨i, hd⟩) (by rw [hvpre]; exact hcnt')
    rw [hst] at hsp
    cases A with
    | nil =>
      exfalso
      simp [idsOf] at hvA
    | cons a A' =>
      rw [List.cons_append] at hsp
      injection hsp with h1 h2
      refine ⟨⟨fid, some n, ns, false⟩ :: A', fD, B, ?_, hid, hcur, ?_⟩
      · show (⟨fid, some n, ns, false⟩ : Frame) :: rest
            = ((⟨fid, some n, ns, false⟩ : Frame) :: A') ++ fD :: B
        rw [List.cons_append, h2]
      · simp only [idsOf, List.map_cons, List.mem_cons] at hvA ⊢
        rcases hvA with h' | h'
        · left
          rw [← h1] at h'
          exact h'
        · right
          exact h'
  -- endENew
  · injection hn1 with hn1
    subst hn1
    subst hn2
    intro hdisc hcnt
    have hvpre : tree.vtrace tr d = tr := by
      unfold tree.vtrace
      rw [hq]
      simp
    have hvpost : tree.vtrace (tr ++ [DFSEntry.EndEdge (fid, c)])
        (⟨d.graph, Frame.fromId n d.graph :: ⟨fid, some n, ns, false⟩ :: rest,
          d.explored, [DFSEntry.BeginEdge (fid, n)]⟩ : DepthFirst)
        = (tr ++ [DFSEntry.EndEdge (fid, c)]) ++ [DFSEntry.BeginEdge (fid, n)] := by
      unfold tree.vtrace
      simp
    rw [hvpost] at hdisc hcnt
    have hcnt' : tr.count (DFSEntry.EndVertex v) = 0 := by
      rw [List.count_append, List.count_append] at hcnt
      omega
    obtain ⟨i, hdi⟩ := hdisc
    rcases Discover_concat hdi with hd2 | ⟨-, he, -⟩
    swap
    · exact absurd he (by simp)
    rcases Discover_concat hd2 with hd | ⟨-, he, -⟩
    swap
    · exact absurd he (by simp)
    obtain ⟨A, fD, B, hsp, hid, hcur, hvA⟩ :=
      hD u v (by rw [hvpre]; exact ⟨i, hd⟩) (by rw [hvpre]; exact hcnt')
    rw [hst] at hsp
    cases A with
    | nil =>
      exfalso
      simp [idsOf] at hvA
    | cons a A' =>
      rw [List.cons_append] at hsp
      injection hsp with h1 h2
      refine ⟨Frame.fromId n d.graph :: ⟨fid, some n, ns, false⟩ :: A', fD, B,
        ?_, hid, hcur, ?_⟩
      · show Frame.fromId n d.graph :: (⟨fid, some n, ns, false⟩ : Frame) :: rest
            = (Frame.fromId n d.graph :: (⟨fid, some n, ns, false⟩ : Frame) :: A')
              ++ fD :: B
        rw [List.cons_append, List.cons_append, h2]
      · simp only [idsOf, List.map_cons, List.mem_cons] at hvA ⊢
        rcases hvA with h' | h'
        · right
          left
          rw [← h1] at h'
          exact h'
        · right
          right
          exact h'

theorem discharge_EE (tr : List DFSEntry) (d : DepthFirst)
    (hnodup : (d.stack.map Frame.id).Nodup)
    (htr : TraceInv tr d) (hD : ∀ u v, DInv u v tr d)
    (hPre : ∀ j, PrefOK (tr.take j))
    (hq : d.output_queue = [])
    (fid c : VertexId) (ns : List VertexId) (rest : List Frame)
    (hst : d.stack = ⟨fid, some c, ns, false⟩ :: rest) :
    ∀ u v, DFSEntry.EndEdge (fid, c) = DFSEntry.EndEdge (u, v) →
      ∀ i, Discover u v tr i →
        ∃ m, i < m ∧ tr[m]? = some (DFSEntry.EndVertex v) := by
  intro u v heq i hd
  injection heq with h'
  injection h' with hfu hcv
  subst hfu
  subst hcv
  have hvpre : tree.vtrace tr d = tr := by
    unfold tree.vtrace
    rw [hq]
    simp
  by_cases hcnt : tr.count (DFSEntry.EndVertex c) = 0
  · exfalso
    obtain ⟨A, fD, B, hsp, hid, hcur, hvA⟩ :=
      hD fid c (by rw [hvpre]; exact ⟨i, hd⟩) (by rw [hvpre]; exact hcnt)
    rw [hst] at hsp
    cases A with
    | nil =>
      simp [idsOf] at hvA
    | cons a A' =>
      rw [List.cons_append] at hsp
      injection hsp with h1 h2
      have hfDmem : fD ∈ rest := by
        rw [h2]
        exact List.mem_append_right _ (List.mem_cons_self _ _)
      rw [hst] at hnodup
      simp only [List.map_cons, List.nodup_cons] at hnodup
      have hmm2 : fid ∈ List.map Frame.id rest := by
        have hm' := List.mem_map_of_mem Frame.id hfDmem
        rw [hid] at hm'
        exact hm'
      exact hnodup.1 hmm2
  · have hmem : DFSEntry.EndVertex c ∈ tr := by
      by_contra hnm
      rw [List.count_eq_zero_of_not_mem hnm] at hcnt
      exact hcnt rfl
    obtain ⟨m, hm⟩ := List.mem_iff_getElem?.mp hmem
    refine ⟨m, ?_, hm⟩
    by_contra hle
    have hmi : m ≤ i := by omega
    have hBVpos : 1 ≤ tr.count (DFSEntry.BeginVertex c) := count_pos_of_index hd.2
    have hsplit : (tree.vtrace tr d).count (DFSEntry.BeginVertex c)
        = tr.count (DFSEntry.BeginVertex c)
          + (d.output_queue.reverse).count (DFSEntry.BeginVertex c) := by
      unfold tree.vtrace
      rw [List.count_append]
    have hite := htr.2.1 c
    have hb1 : (if c ∈ d.explored then 1 else 0) ≤ 1 := by
      split <;> omega
    have hBVcnt : tr.count (DFSEntry.BeginVertex c) = 1 := by omega
    have hBVdrop : 1 ≤ (tr.drop (m + 1)).count (DFSEntry.BeginVertex c) :=
      count_drop_of_index hd.2 (by omega)
    have htksplit := count_take_add_drop tr (DFSEntry.BeginVertex c) (m + 1)
    have hEVtake : 1 ≤ (tr.take (m + 1)).count (DFSEntry.EndVertex c) :=
      count_take_of_index hm (Nat.lt_succ_self m)
    have hpref := (hPre (m + 1)).1 c
    omega

theorem PropD_next (tr : List DFSEntry) (d : DepthFirst) (hinv : Inv d)
    (htr : TraceInv tr d) (hD : ∀ u v, DInv u v tr d)
    (hPre : ∀ j, PrefOK (tr.take j)) (hP : ∀ u v, PropD u v (tree.vtrace tr d))
    (e : DFSEntry) (d' : DepthFirst) (h : d.next = (some e, d')) :
    ∀ u v, PropD u v (tree.vtrace (tr ++ [e]) d') := by
  obtain ⟨hdrop, hnodup, htail, hfresh, hbound, hexb⟩ := hinv
  intro u v
  rcases next_spec d hdrop with
    ⟨e0, q0, hq, hn⟩ | ⟨hst, hq, hn⟩ | ⟨f, rest, hst, hq, hf, hn⟩ |
    ⟨fid, rest, hst, hq, hf, hn⟩ | ⟨fid, c, rest, hst, hq, hf, hn⟩ |
    ⟨fid, n, ns, rest, hst, hq, hf, hold, hn⟩ |
    ⟨fid, n, ns, rest, hst, hq, hf, hnew, hn⟩ |
    ⟨fid, c, n, ns, rest, hst, hq, hf, hold, hn⟩ |
    ⟨fid, c, n, ns, rest, hst, hq, hf, hnew, hn⟩ <;>
    rw [h] at hn <;> (injection hn with hn1 hn2)
  -- queuePop
  · injection hn1 with hn1
    rw [hn1, hn2]
    have hveq : tree.vtrace (tr ++ [e0]) { d with output_queue := q0 }
        = tree.vtrace tr d := by
      unfold tree.vtrace
      rw [hq]
      simp
    rw [hveq]
    exact hP u v
  -- finished
  · exact absurd hn1 (by simp)
  -- beginV
  · injection hn1 with hn1
    subst hn1
    subst hn2
    have hvpre : tree.vtrace tr d = tr := by
      unfold tree.vtrace
      rw [hq]
      simp
    have hvpost : tree.vtrace (tr ++ [DFSEntry.BeginVertex f.id])
        (⟨d.graph, f :: rest, f.id :: d.explored, []⟩ : DepthFirst)
        = tr ++ [DFSEntry.BeginVertex f.id] := by
      unfold tree.vtrace
      simp
    rw [hvpost]
    have hP' := hP u v
    rw [hvpre] at hP'
    exact PropD_concat hP' (fun heq => absurd heq (by simp))
  -- endV
  · injection hn1 with hn1
    subst hn1
    subst hn2
    have hvpre : tree.vtrace tr d = tr := by
      unfold tree.vtrace
      rw [hq]
      simp
    have hvpost : tree.vtrace (tr ++ [DFSEntry.EndVertex fid])
        (⟨d.graph, rest, d.explored, []⟩ : DepthFirst)
        = tr ++ [DFSEntry.EndVertex fid] := by
      unfold tree.vtrace
      simp
    rw [hvpost]
    have hP' := hP u v
    rw [hvpre] at hP'
    exact PropD_concat hP' (fun heq => absurd heq (by simp))
  -- endELast
  · injection hn1 with hn1
    subst hn1
    subst hn2
    have hvpre : tree.vtrace tr d = tr := by
      unfold tree.vtrace
      rw [hq]
      simp
    have hvpost : tree.vtrace (tr ++ [DFSEntry.EndEdge (fid, c)])
        (⟨d.graph, rest, d.explored, [DFSEntry.EndVertex fid]⟩ : DepthFirst)
        = (tr ++ [DFSEntry.EndEdge (fid, c)]) ++ [DFSEntry.EndVertex fid] := by
      unfold tree.vtrace
      simp
    rw [hvpost]
    have hP' := hP u v
    rw [hvpre] at hP'
    have h1 : PropD u v (tr ++ [DFSEntry.EndEdge (fid, c)]) :=
      PropD_concat hP' (discharge_EE tr d hnodup htr hD hPre hq fid c [] rest hst u v)
    exact PropD_concat h1 (fun heq => absurd heq (by simp))
  -- beginEOld
  · injection hn1 with hn1
    subst hn1
    subst hn2
    have hvpre : tree.vtrace tr d = tr := by
      unfold tree.vtrace
      rw [hq]
      simp
    have hvpost : tree.vtrace (tr ++ [DFSEntry.BeginEdge (fid, n)])
        (⟨d.graph, ⟨fid, some n, ns, false⟩ :: rest, d.explored, []⟩ : DepthFirst)
        = tr ++ [DFSEntry.BeginEdge (fid, n)] := by
      unfold tree.vtrace
      simp
    rw [hvpost]
    have hP' := hP u v
    rw [hvpre] at hP'
    exact PropD_concat hP' (fun heq => absurd heq (by simp))
  -- beginENew
  · injection hn1 with hn1
    subst hn1
    subst hn2
    have hvpre : tree.vtrace tr d = tr := by
      unfold tree.vtrace
      rw [hq]
      simp
    have hvpost : tree.vtrace (tr ++ [DFSEntry.BeginEdge (fid, n)])
        (⟨d.graph, Frame.fromId n d.graph :: ⟨fid, some n, ns, false⟩ :: rest,
          d.explored, []⟩ : DepthFirst)
        = tr ++ [DFSEntry.BeginEdge (fid, n)] := by
      unfold tree.vtrace
      simp
    rw [hvpost]
    have hP' := hP u v
    rw [hvpre] at hP'
    exact PropD_concat hP' (fun heq => absurd heq (by simp))
  -- endEOld
  · injection hn1 with hn1
    subst hn1
    subst hn2
    have hvpre : tree.vtrace tr d = tr := by
      unfold tree.vtrace
      rw [hq]
      simp
    have hvpost : tree.vtrace (tr ++ [DFSEntry.EndEdge (fid, c)])
        (⟨d.graph, ⟨fid, some n, ns, false⟩ :: rest, d.explored,
          [DFSEntry.BeginEdge (fid, n)]⟩ : DepthFirst)
        = (tr ++ [DFSEntry.EndEdge (fid, c)]) ++ [DFSEntry.BeginEdge (fid, n)] := by
      unfold tree.vtrace
      simp
    rw [hvpost]
    have hP' := hP u v
    rw [hvpre] at hP'
    have h1 : PropD u v (tr ++ [DFSEntry.EndEdge (fid, c)]) :=
      PropD_concat hP'
        (discharge_EE tr d hnodup htr hD hPre hq fid c (n :: ns) rest hst u v)
    exact PropD_concat h1 (fun heq => absurd heq (by simp))
  -- endENew
  · injection hn1 with hn1
    subst hn1
    subst hn2
    have hvpre : tree.vtrace tr d = tr := by
      unfold tree.vtrace
      rw [hq]
      simp
    have hvpost : tree.vtrace (tr ++ [DFSEntry.EndEdge (fid, c)])
        (⟨d.graph, Frame.fromId n d.graph :: ⟨fid, some n, ns, false⟩ :: rest,
          d.explored, [DFSEntry.BeginEdge (fid, n)]⟩ : DepthFirst)
        = (tr ++ [DFSEntry.EndEdge (fid, c)]) ++ [DFSEntry.BeginEdge (fid, n)] := by
      unfold tree.vtrace
      simp
    rw [hvpost]
    have hP' := hP u v
    rw [hvpre] at hP'
    have h1 : PropD u v (tr ++ [DFSEntry.EndEdge (fid, c)]) :=
      PropD_concat hP'
        (discharge_EE tr d hnodup htr hD hPre hq fid c (n :: ns) rest hst u v)
    exact PropD_concat h1 (fun heq => absurd heq (by simp))

theorem next_none_state (d : DepthFirst) (hdrop : ∀ f ∈ d.stack, f.dropped = false)
    (d2 : DepthFirst) (h : d.next = (none, d2)) :
    d.stack = [] ∧ d.output_queue = [] ∧ d2 = d := by
  rcases next_spec d hdrop with
    ⟨e0, q0, hq, hn⟩ | ⟨hst, hq, hn⟩ | ⟨f, rest, hst, hq, hf, hn⟩ |
    ⟨fid, rest, hst, hq, hf, hn⟩ | ⟨fid, c, rest, hst, hq, hf, hn⟩ |
    ⟨fid, n, ns, rest, hst, hq, hf, hold, hn⟩ |
    ⟨fid, n, ns, rest, hst, hq, hf, hnew, hn⟩ |
    ⟨fid, c, n, ns, rest, hst, hq, hf, hold, hn⟩ |
    ⟨fid, c, n, ns, rest, hst, hq, hf, hnew, hn⟩ <;>
    rw [h] at hn <;> (injection hn with hn1 hn2)
  · exact absurd hn1 (by simp)
  · exact ⟨hst, hq, hn2⟩
  · exact absurd hn1 (by simp)
  · exact absurd hn1 (by simp)
  · exact absurd hn1 (by simp)
  · exact absurd hn1 (by simp)
  · exact absurd hn1 (by simp)
  · exact absurd hn1 (by simp)
  · exact absurd hn1 (by simp)

theorem RunInv_on (g : Graph) (r : VertexId) (hwf : g.WF) :
    RunInv r [] (DepthFirst.on g r) := by
  refine ⟨Inv_on g r hwf, Inv2_on g r, TraceInv_on g r, LInv_on g r, DInv_on g r,
    ?_, ?_⟩
  · intro j
    simp only [List.take_nil]
    exact ⟨fun v => by simp, fun u t => by simp⟩
  · intro u v
    rw [vtrace_on]
    intro i j hdisc hij hj
    exact absurd hdisc.1 (by simp)

theorem RunInv_next (r : VertexId) (tr : List DFSEntry) (d : DepthFirst)
    (hwf : d.graph.WF) (hR : RunInv r tr d) (e : DFSEntry) (d' : DepthFirst)
    (h : d.next = (some e, d')) : RunInv r (tr ++ [e]) d' := by
  obtain ⟨hinv, hinv2, htr, hl, hD, hPre, hP⟩ := hR
  refine ⟨(Inv_next d hwf hinv _ _ h).1, Inv2_next r d hinv hinv2 _ _ h,
    TraceInv_next tr d hinv htr e d' h, LInv_next tr d hinv hl e d' h,
    DInv_next tr d hinv hl hD e d' h, ?_,
    PropD_next tr d hinv htr hD hPre hP e d' h⟩
  intro j
  rcases Nat.lt_or_ge j (tr.length + 1) with hj | hj
  · rw [List.take_append_of_le_length (by omega)]
    exact hPre j
  · rw [List.take_of_length_le (by simp; omega)]
    exact PrefOK_of_TraceInv _ _ (TraceInv_next tr d hinv htr e d' h)

theorem RunInv_final (k : Nat) :
    ∀ (d : DepthFirst) (tr : List DFSEntry) (r : VertexId), d.graph.WF →
      RunInv r tr d → phi d ≤ k →
      ∃ dE : DepthFirst, dE.graph = d.graph ∧ dE.stack = [] ∧
        dE.output_queue = [] ∧ RunInv r (tr ++ d.events k) dE ∧
        ∀ v ∈ d.explored, v ∈ dE.explored := by
  induction k with
  | zero =>
    intro d tr r hwf hR hphi
    have hz : phi d = 0 := Nat.le_zero.mp hphi
    have hn := next_none_of_phi_zero d hR.1 hz
    obtain ⟨hst, hq, -⟩ := next_none_state d hR.1.1 d hn
    refine ⟨d, rfl, hst, hq, ?_, fun v hv => hv⟩
    rw [show d.events 0 = [] from rfl, List.append_nil]
    exact hR
  | succ k ih =>
    intro d tr r hwf hR hphi
    cases hnx : d.next with
    | mk oe d2 =>
      cases oe with
      | none =>
        obtain ⟨hst, hq, -⟩ := next_none_state d hR.1.1 d2 hnx
        refine ⟨d, rfl, hst, hq, ?_, fun v hv => hv⟩
        have hev : d.events (k + 1) = [] := by
          unfold DepthFirst.events
          rw [hnx]
        rw [hev, List.append_nil]
        exact hR
      | some e =>
        obtain ⟨hinv', hg, hmono⟩ := Inv_next d hwf hR.1 _ _ hnx
        have hwf' : d2.graph.WF := by
          rw [hg]
          exact hwf
        have hR' : RunInv r (tr ++ [e]) d2 := RunInv_next r tr d hwf hR e d2 hnx
        have hlt : phi d2 < phi d := phi_next d hwf hR.1 e d2 hnx
        obtain ⟨dE, hgE, hstE, hqE, hRE, hmonoE⟩ :=
          ih d2 (tr ++ [e]) r hwf' hR' (by omega)
        refine ⟨dE, by rw [hgE, hg], hstE, hqE, ?_, fun v hv => hmonoE v (hmono v hv)⟩
        have hev : d.events (k + 1) = e :: d2.events k := by
          conv_lhs => unfold DepthFirst.events
          rw [hnx]
        rw [hev, show tr ++ e :: d2.events k = (tr ++ [e]) ++ d2.events k by simp]
        exact hRE

theorem on_graph (g : Graph) (r : VertexId) : (DepthFirst.on g r).graph = g := by
  unfold DepthFirst.on
  split <;> rfl

theorem next_on (g : Graph) (r : VertexId) (hr : g.contains r = true) :
    (DepthFirst.on g r).next
      = (some (DFSEntry.BeginVertex r), ⟨g, [Frame.fromId r g], [r], []⟩) := by
  unfold DepthFirst.on
  rw [if_pos hr]
  rfl

theorem nextF_avoids (v : VertexId) (fuel : Nat) :
    ∀ (d : DepthFirst) (r : Option DFSEntry × DepthFirst), Avoids v d →
      DepthFirst.nextF fuel d = some r →
        Avoids v r.2 ∧ ∀ e, r.1 = some e → avoidsVertex v e := by
  induction fuel with
  | zero =>
    intro d r hav h
    simp [DepthFirst.nextF] at h
  | succ n ih =>
    intro d r hav h
    obtain ⟨g, st, ex, oq⟩ := d
    obtain ⟨hex, hst, hque⟩ := hav
    simp only at hex hst hque
    cases hq : popBack oq with
    | some p =>
      obtain ⟨e, q⟩ := p
      rw [nextF_succ_of_queue_pop n _ e q hq] at h
      injection h with h
      subst h
      have hsplit : q ++ [e] = oq := by
        unfold popBack at hq
        cases hl : oq.getLast? with
        | none => rw [hl] at hq; simp at hq
        | some e' =>
          rw [hl] at hq
          injection hq with hq
          injection hq with hq1 hq2
          subst hq1
          subst hq2
          exact List.dropLast_append_getLast? _ (by rw [hl]; rfl)
      have hmem : e ∈ oq ∧ ∀ x ∈ q, x ∈ oq := by
        rw [← hsplit]
        exact ⟨List.mem_append_right q (by simp), fun x hx => List.mem_append_left _ hx⟩
      refine ⟨⟨hex, hst, fun x hx => hque x (hmem.2 x hx)⟩, ?_⟩
      intro e' he'
      injection he' with he'
      subst he'
      exact hque e hmem.1
    | none =>
      have hqe : oq = [] := (popBack_none_iff _).mp hq
      subst hqe
      cases st with
      | nil =>
        have h' : DepthFirst.nextF (n + 1) (⟨g, [], ex, []⟩ : DepthFirst)
            = some (none, ⟨g, [], ex, []⟩) := rfl
        rw [h'] at h
        injection h with h
        subst h
        exact ⟨⟨hex, hst, hque⟩, by simp⟩
      | cons vertex rest =>
        by_cases hmem : vertex.id ∈ ex
        · have hred : DepthFirst.nextF (n + 1) ⟨g, vertex :: rest, ex, []⟩
              = DepthFirst.nextF n ((⟨g, rest, ex, []⟩ : DepthFirst).processFrame vertex) := by
            simp [DepthFirst.nextF, DepthFirst.begin_vertex, hmem, popBack]
          rw [hred] at h
          have hav' : Avoids v ((⟨g, rest, ex, []⟩ : DepthFirst).processFrame vertex) :=
            processFrame_avoids v g rest ex [] vertex
              (hst vertex (List.mem_cons_self _ _)) hex
              (fun fr hfr => hst fr (List.mem_cons_of_mem _ hfr)) (by simp)
          exact ih _ r hav' h
        · have h' : DepthFirst.nextF (n + 1) (⟨g, vertex :: rest, ex, []⟩ : DepthFirst)
              = some (some (DFSEntry.BeginVertex vertex.id),
                  ⟨g, vertex :: rest, vertex.id :: ex, []⟩) := by
            simp [DepthFirst.nextF, DepthFirst.begin_vertex, hmem, popBack]
          rw [h'] at h
          injection h with h
          subst h
          refine ⟨⟨List.mem_cons_of_mem _ hex, hst, hque⟩, ?_⟩
          intro e he
          injection he with he
          subst he
          exact ⟨by simp, fun t => ⟨by simp, by simp⟩⟩

theorem events_avoids (v : VertexId) :
    ∀ (k : Nat) (d : DepthFirst), Avoids v d → ∀ e ∈ d.events k, avoidsVertex v e := by
  intro k
  induction k with
  | zero =>
    intro d hav e he
    simp [DepthFirst.events] at he
  | succ n ih =>
    intro d hav e he
    obtain ⟨r, hr⟩ := nextF_total (d.stack.length + 2) d (by omega)
    have hnext : d.next = r := by
      unfold DepthFirst.next
      rw [hr]
    have havr := nextF_avoids v _ d r hav hr
    unfold DepthFirst.events at he
    rw [hnext] at he
    obtain ⟨r1, r2⟩ := r
    cases r1 with
    | none => simp at he
    | some e' =>
      simp only at he
      rcases List.mem_cons.mp he with rfl | he
      · exact havr.2 e rfl
      · exact ih r2 havr.1 e he

theorem on_queue (g : Graph) (r : VertexId) :
    (DepthFirst.on g r).output_queue = [] := by
  unfold DepthFirst.on
  split <;> rfl

theorem on_explored (g : Graph) (r : VertexId) :
    (DepthFirst.on g r).explored = [] := by
  unfold DepthFirst.on
  split <;> rfl

theorem on_stack_of_contains (g : Graph) (r : VertexId) (hr : g.contains r = true) :
    (DepthFirst.on g r).stack = [Frame.fromId r g] := by
  unfold DepthFirst.on
  rw [if_pos hr]

theorem queue_no_BV_next (d : DepthFirst)
    (hdrop : ∀ f ∈ d.stack, f.dropped = false)
    (hq0 : ∀ e ∈ d.output_queue, ∀ w, e ≠ DFSEntry.BeginVertex w)
    (oe : Option DFSEntry) (d' : DepthFirst) (h : d.next = (oe, d')) :
    ∀ e ∈ d'.output_queue, ∀ w, e ≠ DFSEntry.BeginVertex w := by
  rcases next_spec d hdrop with
    ⟨e0, q0, hq, hn⟩ | ⟨hst, hq, hn⟩ | ⟨f, rest, hst, hq, hf, hn⟩ |
    ⟨fid, rest, hst, hq, hf, hn⟩ | ⟨fid, c, rest, hst, hq, hf, hn⟩ |
    ⟨fid, n, ns, rest, hst, hq, hf, hold, hn⟩ |
    ⟨fid, n, ns, rest, hst, hq, hf, hnew, hn⟩ |
    ⟨fid, c, n, ns, rest, hst, hq, hf, hold, hn⟩ |
    ⟨fid, c, n, ns, rest, hst, hq, hf, hnew, hn⟩ <;>
    rw [h] at hn <;> (injection hn with hn1 hn2) <;> rw [hn2]
  · intro e he w
    exact hq0 e (by rw [hq]; exact List.mem_append_left _ he) w
  · exact hq0
  · intro e he w
    simp at he
  · intro e he w
    simp at he
  · intro e he w
    simp only [List.mem_singleton] at he
    subst he
    simp
  · intro e he w
    simp at he
  · intro e he w
    simp at he
  · intro e he w
    simp only [List.mem_singleton] at he
    subst he
    simp
  · intro e he w
    simp only [List.mem_singleton] at he
    subst he
    simp

theorem next_BV_spec (d : DepthFirst)
    (hdrop : ∀ f ∈ d.stack, f.dropped = false)
    (hq0 : ∀ e ∈ d.output_queue, ∀ w, e ≠ DFSEntry.BeginVertex w)
    (v : VertexId) (d' : DepthFirst)
    (h : d.next = (some (DFSEntry.BeginVertex v), d')) :
    ∃ f rest, d.stack = f :: rest ∧ f.id = v ∧ v ∉ d.explored ∧
      d.output_queue = [] ∧
      d' = ⟨d.graph, f :: rest, v :: d.explored, []⟩ := by
  rcases next_spec d hdrop with
    ⟨e0, q0, hq, hn⟩ | ⟨hst, hq, hn⟩ | ⟨f, rest, hst, hq, hf, hn⟩ |
    ⟨fid, rest, hst, hq, hf, hn⟩ | ⟨fid, c, rest, hst, hq, hf, hn⟩ |
    ⟨fid, n, ns, rest, hst, hq, hf, hold, hn⟩ |
    ⟨fid, n, ns, rest, hst, hq, hf, hnew, hn⟩ |
    ⟨fid, c, n, ns, rest, hst, hq, hf, hold, hn⟩ |
    ⟨fid, c, n, ns, rest, hst, hq, hf, hnew, hn⟩ <;>
    rw [h] at hn <;> (injection hn with hn1 hn2)
  · injection hn1 with hn1
    exact absurd hn1.symm
      (hq0 e0 (by rw [hq]; exact List.mem_append_right _ (List.mem_cons_self _ _)) v)
  · exact absurd hn1 (by simp)
  · injection hn1 with hn1
    injection hn1 with hveq
    subst hveq
    exact ⟨f, rest, hst, rfl, hf, hq, hn2⟩
  · injection hn1 with hn1
    exact absurd hn1 (by simp)
  · injection hn1 with hn1
    exact absurd hn1 (by simp)
  · injection hn1 with hn1
    exact absurd hn1 (by simp)
  · injection hn1 with hn1
    exact absurd hn1 (by simp)
  · injection hn1 with hn1
    exact absurd hn1 (by simp)
  · injection hn1 with hn1
    exact absurd hn1 (by simp)

theorem next_not_BV_explored (d : DepthFirst)
    (hdrop : ∀ f ∈ d.stack, f.dropped = false)
    (e : DFSEntry) (d' : DepthFirst) (h : d.next = (some e, d'))
    (hne : ∀ w, e ≠ DFSEntry.BeginVertex w) : d'.explored = d.explored := by
  rcases next_spec d hdrop with
    ⟨e0, q0, hq, hn⟩ | ⟨hst, hq, hn⟩ | ⟨f, rest, hst, hq, hf, hn⟩ |
    ⟨fid, rest, hst, hq, hf, hn⟩ | ⟨fid, c, rest, hst, hq, hf, hn⟩ |
    ⟨fid, n, ns, rest, hst, hq, hf, hold, hn⟩ |
    ⟨fid, n, ns, rest, hst, hq, hf, hnew, hn⟩ |
    ⟨fid, c, n, ns, rest, hst, hq, hf, hold, hn⟩ |
    ⟨fid, c, n, ns, rest, hst, hq, hf, hnew, hn⟩ <;>
    rw [h] at hn <;> (injection hn with hn1 hn2)
  · rw [hn2]
  · rw [hn2]
  · injection hn1 with hn1
    exact absurd hn1 (hne f.id)
  · rw [hn2]
  · rw [hn2]
  · rw [hn2]
  · rw [hn2]
  · rw [hn2]
  · rw [hn2]

theorem Inv_pop (g : Graph) (f : Frame) (rest : List Frame) (ex : List VertexId)
    (hinv : Inv ⟨g, f :: rest, ex, []⟩) : Inv ⟨g, rest, ex, []⟩ := by
  obtain ⟨hdrop, hnodup, htail, hfresh, hbound, hexb⟩ := hinv
  have hall : ∀ fr ∈ rest, fr.id ∈ ex := htail
  refine ⟨?_, ?_, ?_, ?_, ?_, hexb⟩
  · intro fr hfr
    exact hdrop fr (List.mem_cons_of_mem _ hfr)
  · simp only [List.map_cons, List.nodup_cons] at hnodup
    exact hnodup.2
  · intro fr hfr
    exact hall fr (List.mem_of_mem_tail hfr)
  · intro fr hfr hfex
    exact absurd (hall fr hfr) hfex
  · intro fr hfr
    exact hbound fr (List.mem_cons_of_mem _ hfr)

theorem phi_pop (g : Graph) (f : Frame) (rest : List Frame) (ex : List VertexId) :
    phi ⟨g, rest, ex, []⟩ ≤ phi ⟨g, f :: rest, ex, []⟩ := by
  unfold phi
  simp only [List.filter_cons]
  cases hd : decide (f.id ∈ ex) with
  | true =>
    rw [if_pos (rfl : true = true)]
    simp only [List.map_cons, List.sum_cons]
    omega
  | false =>
    rw [if_neg (by simp : ¬(false = true))]

theorem phi_on_le (g : Graph) (v : VertexId) :
    phi (DepthFirst.on g v) ≤ ((List.range g.out_index.length).map (vertexCredit g)).sum := by
  unfold DepthFirst.on phi
  have hfil : (List.range g.out_index.length).filter
      (fun w => decide (w ∉ ([] : List VertexId))) = List.range g.out_index.length := by
    apply List.filter_eq_self.mpr
    intro a ha
    simp
  split
  · simp only [hfil, List.length_nil]
    have : ([Frame.fromId v g].filter (fun f => decide (f.id ∈ ([] : List VertexId)))) = [] := by
      simp
    rw [this]
    simp
  · simp only [hfil, List.length_nil]
    simp

theorem queueReq_nil : queueReq [] = [] := rfl

theorem queueReq_EV (x : VertexId) : queueReq [DFSEntry.EndVertex x] = [x] := rfl

theorem queueReq_BE (u t : VertexId) : queueReq [DFSEntry.BeginEdge (u, t)] = [] := rfl

theorem QShape_on (g : Graph) (r : VertexId) : QShape (DepthFirst.on g r) :=
  Or.inl (on_queue g r)

theorem QShape_next (d : DepthFirst) (hdrop : ∀ f ∈ d.stack, f.dropped = false)
    (hqs : QShape d) (oe : Option DFSEntry) (d' : DepthFirst)
    (h : d.next = (oe, d')) : QShape d' := by
  rcases next_spec d hdrop with
    ⟨e0, q0, hq, hn⟩ | ⟨hst, hq, hn⟩ | ⟨f, rest, hst, hq, hf, hn⟩ |
    ⟨fid, rest, hst, hq, hf, hn⟩ | ⟨fid, c, rest, hst, hq, hf, hn⟩ |
    ⟨fid, n, ns, rest, hst, hq, hf, hold, hn⟩ |
    ⟨fid, n, ns, rest, hst, hq, hf, hnew, hn⟩ |
    ⟨fid, c, n, ns, rest, hst, hq, hf, hold, hn⟩ |
    ⟨fid, c, n, ns, rest, hst, hq, hf, hnew, hn⟩ <;>
    rw [h] at hn <;> (injection hn with hn1 hn2) <;> rw [hn2]
  · have hl : d.output_queue.length ≤ 1 := by
      rcases hqs with h1 | ⟨x, h1⟩ | ⟨u, t, h1⟩ <;> rw [h1] <;> simp
    rw [hq] at hl
    simp only [List.length_append, List.length_singleton] at hl
    have hq0nil : q0 = [] := List.length_eq_zero.mp (by omega)
    rw [hq0nil]
    exact Or.inl rfl
  · exact hqs
  · exact Or.inl rfl
  · exact Or.inl rfl
  · exact Or.inr (Or.inl ⟨fid, rfl⟩)
  · exact Or.inl rfl
  · exact Or.inl rfl
  · exact Or.inr (Or.inr ⟨fid, n, rfl⟩)
  · exact Or.inr (Or.inr ⟨fid, n, rfl⟩)

theorem ReqT_def (en : DepthFirst) :
    ReqT en = queueReq en.output_queue ++
      idsOf (en.stack.filter (fun f => decide (f.id ∈ en.explored))) := rfl

theorem ReqT_mk (g : Graph) (st : List Frame) (ex : List VertexId) (q : List DFSEntry) :
    ReqT ⟨g, st, ex, q⟩ = queueReq q ++
      idsOf (st.filter (fun f => decide (f.id ∈ ex))) := rfl

theorem ReqT_on (g : Graph) (r : VertexId) : ReqT (DepthFirst.on g r) = [] := by
  by_cases hc : g.contains r = true
  · have h1 : DepthFirst.on g r = ⟨g, [Frame.fromId r g], [], []⟩ := by
      unfold DepthFirst.on
      rw [if_pos hc]
    rw [h1, ReqT_mk, queueReq_nil]
    simp [idsOf, Frame.fromId]
  · have h1 : DepthFirst.on g r = ⟨g, [], [], []⟩ := by
      unfold DepthFirst.on
      rw [if_neg hc]
    rw [h1, ReqT_mk, queueReq_nil]
    simp [idsOf]

/-- Effect of one emitted tree event on the open-vertex list `ReqT`: a
`BeginVertex v` opens the fresh vertex `v`, begin-edges leave it unchanged,
an `EndEdge (u, t)` leaves it unchanged with `u` still open, and an
`EndVertex v` closes exactly its head `v`. -/
theorem ReqT_next (d : DepthFirst) (hinv : Inv d) (hqs : QShape d)
    (e : DFSEntry) (d' : DepthFirst) (h : d.next = (some e, d')) :
    (∃ v, e = DFSEntry.BeginVertex v ∧ v ∉ d.explored ∧ ReqT d' = v :: ReqT d) ∨
    (∃ u t, e = DFSEntry.BeginEdge (u, t) ∧ ReqT d' = ReqT d) ∨
    (∃ u t, e = DFSEntry.EndEdge (u, t) ∧ ReqT d' = ReqT d ∧ u ∈ ReqT d) ∨
    (∃ v, e = DFSEntry.EndVertex v ∧ ReqT d = v :: ReqT d') := by
  rcases next_spec d hinv.1 with
    ⟨e0, q0, hq, hn⟩ | ⟨hst, hq, hn⟩ | ⟨f, rest, hst, hq, hf, hn⟩ |
    ⟨fid, rest, hst, hq, hf, hn⟩ | ⟨fid, c, rest, hst, hq, hf, hn⟩ |
    ⟨fid, n, ns, rest, hst, hq, hf, hold, hn⟩ |
    ⟨fid, n, ns, rest, hst, hq, hf, hnew, hn⟩ |
    ⟨fid, c, n, ns, rest, hst, hq, hf, hold, hn⟩ |
    ⟨fid, c, n, ns, rest, hst, hq, hf, hnew, hn⟩ <;>
    rw [h] at hn <;> (injection hn with hn1 hn2)
  · -- queuePop
    injection hn1 with hn1
    rcases hqs with h1 | ⟨x, h1⟩ | ⟨u, t, h1⟩
    · rw [h1] at hq
      exact absurd hq.symm (by simp)
    · have hq0 : q0 = [] ∧ e0 = DFSEntry.EndVertex x := by
        cases q0 with
        | nil =>
          rw [h1] at hq
          injection hq with hq1
          exact ⟨rfl, hq1.symm⟩
        | cons a q1 =>
          rw [h1] at hq
          injection hq with hq1 hq2
          exact absurd hq2.symm (by simp)
      refine Or.inr (Or.inr (Or.inr ⟨x, hn1.trans hq0.2, ?_⟩))
      rw [hn2, hq0.1]
      rw [show ({ d with output_queue := ([] : List DFSEntry) } : DepthFirst)
          = ⟨d.graph, d.stack, d.explored, []⟩ from rfl]
      rw [ReqT_mk, ReqT_def, h1, queueReq_EV, queueReq_nil]
      simp
    · have hq0 : q0 = [] ∧ e0 = DFSEntry.BeginEdge (u, t) := by
        cases q0 with
        | nil =>
          rw [h1] at hq
          injection hq with hq1
          exact ⟨rfl, hq1.symm⟩
        | cons a q1 =>
          rw [h1] at hq
          injection hq with hq1 hq2
          exact absurd hq2.symm (by simp)
      refine Or.inr (Or.inl ⟨u, t, hn1.trans hq0.2, ?_⟩)
      rw [hn2, hq0.1]
      rw [show ({ d with output_queue := ([] : List DFSEntry) } : DepthFirst)
          = ⟨d.graph, d.stack, d.explored, []⟩ from rfl]
      rw [ReqT_mk, ReqT_def, h1, queueReq_BE, queueReq_nil]
  · exact absurd hn1 (by simp)
  · -- beginV
    injection hn1 with hn1
    have htail2 : ∀ fr ∈ rest, fr.id ∈ d.explored := fun fr hfr =>
      hinv.2.2.1 fr (by rw [hst]; exact hfr)
    refine Or.inl ⟨f.id, hn1, hf, ?_⟩
    rw [hn2, ReqT_mk, ReqT_def, hq, hst, queueReq_nil]
    simp only [List.filter_cons]
    rw [if_pos (by simp)]
    rw [if_neg (by simp [hf])]
    rw [filter_all_explored rest (f.id :: d.explored)
      (fun fr hfr => List.mem_cons_of_mem _ (htail2 fr hfr))]
    rw [filter_all_explored rest d.explored htail2]
    simp [idsOf]
  · -- endV
    injection hn1 with hn1
    have htail2 : ∀ fr ∈ rest, fr.id ∈ d.explored := fun fr hfr =>
      hinv.2.2.1 fr (by rw [hst]; exact hfr)
    refine Or.inr (Or.inr (Or.inr ⟨fid, hn1, ?_⟩))
    rw [hn2, ReqT_mk, ReqT_def, hq, hst, queueReq_nil]
    simp only [List.filter_cons]
    rw [if_pos (by simp [hf])]
    rw [filter_all_explored rest d.explored htail2]
    simp [idsOf]
  · -- endELast
    injection hn1 with hn1
    have htail2 : ∀ fr ∈ rest, fr.id ∈ d.explored := fun fr hfr =>
      hinv.2.2.1 fr (by rw [hst]; exact hfr)
    have hR : ReqT d = fid :: idsOf rest := by
      rw [ReqT_def, hq, hst, queueReq_nil]
      simp only [List.filter_cons]
      rw [if_pos (by simp [hf])]
      rw [filter_all_explored rest d.explored htail2]
      simp [idsOf]
    refine Or.inr (Or.inr (Or.inl ⟨fid, c, hn1, ?_, ?_⟩))
    · rw [hn2, ReqT_mk, queueReq_EV, hR]
      rw [filter_all_explored rest d.explored htail2]
      simp [idsOf]
    · rw [hR]
      exact List.mem_cons_self _ _
  · -- beginEOld
    injection hn1 with hn1
    have htail2 : ∀ fr ∈ rest, fr.id ∈ d.explored := fun fr hfr =>
      hinv.2.2.1 fr (by rw [hst]; exact hfr)
    refine Or.inr (Or.inl ⟨fid, n, hn1, ?_⟩)
    rw [hn2, ReqT_mk, ReqT_def, hq, hst, queueReq_nil]
    simp only [List.filter_cons]
    rw [if_pos (by simp [hf])]
    rw [if_pos (by simp [hf])]
    rw [filter_all_explored rest d.explored htail2]
    simp [idsOf]
  · -- beginENew
    injection hn1 with hn1
    have htail2 : ∀ fr ∈ rest, fr.id ∈ d.explored := fun fr hfr =>
      hinv.2.2.1 fr (by rw [hst]; exact hfr)
    refine Or.inr (Or.inl ⟨fid, n, hn1, ?_⟩)
    rw [hn2, ReqT_mk, ReqT_def, hq, hst, queueReq_nil]
    simp only [List.filter_cons]
    rw [if_neg (by simp [Frame.fromId, hnew])]
    rw [if_pos (by simp [hf])]
    rw [if_pos (by simp [hf])]
    rw [filter_all_explored rest d.explored htail2]
    simp [idsOf]
  · -- endEOld
    injection hn1 with hn1
    have htail2 : ∀ fr ∈ rest, fr.id ∈ d.explored := fun fr hfr =>
      hinv.2.2.1 fr (by rw [hst]; exact hfr)
    have hR : ReqT d = fid :: idsOf rest := by
      rw [ReqT_def, hq, hst, queueReq_nil]
      simp only [List.filter_cons]
      rw [if_pos (by simp [hf])]
      rw [filter_all_explored rest d.explored htail2]
      simp [idsOf]
    refine Or.inr (Or.inr (Or.inl ⟨fid, c, hn1, ?_, ?_⟩))
    · rw [hn2, ReqT_mk, queueReq_BE, hR]
      simp only [List.filter_cons]
      rw [if_pos (by simp [hf])]
      rw [filter_all_explored rest d.explored htail2]
      simp [idsOf]
    · rw [hR]
      exact List.mem_cons_self _ _
  · -- endENew
    injection hn1 with hn1
    have htail2 : ∀ fr ∈ rest, fr.id ∈ d.explored := fun fr hfr =>
      hinv.2.2.1 fr (by rw [hst]; exact hfr)
    have hR : ReqT d = fid :: idsOf rest := by
      rw [ReqT_def, hq, hst, queueReq_nil]
      simp only [List.filter_cons]
      rw [if_pos (by simp [hf])]
      rw [filter_all_explored rest d.explored htail2]
      simp [idsOf]
    refine Or.inr (Or.inr (Or.inl ⟨fid, c, hn1, ?_, ?_⟩))
    · rw [hn2, ReqT_mk, queueReq_BE, hR]
      simp only [List.filter_cons]
      rw [if_neg (by simp [Frame.fromId, hnew])]
      rw [if_pos (by simp [hf])]
      rw [filter_all_explored rest d.explored htail2]
      simp [idsOf]
    · rw [hR]
      exact List.mem_cons_self _ _

theorem idsOf_cons (f : Frame) (rest : List Frame) :
    idsOf (f :: rest) = f.id :: idsOf rest := rfl

theorem XInv_on (g : Graph) (r : VertexId) : XInv (DepthFirst.on g r) := by
  have hg : (DepthFirst.on g r).graph = g := on_graph g r
  have hex : (DepthFirst.on g r).explored = [] := on_explored g r
  have hstk : (DepthFirst.on g r).stack = [Frame.fromId r g] ∨
      (DepthFirst.on g r).stack = [] := by
    unfold DepthFirst.on
    split
    · exact Or.inl rfl
    · exact Or.inr rfl
  unfold XInv
  rw [hg, hex]
  rcases hstk with h1 | h1 <;> rw [h1]
  · refine ⟨?_, ?_, ?_, ?_⟩
    · intro A u B h2 c hc
      have h2' : [(Frame.fromId r g).id] = A ++ u :: B := h2
      cases A with
      | nil => simp at hc
      | cons a A2 =>
        injection h2' with h3 h4
        cases A2 with
        | nil => simp at h4
        | cons a2 A3 => simp at h4
    · intro f hf
      simp only [List.mem_singleton] at hf
      subst hf
      refine ⟨[], ?_⟩
      simp [Frame.fromId, Graph.adj]
    · left
      intro f hf c hc
      simp only [List.mem_singleton] at hf
      subst hf
      simp [Frame.fromId] at hc
    · intro A f f2 B h2
      cases A with
      | nil =>
        injection h2 with h3 h4
        simp at h4
      | cons a A2 =>
        injection h2 with h3 h4
        simp at h4
  · refine ⟨?_, ?_, ?_, ?_⟩
    · intro A u B h2 c hc
      have h2' : ([] : List VertexId) = A ++ u :: B := h2
      simp at h2'
    · intro f hf
      simp at hf
    · left
      intro f hf
      simp at hf
    · intro A f f2 B h2
      simp at h2

theorem XInv_suppress (g : Graph) (f : Frame) (S : List Frame) (ex : List VertexId)
    (q : List DFSEntry) (hX : XInv ⟨g, f :: S, ex, q⟩) :
    XInv ⟨g, S, f.id :: ex, []⟩ := by
  have hCh : ChainStk g (f :: S) := hX.1
  have hFr : Frames g (f :: S) := hX.2.1
  have hPe : PendExpl g (f :: S) ex := hX.2.2.1
  have hPA : PAR (f :: S) := hX.2.2.2
  refine ⟨?_, ?_, ?_, ?_⟩
  · show ChainStk g S
    intro A u B h2 c hc
    exact hCh (f.id :: A) u B (by rw [idsOf_cons, h2]; rfl) c (List.mem_cons_of_mem _ hc)
  · show Frames g S
    intro f2 hf2
    exact hFr f2 (List.mem_cons_of_mem _ hf2)
  · show PendExpl g S (f.id :: ex)
    rcases hPe with h1 | ⟨c, rest2, hsh, hcne, hrest⟩
    · left
      intro f2 hf2 c hc
      exact List.mem_cons_of_mem _ (h1 f2 (List.mem_cons_of_mem _ hf2) c hc)
    · left
      intro f2 hf2 c2 hc2
      injection hsh with h3 h4
      have hcf : f.id = c := congrArg Frame.id h3
      rcases hrest f2 (h4 ▸ hf2) c2 hc2 with h5 | h5
      · exact List.mem_cons_of_mem _ h5
      · have h6 : c2 = f.id := by rw [h5, ← hcf]
        rw [h6]
        exact List.mem_cons_self _ _
  · show PAR S
    intro A f1 f2 B h2
    exact hPA (f :: A) f1 f2 B (by rw [h2, List.cons_append])

theorem XInv_next (d : DepthFirst) (hinv : Inv d) (hX : XInv d)
    (oe : Option DFSEntry) (d' : DepthFirst) (h : d.next = (oe, d')) : XInv d' := by
  have hCh : ChainStk d.graph d.stack := hX.1
  have hFr : Frames d.graph d.stack := hX.2.1
  have hPe : PendExpl d.graph d.stack d.explored := hX.2.2.1
  have hPA : PAR d.stack := hX.2.2.2
  rcases next_spec d hinv.1 with
    ⟨e0, q0, hq, hn⟩ | ⟨hst, hq, hn⟩ | ⟨f, rest, hst, hq, hf, hn⟩ |
    ⟨fid, rest, hst, hq, hf, hn⟩ | ⟨fid, c, rest, hst, hq, hf, hn⟩ |
    ⟨fid, n, ns, rest, hst, hq, hf, hold, hn⟩ |
    ⟨fid, n, ns, rest, hst, hq, hf, hnew, hn⟩ |
    ⟨fid, c, n, ns, rest, hst, hq, hf, hold, hn⟩ |
    ⟨fid, c, n, ns, rest, hst, hq, hf, hnew, hn⟩ <;>
    rw [h] at hn <;> (injection hn with hn1 hn2) <;> rw [hn2]
  · -- queuePop: stack, explored unchanged
    exact ⟨hCh, hFr, hPe, hPA⟩
  · -- finished: state unchanged
    exact ⟨hCh, hFr, hPe, hPA⟩
  · -- beginV
    rw [hst] at hCh hFr hPe hPA
    refine ⟨hCh, hFr, ?_, hPA⟩
    show PendExpl d.graph (f :: rest) (f.id :: d.explored)
    rcases hPe with h1 | ⟨c, rest2, hsh, hcne, hrest⟩
    · left
      intro f2 hf2 c hc
      exact List.mem_cons_of_mem _ (h1 f2 hf2 c hc)
    · left
      intro f2 hf2 c2 hc2
      injection hsh with h3 h4
      have hcf : f.id = c := congrArg Frame.id h3
      rcases List.mem_cons.mp hf2 with h5 | h5
      · subst h5
        rw [h3] at hc2
        simp [Frame.fromId] at hc2
      · rcases hrest f2 (h4 ▸ h5) c2 hc2 with h6 | h6
        · exact List.mem_cons_of_mem _ h6
        · have h7 : c2 = f.id := by rw [h6, ← hcf]
          rw [h7]
          exact List.mem_cons_self _ _
  · -- endV: pop the finished top frame
    rw [hst] at hCh hFr hPe hPA
    refine ⟨?_, ?_, ?_, ?_⟩
    · show ChainStk d.graph rest
      intro A u B h2 c hc
      exact hCh (fid :: A) u B
        (by rw [idsOf_cons, h2]; rfl) c (List.mem_cons_of_mem _ hc)
    · show Frames d.graph rest
      intro f2 hf2
      exact hFr f2 (List.mem_cons_of_mem _ hf2)
    · show PendExpl d.graph rest d.explored
      rcases hPe with h1 | ⟨c, rest2, hsh, hcne, hrest⟩
      · left
        intro f2 hf2 c hc
        exact h1 f2 (List.mem_cons_of_mem _ hf2) c hc
      · exfalso
        injection hsh with h3 h4
        have hcf : fid = c := congrArg Frame.id h3
        exact hcne (hcf ▸ hf)
    · show PAR rest
      intro A f1 f2 B h2
      exact hPA (⟨fid, none, [], false⟩ :: A) f1 f2 B (by rw [h2, List.cons_append])
  · -- endELast: pop the frame that closed its last edge
    rw [hst] at hCh hFr hPe hPA
    refine ⟨?_, ?_, ?_, ?_⟩
    · show ChainStk d.graph rest
      intro A u B h2 c2 hc2
      exact hCh (fid :: A) u B
        (by rw [idsOf_cons, h2]; rfl) c2 (List.mem_cons_of_mem _ hc2)
    · show Frames d.graph rest
      intro f2 hf2
      exact hFr f2 (List.mem_cons_of_mem _ hf2)
    · show PendExpl d.graph rest d.explored
      rcases hPe with h1 | ⟨c2, rest2, hsh, hcne, hrest⟩
      · left
        intro f2 hf2 c2 hc2
        exact h1 f2 (List.mem_cons_of_mem _ hf2) c2 hc2
      · exfalso
        injection hsh with h3 h4
        have hcf : fid = c2 := congrArg Frame.id h3
        exact hcne (hcf ▸ hf)
    · show PAR rest
      intro A f1 f2 B h2
      exact hPA (⟨fid, some c, [], false⟩ :: A) f1 f2 B (by rw [h2, List.cons_append])
  · -- beginEOld
    rw [hst] at hCh hFr hPe hPA
    have hsecno : ∀ (c2 : VertexId) (rest2 : List Frame),
        (⟨fid, none, n :: ns, false⟩ : Frame) :: rest
            = Frame.fromId c2 d.graph :: rest2 → c2 ∉ d.explored → False := by
      intro c2 rest2 hsh hcne
      injection hsh with h3 h4
      have hcf : fid = c2 := congrArg Frame.id h3
      exact hcne (hcf ▸ hf)
    refine ⟨?_, ?_, ?_, ?_⟩
    · show ChainStk d.graph (⟨fid, some n, ns, false⟩ :: rest)
      intro A u B h2 c hc
      refine hCh A u B ?_ c hc
      rw [idsOf_cons]
      rw [idsOf_cons] at h2
      exact h2
    · show Frames d.graph (⟨fid, some n, ns, false⟩ :: rest)
      intro f2 hf2
      rcases List.mem_cons.mp hf2 with h5 | h5
      · obtain ⟨pre, hpre⟩ := hFr ⟨fid, none, n :: ns, false⟩ (List.mem_cons_self _ _)
        subst h5
        refine ⟨pre, ?_⟩
        have hpre2 : d.graph.adj fid = pre ++ [] ++ n :: ns := hpre
        show d.graph.adj fid = pre ++ [n] ++ ns
        rw [hpre2]
        simp
      · exact hFr f2 (List.mem_cons_of_mem _ h5)
    · show PendExpl d.graph (⟨fid, some n, ns, false⟩ :: rest) d.explored
      rcases hPe with h1 | ⟨c2, rest2, hsh, hcne, hrest⟩
      · left
        intro f2 hf2 c2 hc2
        rcases List.mem_cons.mp hf2 with h5 | h5
        · subst h5
          injection hc2 with h6
          rw [← h6]
          exact hold
        · exact h1 f2 (List.mem_cons_of_mem _ h5) c2 hc2
      · exact absurd (hsecno c2 rest2 hsh hcne) (by simp)
    · show PAR (⟨fid, some n, ns, false⟩ :: rest)
      intro A f1 f2 B h2
      cases A with
      | nil =>
        injection h2 with h3 h4
        rw [← h3]
        exact hPA [] ⟨fid, none, n :: ns, false⟩ f2 B (by rw [h4]; rfl)
      | cons a A2 =>
        injection h2 with h3 h4
        exact hPA (⟨fid, none, n :: ns, false⟩ :: A2) f1 f2 B
          (by rw [h4]; simp)
  · -- beginENew
    rw [hst] at hCh hFr hPe hPA
    have hstepn : d.graph.Step fid n := by
      obtain ⟨pre, hpre⟩ := hFr ⟨fid, none, n :: ns, false⟩ (List.mem_cons_self _ _)
      have hpre2 : d.graph.adj fid = pre ++ [] ++ n :: ns := hpre
      show n ∈ d.graph.adj fid
      rw [hpre2]
      simp
    refine ⟨?_, ?_, ?_, ?_⟩
    · show ChainStk d.graph
        (Frame.fromId n d.graph :: ⟨fid, some n, ns, false⟩ :: rest)
      intro A u B h2 c hc
      have h2' : n :: fid :: idsOf rest = A ++ u :: B := h2
      cases A with
      | nil => simp at hc
      | cons a A2 =>
        injection h2' with h3 h4
        have hids : fid :: idsOf rest = A2 ++ u :: B := h4
        rcases List.mem_cons.mp hc with h5 | h5
        · subst h5
          rw [← h3]
          have hufid : d.graph.Reaches u fid := by
            cases A2 with
            | nil =>
              injection h4 with h6 h7
              rw [← h6]
              exact Relation.ReflTransGen.refl
            | cons a2 A3 =>
              injection h4 with h6 h7
              refine hCh (a2 :: A3) u B hids fid ?_
              rw [h6]
              exact List.mem_cons_self _ _
          exact hufid.trans (Relation.ReflTransGen.single hstepn)
        · exact hCh A2 u B hids c h5
    · show Frames d.graph
        (Frame.fromId n d.graph :: ⟨fid, some n, ns, false⟩ :: rest)
      intro f2 hf2
      rcases List.mem_cons.mp hf2 with h5 | h5
      · subst h5
        refine ⟨[], ?_⟩
        simp [Frame.fromId, Graph.adj]
      · rcases List.mem_cons.mp h5 with h6 | h6
        · obtain ⟨pre, hpre⟩ := hFr ⟨fid, none, n :: ns, false⟩ (List.mem_cons_self _ _)
          subst h6
          refine ⟨pre, ?_⟩
          have hpre2 : d.graph.adj fid = pre ++ [] ++ n :: ns := hpre
          show d.graph.adj fid = pre ++ [n] ++ ns
          rw [hpre2]
          simp
        · exact hFr f2 (List.mem_cons_of_mem _ h6)
    · show PendExpl d.graph
        (Frame.fromId n d.graph :: ⟨fid, some n, ns, false⟩ :: rest) d.explored
      have hfirst : ∀ f2 ∈ (⟨fid, none, n :: ns, false⟩ : Frame) :: rest,
          ∀ c2, f2.current_neighbour = some c2 → c2 ∈ d.explored := by
        rcases hPe with h1 | ⟨c2, rest2, hsh, hcne, hrest⟩
        · exact h1
        · exfalso
          injection hsh with h3 h4
          have hcf : fid = c2 := congrArg Frame.id h3
          exact hcne (hcf ▸ hf)
      right
      refine ⟨n, ⟨fid, some n, ns, false⟩ :: rest, rfl, hnew, ?_⟩
      intro f2 hf2 c2 hc2
      rcases List.mem_cons.mp hf2 with h5 | h5
      · subst h5
        injection hc2 with h6
        exact Or.inr h6.symm
      · exact Or.inl (hfirst f2 (List.mem_cons_of_mem _ h5) c2 hc2)
    · show PAR (Frame.fromId n d.graph :: ⟨fid, some n, ns, false⟩ :: rest)
      intro A f1 f2 B h2
      cases A with
      | nil =>
        injection h2 with h3 h4
        injection h4 with h5 h6
        rw [← h5, ← h3]
        rfl
      | cons a A2 =>
        injection h2 with h3 h4
        cases A2 with
        | nil =>
          injection h4 with h5 h6
          have h7 := hPA [] ⟨fid, none, n :: ns, false⟩ f2 B (by rw [h6]; rfl)
          rw [← h5]
          exact h7
        | cons a2 A3 =>
          injection h4 with h5 h6
          exact hPA (⟨fid, none, n :: ns, false⟩ :: A3) f1 f2 B
            (by rw [h6]; simp)
  · -- endEOld
    rw [hst] at hCh hFr hPe hPA
    have hsecno : ∀ (c2 : VertexId) (rest2 : List Frame),
        (⟨fid, some c, n :: ns, false⟩ : Frame) :: rest
            = Frame.fromId c2 d.graph :: rest2 → c2 ∉ d.explored → False := by
      intro c2 rest2 hsh hcne
      injection hsh with h3 h4
      have hcf : fid = c2 := congrArg Frame.id h3
      exact hcne (hcf ▸ hf)
    refine ⟨?_, ?_, ?_, ?_⟩
    · show ChainStk d.graph (⟨fid, some n, ns, false⟩ :: rest)
      intro A u B h2 c2 hc2
      refine hCh A u B ?_ c2 hc2
      rw [idsOf_cons]
      rw [idsOf_cons] at h2
      exact h2
    · show Frames d.graph (⟨fid, some n, ns, false⟩ :: rest)
      intro f2 hf2
      rcases List.mem_cons.mp hf2 with h5 | h5
      · obtain ⟨pre, hpre⟩ := hFr ⟨fid, some c, n :: ns, false⟩ (List.mem_cons_self _ _)
        subst h5
        refine ⟨pre ++ [c], ?_⟩
        have hpre2 : d.graph.adj fid = pre ++ [c] ++ n :: ns := hpre
        show d.graph.adj fid = pre ++ [c] ++ [n] ++ ns
        rw [hpre2]
        simp
      · exact hFr f2 (List.mem_cons_of_mem _ h5)
    · show PendExpl d.graph (⟨fid, some n, ns, false⟩ :: rest) d.explored
      rcases hPe with h1 | ⟨c2, rest2, hsh, hcne, hrest⟩
      · left
        intro f2 hf2 c2 hc2
        rcases List.mem_cons.mp hf2 with h5 | h5
        · subst h5
          injection hc2 with h6
          rw [← h6]
          exact hold
        · exact h1 f2 (List.mem_cons_of_mem _ h5) c2 hc2
      · exact absurd (hsecno c2 rest2 hsh hcne) (by simp)
    · show PAR (⟨fid, some n, ns, false⟩ :: rest)
      intro A f1 f2 B h2
      cases A with
      | nil =>
        injection h2 with h3 h4
        rw [← h3]
        exact hPA [] ⟨fid, some c, n :: ns, false⟩ f2 B (by rw [h4]; rfl)
      | cons a A2 =>
        injection h2 with h3 h4
        exact hPA (⟨fid, some c, n :: ns, false⟩ :: A2) f1 f2 B
          (by rw [h4]; simp)
  · -- endENew
    rw [hst] at hCh hFr hPe hPA
    have hstepn : d.graph.Step fid n := by
      obtain ⟨pre, hpre⟩ := hFr ⟨fid, some c, n :: ns, false⟩ (List.mem_cons_self _ _)
      have hpre2 : d.graph.adj fid = pre ++ [c] ++ n :: ns := hpre
      show n ∈ d.graph.adj fid
      rw [hpre2]
      exact List.mem_append_right _ (List.mem_cons_self _ _)
    refine ⟨?_, ?_, ?_, ?_⟩
    · show ChainStk d.graph
        (Frame.fromId n d.graph :: ⟨fid, some n, ns, false⟩ :: rest)
      intro A u B h2 c2 hc2
      have h2' : n :: fid :: idsOf rest = A ++ u :: B := h2
      cases A with
      | nil => simp at hc2
      | cons a A2 =>
        injection h2' with h3 h4
        have hids : fid :: idsOf rest = A2 ++ u :: B := h4
        rcases List.mem_cons.mp hc2 with h5 | h5
        · subst h5
          rw [← h3]
          have hufid : d.graph.Reaches u fid := by
            cases A2 with
            | nil =>
              injection h4 with h6 h7
              rw [← h6]
              exact Relation.ReflTransGen.refl
            | cons a2 A3 =>
              injection h4 with h6 h7
              refine hCh (a2 :: A3) u B hids fid ?_
              rw [h6]
              exact List.mem_cons_self _ _
          exact hufid.trans (Relation.ReflTransGen.single hstepn)
        · exact hCh A2 u B hids c2 h5
    · show Frames d.graph
        (Frame.fromId n d.graph :: ⟨fid, some n, ns, false⟩ :: rest)
      intro f2 hf2
      rcases List.mem_cons.mp hf2 with h5 | h5
      · subst h5
        refine ⟨[], ?_⟩
        simp [Frame.fromId, Graph.adj]
      · rcases List.mem_cons.mp h5 with h6 | h6
        · obtain ⟨pre, hpre⟩ := hFr ⟨fid, some c, n :: ns, false⟩ (List.mem_cons_self _ _)
          subst h6
          refine ⟨pre ++ [c], ?_⟩
          have hpre2 : d.graph.adj fid = pre ++ [c] ++ n :: ns := hpre
          show d.graph.adj fid = pre ++ [c] ++ [n] ++ ns
          rw [hpre2]
          simp
        · exact hFr f2 (List.mem_cons_of_mem _ h6)
    · show PendExpl d.graph
        (Frame.fromId n d.graph :: ⟨fid, some n, ns, false⟩ :: rest) d.explored
      have hfirst : ∀ f2 ∈ (⟨fid, some c, n :: ns, false⟩ : Frame) :: rest,
          ∀ c2, f2.current_neighbour = some c2 → c2 ∈ d.explored := by
        rcases hPe with h1 | ⟨c2, rest2, hsh, hcne, hrest⟩
        · exact h1
        · exfalso
          injection hsh with h3 h4
          have hcf : fid = c2 := congrArg Frame.id h3
          exact hcne (hcf ▸ hf)
      right
      refine ⟨n, ⟨fid, some n, ns, false⟩ :: rest, rfl, hnew, ?_⟩
      intro f2 hf2 c2 hc2
      rcases List.mem_cons.mp hf2 with h5 | h5
      · subst h5
        injection hc2 with h6
        exact Or.inr h6.symm
      · exact Or.inl (hfirst f2 (List.mem_cons_of_mem _ h5) c2 hc2)
    · show PAR (Frame.fromId n d.graph :: ⟨fid, some n, ns, false⟩ :: rest)
      intro A f1 f2 B h2
      cases A with
      | nil =>
        injection h2 with h3 h4
        injection h4 with h5 h6
        rw [← h5, ← h3]
        rfl
      | cons a A2 =>
        injection h2 with h3 h4
        cases A2 with
        | nil =>
          injection h4 with h5 h6
          have h7 := hPA [] ⟨fid, some c, n :: ns, false⟩ f2 B (by rw [h6]; rfl)
          rw [← h5]
          exact h7
        | cons a2 A3 =>
          injection h4 with h5 h6
          exact hPA (⟨fid, some c, n :: ns, false⟩ :: A3) f1 f2 B
            (by rw [h6]; simp)

end tree

theorem contains_of_mem_vertices (g : Graph) (hwf : g.WF) (v : VertexId)
    (hv : v ∈ g.vertices) : g.contains v = true := by
  unfold Graph.contains
  rw [hwf.1] at hv ⊢
  rw [List.length_range]
  simpa using List.mem_range.mp hv

namespace graph

theorem sum_map_one (l : List VertexId) : (l.map (fun _ => (1 : Nat))).sum = l.length := by
  induction l with
  | nil => rfl
  | cons a l ih => simp [ih]; omega

theorem length_filter_notmem_cons (ex : List VertexId) (v0 : VertexId)
    (l : List VertexId) (hnd : l.Nodup) (hv : v0 ∈ l) (hex : v0 ∉ ex) :
    (l.filter (fun v => decide (v ∉ v0 :: ex))).length + 1
      = (l.filter (fun v => decide (v ∉ ex))).length := by
  have h := tree.sum_filter_notmem_cons (fun _ => (1 : Nat)) ex v0 l hnd hv hex
  rw [sum_map_one, sum_map_one] at h
  exact h

theorem length_filter_notmem_nil (n : Nat) :
    ((List.range n).filter (fun v => decide (v ∉ ([] : List VertexId)))).length = n := by
  rw [List.filter_eq_self.mpr (by intro a ha; simp)]
  exact List.length_range n

theorem gnextF_succ_emit (fuel : Nat) (d : DepthFirst) (entry : DFSEntry)
    (en2 : tree.DepthFirst) (hen : d.enumeration.next = (some entry, en2))
    (hok : ∀ v, entry = DFSEntry.BeginVertex v → v ∉ d.explored) :
    DepthFirst.nextF (fuel + 1) d
      = some (some entry, ⟨d.graph, en2, d.vertices, d.explored⟩) := by
  obtain ⟨G, en, vts, exo⟩ := d
  simp only at hen hok ⊢
  cases entry with
  | BeginVertex v =>
    have hnm : v ∉ exo := hok v rfl
    simp [DepthFirst.nextF, hen,
      DepthFirst.make_sure_that_entry_was_not_already_given, hnm]
  | BeginEdge e =>
    simp [DepthFirst.nextF, hen, DepthFirst.make_sure_that_entry_was_not_already_given]
  | EndVertex v =>
    simp [DepthFirst.nextF, hen, DepthFirst.make_sure_that_entry_was_not_already_given]
  | EndEdge e =>
    simp [DepthFirst.nextF, hen, DepthFirst.make_sure_that_entry_was_not_already_given]

theorem gnextF_succ_suppress (fuel : Nat) (d : DepthFirst) (v : VertexId)
    (en2 : tree.DepthFirst)
    (hen : d.enumeration.next = (some (DFSEntry.BeginVertex v), en2))
    (hv : v ∈ d.explored) :
    DepthFirst.nextF (fuel + 1) d
      = DepthFirst.nextF fuel ⟨d.graph, en2.drop_current_vertex, d.vertices, d.explored⟩ := by
  obtain ⟨G, en, vts, exo⟩ := d
  simp only at hen hv ⊢
  simp [DepthFirst.nextF, hen, DepthFirst.make_sure_that_entry_was_not_already_given, hv]

theorem gnextF_succ_finish (fuel : Nat) (d : DepthFirst) (en2 : tree.DepthFirst)
    (hen : d.enumeration.next = (none, en2)) (hv : d.vertices = []) :
    DepthFirst.nextF (fuel + 1) d
      = some (none, ⟨d.graph, en2, [], d.explored⟩) := by
  obtain ⟨G, en, vts, exo⟩ := d
  simp only at hen hv ⊢
  subst hv
  simp [DepthFirst.nextF, hen]

theorem gnextF_succ_restart (fuel : Nat) (d : DepthFirst) (en2 : tree.DepthFirst)
    (v : VertexId) (rest : List VertexId)
    (hen : d.enumeration.next = (none, en2)) (hv : d.vertices = v :: rest) :
    DepthFirst.nextF (fuel + 1) d
      = DepthFirst.nextF fuel
          ⟨d.graph, tree.DepthFirst.on d.graph v, rest, d.explored ++ en2.explored⟩ := by
  obtain ⟨G, en, vts, exo⟩ := d
  simp only at hen hv ⊢
  subst hv
  simp [DepthFirst.nextF, hen, DepthFirst.start_new_tree]

theorem gnextF_after_drop (fuel : Nat) (G : Graph) (vts exo : List VertexId)
    (v : VertexId) (nbs : List VertexId) (rest : List Frame) (ex : List VertexId)
    (hmem : v ∈ ex) :
    DepthFirst.nextF fuel
        ⟨G, ⟨G, Frame.mk v none nbs true :: rest, ex, []⟩, vts, exo⟩
      = DepthFirst.nextF fuel ⟨G, ⟨G, rest, ex, []⟩, vts, exo⟩ := by
  cases fuel with
  | zero => rfl
  | succ fuel =>
    have h := tree.next_after_drop G v nbs rest ex hmem
    simp only [DepthFirst.nextF]
    rw [h]

theorem rho_fuel_arith (L n U F : Nat) (hU : U ≤ n) (hF : n + 3 ≤ F) :
    L * (n + 2) + U + 1 < (L + 1) * F + 2 := by
  have h1 : (L + 1) * (n + 3) ≤ (L + 1) * F := Nat.mul_le_mul (Nat.le_refl (L + 1)) hF
  have h2 : (L + 1) * (n + 3) = L * (n + 3) + (n + 3) := by ring
  have h3 : L * (n + 2) ≤ L * (n + 3) := Nat.mul_le_mul (Nat.le_refl L) (by omega)
  omega

theorem rho_lt_fuelBound (d : DepthFirst) (hwf : d.graph.WF) : d.rho < d.fuelBound := by
  unfold DepthFirst.rho DepthFirst.fuelBound
  have hU : ((List.range d.graph.out_index.length).filter
      (fun v => decide (v ∉ d.enumeration.explored))).length
      ≤ d.graph.out_index.length := by
    calc ((List.range d.graph.out_index.length).filter
        (fun v => decide (v ∉ d.enumeration.explored))).length
        ≤ (List.range d.graph.out_index.length).length := List.length_filter_le _ _
      _ = d.graph.out_index.length := List.length_range _
  have hvn : d.graph.vertices.length = d.graph.out_index.length := by
    rw [hwf.1]
    exact List.length_range _
  exact rho_fuel_arith _ _ _ _ hU (by omega)

theorem mu_pos (d : DepthFirst) : 1 ≤ d.mu := by
  unfold DepthFirst.mu
  omega

theorem GTr_iff (gtr : List DFSEntry) (d₁ d₂ : DepthFirst)
    (h : ∀ v, v ∈ d₁.visited ↔ v ∈ d₂.visited) (ht : GTr gtr d₁) : GTr gtr d₂ :=
  fun v => (ht v).trans (if_congr (h v) rfl rfl)

theorem GInv_on (g : Graph) (hwf : g.WF) : GInv (DepthFirst.on g) := by
  cases hv : g.vertices with
  | nil =>
    have hon : DepthFirst.on g = ⟨g, tree.DepthFirst.on g 0, [], []⟩ := by
      unfold DepthFirst.on
      rw [hv]
    rw [hon]
    refine ⟨tree.on_graph g 0, tree.Inv_on g 0 hwf, ?_, tree.QShape_on g 0, by simp, [],
      ?_, Or.inl rfl⟩
    · intro e he w
      rw [tree.on_queue] at he
      simp at he
    · simp [hv]
  | cons v0 rest =>
    have hon : DepthFirst.on g = ⟨g, tree.DepthFirst.on g v0, rest, []⟩ := by
      unfold DepthFirst.on
      rw [hv]
    rw [hon]
    refine ⟨tree.on_graph g v0, tree.Inv_on g v0 hwf, ?_, tree.QShape_on g v0, by simp,
      [v0], by simp [hv], Or.inr ⟨v0, ?_, Or.inr ⟨rfl, ?_⟩⟩⟩
    · intro e he w
      rw [tree.on_queue] at he
      simp at he
    · intro w hw
      simp only [List.mem_singleton] at hw
      exact Or.inr hw
    · exact contains_of_mem_vertices g hwf v0 (by rw [hv]; exact List.mem_cons_self _ _)

theorem GTr_on (g : Graph) : GTr [] (DepthFirst.on g) := by
  intro v
  have hvis : (DepthFirst.on g).visited = [] := by
    unfold DepthFirst.visited DepthFirst.on
    cases g.vertices <;> simp [tree.on_explored]
  rw [hvis]
  simp

theorem mu_restart_arith (L C pf p : Nat) (hpf : pf + 1 ≤ C) :
    L * C + pf + 1 < (L + 1) * C + p + 1 := by
  have h2 : (L + 1) * C = L * C + C := by ring
  omega

theorem rho_restart_arith (R n U : Nat) :
    R * (n + 2) + n + 1 < (R + 1) * (n + 2) + U + 1 := by
  have h2 : (R + 1) * (n + 2) = R * (n + 2) + (n + 2) := by ring
  omega

theorem fresh_root_BV (d : DepthFirst) (rt : VertexId) (entry : DFSEntry)
    (en2 : tree.DepthFirst)
    (hfresh : d.enumeration = tree.DepthFirst.on d.graph rt)
    (hcont : d.graph.contains rt = true)
    (hen : d.enumeration.next = (some entry, en2)) :
    entry = DFSEntry.BeginVertex rt ∧
      en2 = ⟨d.graph, [Frame.fromId rt d.graph], [rt], []⟩ := by
  have hn0 := tree.next_on d.graph rt hcont
  rw [hfresh, hn0] at hen
  injection hen with h1 h2
  injection h1 with h1
  exact ⟨h1.symm, h2.symm⟩

theorem gnext_emit_nonBV (fuel : Nat) (d : DepthFirst) (gtr : List DFSEntry)
    (entry : DFSEntry) (en2 : tree.DepthFirst)
    (hwf : d.graph.WF) (hG : GInv d) (hT : GTr gtr d)
    (hen : d.enumeration.next = (some entry, en2))
    (hne : ∀ w, entry ≠ DFSEntry.BeginVertex w) :
    DepthFirst.nextF (fuel + 1) d
        = some (some entry, ⟨d.graph, en2, d.vertices, d.explored⟩) ∧
    (⟨d.graph, en2, d.vertices, d.explored⟩ : DepthFirst).graph = d.graph ∧
    GInv ⟨d.graph, en2, d.vertices, d.explored⟩ ∧
    GTr (gtr ++ [entry]) ⟨d.graph, en2, d.vertices, d.explored⟩ ∧
    (⟨d.graph, en2, d.vertices, d.explored⟩ : DepthFirst).mu < d.mu := by
  obtain ⟨hge, hinv, hqbv, hqs, hob, consumed, hsplit, hcons⟩ := hG
  have hwfen : d.enumeration.graph.WF := by
    rw [hge]
    exact hwf
  obtain ⟨hinv2, hgeq2, hmono2⟩ := tree.Inv_next d.enumeration hwfen hinv _ _ hen
  have hqbv2 := tree.queue_no_BV_next d.enumeration hinv.1 hqbv _ _ hen
  have hphi2 : tree.phi en2 < tree.phi d.enumeration :=
    tree.phi_next _ hwfen hinv entry en2 hen
  have hexeq : en2.explored = d.enumeration.explored :=
    tree.next_not_BV_explored d.enumeration hinv.1 entry en2 hen hne
  have hgeq2' : en2.graph = d.graph := by
    rw [hgeq2, hge]
  have hqs2 := tree.QShape_next d.enumeration hinv.1 hqs _ _ hen
  refine ⟨gnextF_succ_emit fuel d entry en2 hen (fun w hw => absurd hw (hne w)), rfl,
    ⟨hgeq2', hinv2, hqbv2, hqs2, hob, consumed, hsplit, ?_⟩, ?_, ?_⟩
  · rcases hcons with hnil | ⟨rt, hcov, hrt⟩
    · exact Or.inl hnil
    · refine Or.inr ⟨rt, ?_, Or.inl ?_⟩
      · intro w hw
        rcases hcov w hw with hvis | hwrt
        · left
          unfold DepthFirst.visited at hvis ⊢
          simp only at hvis ⊢
          rw [hexeq]
          exact hvis
        · exact Or.inr hwrt
      · rcases hrt with hrt | ⟨hfresh, hcont⟩
        · simp only
          rw [hexeq]
          exact hrt
        · exact absurd (fresh_root_BV d rt entry en2 hfresh hcont hen).1 (hne rt)
  · intro w
    rw [tree.count_append_single, hT w]
    have hz : (if entry = DFSEntry.BeginVertex w then 1 else 0) = 0 := by
      rw [if_neg (hne w)]
    have hiff : w ∈ d.visited ↔ w ∈ (⟨d.graph, en2, d.vertices, d.explored⟩ :
        DepthFirst).visited := by
      unfold DepthFirst.visited
      simp only
      rw [hexeq]
    rw [hz, Nat.add_zero, if_congr hiff rfl rfl]
  · show d.vertices.length * totalCredit d.graph + tree.phi en2 + 1
        < d.vertices.length * totalCredit d.graph + tree.phi d.enumeration + 1
    omega

theorem gnext_emit_BV (fuel : Nat) (d : DepthFirst) (gtr : List DFSEntry)
    (v : VertexId) (en2 : tree.DepthFirst)
    (hwf : d.graph.WF) (hG : GInv d) (hT : GTr gtr d)
    (hen : d.enumeration.next = (some (DFSEntry.BeginVertex v), en2))
    (hvout : v ∉ d.explored) :
    DepthFirst.nextF (fuel + 1) d
        = some (some (DFSEntry.BeginVertex v), ⟨d.graph, en2, d.vertices, d.explored⟩) ∧
    (⟨d.graph, en2, d.vertices, d.explored⟩ : DepthFirst).graph = d.graph ∧
    GInv ⟨d.graph, en2, d.vertices, d.explored⟩ ∧
    GTr (gtr ++ [DFSEntry.BeginVertex v]) ⟨d.graph, en2, d.vertices, d.explored⟩ ∧
    (⟨d.graph, en2, d.vertices, d.explored⟩ : DepthFirst).mu < d.mu := by
  obtain ⟨hge, hinv, hqbv, hqs, hob, consumed, hsplit, hcons⟩ := hG
  have hwfen : d.enumeration.graph.WF := by
    rw [hge]
    exact hwf
  obtain ⟨hinv2, hgeq2, hmono2⟩ := tree.Inv_next d.enumeration hwfen hinv _ _ hen
  have hqbv2 := tree.queue_no_BV_next d.enumeration hinv.1 hqbv _ _ hen
  have hphi2 : tree.phi en2 < tree.phi d.enumeration :=
    tree.phi_next _ hwfen hinv _ en2 hen
  have hgeq2' : en2.graph = d.graph := by
    rw [hgeq2, hge]
  obtain ⟨f, rest0, hstk, hfid, hvex, hqe, hen2eq⟩ :=
    tree.next_BV_spec d.enumeration hinv.1 hqbv v en2 hen
  have hex2 : en2.explored = v :: d.enumeration.explored := by
    rw [hen2eq]
  have hqs2 := tree.QShape_next d.enumeration hinv.1 hqs _ _ hen
  refine ⟨gnextF_succ_emit fuel d _ en2 hen
      (fun w hw => by injection hw with hw; rw [← hw]; exact hvout), rfl,
    ⟨hgeq2', hinv2, hqbv2, hqs2, hob, consumed, hsplit, ?_⟩, ?_, ?_⟩
  · rcases hcons with hnil | ⟨rt, hcov, hrt⟩
    · exact Or.inl hnil
    · refine Or.inr ⟨rt, ?_, Or.inl ?_⟩
      · intro w hw
        rcases hcov w hw with hvis | hwrt
        · left
          unfold DepthFirst.visited at hvis ⊢
          simp only
          rw [hex2]
          rcases List.mem_append.mp hvis with h' | h'
          · exact List.mem_append_left _ h'
          · exact List.mem_append_right _ (List.mem_cons_of_mem _ h')
        · exact Or.inr hwrt
      · simp only
        rw [hex2]
        rcases hrt with hrt | ⟨hfresh, hcont⟩
        · exact List.mem_cons_of_mem _ hrt
        · have h1 := (fresh_root_BV d rt _ en2 hfresh hcont hen).1
          injection h1 with h1
          rw [h1]
          exact List.mem_cons_self _ _
  · intro w
    rw [tree.count_append_single, hT w]
    by_cases hwv : w = v
    · subst hwv
      rw [if_pos rfl]
      rw [if_neg (by
        unfold DepthFirst.visited
        rw [List.mem_append]
        rintro (h' | h')
        · exact hvout h'
        · exact hvex h')]
      rw [if_pos (by
        unfold DepthFirst.visited
        simp only
        rw [hex2]
        exact List.mem_append_right _ (List.mem_cons_self _ _))]
    · rw [if_neg (show ¬(DFSEntry.BeginVertex v = DFSEntry.BeginVertex w) from
        fun h' => hwv (by injection h' with h2; exact h2.symm)), Nat.add_zero]
      have hiff : w ∈ d.visited ↔ w ∈ (⟨d.graph, en2, d.vertices, d.explored⟩ :
          DepthFirst).visited := by
        unfold DepthFirst.visited
        simp only
        rw [hex2]
        constructor
        · intro h'
          rcases List.mem_append.mp h' with h'' | h''
          · exact List.mem_append_left _ h''
          · exact List.mem_append_right _ (List.mem_cons_of_mem _ h'')
        · intro h'
          rcases List.mem_append.mp h' with h'' | h''
          · exact List.mem_append_left _ h''
          · rcases List.mem_cons.mp h'' with h3 | h3
            · exact absurd h3 hwv
            · exact List.mem_append_right _ h3
      rw [if_congr hiff rfl rfl]
  · show d.vertices.length * totalCredit d.graph + tree.phi en2 + 1
        < d.vertices.length * totalCredit d.graph + tree.phi d.enumeration + 1
    omega

theorem gnext_suppress_state (fuel : Nat) (d : DepthFirst) (gtr : List DFSEntry)
    (v : VertexId) (en2 : tree.DepthFirst)
    (hwf : d.graph.WF) (hG : GInv d) (hT : GTr gtr d)
    (hen : d.enumeration.next = (some (DFSEntry.BeginVertex v), en2))
    (hvout : v ∈ d.explored) :
    ∃ dC : DepthFirst, DepthFirst.nextF (fuel + 1) d = DepthFirst.nextF fuel dC ∧
      dC.graph = d.graph ∧ GInv dC ∧ GTr gtr dC ∧ dC.rho < d.rho ∧ dC.mu < d.mu ∧
      Req dC = Req d ∧ (∀ w ∈ d.visited, w ∈ dC.visited) ∧
      (∀ w ∈ dC.visited, w ∈ d.visited) ∧
      (∃ f0 S, d.enumeration.stack = f0 :: S ∧ f0.id = v ∧
        v ∉ d.enumeration.explored ∧
        dC.enumeration = ⟨d.graph, S, v :: d.enumeration.explored, []⟩ ∧
        dC.vertices = d.vertices ∧ dC.explored = d.explored) := by
  obtain ⟨hge, hinv, hqbv, hqs, hob, consumed, hsplit, hcons⟩ := hG
  have hwfen : d.enumeration.graph.WF := by
    rw [hge]
    exact hwf
  obtain ⟨hinv2, hgeq2, hmono2⟩ := tree.Inv_next d.enumeration hwfen hinv _ _ hen
  have hphi2 : tree.phi en2 < tree.phi d.enumeration :=
    tree.phi_next _ hwfen hinv _ en2 hen
  obtain ⟨f, rest0, hstk, hfid, hvex, hqe, hen2eq⟩ :=
    tree.next_BV_spec d.enumeration hinv.1 hqbv v en2 hen
  have htail2 : ∀ fr ∈ rest0, fr.id ∈ d.enumeration.explored := fun fr hfr =>
    hinv.2.2.1 fr (by rw [hstk]; exact hfr)
  have hvn : v < d.graph.out_index.length := by
    have h1 := (hinv.2.2.2.2.1 f (by rw [hstk]; exact List.mem_cons_self _ _)).1
    rw [hfid, hge] at h1
    exact h1
  have hfr := hinv.2.2.2.1 f (by rw [hstk]; exact List.mem_cons_self _ _)
    (by rw [hfid]; exact hvex)
  have hfd : f.dropped = false :=
    hinv.1 f (by rw [hstk]; exact List.mem_cons_self _ _)
  have hen2eq' : en2 = ⟨d.graph, f :: rest0, v :: d.enumeration.explored, []⟩ := by
    rw [hen2eq, hge]
  refine ⟨⟨d.graph, ⟨d.graph, rest0, v :: d.enumeration.explored, []⟩,
      d.vertices, d.explored⟩, ?_, rfl, ?_, ?_, ?_, ?_, ?_, ?_, ?_,
      ⟨f, rest0, hstk, hfid, hvex, rfl, rfl, rfl⟩⟩
  · rw [gnextF_succ_suppress fuel d v en2 hen hvout]
    have hdropeq : en2.drop_current_vertex
        = ⟨d.graph, Frame.mk v none f.neighbours true :: rest0,
            v :: d.enumeration.explored, []⟩ := by
      rw [hen2eq']
      unfold tree.DepthFirst.drop_current_vertex
      simp only
      have hfeq : f.dropFrame = Frame.mk v none f.neighbours true := by
        unfold Frame.dropFrame
        obtain ⟨fi, fc, fn, fd⟩ := f
        simp only at hfid hfd
        have hfc : fc = none := hfr.1
        rw [hfid, hfc, hfd]
      rw [hfeq]
    rw [hdropeq]
    exact gnextF_after_drop fuel d.graph d.vertices d.explored v f.neighbours
      rest0 (v :: d.enumeration.explored) (List.mem_cons_self _ _)
  · refine ⟨rfl, ?_, ?_, Or.inl rfl, hob, consumed, hsplit, ?_⟩
    · apply tree.Inv_pop d.graph f rest0 (v :: d.enumeration.explored)
      rw [← hen2eq']
      exact hinv2
    · intro e he w
      simp at he
    · rcases hcons with hnil | ⟨rt, hcov, hrt⟩
      · exact Or.inl hnil
      · refine Or.inr ⟨rt, ?_, Or.inl ?_⟩
        · intro w hw
          rcases hcov w hw with hvis | hwrt
          · left
            unfold DepthFirst.visited at hvis ⊢
            simp only
            rcases List.mem_append.mp hvis with h' | h'
            · exact List.mem_append_left _ h'
            · exact List.mem_append_right _ (List.mem_cons_of_mem _ h')
          · exact Or.inr hwrt
        · simp only
          rcases hrt with hrt | ⟨hfresh, hcont⟩
          · exact List.mem_cons_of_mem _ hrt
          · have h1 := (fresh_root_BV d rt _ en2 hfresh hcont hen).1
            injection h1 with h1
            rw [h1]
            exact List.mem_cons_self _ _
  · apply GTr_iff gtr d _ _ hT
    intro w
    unfold DepthFirst.visited
    simp only
    constructor
    · intro h'
      rcases List.mem_append.mp h' with h'' | h''
      · exact List.mem_append_left _ h''
      · exact List.mem_append_right _ (List.mem_cons_of_mem _ h'')
    · intro h'
      rcases List.mem_append.mp h' with h'' | h''
      · exact List.mem_append_left _ h''
      · rcases List.mem_cons.mp h'' with h3 | h3
        · rw [h3]
          exact List.mem_append_left _ hvout
        · exact List.mem_append_right _ h3
  · show d.vertices.length * (d.graph.out_index.length + 2) +
        ((List.range d.graph.out_index.length).filter
          (fun w => decide (w ∉ v :: d.enumeration.explored))).length + 1
      < d.vertices.length * (d.graph.out_index.length + 2) +
        ((List.range d.graph.out_index.length).filter
          (fun w => decide (w ∉ d.enumeration.explored))).length + 1
    have hcnt := length_filter_notmem_cons d.enumeration.explored v
      (List.range d.graph.out_index.length) (List.nodup_range _)
      (List.mem_range.mpr hvn) hvex
    omega
  · show d.vertices.length * totalCredit d.graph +
        tree.phi ⟨d.graph, rest0, v :: d.enumeration.explored, []⟩ + 1
      < d.vertices.length * totalCredit d.graph + tree.phi d.enumeration + 1
    have hpop := tree.phi_pop d.graph f rest0 (v :: d.enumeration.explored)
    rw [hen2eq'] at hphi2
    omega
  · show Req ⟨d.graph, ⟨d.graph, rest0, v :: d.enumeration.explored, []⟩,
        d.vertices, d.explored⟩ = Req d
    unfold Req
    simp only
    rw [tree.ReqT_mk, tree.ReqT_def, hqe, hstk, tree.queueReq_nil]
    rw [tree.filter_all_explored rest0 (v :: d.enumeration.explored)
      (fun fr hfr => List.mem_cons_of_mem _ (htail2 fr hfr))]
    simp only [List.filter_cons]
    rw [if_neg (by simp [hfid, hvex])]
    rw [tree.filter_all_explored rest0 d.enumeration.explored htail2]
  · intro w hw
    unfold DepthFirst.visited at hw ⊢
    simp only at hw ⊢
    rcases List.mem_append.mp hw with h' | h'
    · exact List.mem_append_left _ h'
    · exact List.mem_append_right _ (List.mem_cons_of_mem _ h')
  · intro w hw
    unfold DepthFirst.visited at hw ⊢
    simp only at hw ⊢
    rcases List.mem_append.mp hw with h' | h'
    · exact List.mem_append_left _ h'
    · rcases List.mem_cons.mp h' with h2 | h2
      · rw [h2]
        exact List.mem_append_left _ hvout
      · exact List.mem_append_right _ h2

theorem gnext_finish_state (fuel : Nat) (d : DepthFirst) (gtr : List DFSEntry)
    (en2 : tree.DepthFirst)
    (hG : GInv d) (hT : GTr gtr d)
    (hen : d.enumeration.next = (none, en2)) (hv : d.vertices = []) :
    DepthFirst.nextF (fuel + 1) d = some (none, d) ∧
      d.enumeration.stack = [] ∧ d.enumeration.output_queue = [] ∧
      ∀ w ∈ d.graph.vertices, w ∈ d.visited := by
  obtain ⟨hge, hinv, hqbv, hqs, hob, consumed, hsplit, hcons⟩ := hG
  obtain ⟨hstEn, hqEn, hen2eq⟩ := tree.next_none_state d.enumeration hinv.1 en2 hen
  refine ⟨?_, hstEn, hqEn, ?_⟩
  · rw [gnextF_succ_finish fuel d en2 hen hv]
    rw [hen2eq, ← hv]
  · intro w hw
    have hsplit' : d.graph.vertices = consumed := by
      rw [hsplit, hv, List.append_nil]
    rw [hsplit'] at hw
    rcases hcons with hnil | ⟨rt, hcov, hrt⟩
    · rw [hnil] at hw
      simp at hw
    · rcases hcov w hw with hvis | hwrt
      · exact hvis
      · rcases hrt with hrt | ⟨hfresh, hcont⟩
        · rw [hwrt]
          exact List.mem_append_right _ hrt
        · exfalso
          rw [hfresh, tree.on_stack_of_contains _ _ hcont] at hstEn
          simp at hstEn

theorem gnext_restart_state (fuel : Nat) (d : DepthFirst) (gtr : List DFSEntry)
    (en2 : tree.DepthFirst) (v : VertexId) (rest : List VertexId)
    (hwf : d.graph.WF) (hG : GInv d) (hT : GTr gtr d)
    (hen : d.enumeration.next = (none, en2)) (hv : d.vertices = v :: rest) :
    ∃ dR : DepthFirst, DepthFirst.nextF (fuel + 1) d = DepthFirst.nextF fuel dR ∧
      dR.graph = d.graph ∧ GInv dR ∧ GTr gtr dR ∧ dR.rho < d.rho ∧ dR.mu < d.mu ∧
      Req dR = Req d ∧ (∀ w ∈ d.visited, w ∈ dR.visited) ∧
      (∀ w ∈ dR.visited, w ∈ d.visited) ∧
      d.graph.contains v = true ∧
      dR.enumeration = tree.DepthFirst.on d.graph v ∧ dR.vertices = rest ∧
      dR.explored = d.explored ++ d.enumeration.explored := by
  obtain ⟨hge, hinv, hqbv, hqs, hob, consumed, hsplit, hcons⟩ := hG
  obtain ⟨hstEn, hqEn, hen2eq⟩ := tree.next_none_state d.enumeration hinv.1 en2 hen
  have hvmem : v ∈ d.graph.vertices := by
    rw [hsplit, hv]
    exact List.mem_append_right _ (List.mem_cons_self _ _)
  have hcont : d.graph.contains v = true := contains_of_mem_vertices _ hwf v hvmem
  refine ⟨⟨d.graph, tree.DepthFirst.on d.graph v, rest,
      d.explored ++ d.enumeration.explored⟩, ?_, rfl, ?_, ?_, ?_, ?_, ?_, ?_, ?_,
      hcont, rfl, rfl, rfl⟩
  · rw [gnextF_succ_restart fuel d en2 v rest hen hv, hen2eq]
  · refine ⟨tree.on_graph _ _, tree.Inv_on _ _ hwf, ?_, tree.QShape_on _ _, ?_,
      consumed ++ [v], ?_, ?_⟩
    · intro e he w
      rw [tree.on_queue] at he
      simp at he
    · intro w hw
      rcases List.mem_append.mp hw with h' | h'
      · exact hob w h'
      · have h2 := hinv.2.2.2.2.2 w h'
        rw [hge] at h2
        exact h2
    · rw [hsplit, hv]
      simp
    · refine Or.inr ⟨v, ?_, Or.inr ⟨rfl, hcont⟩⟩
      intro w hw
      rcases List.mem_append.mp hw with h' | h'
      · rcases hcons with hnil | ⟨rt, hcov, hrt⟩
        · rw [hnil] at h'
          simp at h'
        · rcases hcov w h' with hvis | hwrt
          · left
            unfold DepthFirst.visited at hvis ⊢
            simp only
            rw [tree.on_explored, List.append_nil]
            exact hvis
          · rcases hrt with hrt | ⟨hfresh, hcont2⟩
            · left
              unfold DepthFirst.visited
              simp only
              rw [tree.on_explored, List.append_nil, hwrt]
              exact List.mem_append_right _ hrt
            · exfalso
              rw [hfresh, tree.on_stack_of_contains _ _ hcont2] at hstEn
              simp at hstEn
      · simp only [List.mem_singleton] at h'
        exact Or.inr h'
  · apply GTr_iff gtr d _ _ hT
    intro w
    unfold DepthFirst.visited
    simp only
    rw [tree.on_explored, List.append_nil]
  · show rest.length * (d.graph.out_index.length + 2) +
        ((List.range d.graph.out_index.length).filter
          (fun w => decide (w ∉ (tree.DepthFirst.on d.graph v).explored))).length + 1
      < d.vertices.length * (d.graph.out_index.length + 2) +
        ((List.range d.graph.out_index.length).filter
          (fun w => decide (w ∉ d.enumeration.explored))).length + 1
    rw [tree.on_explored, length_filter_notmem_nil, hv]
    simp only [List.length_cons]
    exact rho_restart_arith rest.length d.graph.out_index.length _
  · show rest.length * totalCredit d.graph + tree.phi (tree.DepthFirst.on d.graph v) + 1
      < d.vertices.length * totalCredit d.graph + tree.phi d.enumeration + 1
    have hple : tree.phi (tree.DepthFirst.on d.graph v) + 1 ≤ totalCredit d.graph := by
      have := tree.phi_on_le d.graph v
      unfold totalCredit
      omega
    rw [hv]
    simp only [List.length_cons]
    exact mu_restart_arith rest.length (totalCredit d.graph) _ _ hple
  · show Req ⟨d.graph, tree.DepthFirst.on d.graph v, rest,
        d.explored ++ d.enumeration.explored⟩ = Req d
    unfold Req
    simp only
    rw [tree.ReqT_on, tree.ReqT_def, hstEn, hqEn, tree.queueReq_nil]
    simp [idsOf]
  · intro w hw
    unfold DepthFirst.visited at hw ⊢
    simp only at hw ⊢
    rw [tree.on_explored, List.append_nil]
    exact hw
  · intro w hw
    unfold DepthFirst.visited at hw ⊢
    simp only at hw ⊢
    rw [tree.on_explored, List.append_nil] at hw
    exact hw

theorem gnextF_run (fuel : Nat) :
    ∀ (d : DepthFirst) (gtr : List DFSEntry), d.graph.WF → GInv d → GTr gtr d →
      d.rho < fuel →
      (∃ dF : DepthFirst, DepthFirst.nextF fuel d = some (none, dF) ∧
        dF.graph = d.graph ∧ GInv dF ∧ GTr gtr dF ∧ dF.vertices = [] ∧
        dF.enumeration.stack = [] ∧ dF.enumeration.output_queue = [] ∧
        ∀ v ∈ d.graph.vertices, v ∈ dF.visited) ∨
      (∃ e d', DepthFirst.nextF fuel d = some (some e, d') ∧ d'.graph = d.graph ∧
        GInv d' ∧ GTr (gtr ++ [e]) d' ∧ d'.mu < d.mu) := by
  induction fuel with
  | zero =>
    intro d gtr hwf hG hT hrho
    omega
  | succ fuel ih =>
    intro d gtr hwf hG hT hrho
    cases hen : d.enumeration.next with
    | mk oe en2 =>
      cases oe with
      | some entry =>
        cases entry with
        | BeginVertex v =>
          by_cases hvout : v ∈ d.explored
          · obtain ⟨dC, hstep, hgC, hGC, hTC, hrhoC, hmuC, hReqC, hmonoC, hmonoC2, hstrC⟩ :=
              gnext_suppress_state fuel d gtr v en2 hwf hG hT hen hvout
            have hwfC : dC.graph.WF := by
              rw [hgC]
              exact hwf
            rcases ih dC gtr hwfC hGC hTC (by omega) with
              ⟨dF, hF, hFg, hFG, hFT, hFv, hFs, hFq, hFcov⟩ |
              ⟨e, d', h', hg', hG', hT', hmu'⟩
            · left
              refine ⟨dF, by rw [hstep]; exact hF, by rw [hFg, hgC], hFG, hFT,
                hFv, hFs, hFq, ?_⟩
              intro w hw
              exact hFcov w (by rw [hgC]; exact hw)
            · right
              exact ⟨e, d', by rw [hstep]; exact h', by rw [hg', hgC], hG', hT',
                by omega⟩
          · obtain ⟨hstep, hg', hG', hT', hmu'⟩ :=
              gnext_emit_BV fuel d gtr v en2 hwf hG hT hen hvout
            right
            exact ⟨DFSEntry.BeginVertex v, _, hstep, hg', hG', hT', hmu'⟩
        | BeginEdge e0 =>
          obtain ⟨hstep, hg', hG', hT', hmu'⟩ :=
            gnext_emit_nonBV fuel d gtr _ en2 hwf hG hT hen (fun w => by simp)
          right
          exact ⟨_, _, hstep, hg', hG', hT', hmu'⟩
        | EndVertex v =>
          obtain ⟨hstep, hg', hG', hT', hmu'⟩ :=
            gnext_emit_nonBV fuel d gtr _ en2 hwf hG hT hen (fun w => by simp)
          right
          exact ⟨_, _, hstep, hg', hG', hT', hmu'⟩
        | EndEdge e0 =>
          obtain ⟨hstep, hg', hG', hT', hmu'⟩ :=
            gnext_emit_nonBV fuel d gtr _ en2 hwf hG hT hen (fun w => by simp)
          right
          exact ⟨_, _, hstep, hg', hG', hT', hmu'⟩
      | none =>
        cases hvts : d.vertices with
        | nil =>
          obtain ⟨hstep, hFs, hFq, hFcov⟩ :=
            gnext_finish_state fuel d gtr en2 hG hT hen hvts
          left
          exact ⟨d, hstep, rfl, hG, hT, hvts, hFs, hFq, hFcov⟩
        | cons v rest =>
          obtain ⟨dR, hstep, hgR, hGR, hTR, hrhoR, hmuR, hReqR, hmonoR, hmonoR2,
              hcontR, henR0, hvtsR, hexoR⟩ :=
            gnext_restart_state fuel d gtr en2 v rest hwf hG hT hen hvts
          have hwfR : dR.graph.WF := by
            rw [hgR]
            exact hwf
          rcases ih dR gtr hwfR hGR hTR (by omega) with
            ⟨dF, hF, hFg, hFG, hFT, hFv, hFs, hFq, hFcov⟩ |
            ⟨e, d', h', hg', hG', hT', hmu'⟩
          · left
            refine ⟨dF, by rw [hstep]; exact hF, by rw [hFg, hgR], hFG, hFT,
              hFv, hFs, hFq, ?_⟩
            intro w hw
            exact hFcov w (by rw [hgR]; exact hw)
          · right
            exact ⟨e, d', by rw [hstep]; exact h', by rw [hg', hgR], hG', hT',
              by omega⟩

theorem gnext_spec (d : DepthFirst) (gtr : List DFSEntry) (hwf : d.graph.WF)
    (hG : GInv d) (hT : GTr gtr d) :
    (∃ dF, d.next = (none, dF) ∧ dF.graph = d.graph ∧ GInv dF ∧ GTr gtr dF ∧
      dF.vertices = [] ∧ dF.enumeration.stack = [] ∧ dF.enumeration.output_queue = [] ∧
      ∀ v ∈ d.graph.vertices, v ∈ dF.visited) ∨
    (∃ e d', d.next = (some e, d') ∧ d'.graph = d.graph ∧ GInv d' ∧
      GTr (gtr ++ [e]) d' ∧ d'.mu < d.mu) := by
  rcases gnextF_run d.fuelBound d gtr hwf hG hT (rho_lt_fuelBound d hwf) with
    ⟨dF, hF, hFg, hFG, hFT, hFv, hFs, hFq, hFcov⟩ | ⟨e, d', h', hg', hG', hT', hmu'⟩
  · left
    refine ⟨dF, ?_, hFg, hFG, hFT, hFv, hFs, hFq, hFcov⟩
    unfold DepthFirst.next
    rw [hF]
  · right
    refine ⟨e, d', ?_, hg', hG', hT', hmu'⟩
    unfold DepthFirst.next
    rw [h']

theorem Req_mk (g : Graph) (en : tree.DepthFirst) (vts exo : List VertexId) :
    Req ⟨g, en, vts, exo⟩ = tree.ReqT en := rfl

theorem Req_def (d : DepthFirst) : Req d = tree.ReqT d.enumeration := rfl

/-- Refined run lemma for one graph-scoped `next()` call: besides the
invariants, it records how the emitted event changes the open-vertex list
`Req`, that the visited set only grows, and the exact emitting tree
transition (`EmitShape`); a `none` result certifies that no vertex is
still open and every vertex has been visited. -/
theorem gnextF_run2 (fuel : Nat) :
    ∀ (d : DepthFirst) (gtr : List DFSEntry), d.graph.WF → GInv d → GTr gtr d →
      d.rho < fuel →
      (∃ dF : DepthFirst, DepthFirst.nextF fuel d = some (none, dF) ∧ Req d = [] ∧
        ∀ v ∈ d.graph.vertices, v ∈ d.visited) ∨
      (∃ e d', DepthFirst.nextF fuel d = some (some e, d') ∧ d'.graph = d.graph ∧
        GInv d' ∧ GTr (gtr ++ [e]) d' ∧ d'.mu < d.mu ∧
        (∀ w ∈ d.visited, w ∈ d'.visited) ∧
        ((∃ v, e = DFSEntry.BeginVertex v ∧ v ∉ d.visited ∧ v ∈ d'.visited ∧
            Req d' = v :: Req d) ∨
         (∃ u t, e = DFSEntry.BeginEdge (u, t) ∧ Req d' = Req d) ∨
         (∃ u t, e = DFSEntry.EndEdge (u, t) ∧ Req d' = Req d ∧ u ∈ Req d) ∨
         (∃ v, e = DFSEntry.EndVertex v ∧ Req d = v :: Req d')) ∧
        EmitShape d e d') := by
  induction fuel with
  | zero =>
    intro d gtr hwf hG hT hrho
    omega
  | succ fuel ih =>
    intro d gtr hwf hG hT hrho
    cases hen : d.enumeration.next with
    | mk oe en2 =>
      cases oe with
      | some entry =>
        cases entry with
        | BeginVertex v =>
          by_cases hvout : v ∈ d.explored
          · obtain ⟨dC, hstep, hgC, hGC, hTC, hrhoC, hmuC, hReqC, hmonoC, hmonoC2,
                f0, S, hstk0, hfid0, hvex0, henC0, hvtsC0, hexoC0⟩ :=
              gnext_suppress_state fuel d gtr v en2 hwf hG hT hen hvout
            have hwfC : dC.graph.WF := by
              rw [hgC]
              exact hwf
            have htailS : ∀ fr ∈ S, fr.id ∈ d.enumeration.explored := fun fr hfr =>
              hG.2.1.2.2.1 fr (by rw [hstk0]; exact hfr)
            rcases ih dC gtr hwfC hGC hTC (by omega) with
              ⟨dF, hF, hRF, hcovF⟩ |
              ⟨e, d', h', hg', hG', hT', hmu', hmono', hcase', hshape'⟩
            · left
              refine ⟨dF, by rw [hstep]; exact hF, by rw [← hReqC]; exact hRF, ?_⟩
              intro w hw
              exact hmonoC2 w (hcovF w (by rw [hgC]; exact hw))
            · right
              refine ⟨e, d', by rw [hstep]; exact h', by rw [hg', hgC], hG', hT',
                by omega, ?_, ?_, ?_⟩
              · intro w hw
                exact hmono' w (hmonoC w hw)
              · rcases hcase' with ⟨v2, he, hnv, hv', hReq⟩ | ⟨u, t, he, hReq⟩ |
                  ⟨u, t, he, hReq, hmem⟩ | ⟨v2, he, hReq⟩
                · exact Or.inl ⟨v2, he, fun hmem2 => hnv (hmonoC v2 hmem2), hv',
                    by rw [hReq, hReqC]⟩
                · exact Or.inr (Or.inl ⟨u, t, he, by rw [hReq, hReqC]⟩)
                · exact Or.inr (Or.inr (Or.inl ⟨u, t, he, by rw [hReq, hReqC],
                    by rw [← hReqC]; exact hmem⟩))
                · exact Or.inr (Or.inr (Or.inr ⟨v2, he, by rw [← hReqC]; exact hReq⟩))
              · -- EmitShape composition through the suppression
                rcases hshape' with ⟨en2', henC, hd'eq, hbvchk⟩ |
                  ⟨f1, S1, en2', hstkC, hf1, hf1o, henC, hd'eq, hnbv⟩ |
                  ⟨hReqNil, rt, he, hcont, hd'en⟩
                · -- direct emission from the suppressed state: shape N2 for d
                  have hnbv : ∀ w, e ≠ DFSEntry.BeginVertex w := by
                    intro w hw
                    obtain ⟨f2, rest2, hstk2, hfid2, hvex2, hqe2, hen2eq2⟩ :=
                      tree.next_BV_spec dC.enumeration hGC.2.1.1 hGC.2.2.1 w en2'
                        (by rw [← hw]; exact henC)
                    rw [henC0] at hstk2 hvex2
                    simp only at hstk2 hvex2
                    have hf2S : f2 ∈ S := by
                      rw [hstk2]
                      exact List.mem_cons_self _ _
                    exact hvex2 (List.mem_cons_of_mem _ (by
                      rw [← hfid2]
                      exact htailS f2 hf2S))
                  refine Or.inr (Or.inl ⟨f0, S, en2', hstk0, by rw [hfid0]; exact hvex0,
                    by rw [hfid0]; exact hvout, ?_, ?_, hnbv⟩)
                  · rw [hfid0, ← henC0]
                    exact henC
                  · rw [hd'eq, hgC, hvtsC0, hexoC0]
                · -- a second suppression is impossible: S has explored head
                  exfalso
                  rw [henC0] at hstkC hf1
                  simp only at hstkC hf1
                  have hf1S : f1 ∈ S := by
                    rw [hstkC]
                    exact List.mem_cons_self _ _
                  exact hf1 (List.mem_cons_of_mem _ (htailS f1 hf1S))
                · -- restart deeper in the call: shape N3 for d
                  refine Or.inr (Or.inr ⟨by rw [← hReqC]; exact hReqNil, rt, he,
                    by rw [← hgC]; exact hcont, ?_⟩)
                  rw [hd'en, hgC]
          · obtain ⟨hstep, hg', hG', hT', hmu'⟩ :=
              gnext_emit_BV fuel d gtr v en2 hwf hG hT hen hvout
            obtain ⟨f, rest0, hstk, hfid, hvex, hqe, hen2eq⟩ :=
              tree.next_BV_spec d.enumeration hG.2.1.1 hG.2.2.1 v en2 hen
            have hex2 : en2.explored = v :: d.enumeration.explored := by
              rw [hen2eq]
            right
            refine ⟨DFSEntry.BeginVertex v, _, hstep, hg', hG', hT', hmu', ?_, ?_,
              Or.inl ⟨en2, hen, rfl, fun w hw => by
                injection hw with h2
                rw [← h2]
                exact hvout⟩⟩
            · intro w hw
              unfold DepthFirst.visited at hw ⊢
              simp only at hw ⊢
              rw [hex2]
              rcases List.mem_append.mp hw with h' | h'
              · exact List.mem_append_left _ h'
              · exact List.mem_append_right _ (List.mem_cons_of_mem _ h')
            · rcases tree.ReqT_next d.enumeration hG.2.1 hG.2.2.2.1 _ en2 hen with
                ⟨v2, he, hv2ex, hReq⟩ | ⟨u, t, he, hReq⟩ | ⟨u, t, he, hReq, hmem⟩ |
                ⟨v2, he, hReq⟩
              · refine Or.inl ⟨v, rfl, ?_, ?_, ?_⟩
                · intro hmem2
                  unfold DepthFirst.visited at hmem2
                  rcases List.mem_append.mp hmem2 with h' | h'
                  · exact hvout h'
                  · exact hvex h'
                · show v ∈ (⟨d.graph, en2, d.vertices, d.explored⟩ : DepthFirst).visited
                  unfold DepthFirst.visited
                  simp only
                  rw [hex2]
                  exact List.mem_append_right _ (List.mem_cons_self _ _)
                · have hveq : v2 = v := by
                    injection he with h2
                    exact h2.symm
                  subst hveq
                  rw [Req_mk, Req_def]
                  exact hReq
              · exact absurd he (by simp)
              · exact absurd he (by simp)
              · exact absurd he (by simp)
        | BeginEdge e0 =>
          obtain ⟨hstep, hg', hG', hT', hmu'⟩ :=
            gnext_emit_nonBV fuel d gtr _ en2 hwf hG hT hen (fun w => by simp)
          have hexeq : en2.explored = d.enumeration.explored :=
            tree.next_not_BV_explored d.enumeration hG.2.1.1 _ en2 hen (fun w => by simp)
          right
          refine ⟨_, _, hstep, hg', hG', hT', hmu', ?_, ?_,
            Or.inl ⟨en2, hen, rfl, fun w hw => absurd hw (by simp)⟩⟩
          · intro w hw
            unfold DepthFirst.visited at hw ⊢
            simp only at hw ⊢
            rw [hexeq]
            exact hw
          · rcases tree.ReqT_next d.enumeration hG.2.1 hG.2.2.2.1 _ en2 hen with
              ⟨v2, he, hv2ex, hReq⟩ | ⟨u, t, he, hReq⟩ | ⟨u, t, he, hReq, hmem⟩ |
              ⟨v2, he, hReq⟩
            · exact absurd he (by simp)
            · refine Or.inr (Or.inl ⟨u, t, he, ?_⟩)
              rw [Req_mk, Req_def]
              exact hReq
            · exact absurd he (by simp)
            · exact absurd he (by simp)
        | EndVertex v =>
          obtain ⟨hstep, hg', hG', hT', hmu'⟩ :=
            gnext_emit_nonBV fuel d gtr _ en2 hwf hG hT hen (fun w => by simp)
          have hexeq : en2.explored = d.enumeration.explored :=
            tree.next_not_BV_explored d.enumeration hG.2.1.1 _ en2 hen (fun w => by simp)
          right
          refine ⟨_, _, hstep, hg', hG', hT', hmu', ?_, ?_,
            Or.inl ⟨en2, hen, rfl, fun w hw => absurd hw (by simp)⟩⟩
          · intro w hw
            unfold DepthFirst.visited at hw ⊢
            simp only at hw ⊢
            rw [hexeq]
            exact hw
          · rcases tree.ReqT_next d.enumeration hG.2.1 hG.2.2.2.1 _ en2 hen with
              ⟨v2, he, hv2ex, hReq⟩ | ⟨u, t, he, hReq⟩ | ⟨u, t, he, hReq, hmem⟩ |
              ⟨v2, he, hReq⟩
            · exact absurd he (by simp)
            · exact absurd he (by simp)
            · exact absurd he (by simp)
            · refine Or.inr (Or.inr (Or.inr ⟨v2, he, ?_⟩))
              rw [Req_mk, Req_def]
              exact hReq
        | EndEdge e0 =>
          obtain ⟨hstep, hg', hG', hT', hmu'⟩ :=
            gnext_emit_nonBV fuel d gtr _ en2 hwf hG hT hen (fun w => by simp)
          have hexeq : en2.explored = d.enumeration.explored :=
            tree.next_not_BV_explored d.enumeration hG.2.1.1 _ en2 hen (fun w => by simp)
          right
          refine ⟨_, _, hstep, hg', hG', hT', hmu', ?_, ?_,
            Or.inl ⟨en2, hen, rfl, fun w hw => absurd hw (by simp)⟩⟩
          · intro w hw
            unfold DepthFirst.visited at hw ⊢
            simp only at hw ⊢
            rw [hexeq]
            exact hw
          · rcases tree.ReqT_next d.enumeration hG.2.1 hG.2.2.2.1 _ en2 hen with
              ⟨v2, he, hv2ex, hReq⟩ | ⟨u, t, he, hReq⟩ | ⟨u, t, he, hReq, hmem⟩ |
              ⟨v2, he, hReq⟩
            · exact absurd he (by simp)
            · exact absurd he (by simp)
            · refine Or.inr (Or.inr (Or.inl ⟨u, t, he, ?_, ?_⟩))
              · rw [Req_mk, Req_def]
                exact hReq
              · show u ∈ Req d
                rw [Req_def]
                exact hmem
            · exact absurd he (by simp)
      | none =>
        cases hvts : d.vertices with
        | nil =>
          obtain ⟨hstep, hFs, hFq, hFcov⟩ :=
            gnext_finish_state fuel d gtr en2 hG hT hen hvts
          obtain ⟨hstEn, hqEn, _⟩ := tree.next_none_state d.enumeration hG.2.1.1 en2 hen
          left
          refine ⟨d, hstep, ?_, hFcov⟩
          rw [Req_def, tree.ReqT_def, hstEn, hqEn, tree.queueReq_nil]
          simp [idsOf]
        | cons v rest =>
          obtain ⟨dR, hstep, hgR, hGR, hTR, hrhoR, hmuR, hReqR, hmonoR, hmonoR2,
              hcontR, henR0, hvtsR, hexoR⟩ :=
            gnext_restart_state fuel d gtr en2 v rest hwf hG hT hen hvts
          have hwfR : dR.graph.WF := by
            rw [hgR]
            exact hwf
          have hReqRnil : Req dR = [] := by
            rw [Req_def, henR0, tree.ReqT_on]
          rcases ih dR gtr hwfR hGR hTR (by omega) with
            ⟨dF, hF, hRF, hcovF⟩ |
            ⟨e, d', h', hg', hG', hT', hmu', hmono', hcase', hshape'⟩
          · left
            refine ⟨dF, by rw [hstep]; exact hF, by rw [← hReqR]; exact hReqRnil, ?_⟩
            intro w hw
            exact hmonoR2 w (hcovF w (by rw [hgR]; exact hw))
          · right
            refine ⟨e, d', by rw [hstep]; exact h', by rw [hg', hgR], hG', hT',
              by omega, ?_, ?_, ?_⟩
            · intro w hw
              exact hmono' w (hmonoR w hw)
            · rcases hcase' with ⟨v2, he, hnv, hv', hReq⟩ | ⟨u, t, he, hReq⟩ |
                ⟨u, t, he, hReq, hmem⟩ | ⟨v2, he, hReq⟩
              · exact Or.inl ⟨v2, he, fun hmem2 => hnv (hmonoR v2 hmem2), hv',
                  by rw [hReq, hReqR]⟩
              · exact Or.inr (Or.inl ⟨u, t, he, by rw [hReq, hReqR]⟩)
              · exact Or.inr (Or.inr (Or.inl ⟨u, t, he, by rw [hReq, hReqR],
                  by rw [← hReqR]; exact hmem⟩))
              · exact Or.inr (Or.inr (Or.inr ⟨v2, he, by rw [← hReqR]; exact hReq⟩))
            · -- EmitShape composition through the restart
              have hReqDnil : Req d = [] := by
                rw [← hReqR]
                exact hReqRnil
              rcases hshape' with ⟨en2', henR, hd'eq, hbvchk⟩ |
                ⟨f1, S1, en2', hstkR, hf1, hf1o, henR, hd'eq, hnbv⟩ |
                ⟨hReqNil, rt, he, hcont, hd'en⟩
              · -- direct emission from the fresh tree: its opening BeginVertex
                have hnx := tree.next_on d.graph v hcontR
                rw [henR0, hnx] at henR
                injection henR with h1 h2
                injection h1 with h1
                refine Or.inr (Or.inr ⟨hReqDnil, v, h1.symm, hcontR, ?_⟩)
                rw [hd'eq]
                show en2' = ⟨d.graph, [Frame.fromId v d.graph], [v], []⟩
                exact h2.symm
              · -- a suppression inside the fresh tree cannot emit
                exfalso
                rw [henR0, tree.on_stack_of_contains _ _ hcontR] at hstkR
                injection hstkR with h1 h2
                have hnone := tree.next_of_empty
                  (⟨dR.graph, S1, f1.id :: (tree.DepthFirst.on d.graph v).explored, []⟩ :
                    tree.DepthFirst) h2.symm rfl
                rw [henR0] at henR
                rw [hnone] at henR
                injection henR with h3
                exact absurd h3 (by simp)
              · refine Or.inr (Or.inr ⟨hReqDnil, rt, he, by rw [← hgR]; exact hcont, ?_⟩)
                rw [hd'en, hgR]

/-- Refinement of `gnext_spec` for the observable `next()`: also tracks the
`Req`-transition of the emitted event, the growth of the visited set, the
emitting tree transition, and end-of-stream certificates. -/
theorem gnext_spec2 (d : DepthFirst) (gtr : List DFSEntry) (hwf : d.graph.WF)
    (hG : GInv d) (hT : GTr gtr d) :
    (∃ dF, d.next = (none, dF) ∧ Req d = [] ∧ ∀ v ∈ d.graph.vertices, v ∈ d.visited) ∨
    (∃ e d', d.next = (some e, d') ∧ d'.graph = d.graph ∧ GInv d' ∧
      GTr (gtr ++ [e]) d' ∧ d'.mu < d.mu ∧
      (∀ w ∈ d.visited, w ∈ d'.visited) ∧
      ((∃ v, e = DFSEntry.BeginVertex v ∧ v ∉ d.visited ∧ v ∈ d'.visited ∧
          Req d' = v :: Req d) ∨
       (∃ u t, e = DFSEntry.BeginEdge (u, t) ∧ Req d' = Req d) ∨
       (∃ u t, e = DFSEntry.EndEdge (u, t) ∧ Req d' = Req d ∧ u ∈ Req d) ∨
       (∃ v, e = DFSEntry.EndVertex v ∧ Req d = v :: Req d')) ∧
      EmitShape d e d') := by
  rcases gnextF_run2 d.fuelBound d gtr hwf hG hT (rho_lt_fuelBound d hwf) with
    ⟨dF, hF, hRnil, hcov⟩ |
    ⟨e, d', h', hg', hG', hT', hmu', hmono', hcase', hshape'⟩
  · left
    refine ⟨dF, ?_, hRnil, hcov⟩
    unfold DepthFirst.next
    rw [hF]
  · right
    refine ⟨e, d', ?_, hg', hG', hT', hmu', hmono', hcase', hshape'⟩
    unfold DepthFirst.next
    rw [h']

theorem gnext_end (d : DepthFirst) (hv : d.vertices = []) (hs : d.enumeration.stack = [])
    (hq : d.enumeration.output_queue = []) : d.next = (none, d) := by
  have henn : d.enumeration.next = (none, d.enumeration) := tree.next_of_empty _ hs hq
  obtain ⟨m, hm⟩ : ∃ m, d.fuelBound = m + 1 :=
    ⟨d.fuelBound - 1, by unfold DepthFirst.fuelBound; omega⟩
  unfold DepthFirst.next
  rw [hm, gnextF_succ_finish m d d.enumeration henn hv, ← hv]

theorem gevents_final (k : Nat) :
    ∀ (d : DepthFirst) (gtr : List DFSEntry), d.graph.WF → GInv d → GTr gtr d →
      d.mu ≤ k →
      ∃ dF : DepthFirst, dF.graph = d.graph ∧ GInv dF ∧
        GTr (gtr ++ d.events k) dF ∧ dF.vertices = [] ∧
        dF.enumeration.stack = [] ∧ dF.enumeration.output_queue = [] ∧
        ∀ v ∈ d.graph.vertices, v ∈ dF.visited := by
  induction k with
  | zero =>
    intro d gtr hwf hG hT hk
    have := mu_pos d
    omega
  | succ k ih =>
    intro d gtr hwf hG hT hk
    rcases gnext_spec d gtr hwf hG hT with
      ⟨dF, hn, hFg, hFG, hFT, hFv, hFs, hFq, hFcov⟩ | ⟨e, d', hn, hg', hG', hT', hmu'⟩
    · refine ⟨dF, hFg, hFG, ?_, hFv, hFs, hFq, hFcov⟩
      have hev : d.events (k + 1) = [] := by
        unfold DepthFirst.events
        rw [hn]
      rw [hev, List.append_nil]
      exact hFT
    · have hev : d.events (k + 1) = e :: d'.events k := by
        conv_lhs => unfold DepthFirst.events
        rw [hn]
      obtain ⟨dF, hFg, hFG, hFT, hFv, hFs, hFq, hFcov⟩ :=
        ih d' (gtr ++ [e]) (by rw [hg']; exact hwf) hG' hT' (by omega)
      refine ⟨dF, by rw [hFg, hg'], hFG, ?_, hFv, hFs, hFq, ?_⟩
      · rw [hev, show gtr ++ e :: d'.events k = (gtr ++ [e]) ++ d'.events k by simp]
        exact hFT
      · intro w hw
        exact hFcov w (by rw [hg']; exact hw)

theorem gevents_succ_eq (k : Nat) :
    ∀ (d : DepthFirst) (gtr : List DFSEntry), d.graph.WF → GInv d → GTr gtr d →
      d.mu ≤ k → d.events k = d.events (k + 1) := by
  induction k with
  | zero =>
    intro d gtr hwf hG hT hk
    have := mu_pos d
    omega
  | succ k ih =>
    intro d gtr hwf hG hT hk
    rcases gnext_spec d gtr hwf hG hT with
      ⟨dF, hn, hFg, hFG, hFT, hFv, hFs, hFq, hFcov⟩ | ⟨e, d', hn, hg', hG', hT', hmu'⟩
    · have h1 : d.events (k + 1) = [] := by
        unfold DepthFirst.events
        rw [hn]
      have h2 : d.events (k + 2) = [] := by
        unfold DepthFirst.events
        rw [hn]
      rw [h1, h2]
    · have h1 : d.events (k + 1) = e :: d'.events k := by
        conv_lhs => unfold DepthFirst.events
        rw [hn]
      have h2 : d.events (k + 2) = e :: d'.events (k + 1) := by
        conv_lhs => unfold DepthFirst.events
        rw [hn]
      rw [h1, h2, ih d' (gtr ++ [e]) (by rw [hg']; exact hwf) hG' hT' (by omega)]

theorem gevents_le (d : DepthFirst) (gtr : List DFSEntry) (hwf : d.graph.WF)
    (hG : GInv d) (hT : GTr gtr d) (k : Nat) (hk : d.mu ≤ k) :
    ∀ k2, k ≤ k2 → d.events k2 = d.events k := by
  have hadd : ∀ m, d.events (k + m) = d.events k := by
    intro m
    induction m with
    | zero => rfl
    | succ m ih =>
      rw [← ih]
      exact (gevents_succ_eq (k + m) d gtr hwf hG hT (by omega)).symm
  intro k2 hle
  obtain ⟨m, rfl⟩ : ∃ m, k2 = k + m := ⟨k2 - k, by omega⟩
  exact hadd m

end graph

/-- C4: the graph-scoped depth-first traversal opens every vertex of the
graph exactly once over its whole event stream: `BeginVertex v` is emitted
exactly once for every vertex `v` of a well-formed graph and never for an
out-of-range vertex; a `BeginVertex` produced by the active tree for a
vertex already in the outer explored set is suppressed and the
corresponding frame is dropped via the tree's cancellation hook, while any
other entry is passed through unchanged; and the stream is already
complete at fuel `k` (the traversal has terminated, every vertex having
been visited). -/
theorem C4_graph_traversal_opens_each_vertex_once (g : Graph) (hwf : g.WF)
    (k : Nat) (hk : (graph.DepthFirst.on g).mu ≤ k)
    (evs : List DFSEntry) (hevs : evs = (graph.DepthFirst.on g).events k) :
    (∀ v, v < g.vertices.length → evs.count (DFSEntry.BeginVertex v) = 1) ∧
    (∀ v, g.vertices.length ≤ v → evs.count (DFSEntry.BeginVertex v) = 0) ∧
    (∀ (d : graph.DepthFirst) (v : VertexId), v ∈ d.explored →
        d.make_sure_that_entry_was_not_already_given (DFSEntry.BeginVertex v)
          = (none, { d with enumeration := d.enumeration.drop_current_vertex })) ∧
    (∀ (d : graph.DepthFirst) (entry : DFSEntry),
        (∀ v, entry = DFSEntry.BeginVertex v → v ∉ d.explored) →
        d.make_sure_that_entry_was_not_already_given entry = (some entry, d)) ∧
    ∀ k2, k ≤ k2 → (graph.DepthFirst.on g).events k2 = evs := by
  have hwf0 : (graph.DepthFirst.on g).graph.WF := by
    have hog : (graph.DepthFirst.on g).graph = g := by
      unfold graph.DepthFirst.on
      cases g.vertices <;> rfl
    rw [hog]
    exact hwf
  have hog : (graph.DepthFirst.on g).graph = g := by
    unfold graph.DepthFirst.on
    cases g.vertices <;> rfl
  obtain ⟨dF, hFg, hFG, hFT, hFv, hFs, hFq, hFcov⟩ :=
    graph.gevents_final k (graph.DepthFirst.on g) [] hwf0 (graph.GInv_on g hwf)
      (graph.GTr_on g) hk
  rw [List.nil_append, ← hevs] at hFT
  have hFgg : dF.graph = g := by
    rw [hFg, hog]
  have hlen : g.vertices.length = g.out_index.length := by
    rw [hwf.1]
    exact List.length_range _
  refine ⟨?_, ?_, ?_, ?_, ?_⟩
  · intro v hv
    have hvmem : v ∈ g.vertices := by
      rw [hwf.1]
      exact List.mem_range.mpr (by omega)
    have hvis : v ∈ dF.visited := hFcov v (by rw [hog]; exact hvmem)
    rw [hFT v, if_pos hvis]
  · intro v hv
    have hnvis : v ∉ dF.visited := by
      intro hvis
      unfold graph.DepthFirst.visited at hvis
      rcases List.mem_append.mp hvis with h' | h'
      · have h2 : v < g.out_index.length := by
          have h3 := hFG.2.2.2.2.1 v h'
          rw [hFgg] at h3
          exact h3
        omega
      · have h2 : v < g.out_index.length := by
          have h3 := hFG.2.1.2.2.2.2.2 v h'
          rw [hFG.1, hFgg] at h3
          exact h3
        omega
    rw [hFT v, if_neg hnvis]
  · intro d v hv
    simp [graph.DepthFirst.make_sure_that_entry_was_not_already_given, hv]
  · intro d entry hne
    cases entry with
    | BeginVertex v =>
      simp [graph.DepthFirst.make_sure_that_entry_was_not_already_given, hne v rfl]
    | BeginEdge e => rfl
    | EndVertex v => rfl
    | EndEdge e => rfl
  · intro k2 hk2
    rw [hevs]
    exact graph.gevents_le (graph.DepthFirst.on g) [] hwf0 (graph.GInv_on g hwf)
      (graph.GTr_on g) k hk k2 hk2

/-- Witness for C4 on `Graph::from(2, [(0, 1)])` with fuel 20. -/
theorem C4_graph_traversal_opens_each_vertex_once_witness :
    (∀ v, v < (⟨[0, 1], [(0, 1)], [[1], []]⟩ : Graph).vertices.length →
        ((graph.DepthFirst.on (⟨[0, 1], [(0, 1)], [[1], []]⟩ : Graph)).events 20).count
          (DFSEntry.BeginVertex v) = 1) ∧
    (∀ v, (⟨[0, 1], [(0, 1)], [[1], []]⟩ : Graph).vertices.length ≤ v →
        ((graph.DepthFirst.on (⟨[0, 1], [(0, 1)], [[1], []]⟩ : Graph)).events 20).count
          (DFSEntry.BeginVertex v) = 0) ∧
    (∀ (d : graph.DepthFirst) (v : VertexId), v ∈ d.explored →
        d.make_sure_that_entry_was_not_already_given (DFSEntry.BeginVertex v)
          = (none, { d with enumeration := d.enumeration.drop_current_vertex })) ∧
    (∀ (d : graph.DepthFirst) (entry : DFSEntry),
        (∀ v, entry = DFSEntry.BeginVertex v → v ∉ d.explored) →
        d.make_sure_that_entry_was_not_already_given entry = (some entry, d)) ∧
    ∀ k2, 20 ≤ k2 →
      (graph.DepthFirst.on (⟨[0, 1], [(0, 1)], [[1], []]⟩ : Graph)).events k2
        = (graph.DepthFirst.on (⟨[0, 1], [(0, 1)], [[1], []]⟩ : Graph)).events 20 :=
  C4_graph_traversal_opens_each_vertex_once (⟨[0, 1], [(0, 1)], [[1], []]⟩ : Graph)
    ⟨by decide, by decide⟩ 20 (by decide) _ rfl


/-- C6: if `drop_current_vertex` is called immediately after a `next()`
call emitted `BeginVertex v` (so `v`'s fresh frame is on top of the stack,
the output queue is drained, `v` has just been inserted into the explored
set, and no other frame on the stack is `v`'s), then (i) that is indeed
the state such a `next()` call produces, (ii) the remaining event stream
equals the stream of the same state with `v`'s frame removed — the frame
is popped in its turn yielding nothing, and all events of the other
still-open frames are produced as usual — and (iii) the remaining stream
contains no `EndVertex v` and no `BeginEdge`/`EndEdge` with source `v`. -/
theorem C6_drop_current_vertex (g : Graph) (ex : List VertexId) (rest : List Frame)
    (nbs : List VertexId) (v : VertexId) (hv : v ∉ ex)
    (hrest : ∀ fr ∈ rest, fr.id ≠ v) :
    (⟨g, Frame.mk v none nbs false :: rest, ex, []⟩ : tree.DepthFirst).next
        = (some (DFSEntry.BeginVertex v),
            ⟨g, Frame.mk v none nbs false :: rest, v :: ex, []⟩) ∧
    (∀ k, ((⟨g, Frame.mk v none nbs false :: rest, v :: ex, []⟩ :
            tree.DepthFirst).drop_current_vertex).events k
        = (⟨g, rest, v :: ex, []⟩ : tree.DepthFirst).events k) ∧
    (∀ k e, e ∈ ((⟨g, Frame.mk v none nbs false :: rest, v :: ex, []⟩ :
            tree.DepthFirst).drop_current_vertex).events k → avoidsVertex v e) := by
  have hdrop : (⟨g, Frame.mk v none nbs false :: rest, v :: ex, []⟩ :
        tree.DepthFirst).drop_current_vertex
      = ⟨g, Frame.mk v none nbs true :: rest, v :: ex, []⟩ := rfl
  have hevents : ∀ k, ((⟨g, Frame.mk v none nbs false :: rest, v :: ex, []⟩ :
          tree.DepthFirst).drop_current_vertex).events k
      = (⟨g, rest, v :: ex, []⟩ : tree.DepthFirst).events k := by
    intro k
    rw [hdrop]
    exact tree.events_after_drop g v nbs rest (v :: ex) (List.mem_cons_self _ _) k
  refine ⟨?_, hevents, ?_⟩
  · unfold tree.DepthFirst.next
    simp [tree.DepthFirst.nextF, tree.DepthFirst.begin_vertex, hv, tree.popBack]
  · intro k e he
    rw [hevents k] at he
    exact tree.events_avoids v k _ ⟨List.mem_cons_self _ _, hrest, by simp⟩ e he

/-- Witness for C6 on `Graph::from(2, [(0,1)])` with `v = 0`. -/
theorem C6_drop_current_vertex_witness :
    (⟨⟨[0, 1], [(0, 1)], [[1], []]⟩, [Frame.mk 0 none [1] false], [], []⟩ :
          tree.DepthFirst).next
        = (some (DFSEntry.BeginVertex 0),
            ⟨⟨[0, 1], [(0, 1)], [[1], []]⟩, [Frame.mk 0 none [1] false], [0], []⟩) ∧
    ((⟨⟨[0, 1], [(0, 1)], [[1], []]⟩, [Frame.mk 0 none [1] false], [0], []⟩ :
          tree.DepthFirst).drop_current_vertex).events 5
        = (⟨⟨[0, 1], [(0, 1)], [[1], []]⟩, [], [0], []⟩ : tree.DepthFirst).events 5 := by
  have h := C6_drop_current_vertex ⟨[0, 1], [(0, 1)], [[1], []]⟩ [] [] [1] 0
      (by simp) (by simp)
  exact ⟨h.1, h.2.1 5⟩

/-- C7 counterexample: on the graph of `Graph::from(2, [(0,1)])`, after
five `next()` calls the explicit stack is already empty, yet the iterator
has not ended: the sixth call still yields `EndVertex(0)` (pending in the
output queue).  So the iterator does not end exactly when the explicit
stack is empty. -/
theorem C7_counterexample_stack_empty_not_ended :
    ((tree.DepthFirst.on ⟨[0, 1], [(0, 1)], [[1], []]⟩ 0).afterN 5).stack = [] ∧
    ((tree.DepthFirst.on ⟨[0, 1], [(0, 1)], [[1], []]⟩ 0).afterN 5).next.1
      = some (DFSEntry.EndVertex 0) := by
  decide

/-- C7 (amended): each `next()` call of the tree-scoped traversal
terminates — the fuelled internal recursion is stable: any fuel beyond the
stack depth returns the committed result `next`; a call on a state with
empty stack and drained output queue returns `None` leaving the state
unchanged; and when a call returns `None`, the post-call stack and output
queue are empty, so every subsequent call yields no further events
(idempotent end state). -/
theorem C7_next_terminates_and_idempotent_end (d : tree.DepthFirst) :
    (∀ fuel, d.stack.length < fuel → tree.DepthFirst.nextF fuel d = some d.next) ∧
    (d.stack = [] → d.output_queue = [] → d.next = (none, d)) ∧
    ((d.next).1 = none → (d.next).2.stack = [] ∧ (d.next).2.output_queue = [] ∧
      ∀ k, ((d.next).2).events k = []) := by
  refine ⟨fun fuel h => tree.nextF_eq_next d fuel h, tree.next_of_empty d, ?_⟩
  intro hnone
  obtain ⟨r, hr⟩ := tree.nextF_total (d.stack.length + 2) d (by omega)
  have hnext : d.next = r := by
    unfold tree.DepthFirst.next
    rw [hr]
  have hend := tree.nextF_none_end _ d r hr (by rw [← hnext]; exact hnone)
  refine ⟨hnext ▸ hend.1, hnext ▸ hend.2, ?_⟩
  exact tree.events_of_empty _ (hnext ▸ hend.1) (hnext ▸ hend.2)

/-- Witness for the amended C7 on the one-vertex graph with empty state. -/
theorem C7_next_terminates_and_idempotent_end_witness :
    tree.DepthFirst.nextF 1 (tree.DepthFirst.mk ⟨[0], [], [[]]⟩ [] [] [])
        = some (tree.DepthFirst.mk ⟨[0], [], [[]]⟩ [] [] []).next ∧
    (tree.DepthFirst.mk ⟨[0], [], [[]]⟩ [] [] []).next
        = (none, tree.DepthFirst.mk ⟨[0], [], [[]]⟩ [] [] []) ∧
    ((tree.DepthFirst.mk ⟨[0], [], [[]]⟩ [] [] []).next).2.events 2 = [] := by
  have h := C7_next_terminates_and_idempotent_end (tree.DepthFirst.mk ⟨[0], [], [[]]⟩ [] [] [])
  refine ⟨h.1 1 (by decide), h.2.1 rfl rfl, ?_⟩
  exact (h.2.2 (by rw [h.2.1 rfl rfl])).2.2 2

/-- C3: event protocol of the tree-scoped depth-first traversal.  For a
well-formed graph and a root `r` contained in it, over the complete
uncancelled event stream (enough `next()` calls to exhaust the iterator):
`BeginVertex v` and `EndVertex v` each occur exactly once for every vertex
`v` reachable from `r` and never for an unreachable vertex; in every
prefix of the stream `EndVertex v` occurs at most as often as
`BeginVertex v` (so an `EndVertex` never precedes its `BeginVertex`) and
`EndEdge (u, t)` at most as often as `BeginEdge (u, t)` (so every
`EndEdge` follows a matching `BeginEdge`); and whenever `v` was discovered
through the edge `(u, v)` — a `BeginEdge (u, v)` immediately followed by
`BeginVertex v` — every later `EndEdge (u, v)` occurs strictly after the
`EndVertex v`. -/
theorem C3_tree_traversal_event_protocol (g : Graph) (r : VertexId) (hwf : g.WF)
    (hr : g.contains r = true) (k : Nat)
    (hk : tree.phi (tree.DepthFirst.on g r) ≤ k)
    (evs : List DFSEntry) (hevs : evs = (tree.DepthFirst.on g r).events k) :
    (∀ v, g.Reaches r v →
        evs.count (DFSEntry.BeginVertex v) = 1 ∧
          evs.count (DFSEntry.EndVertex v) = 1) ∧
    (∀ v, ¬ g.Reaches r v →
        evs.count (DFSEntry.BeginVertex v) = 0 ∧
          evs.count (DFSEntry.EndVertex v) = 0) ∧
    (∀ j v, (evs.take j).count (DFSEntry.EndVertex v)
        ≤ (evs.take j).count (DFSEntry.BeginVertex v)) ∧
    (∀ j u t, (evs.take j).count (DFSEntry.EndEdge (u, t))
        ≤ (evs.take j).count (DFSEntry.BeginEdge (u, t))) ∧
    ∀ u v i j, evs[i]? = some (DFSEntry.BeginEdge (u, v)) →
      evs[i + 1]? = some (DFSEntry.BeginVertex v) → i < j →
      evs[j]? = some (DFSEntry.EndEdge (u, v)) →
      ∃ m, i < m ∧ m < j ∧ evs[m]? = some (DFSEntry.EndVertex v) := by
  cases k with
  | zero =>
    exfalso
    have h0 := tree.next_none_of_phi_zero (tree.DepthFirst.on g r)
      (tree.Inv_on g r hwf) (Nat.le_zero.mp hk)
    rw [tree.next_on g r hr] at h0
    injection h0 with h1 h2
    exact absurd h1 (by simp)
  | succ k' =>
    have hwf0 : (tree.DepthFirst.on g r).graph.WF := by
      rw [tree.on_graph]
      exact hwf
    have hnx := tree.next_on g r hr
    have hR1 : tree.RunInv r ([] ++ [DFSEntry.BeginVertex r])
        (⟨g, [Frame.fromId r g], [r], []⟩ : tree.DepthFirst) :=
      tree.RunInv_next r [] (tree.DepthFirst.on g r) hwf0 (tree.RunInv_on g r hwf)
        (DFSEntry.BeginVertex r) _ hnx
    rw [List.nil_append] at hR1
    have hph1 : tree.phi (⟨g, [Frame.fromId r g], [r], []⟩ : tree.DepthFirst) ≤ k' := by
      have hlt := tree.phi_next (tree.DepthFirst.on g r) hwf0 (tree.Inv_on g r hwf)
        (DFSEntry.BeginVertex r) (⟨g, [Frame.fromId r g], [r], []⟩ : tree.DepthFirst) hnx
      omega
    have hwf1 : (⟨g, [Frame.fromId r g], [r], []⟩ : tree.DepthFirst).graph.WF := hwf
    obtain ⟨dE, hgE, hstE, hqE, hRE, hmonoE⟩ :=
      tree.RunInv_final k' (⟨g, [Frame.fromId r g], [r], []⟩ : tree.DepthFirst)
        [DFSEntry.BeginVertex r] r hwf1 hR1 hph1
    have hevs2 : evs = [DFSEntry.BeginVertex r]
        ++ tree.DepthFirst.events k' (⟨g, [Frame.fromId r g], [r], []⟩ : tree.DepthFirst) := by
      rw [hevs]
      have hstep : tree.DepthFirst.events (k' + 1) (tree.DepthFirst.on g r)
          = DFSEntry.BeginVertex r
            :: tree.DepthFirst.events k'
                (⟨g, [Frame.fromId r g], [r], []⟩ : tree.DepthFirst) := by
        conv_lhs => unfold tree.DepthFirst.events
        rw [hnx]
      rw [hstep]
      rfl
    rw [← hevs2] at hRE
    obtain ⟨hInvE, hInv2E, hTrE, hLE, hDE, hPreE, hPE⟩ := hRE
    have hgE2 : dE.graph = g := hgE
    have hvE : tree.vtrace evs dE = evs := by
      unfold tree.vtrace
      rw [hqE]
      simp
    have hrE : r ∈ dE.explored := hmonoE r (List.mem_cons_self r [])
    have hsound : ∀ v ∈ dE.explored, g.Reaches r v := by
      intro v hv
      have h' := hInv2E.1 v hv
      rw [hgE2] at h'
      exact h'
    have hcomplete : ∀ v, g.Reaches r v → v ∈ dE.explored := by
      intro v hv
      unfold Graph.Reaches at hv
      induction hv with
      | refl => exact hrE
      | tail hab hbc ih =>
        rcases hInv2E.2.2.2.2 _ ih with hin | hcl
        · rw [hstE] at hin
          simp [idsOf] at hin
        · apply hcl
          rw [hgE2]
          exact hbc
    refine ⟨?_, ?_, ?_, ?_, ?_⟩
    · intro v hv
      have hvex := hcomplete v hv
      constructor
      · have h' := hTrE.2.1 v
        rw [hvE] at h'
        rw [h', if_pos hvex]
      · have h' := hTrE.2.2.1 v
        rw [hvE] at h'
        rw [h', if_pos ⟨hvex, by rw [hstE]; simp [idsOf]⟩]
    · intro v hv
      have hvex : v ∉ dE.explored := fun hmem => hv (hsound v hmem)
      constructor
      · have h' := hTrE.2.1 v
        rw [hvE] at h'
        rw [h', if_neg hvex]
      · have h' := hTrE.2.2.1 v
        rw [hvE] at h'
        rw [h', if_neg (fun hcc => hvex hcc.1)]
    · intro j v
      exact (hPreE j).1 v
    · intro j u t
      exact (hPreE j).2 u t
    · intro u v i j h1 h2 hij hj
      have hP' := hPE u v
      rw [hvE] at hP'
      exact hP' i j ⟨h1, h2⟩ hij hj

/-- Witness for C3 on `Graph::from(2, [(0, 1)])` with root 0 and fuel 9. -/
theorem C3_tree_traversal_event_protocol_witness :
    (∀ v, (⟨[0, 1], [(0, 1)], [[1], []]⟩ : Graph).Reaches 0 v →
        (((tree.DepthFirst.on (⟨[0, 1], [(0, 1)], [[1], []]⟩ : Graph) 0).events 9).count
            (DFSEntry.BeginVertex v) = 1 ∧
          ((tree.DepthFirst.on (⟨[0, 1], [(0, 1)], [[1], []]⟩ : Graph) 0).events 9).count
            (DFSEntry.EndVertex v) = 1)) ∧
    (∀ v, ¬ (⟨[0, 1], [(0, 1)], [[1], []]⟩ : Graph).Reaches 0 v →
        (((tree.DepthFirst.on (⟨[0, 1], [(0, 1)], [[1], []]⟩ : Graph) 0).events 9).count
            (DFSEntry.BeginVertex v) = 0 ∧
          ((tree.DepthFirst.on (⟨[0, 1], [(0, 1)], [[1], []]⟩ : Graph) 0).events 9).count
            (DFSEntry.EndVertex v) = 0)) ∧
    (∀ j v, (((tree.DepthFirst.on (⟨[0, 1], [(0, 1)], [[1], []]⟩ : Graph) 0).events 9).take
          j).count (DFSEntry.EndVertex v)
        ≤ (((tree.DepthFirst.on (⟨[0, 1], [(0, 1)], [[1], []]⟩ : Graph) 0).events 9).take
          j).count (DFSEntry.BeginVertex v)) ∧
    (∀ j u t, (((tree.DepthFirst.on (⟨[0, 1], [(0, 1)], [[1], []]⟩ : Graph) 0).events 9).take
          j).count (DFSEntry.EndEdge (u, t))
        ≤ (((tree.DepthFirst.on (⟨[0, 1], [(0, 1)], [[1], []]⟩ : Graph) 0).events 9).take
          j).count (DFSEntry.BeginEdge (u, t))) ∧
    ∀ u v i j,
      ((tree.DepthFirst.on (⟨[0, 1], [(0, 1)], [[1], []]⟩ : Graph) 0).events 9)[i]?
          = some (DFSEntry.BeginEdge (u, v)) →
      ((tree.DepthFirst.on (⟨[0, 1], [(0, 1)], [[1], []]⟩ : Graph) 0).events 9)[i + 1]?
          = some (DFSEntry.BeginVertex v) → i < j →
      ((tree.DepthFirst.on (⟨[0, 1], [(0, 1)], [[1], []]⟩ : Graph) 0).events 9)[j]?
          = some (DFSEntry.EndEdge (u, v)) →
      ∃ m, i < m ∧ m < j ∧
        ((tree.DepthFirst.on (⟨[0, 1], [(0, 1)], [[1], []]⟩ : Graph) 0).events 9)[m]?
          = some (DFSEntry.EndVertex v) :=
  C3_tree_traversal_event_protocol (⟨[0, 1], [(0, 1)], [[1], []]⟩ : Graph) 0
    ⟨by decide, by decide⟩ (by decide) 9 (by decide) _ rfl

/-- Witness for C10 on the one-vertex graph with start vertex 5. -/
theorem C10_on_out_of_range_start_witness :
    (tree.DepthFirst.on ⟨[0], [], [[]]⟩ 5).next = (none, tree.DepthFirst.on ⟨[0], [], [[]]⟩ 5) ∧
    (tree.DepthFirst.on ⟨[0], [], [[]]⟩ 5).events 3 = [] := by
  have h := C10_on_out_of_range_start ⟨[0], [], [[]]⟩ 5 (by decide)
  exact ⟨h.2.1, h.2.2.2 3⟩

namespace scc

theorem lookup_replace_self (k : VertexId) (v : Vertex) :
    ∀ m : List (VertexId × Vertex), (m.find? (fun p => p.1 == k)).isSome = true →
      lookupV (m.map (fun p => if p.1 == k then (k, v) else p)) k = some v := by
  intro m
  induction m with
  | nil => intro h; simp at h
  | cons q rest ih =>
    intro h
    by_cases hq : (q.1 == k) = true
    · have hq' : q.1 = k := by simpa using hq
      unfold lookupV
      simp [List.find?_cons, hq']
    · rw [Bool.not_eq_true] at hq
      unfold lookupV at ih ⊢
      simp only [List.map_cons, hq, Bool.false_eq_true, if_false, List.find?_cons] at h ⊢
      exact ih h

theorem lookup_replace_ne (k : VertexId) (v : Vertex) (x : VertexId) (h : x ≠ k) :
    ∀ m : List (VertexId × Vertex),
      lookupV (m.map (fun p => if p.1 == k then (k, v) else p)) x = lookupV m x := by
  have hkx : (k == x) = false := by
    simp only [beq_eq_false_iff_ne, ne_eq]
    exact fun hh => h hh.symm
  intro m
  induction m with
  | nil => rfl
  | cons q rest ih =>
    by_cases hq : (q.1 == k) = true
    · have hq' : q.1 = k := by simpa using hq
      have hqx : (q.1 == x) = false := by rw [hq']; exact hkx
      unfold lookupV at ih ⊢
      simp only [List.map_cons, hq, if_true, List.find?_cons, hkx, hqx]
      exact ih
    · rw [Bool.not_eq_true] at hq
      unfold lookupV at ih ⊢
      simp only [List.map_cons, hq, Bool.false_eq_true, if_false, List.find?_cons]
      cases hqx : q.1 == x
      · exact ih
      · rfl

theorem lookupV_insertV_self (m : List (VertexId × Vertex)) (k : VertexId) (v : Vertex) :
    lookupV (insertV m k v) k = some v := by
  unfold insertV
  cases hfind : (m.find? (fun p => p.1 == k)).isSome with
  | false =>
    simp only [hfind, Bool.false_eq_true, if_false]
    unfold lookupV
    simp [List.find?_cons]
  | true =>
    simp only [hfind, if_true]
    exact lookup_replace_self k v m hfind

theorem lookupV_insertV_ne (m : List (VertexId × Vertex)) (k : VertexId) (v : Vertex)
    (x : VertexId) (h : x ≠ k) :
    lookupV (insertV m k v) x = lookupV m x := by
  unfold insertV
  cases hfind : (m.find? (fun p => p.1 == k)).isSome with
  | false =>
    simp only [hfind, Bool.false_eq_true, if_false]
    unfold lookupV
    have hkx : (k == x) = false := by
      simp only [beq_eq_false_iff_ne, ne_eq]
      exact fun hh => h hh.symm
    simp [List.find?_cons, hkx]
  | true =>
    simp only [hfind, if_true]
    exact lookup_replace_ne k v x h m


theorem lookupV_removeV (k x : VertexId) :
    ∀ m : List (VertexId × Vertex),
      lookupV (removeV m k) x = if x = k then none else lookupV m x := by
  intro m
  induction m with
  | nil =>
    by_cases hx : x = k
    · rw [if_pos hx]
      rfl
    · rw [if_neg hx]
      rfl
  | cons q rest ih =>
    unfold removeV at ih ⊢
    rw [List.filter_cons]
    by_cases hq : q.1 = k
    · rw [if_neg (by simp [hq])]
      rw [ih]
      by_cases hx : x = k
      · rw [if_pos hx, if_pos hx]
      · rw [if_neg hx, if_neg hx]
        have hqx : (q.1 == x) = false := by
          rw [hq]
          simp only [beq_eq_false_iff_ne, ne_eq]
          exact fun hh => hx hh.symm
        unfold lookupV
        simp [List.find?_cons, hqx]
    · rw [if_pos (by simp [hq])]
      by_cases hqx : q.1 = x
      · have hxk : ¬ x = k := by
          rw [← hqx]
          exact hq
        rw [if_neg hxk]
        unfold lookupV
        simp [List.find?_cons, hqx]
      · have h1 : (q.1 == x) = false := by
          simp only [beq_eq_false_iff_ne, ne_eq]
          exact hqx
        unfold lookupV at ih ⊢
        simp only [List.find?_cons, h1]
        exact ih

theorem popUntilGo_cons (vertex t : VertexId) (T : List VertexId)
    (m : List (VertexId × Vertex)) (comp : Component) :
    popUntilGo vertex (t :: T) m comp =
      if t == vertex then some (comp.add t, T, removeV m t)
      else popUntilGo vertex T (removeV m t) (comp.add t) := rfl

theorem popUntilGo_spec (v : VertexId) :
    ∀ (T : List VertexId) (m : List (VertexId × Vertex)) (comp : Component),
      v ∈ T →
      ∃ P rest c2 m2, T = P ++ v :: rest ∧ v ∉ P ∧
        popUntilGo v T m comp = some (c2, rest, m2) ∧
        ∀ x, lookupV m2 x = if x ∈ P ∨ x = v then none else lookupV m x := by
  intro T
  induction T with
  | nil =>
    intro m comp hmem
    simp at hmem
  | cons t T2 ih =>
    intro m comp hmem
    by_cases htv : t = v
    · subst htv
      refine ⟨[], T2, comp.add t, removeV m t, by simp, by simp, ?_, ?_⟩
      · rw [popUntilGo_cons, if_pos (by simp)]
      · intro x
        rw [lookupV_removeV]
        by_cases hx : x = t
        · rw [if_pos hx, if_pos (Or.inr hx)]
        · rw [if_neg hx, if_neg (by simp [hx])]
    · have hmem2 : v ∈ T2 := by
        rcases List.mem_cons.mp hmem with h1 | h1
        · exact absurd h1.symm htv
        · exact h1
      obtain ⟨P, rest, c2, m2, hsp, hvP, heq, hchar⟩ := ih (removeV m t) (comp.add t) hmem2
      refine ⟨t :: P, rest, c2, m2, by rw [List.cons_append, hsp], ?_, ?_, ?_⟩
      · intro hvm
        rcases List.mem_cons.mp hvm with h1 | h1
        · exact htv h1.symm
        · exact hvP h1
      · rw [popUntilGo_cons, if_neg (by simp [htv]), heq]
      · intro x
        rw [hchar x, lookupV_removeV]
        by_cases h1 : x ∈ P ∨ x = v
        · have h3 : x ∈ t :: P ∨ x = v := by
            rcases h1 with h2 | h2
            · exact Or.inl (List.mem_cons_of_mem _ h2)
            · exact Or.inr h2
          rw [if_pos h1, if_pos h3]
        · rw [if_neg h1]
          by_cases h2 : x = t
          · have h3 : x ∈ t :: P ∨ x = v :=
              Or.inl (by rw [h2]; exact List.mem_cons_self _ _)
            rw [if_pos h2, if_pos h3]
          · have h3 : ¬(x ∈ t :: P ∨ x = v) := by
              intro h4
              rcases h4 with h5 | h5
              · rcases List.mem_cons.mp h5 with h6 | h6
                · exact h2 h6
                · exact h1 (Or.inl h6)
              · exact h1 (Or.inr h5)
            rw [if_neg h2, if_neg h3]

theorem pop_until_spec (s : Stack) (v : VertexId) (hv : v ∈ s.stack) :
    ∃ P rest c2 m2, s.stack = P ++ v :: rest ∧ v ∉ P ∧
      s.pop_until v = some (c2, { s with stack := rest, vertices := m2 }) ∧
      ∀ x, lookupV m2 x = if x ∈ P ∨ x = v then none else lookupV s.vertices x := by
  obtain ⟨P, rest, c2, m2, hsp, hvP, heq, hchar⟩ :=
    popUntilGo_spec v s.stack s.vertices Component.new hv
  refine ⟨P, rest, c2, m2, hsp, hvP, ?_, hchar⟩
  unfold Stack.pop_until
  rw [heq]

theorem update_with_minimum_spec (s : Stack) (u w : VertexId) (vu : Vertex)
    (hu : lookupV s.vertices u = some vu) :
    ∃ s2, s.update_with_minimum u w = some s2 ∧ s2.stack = s.stack ∧
      s2.next_vertex_index = s.next_vertex_index ∧
      ∀ x, (lookupV s2.vertices x).isSome = (lookupV s.vertices x).isSome := by
  unfold Stack.update_with_minimum
  cases hw : lookupV s.vertices w with
  | none => exact ⟨s, rfl, rfl, rfl, fun x => rfl⟩
  | some vw =>
    rw [hu]
    refine ⟨_, rfl, rfl, rfl, ?_⟩
    intro x
    by_cases hx : x = u
    · subst hx
      rw [lookupV_insertV_self, hu]
      rfl
    · rw [lookupV_insertV_ne _ _ _ _ hx]

end scc

theorem sublist_cons_append_elim {α : Type} (v : α) :
    ∀ (P l rest : List α), (v :: l).Sublist (P ++ v :: rest) → v ∉ P → l.Sublist rest := by
  intro P
  induction P with
  | nil =>
    intro l rest h hv
    rw [List.nil_append] at h
    cases h with
    | cons a h2 => exact List.sublist_of_cons_sublist h2
    | cons₂ a h2 => exact h2
  | cons p P2 ih =>
    intro l rest h hv
    rw [List.cons_append] at h
    cases h with
    | cons a h2 => exact ih l rest h2 (fun hm => hv (List.mem_cons_of_mem _ hm))
    | cons₂ a h2 => exact absurd (List.mem_cons_self _ _) hv

theorem graph.Req_on (g : Graph) : graph.Req (graph.DepthFirst.on g) = [] := by
  cases hv : g.vertices with
  | nil =>
    have hon : graph.DepthFirst.on g = ⟨g, tree.DepthFirst.on g 0, [], []⟩ := by
      unfold graph.DepthFirst.on
      rw [hv]
    rw [hon, graph.Req_mk, tree.ReqT_on]
  | cons v0 rest =>
    have hon : graph.DepthFirst.on g = ⟨g, tree.DepthFirst.on g v0, rest, []⟩ := by
      unfold graph.DepthFirst.on
      rw [hv]
    rw [hon, graph.Req_mk, tree.ReqT_on]

theorem SCC.nextF_succ_done (fuel : Nat) (s : SCC) (d2 : graph.DepthFirst)
    (h : s.dfs.next = (none, d2)) : SCC.nextF (fuel + 1) s = some SCCStep.done := by
  conv_lhs => unfold SCC.nextF
  rw [h]

theorem SCC.nextF_succ_BV (fuel : Nat) (s : SCC) (d2 : graph.DepthFirst) (v : VertexId)
    (h : s.dfs.next = (some (DFSEntry.BeginVertex v), d2)) :
    SCC.nextF (fuel + 1) s = SCC.nextF fuel ⟨d2, s.unfinished_components.push v⟩ := by
  conv_lhs => unfold SCC.nextF
  rw [h]

theorem SCC.nextF_succ_BE (fuel : Nat) (s : SCC) (d2 : graph.DepthFirst)
    (e0 : VertexId × VertexId)
    (h : s.dfs.next = (some (DFSEntry.BeginEdge e0), d2)) :
    SCC.nextF (fuel + 1) s = SCC.nextF fuel ⟨d2, s.unfinished_components⟩ := by
  conv_lhs => unfold SCC.nextF
  rw [h]

theorem SCC.nextF_succ_EE (fuel : Nat) (s : SCC) (d2 : graph.DepthFirst)
    (e0 : VertexId × VertexId) (st : scc.Stack)
    (h : s.dfs.next = (some (DFSEntry.EndEdge e0), d2))
    (hup : s.unfinished_components.update_with_minimum e0.1 e0.2 = some st) :
    SCC.nextF (fuel + 1) s = SCC.nextF fuel ⟨d2, st⟩ := by
  conv_lhs => unfold SCC.nextF
  rw [h]
  simp only [hup]

theorem SCC.nextF_succ_EV_notroot (fuel : Nat) (s : SCC) (d2 : graph.DepthFirst)
    (v : VertexId)
    (h : s.dfs.next = (some (DFSEntry.EndVertex v), d2))
    (hroot : s.unfinished_components.is_root v = some false) :
    SCC.nextF (fuel + 1) s = SCC.nextF fuel ⟨d2, s.unfinished_components⟩ := by
  conv_lhs => unfold SCC.nextF
  rw [h]
  simp only [hroot]

theorem SCC.nextF_succ_EV_root (fuel : Nat) (s : SCC) (d2 : graph.DepthFirst)
    (v : VertexId) (c2 : Component) (st : scc.Stack)
    (h : s.dfs.next = (some (DFSEntry.EndVertex v), d2))
    (hroot : s.unfinished_components.is_root v = some true)
    (hpop : s.unfinished_components.pop_until v = some (c2, st)) :
    SCC.nextF (fuel + 1) s = some (SCCStep.yield c2 ⟨d2, st⟩) := by
  conv_lhs => unfold SCC.nextF
  rw [h]
  simp only [hroot, hpop]

theorem SCCInv_on (g : Graph) (hwf : g.WF) : SCCInv (SCC.on g) := by
  refine ⟨graph.GInv_on g hwf, ⟨[], graph.GTr_on g⟩, ?_, List.nodup_nil, ?_, ?_⟩
  · intro w
    constructor
    · intro h
      simp [SCC.on, scc.Stack.new] at h
    · intro h
      simp [SCC.on, scc.Stack.new, scc.lookupV] at h
  · have h1 : (SCC.on g).dfs = graph.DepthFirst.on g := rfl
    have h2 : (SCC.on g).unfinished_components.stack = [] := rfl
    rw [h1, h2, graph.Req_on]
  · intro w hw
    simp [SCC.on, scc.Stack.new] at hw

/-- One `SCC::next` call from an invariant state never panics: it runs out
of fuel, ends the stream, or yields a component and preserves the
invariant. -/
theorem scc_nextF_trichotomy (fuel : Nat) :
    ∀ s : SCC, s.dfs.graph.WF → SCCInv s →
      SCC.nextF fuel s = none ∨ SCC.nextF fuel s = some SCCStep.done ∨
      ∃ c2 s2, SCC.nextF fuel s = some (SCCStep.yield c2 s2) ∧
        s2.dfs.graph = s.dfs.graph ∧ SCCInv s2 := by
  induction fuel with
  | zero =>
    intro s hwf hInv
    left
    rfl
  | succ fuel ih =>
    intro s hwf hInv
    obtain ⟨hG, ⟨gtr, hT⟩, hT1, hT2, hT3, hT4⟩ := hInv
    rcases graph.gnext_spec2 s.dfs gtr hwf hG hT with
      ⟨dF, hn, hRnil, hcov⟩ | ⟨e, d', hn, hg', hG', hT', hmu', hmono', hcase', hshape'⟩
    · right
      left
      exact SCC.nextF_succ_done fuel s dF hn
    · rcases hcase' with ⟨v, he, hnv, hv', hReq⟩ | ⟨u, t, he, hReq⟩ |
        ⟨u, t, he, hReq, hmem⟩ | ⟨v, he, hReq⟩
      · -- BeginVertex: push
        subst he
        have hstep := SCC.nextF_succ_BV fuel s d' v hn
        have hvnotT : v ∉ s.unfinished_components.stack := fun hmem2 => hnv (hT4 v hmem2)
        have hInv2 : SCCInv ⟨d', s.unfinished_components.push v⟩ := by
          refine ⟨hG', ⟨gtr ++ [DFSEntry.BeginVertex v], hT'⟩, ?_, ?_, ?_, ?_⟩
          · intro w
            show w ∈ v :: s.unfinished_components.stack ↔
              (scc.lookupV (scc.insertV s.unfinished_components.vertices v
                ⟨s.unfinished_components.next_vertex_index,
                 s.unfinished_components.next_vertex_index⟩) w).isSome = true
            by_cases hwv : w = v
            · subst hwv
              rw [scc.lookupV_insertV_self]
              constructor
              · intro h2
                rfl
              · intro h2
                exact List.mem_cons_self _ _
            · rw [scc.lookupV_insertV_ne _ _ _ _ hwv, List.mem_cons]
              constructor
              · intro h2
                rcases h2 with h3 | h3
                · exact absurd h3 hwv
                · exact (hT1 w).mp h3
              · intro h2
                exact Or.inr ((hT1 w).mpr h2)
          · exact List.nodup_cons.mpr ⟨hvnotT, hT2⟩
          · show (graph.Req d').Sublist (v :: s.unfinished_components.stack)
            rw [hReq]
            exact List.cons_sublist_cons.mpr hT3
          · show ∀ w ∈ v :: s.unfinished_components.stack, w ∈ d'.visited
            intro w hw
            rcases List.mem_cons.mp hw with h3 | h3
            · rw [h3]
              exact hv'
            · exact hmono' w (hT4 w h3)
        have hwf2 : (⟨d', s.unfinished_components.push v⟩ : SCC).dfs.graph.WF := by
          show d'.graph.WF
          rw [hg']
          exact hwf
        rcases ih ⟨d', s.unfinished_components.push v⟩ hwf2 hInv2 with
          h0 | h0 | ⟨c2, s2, h0, hgs2, hI2⟩
        · left
          rw [hstep]
          exact h0
        · right
          left
          rw [hstep]
          exact h0
        · right
          right
          refine ⟨c2, s2, by rw [hstep]; exact h0, ?_, hI2⟩
          rw [hgs2]
          exact hg'
      · -- BeginEdge: pass through
        subst he
        have hstep := SCC.nextF_succ_BE fuel s d' (u, t) hn
        have hInv2 : SCCInv ⟨d', s.unfinished_components⟩ := by
          refine ⟨hG', ⟨gtr ++ [DFSEntry.BeginEdge (u, t)], hT'⟩, hT1, hT2, ?_, ?_⟩
          · show (graph.Req d').Sublist s.unfinished_components.stack
            rw [hReq]
            exact hT3
          · show ∀ w ∈ s.unfinished_components.stack, w ∈ d'.visited
            intro w hw
            exact hmono' w (hT4 w hw)
        have hwf2 : (⟨d', s.unfinished_components⟩ : SCC).dfs.graph.WF := by
          show d'.graph.WF
          rw [hg']
          exact hwf
        rcases ih ⟨d', s.unfinished_components⟩ hwf2 hInv2 with
          h0 | h0 | ⟨c2, s2, h0, hgs2, hI2⟩
        · left
          rw [hstep]
          exact h0
        · right
          left
          rw [hstep]
          exact h0
        · right
          right
          refine ⟨c2, s2, by rw [hstep]; exact h0, ?_, hI2⟩
          rw [hgs2]
          exact hg'
      · -- EndEdge: update low link
        subst he
        have huT : u ∈ s.unfinished_components.stack := hT3.subset hmem
        have husome : (scc.lookupV s.unfinished_components.vertices u).isSome = true :=
          (hT1 u).mp huT
        obtain ⟨vu, hvu⟩ := Option.isSome_iff_exists.mp husome
        obtain ⟨st, hup, hstk, hidx, hpres⟩ :=
          scc.update_with_minimum_spec s.unfinished_components u t vu hvu
        have hstep := SCC.nextF_succ_EE fuel s d' (u, t) st hn hup
        have hInv2 : SCCInv ⟨d', st⟩ := by
          refine ⟨hG', ⟨gtr ++ [DFSEntry.EndEdge (u, t)], hT'⟩, ?_, ?_, ?_, ?_⟩
          · intro w
            show w ∈ st.stack ↔ (scc.lookupV st.vertices w).isSome = true
            rw [hstk]
            constructor
            · intro h2
              rw [hpres w]
              exact (hT1 w).mp h2
            · intro h2
              apply (hT1 w).mpr
              rw [← hpres w]
              exact h2
          · show st.stack.Nodup
            rw [hstk]
            exact hT2
          · show (graph.Req d').Sublist st.stack
            rw [hReq, hstk]
            exact hT3
          · show ∀ w ∈ st.stack, w ∈ d'.visited
            intro w hw
            rw [hstk] at hw
            exact hmono' w (hT4 w hw)
        have hwf2 : (⟨d', st⟩ : SCC).dfs.graph.WF := by
          show d'.graph.WF
          rw [hg']
          exact hwf
        rcases ih ⟨d', st⟩ hwf2 hInv2 with h0 | h0 | ⟨c2, s2, h0, hgs2, hI2⟩
        · left
          rw [hstep]
          exact h0
        · right
          left
          rw [hstep]
          exact h0
        · right
          right
          refine ⟨c2, s2, by rw [hstep]; exact h0, ?_, hI2⟩
          rw [hgs2]
          exact hg'
      · -- EndVertex: close v
        subst he
        have hvReq : v ∈ graph.Req s.dfs := by
          rw [hReq]
          exact List.mem_cons_self _ _
        have hvT : v ∈ s.unfinished_components.stack := hT3.subset hvReq
        have hvsome : (scc.lookupV s.unfinished_components.vertices v).isSome = true :=
          (hT1 v).mp hvT
        obtain ⟨vv, hvv⟩ := Option.isSome_iff_exists.mp hvsome
        have hroot : s.unfinished_components.is_root v = some vv.is_root := by
          unfold scc.Stack.is_root
          rw [hvv]
          rfl
        cases hb : vv.is_root with
        | false =>
          rw [hb] at hroot
          have hstep := SCC.nextF_succ_EV_notroot fuel s d' v hn hroot
          have hT3v : (v :: graph.Req d').Sublist s.unfinished_components.stack := by
            rw [← hReq]
            exact hT3
          have hInv2 : SCCInv ⟨d', s.unfinished_components⟩ := by
            refine ⟨hG', ⟨gtr ++ [DFSEntry.EndVertex v], hT'⟩, hT1, hT2, ?_, ?_⟩
            · show (graph.Req d').Sublist s.unfinished_components.stack
              exact List.sublist_of_cons_sublist hT3v
            · show ∀ w ∈ s.unfinished_components.stack, w ∈ d'.visited
              intro w hw
              exact hmono' w (hT4 w hw)
          have hwf2 : (⟨d', s.unfinished_components⟩ : SCC).dfs.graph.WF := by
            show d'.graph.WF
            rw [hg']
            exact hwf
          rcases ih ⟨d', s.unfinished_components⟩ hwf2 hInv2 with
            h0 | h0 | ⟨c2, s2, h0, hgs2, hI2⟩
          · left
            rw [hstep]
            exact h0
          · right
            left
            rw [hstep]
            exact h0
          · right
            right
            refine ⟨c2, s2, by rw [hstep]; exact h0, ?_, hI2⟩
            rw [hgs2]
            exact hg'
        | true =>
          rw [hb] at hroot
          obtain ⟨P, rest, c2, m2, hsp, hvP, hpop, hchar⟩ :=
            scc.pop_until_spec s.unfinished_components v hvT
          have hstep := SCC.nextF_succ_EV_root fuel s d' v c2 _ hn hroot hpop
          have hT2' : (P ++ v :: rest).Nodup := by
            rw [← hsp]
            exact hT2
          obtain ⟨hPnd, hvrn, hdisj⟩ := List.nodup_append.mp hT2'
          obtain ⟨hvnr, hrnd⟩ := List.nodup_cons.mp hvrn
          right
          right
          refine ⟨c2, ⟨d', { s.unfinished_components with stack := rest, vertices := m2 }⟩,
            hstep, hg', ?_⟩
          refine ⟨hG', ⟨gtr ++ [DFSEntry.EndVertex v], hT'⟩, ?_, hrnd, ?_, ?_⟩
          · intro w
            show w ∈ rest ↔ (scc.lookupV m2 w).isSome = true
            constructor
            · intro hw
              have hwnv : ¬ w = v := fun h2 => hvnr (h2 ▸ hw)
              have hwnP : w ∉ P := fun h2 => hdisj h2 (List.mem_cons_of_mem _ hw)
              rw [hchar w, if_neg (by
                intro h4
                rcases h4 with h5 | h5
                · exact hwnP h5
                · exact hwnv h5)]
              apply (hT1 w).mp
              rw [hsp]
              exact List.mem_append_right _ (List.mem_cons_of_mem _ hw)
            · intro hw
              by_cases hcond : w ∈ P ∨ w = v
              · rw [hchar w, if_pos hcond] at hw
                exact absurd hw (by simp)
              · rw [hchar w, if_neg hcond] at hw
                have hwT := (hT1 w).mpr hw
                rw [hsp] at hwT
                rcases List.mem_append.mp hwT with h5 | h5
                · exact absurd (Or.inl h5) hcond
                · rcases List.mem_cons.mp h5 with h6 | h6
                  · exact absurd (Or.inr h6) hcond
                  · exact h6
          · show (graph.Req d').Sublist rest
            have hT3' : (v :: graph.Req d').Sublist (P ++ v :: rest) := by
              rw [← hReq, ← hsp]
              exact hT3
            exact sublist_cons_append_elim v P (graph.Req d') rest hT3' hvP
          · show ∀ w ∈ rest, w ∈ d'.visited
            intro w hw
            apply hmono' w
            apply hT4 w
            rw [hsp]
            exact List.mem_append_right _ (List.mem_cons_of_mem _ hw)

/-- Every SCC iterator state reachable from `SCC::on(g)` runs on `g` and
satisfies the Tarjan bookkeeping invariant. -/
theorem SCCInv_reach (g : Graph) (hwf : g.WF) :
    ∀ s, SCC.Reach g s → s.dfs.graph = g ∧ SCCInv s := by
  intro s h
  induction h with
  | init =>
    refine ⟨?_, SCCInv_on g hwf⟩
    show (graph.DepthFirst.on g).graph = g
    unfold graph.DepthFirst.on
    cases g.vertices <;> rfl
  | step s0 c s' fuel hstep hreach ih =>
    obtain ⟨hgeq, hI⟩ := ih
    have hwfs : s0.dfs.graph.WF := by
      rw [hgeq]
      exact hwf
    rcases scc_nextF_trichotomy fuel s0 hwfs hI with h0 | h0 | ⟨c2, s2, h0, hg2, hI2⟩
    · rw [h0] at hstep
      exact absurd hstep (by simp)
    · rw [h0] at hstep
      injection hstep with h1
      exact absurd h1 (by simp)
    · rw [h0] at hstep
      injection hstep with h1
      injection h1 with h2 h3
      subst h3
      refine ⟨?_, hI2⟩
      rw [hg2, hgeq]

/-- C9: on a well-formed graph, the SCC iterator never hits one of its
fatal invariant checks while consuming the event stream of the graph-scoped
traversal: from every reachable SCC iterator state, a `next()` call with
any fuel never returns the embedded `panic` outcome — every `EndVertex(v)`
finds a live table entry for `v` (the `unwrap` in `is_root` and the one in
`update_with_minimum` succeed) and, when `v` is a root, `pop_until`
finds `v` on the Tarjan stack before the stack empties. -/
theorem C9_scc_panics_unreachable (g : Graph) (hwf : g.WF) (s : SCC)
    (hreach : SCC.Reach g s) (fuel : Nat) :
    SCC.nextF fuel s ≠ some SCCStep.panic := by
  obtain ⟨hgeq, hI⟩ := SCCInv_reach g hwf s hreach
  have hwfs : s.dfs.graph.WF := by
    rw [hgeq]
    exact hwf
  rcases scc_nextF_trichotomy fuel s hwfs hI with h0 | h0 | ⟨c2, s2, h0, hg2, hI2⟩ <;>
    rw [h0] <;> simp

/-- Witness for C9 on the two-vertex graph with one edge, from the initial
SCC iterator state. -/
theorem C9_scc_panics_unreachable_witness :
    (⟨[0, 1], [(0, 1)], [[1], []]⟩ : Graph).WF ∧
      SCC.nextF 30 (SCC.on ⟨[0, 1], [(0, 1)], [[1], []]⟩) ≠ some SCCStep.panic :=
  ⟨⟨by decide, by decide⟩,
    C9_scc_panics_unreachable (⟨[0, 1], [(0, 1)], [[1], []]⟩ : Graph)
      ⟨by decide, by decide⟩ (SCC.on ⟨[0, 1], [(0, 1)], [[1], []]⟩)
      SCC.Reach.init 30⟩

/-- C2: processing `EndEdge(u, w)` in the SCC state: when `w` still has a
live entry, `u`'s low link becomes the minimum of both low links while
`u`'s discovery index, the Tarjan stack, the index counter and every other
vertex's entry are unchanged; when `w`'s entry was already removed, the
state is returned untouched.  (The `unwrap` on `u`'s own entry is the
hypothesis `hu`.) -/
theorem C2_update_with_minimum (s : scc.Stack) (u w : VertexId) (vu : scc.Vertex)
    (hu : scc.lookupV s.vertices u = some vu) :
    (∀ vw, scc.lookupV s.vertices w = some vw →
        ∃ s', s.update_with_minimum u w = some s' ∧
          scc.lookupV s'.vertices u = some ⟨vu.index, min vu.low_link vw.low_link⟩ ∧
          s'.stack = s.stack ∧ s'.next_vertex_index = s.next_vertex_index ∧
          ∀ x, x ≠ u → scc.lookupV s'.vertices x = scc.lookupV s.vertices x) ∧
    (scc.lookupV s.vertices w = none → s.update_with_minimum u w = some s) := by
  constructor
  · intro vw hw
    have heq : s.update_with_minimum u w
        = some { s with
            vertices := scc.insertV s.vertices u ⟨vu.index, min vu.low_link vw.low_link⟩ } := by
      unfold scc.Stack.update_with_minimum
      rw [hw, hu]
    refine ⟨_, heq, ?_, rfl, rfl, ?_⟩
    · exact scc.lookupV_insertV_self _ _ _
    · intro x hx
      exact scc.lookupV_insertV_ne _ _ _ _ hx
  · intro hw
    unfold scc.Stack.update_with_minimum
    rw [hw]

/-- Witness for C2 on a two-entry table with `u = 0`, `w = 1`. -/
theorem C2_update_with_minimum_witness :
    scc.lookupV [(0, ⟨0, 5⟩), (1, ⟨1, 2⟩)] 0 = some ⟨0, 5⟩ ∧
    ∃ s', (scc.Stack.mk [1, 0] [(0, ⟨0, 5⟩), (1, ⟨1, 2⟩)] 2).update_with_minimum 0 1 = some s' ∧
      scc.lookupV s'.vertices 0 = some ⟨0, min 5 2⟩ := by
  refine ⟨by decide, ?_⟩
  obtain ⟨s', hs', hlook, -, -, -⟩ :=
    (C2_update_with_minimum (scc.Stack.mk [1, 0] [(0, ⟨0, 5⟩), (1, ⟨1, 2⟩)] 2)
        0 1 ⟨0, 5⟩ (by decide)).1 ⟨1, 2⟩ (by decide)
  exact ⟨s', hs', hlook⟩

/-! Helper development for the SCC partition claim: well-formedness of
graphs produced by `Graph::from`, component membership, the Tarjan table
operations, and the segment decomposition of the Tarjan stack. -/

theorem from'_WF (n : Nat) (es : List (Nat × Nat)) (g : Graph)
    (h : Graph.from' n es = Except.ok g) : g.WF := by
  unfold Graph.from' at h
  rcases hb : Graph.buildEdges n es (List.replicate n []) with e | p
  · rw [hb] at h
    simp at h
  · rw [hb] at h
    obtain ⟨es', oi'⟩ := p
    injection h with h1
    obtain ⟨hes, hlen, hidx⟩ := buildEdges_ok_out_index n es (List.replicate n [])
      (by simp) es' oi' hb
    have hnb : ∀ p ∈ es, p.1 < n ∧ p.2 < n := by
      intro p hp
      by_contra hc
      have hex : ∃ p ∈ es, n ≤ p.1 ∨ n ≤ p.2 := ⟨p, hp, by omega⟩
      obtain ⟨s, hs⟩ := (buildEdges_error_iff n es (List.replicate n [])).mpr hex
      rw [hs] at hb
      simp at hb
    rw [← h1]
    constructor
    · show List.range n = List.range oi'.length
      rw [hlen]
    · show ∀ l ∈ oi', ∀ t ∈ l, t < oi'.length
      intro l hl t ht
      obtain ⟨v, hv⟩ := List.mem_iff_getElem?.mp hl
      have hv2 := hidx v
      rw [hv] at hv2
      rcases hrep : (List.replicate n ([] : List VertexId))[v]? with _ | l0
      · rw [hrep] at hv2
        simp at hv2
      · rw [hrep] at hv2
        have hl0 : l0 = [] := by
          have hvlt : v < n := by
            by_contra hge
            rw [List.getElem?_eq_none (by simp; omega)] at hrep
            simp at hrep
          rw [List.getElem?_eq_getElem (by simp [hvlt])] at hrep
          injection hrep with hrep2
          rw [← hrep2]
          simp
        subst hl0
        simp at hv2
        rw [hv2] at ht
        obtain ⟨p, hp, hp2⟩ := List.mem_map.mp ht
        have hpm : p ∈ es := List.mem_of_mem_filter hp
        rw [hlen, ← hp2]
        exact (hnb p hpm).2

theorem step_mem_vertices (g : Graph) (hwf : g.WF) (u x : VertexId) (h : g.Step u x) :
    x ∈ g.vertices := by
  unfold Graph.Step Graph.adj Graph.out_neighbors at h
  rcases hb : g.out_index[u]? with _ | l
  · rw [hb] at h
    simp at h
  · rw [hb] at h
    simp only [Option.getD_some] at h
    have hl : l ∈ g.out_index := tree.mem_of_index hb
    have := hwf.2 l hl x h
    rw [hwf.1]
    exact List.mem_range.mpr this

theorem visited_sub_vertices (d : graph.DepthFirst) (hwf : d.graph.WF)
    (hG : graph.GInv d) : ∀ x ∈ d.visited, x ∈ d.graph.vertices := by
  obtain ⟨hge, hinv, hqbv, hqs, hxb, hcons⟩ := hG
  intro x hx
  rcases List.mem_append.mp hx with h | h
  · rw [hwf.1]
    exact List.mem_range.mpr (hxb x h)
  · have h2 := hinv.2.2.2.2.2 x h
    rw [hge] at h2
    rw [hwf.1]
    exact List.mem_range.mpr h2

theorem Component.mem_add (c : Component) (v x : VertexId) :
    x ∈ (c.add v).members ↔ x ∈ c.members ∨ x = v := by
  unfold Component.add
  by_cases h : v ∈ c.members
  · rw [if_pos h]
    constructor
    · exact Or.inl
    · rintro (h2 | h2)
      · exact h2
      · rw [h2]
        exact h
  · rw [if_neg h]
    show x ∈ v :: c.members ↔ _
    rw [List.mem_cons]
    exact or_comm

theorem popUntilGo_members (v : VertexId) :
    ∀ (T : List VertexId) (m : List (VertexId × scc.Vertex)) (comp c2 : Component)
      (rest : List VertexId) (m2 : List (VertexId × scc.Vertex)),
      scc.popUntilGo v T m comp = some (c2, rest, m2) →
      ∃ P, T = P ++ v :: rest ∧
        ∀ x, x ∈ c2.members ↔ x ∈ comp.members ∨ x ∈ P ∨ x = v := by
  intro T
  induction T with
  | nil =>
    intro m comp c2 rest m2 h
    exact absurd h (by simp [scc.popUntilGo])
  | cons t T2 ih =>
    intro m comp c2 rest m2 h
    rw [scc.popUntilGo_cons] at h
    by_cases htv : t = v
    · rw [if_pos (by simp [htv])] at h
      injection h with h1
      injection h1 with h2 h3
      injection h3 with h4 h5
      refine ⟨[], by rw [htv, ← h4]; rfl, ?_⟩
      intro x
      rw [← h2, Component.mem_add]
      simp [htv]
    · rw [if_neg (by simp [htv])] at h
      obtain ⟨P2, hsp, hchar⟩ := ih (scc.removeV m t) (comp.add t) c2 rest m2 h
      refine ⟨t :: P2, by rw [List.cons_append, ← hsp], ?_⟩
      intro x
      rw [hchar x, Component.mem_add, List.mem_cons]
      constructor
      · rintro ((h1 | h1) | h1 | h1)
        · exact Or.inl h1
        · exact Or.inr (Or.inl (Or.inl h1))
        · exact Or.inr (Or.inl (Or.inr h1))
        · exact Or.inr (Or.inr h1)
      · rintro (h1 | (h1 | h1) | h1)
        · exact Or.inl (Or.inl h1)
        · exact Or.inl (Or.inr h1)
        · exact Or.inr (Or.inl h1)
        · exact Or.inr (Or.inr h1)

theorem update_with_minimum_tbl (s : scc.Stack) (u t : VertexId) (vu : scc.Vertex)
    (hu : scc.lookupV s.vertices u = some vu) :
    (scc.lookupV s.vertices t = none → s.update_with_minimum u t = some s) ∧
    ∀ vt, scc.lookupV s.vertices t = some vt →
      s.update_with_minimum u t =
        some ⟨s.stack, scc.insertV s.vertices u ⟨vu.index, min vu.low_link vt.low_link⟩,
          s.next_vertex_index⟩ := by
  constructor
  · intro ht
    unfold scc.Stack.update_with_minimum
    rw [ht]
  · intro vt ht
    unfold scc.Stack.update_with_minimum
    rw [ht, hu]

theorem GTr_BV_visited (gtr : List DFSEntry) (d d' : graph.DepthFirst) (v : VertexId)
    (h1 : graph.GTr gtr d) (h2 : graph.GTr (gtr ++ [DFSEntry.BeginVertex v]) d') :
    ∀ w, w ∈ d'.visited ↔ (w ∈ d.visited ∨ w = v) := by
  intro w
  have ha := h1 w
  have hb := h2 w
  rw [tree.count_append_single] at hb
  by_cases hwv : w = v
  · subst hwv
    rw [if_pos rfl] at hb
    constructor
    · intro _
      exact Or.inr rfl
    · intro _
      by_contra hmem
      rw [if_neg hmem] at hb
      by_cases hm : w ∈ d.visited
      · rw [if_pos hm] at ha
        omega
      · rw [if_neg hm] at ha
        omega
  · rw [if_neg (fun hc => hwv (by injection hc with h3; rw [h3]))] at hb
    constructor
    · intro hmem
      rw [if_pos hmem] at hb
      left
      by_contra hm
      rw [if_neg hm] at ha
      omega
    · rintro (hm | hm)
      · rw [if_pos hm] at ha
        by_contra hmem
        rw [if_neg hmem] at hb
        omega
      · exact absurd hm hwv

theorem GTr_nonBV_visited (gtr : List DFSEntry) (d d' : graph.DepthFirst) (e : DFSEntry)
    (h1 : graph.GTr gtr d) (h2 : graph.GTr (gtr ++ [e]) d')
    (hne : ∀ w, e ≠ DFSEntry.BeginVertex w) :
    ∀ w, w ∈ d'.visited ↔ w ∈ d.visited := by
  intro w
  have ha := h1 w
  have hb := h2 w
  rw [tree.count_append_single, if_neg (fun hc => hne w hc)] at hb
  constructor
  · intro hmem
    rw [if_pos hmem] at hb
    by_contra hm
    rw [if_neg hm] at ha
    omega
  · intro hm
    rw [if_pos hm] at ha
    by_contra hmem
    rw [if_neg hmem] at hb
    omega

theorem tree.Inv_suppress (g : Graph) (f : Frame) (S : List Frame) (ex : List VertexId)
    (q : List DFSEntry) (hinv : tree.Inv ⟨g, f :: S, ex, q⟩) :
    tree.Inv ⟨g, S, f.id :: ex, []⟩ := by
  obtain ⟨hdrop, hnodup, htail, hfresh, hbound, hexb⟩ := hinv
  refine ⟨?_, ?_, ?_, ?_, ?_, ?_⟩
  · intro fr hfr
    exact hdrop fr (List.mem_cons_of_mem _ hfr)
  · simp only [List.map_cons, List.nodup_cons] at hnodup
    exact hnodup.2
  · intro fr hfr
    exact List.mem_cons_of_mem _ (htail fr (List.mem_of_mem_tail hfr))
  · intro fr hfr hfex
    exact hfresh fr (List.mem_cons_of_mem _ hfr)
      (fun hm => hfex (List.mem_cons_of_mem _ hm))
  · intro fr hfr
    exact hbound fr (List.mem_cons_of_mem _ hfr)
  · intro w hw
    rcases List.mem_cons.mp hw with h3 | h3
    · rw [h3]
      exact (hbound f (List.mem_cons_self _ _)).1
    · exact hexb w h3

theorem Segs_mono (g : Graph) (m : List (VertexId × scc.Vertex))
    (FB FB2 : VertexId → Prop) (T R : List VertexId)
    (hmono : ∀ a, FB a → FB2 a) (h : Segs g m FB T R) : Segs g m FB2 T R := by
  cases h with
  | nil FB => exact Segs.nil FB2
  | cons FB A r T' R' hreach hcls hbnd htail =>
    exact Segs.cons FB2 A r T' R' hreach hcls
      (fun a ha => (hbnd a ha).imp id (hmono a)) htail

theorem Segs_congr (g : Graph) (m m2 : List (VertexId × scc.Vertex))
    (FB : VertexId → Prop) (T R : List VertexId) (h : Segs g m FB T R)
    (hcg : ∀ w ∈ T, scc.lookupV m2 w = scc.lookupV m w) : Segs g m2 FB T R := by
  induction h with
  | nil FB => exact Segs.nil FB
  | cons FB A r T' R' hreach hcls hbnd htail ih =>
    have hval : ∀ w ∈ A ++ r :: T', scc.llOf m2 w = scc.llOf m w ∧
        scc.idxOf m2 w = scc.idxOf m w := by
      intro w hw
      unfold scc.llOf scc.idxOf
      rw [hcg w hw]
      exact ⟨rfl, rfl⟩
    refine Segs.cons FB A r T' R' hreach ?_ ?_
      (ih (fun w hw => hcg w (List.mem_append_right _ (List.mem_cons_of_mem _ hw))))
    · intro a ha
      rw [(hval a (List.mem_append_left _ ha)).1, (hval a (List.mem_append_left _ ha)).2]
      exact hcls a ha
    · intro a ha
      rw [(hval a (List.mem_append_left _ ha)).1,
        (hval r (List.mem_append_right _ (List.mem_cons_self _ _))).1]
      exact hbnd a ha

theorem Segs_nilR (g : Graph) (m : List (VertexId × scc.Vertex))
    (FB : VertexId → Prop) (T : List VertexId) (h : Segs g m FB T []) : T = [] := by
  cases h with
  | nil FB => rfl

theorem llOf_insert_self (m : List (VertexId × scc.Vertex)) (k : VertexId)
    (vx : scc.Vertex) : scc.llOf (scc.insertV m k vx) k = vx.low_link := by
  unfold scc.llOf
  rw [scc.lookupV_insertV_self]

theorem llOf_insert_ne (m : List (VertexId × scc.Vertex)) (k : VertexId)
    (vx : scc.Vertex) (x : VertexId) (h : x ≠ k) :
    scc.llOf (scc.insertV m k vx) x = scc.llOf m x := by
  unfold scc.llOf
  rw [scc.lookupV_insertV_ne _ _ _ _ h]

theorem idxOf_insert_self (m : List (VertexId × scc.Vertex)) (k : VertexId)
    (vx : scc.Vertex) : scc.idxOf (scc.insertV m k vx) k = vx.index := by
  unfold scc.idxOf
  rw [scc.lookupV_insertV_self]

theorem idxOf_insert_ne (m : List (VertexId × scc.Vertex)) (k : VertexId)
    (vx : scc.Vertex) (x : VertexId) (h : x ≠ k) :
    scc.idxOf (scc.insertV m k vx) x = scc.idxOf m x := by
  unfold scc.idxOf
  rw [scc.lookupV_insertV_ne _ _ _ _ h]

theorem append_cons_eq_unique {α : Type} (v : α) :
    ∀ (A P B Q : List α), A ++ v :: B = P ++ v :: Q → v ∉ A → v ∉ P →
      A = P ∧ B = Q := by
  intro A
  induction A with
  | nil =>
    intro P B Q h hvA hvP
    cases P with
    | nil =>
      injection h with h1 h2
      exact ⟨rfl, h2⟩
    | cons p P2 =>
      injection h with h1 h2
      exact absurd (by rw [h1]; exact List.mem_cons_self _ _) hvP
  | cons a A2 ih =>
    intro P B Q h hvA hvP
    cases P with
    | nil =>
      injection h with h1 h2
      exact absurd (by rw [← h1]; exact List.mem_cons_self _ _) hvA
    | cons p P2 =>
      injection h with h1 h2
      obtain ⟨hA, hB⟩ := ih P2 B Q h2 (fun hm => hvA (List.mem_cons_of_mem _ hm))
        (fun hm => hvP (List.mem_cons_of_mem _ hm))
      rw [h1, hA, hB]
      exact ⟨rfl, rfl⟩

theorem segment_reaches_root (g : Graph) (m : List (VertexId × scc.Vertex))
    (A1 T2 : List VertexId) (v : VertexId)
    (hP2 : ∀ w ∈ A1 ++ v :: T2, ∃ z ∈ A1 ++ v :: T2,
      scc.idxOf m z = scc.llOf m w ∧ g.Reaches w z)
    (hDE : (A1 ++ v :: T2).Pairwise
      (fun a b => scc.idxOf m b < scc.idxOf m a))
    (hCLS : ∀ a ∈ A1, scc.llOf m a < scc.idxOf m a)
    (hB : ∀ a ∈ A1, scc.idxOf m v ≤ scc.llOf m a) :
    ∀ a ∈ A1, g.Reaches a v := by
  have hT2lt : ∀ z ∈ T2, scc.idxOf m z < scc.idxOf m v := by
    have h1 := (List.pairwise_append.mp hDE).2.1
    exact List.pairwise_cons.mp h1 |>.1
  have key : ∀ k, ∀ a ∈ A1, scc.idxOf m a = k → g.Reaches a v := by
    intro k
    induction k using Nat.strong_induction_on with
    | _ k ih =>
      intro a ha hak
      obtain ⟨z, hz, hiz, hrz⟩ := hP2 a (List.mem_append_left _ ha)
      have hzlt : scc.idxOf m z < k := by
        rw [hiz, ← hak]
        exact hCLS a ha
      have hzge : scc.idxOf m v ≤ scc.idxOf m z := by
        rw [hiz]
        exact hB a ha
      rcases List.mem_append.mp hz with hzA | hzV
      · exact hrz.trans (ih (scc.idxOf m z) hzlt z hzA rfl)
      · rcases List.mem_cons.mp hzV with hzv | hzT
        · rw [← hzv]
          exact hrz
        · exact absurd (hT2lt z hzT) (by omega)
  intro a ha
  exact key (scc.idxOf m a) a ha rfl

theorem singleton_eq_append {α : Type} (x e0 : α) (q' : List α)
    (h : [x] = q' ++ [e0]) : q' = [] ∧ e0 = x := by
  cases q' with
  | nil =>
    injection h with h1 h2
    exact ⟨rfl, h1.symm⟩
  | cons a q2 =>
    injection h with h1 h2
    exact absurd h2.symm (by simp)

theorem EDGp_iffV (m : List (VertexId × scc.Vertex)) (V V' : List VertexId)
    (u w : VertexId) (hV : ∀ x, x ∈ V' ↔ x ∈ V) (h : scc.EDGp m V u w) :
    scc.EDGp m V' u w :=
  ⟨(hV w).mpr h.1, h.2⟩

theorem tree.ReqT_top (en : tree.DepthFirst) (f : Frame) (rest : List Frame)
    (hq : en.output_queue = []) (hst : en.stack = f :: rest) (hf : f.id ∈ en.explored) :
    tree.ReqT en =
      f.id :: idsOf (rest.filter (fun f2 => decide (f2.id ∈ en.explored))) := by
  unfold tree.ReqT
  rw [hq, hst]
  show tree.queueReq [] ++ idsOf ((f :: rest).filter _) = _
  rw [tree.queueReq_nil, List.filter_cons, if_pos (by simp [hf])]
  rfl

theorem tree.next_suppressed (g : Graph) (f0 : Frame) (S : List Frame)
    (ex : List VertexId) (q : List DFSEntry)
    (hinv : tree.Inv ⟨g, f0 :: S, ex, q⟩) (hPA : tree.PAR (f0 :: S))
    (e : DFSEntry) (en2 : tree.DepthFirst)
    (hnt : (⟨g, S, f0.id :: ex, []⟩ : tree.DepthFirst).next = (some e, en2)) :
    ∃ u ns2 rest2, S = (⟨u, some f0.id, ns2, false⟩ : Frame) :: rest2 ∧ u ∈ ex ∧
      e = DFSEntry.EndEdge (u, f0.id) ∧
      ((ns2 = [] ∧ en2 = ⟨g, rest2, f0.id :: ex, [DFSEntry.EndVertex u]⟩) ∨
       (∃ n ns3, ns2 = n :: ns3 ∧ n ∈ f0.id :: ex ∧
         en2 = ⟨g, (⟨u, some n, ns3, false⟩ : Frame) :: rest2, f0.id :: ex,
           [DFSEntry.BeginEdge (u, n)]⟩) ∨
       (∃ n ns3, ns2 = n :: ns3 ∧ n ∉ f0.id :: ex ∧
         en2 = ⟨g, Frame.fromId n g :: (⟨u, some n, ns3, false⟩ : Frame) :: rest2,
           f0.id :: ex, [DFSEntry.BeginEdge (u, n)]⟩)) := by
  obtain ⟨hdrop, hnodup, htail, hfresh, hbound, hexb⟩ := hinv
  cases hs : S with
  | nil =>
    rw [hs] at hnt
    rw [tree.next_of_empty _ rfl rfl] at hnt
    injection hnt with h1 h2
    injection h1
  | cons f1 rest2 =>
    have hf1cn : f1.current_neighbour = some f0.id := hPA [] f0 f1 rest2 (by rw [hs]; rfl)
    have hf1ex : f1.id ∈ ex := htail f1 (by rw [hs]; exact List.mem_cons_self _ _)
    have hf1dr : f1.dropped = false :=
      hdrop f1 (by rw [hs]; exact List.mem_cons_of_mem _ (List.mem_cons_self _ _))
    obtain ⟨u, fcn, ns2, fdr⟩ := f1
    simp only at hf1cn hf1ex hf1dr
    subst hf1cn
    subst hf1dr
    have hdropσ : ∀ f ∈ (⟨g, S, f0.id :: ex, []⟩ : tree.DepthFirst).stack,
        f.dropped = false := by
      intro f hf
      exact hdrop f (List.mem_cons_of_mem _ hf)
    rcases tree.next_spec ⟨g, S, f0.id :: ex, []⟩ hdropσ with
      ⟨e0, q0, hq0, hnc⟩ | ⟨hst, hq0, hnc⟩ | ⟨f, rest, hst, hq0, hf, hnc⟩ |
      ⟨fid, rest, hst, hq0, hf, hnc⟩ | ⟨fid, c, rest, hst, hq0, hf, hnc⟩ |
      ⟨fid, n, ns, rest, hst, hq0, hf, hold, hnc⟩ |
      ⟨fid, n, ns, rest, hst, hq0, hf, hnew, hnc⟩ |
      ⟨fid, c, n, ns, rest, hst, hq0, hf, hold, hnc⟩ |
      ⟨fid, c, n, ns, rest, hst, hq0, hf, hnew, hnc⟩
    · have hq0' : ([] : List DFSEntry) = q0 ++ [e0] := hq0
      simp at hq0'
    · have hst' : S = [] := hst
      rw [hst'] at hs
      injection hs
    · have hst' : S = f :: rest := hst
      rw [hs] at hst'
      injection hst' with h1 h2
      have hfid : f.id ∈ f0.id :: ex := by
        rw [← h1]
        exact List.mem_cons_of_mem _ hf1ex
      exact absurd hfid hf
    · have hst' : S = (⟨fid, none, [], false⟩ : Frame) :: rest := hst
      rw [hs] at hst'
      injection hst' with h1 h2
      injection h1 with h3 h4
      injection h4
    · -- endELast
      have hst' : S = (⟨fid, some c, [], false⟩ : Frame) :: rest := hst
      rw [hs] at hst'
      injection hst' with h1 h2
      injection h1 with h3 h4 h5 h6
      injection h4 with h4
      rw [hnc] at hnt
      injection hnt with hn1 hn2
      injection hn1 with hn1
      refine ⟨u, ns2, rest2, rfl, hf1ex, ?_, Or.inl ⟨h5, ?_⟩⟩
      · rw [← hn1, h3, h4]
      · exact hn2.symm.trans (by rw [h2, h3])
    · -- beginEOld: top frame has no pending edge: impossible
      have hst' : S = (⟨fid, none, n :: ns, false⟩ : Frame) :: rest := hst
      rw [hs] at hst'
      injection hst' with h1 h2
      injection h1 with h3 h4
      injection h4
    · have hst' : S = (⟨fid, none, n :: ns, false⟩ : Frame) :: rest := hst
      rw [hs] at hst'
      injection hst' with h1 h2
      injection h1 with h3 h4
      injection h4
    · -- endEOld
      have hst' : S = (⟨fid, some c, n :: ns, false⟩ : Frame) :: rest := hst
      rw [hs] at hst'
      injection hst' with h1 h2
      injection h1 with h3 h4 h5 h6
      injection h4 with h4
      rw [hnc] at hnt
      injection hnt with hn1 hn2
      injection hn1 with hn1
      refine ⟨u, ns2, rest2, rfl, hf1ex, ?_, Or.inr (Or.inl ⟨n, ns, h5, ?_, ?_⟩)⟩
      · rw [← hn1, h3, h4]
      · exact hold
      · exact hn2.symm.trans (by rw [h2, h3])
    · -- endENew
      have hst' : S = (⟨fid, some c, n :: ns, false⟩ : Frame) :: rest := hst
      rw [hs] at hst'
      injection hst' with h1 h2
      injection h1 with h3 h4 h5 h6
      injection h4 with h4
      rw [hnc] at hnt
      injection hnt with hn1 hn2
      injection hn1 with hn1
      refine ⟨u, ns2, rest2, rfl, hf1ex, ?_,
        Or.inr (Or.inr ⟨n, ns, h5, ?_, ?_⟩)⟩
      · rw [← hn1, h3, h4]
      · exact hnew
      · exact hn2.symm.trans (by rw [h2, h3])

theorem TarInv_same_table (s : SCC) (d' : graph.DepthFirst)
    (hT : TarInv s)
    (hReq : graph.Req d' = graph.Req s.dfs)
    (hg' : d'.graph = s.dfs.graph)
    (hVset : ∀ w, w ∈ d'.visited ↔ w ∈ s.dfs.visited)
    (hXFel : ∀ a, SCC.XF s a → False)
    (hXI' : tree.XInv d'.enumeration)
    (hCT' : ∀ w ∈ s.unfinished_components.stack, w ∈ d'.enumeration.explored)
    (hE2' : ∀ f ∈ d'.enumeration.stack, f.id ∈ d'.enumeration.explored →
      ∀ pre, s.dfs.graph.adj f.id = pre ++ f.current_neighbour.toList ++ f.neighbours →
        ∀ w ∈ pre, scc.EDGp s.unfinished_components.vertices s.dfs.visited f.id w)
    (hE3' : ∀ v, d'.enumeration.output_queue = [DFSEntry.EndVertex v] →
      ∀ w ∈ s.dfs.graph.adj v, scc.EDGp s.unfinished_components.vertices s.dfs.visited v w)
    (hFL' : ∀ v, d'.enumeration.output_queue = [DFSEntry.EndVertex v] →
      d'.enumeration.stack = [] ∨
      ∃ f rest, d'.enumeration.stack = f :: rest ∧ f.id ∈ d'.enumeration.explored ∧
        f.current_neighbour = some v) :
    TarInv ⟨d', s.unfinished_components⟩ := by
  obtain ⟨hXIpre, hSeg, hIB, hDE, hGL, hP2, hCT, hDC, hE1, hE2, hE3, hFL⟩ := hT
  refine ⟨hXI', ?_, hIB, hDE, ?_, ?_, hCT', ?_, ?_, ?_, ?_, hFL'⟩
  · show Segs d'.graph s.unfinished_components.vertices (SCC.XF ⟨d', s.unfinished_components⟩)
      s.unfinished_components.stack (graph.Req d')
    rw [hg', hReq]
    exact Segs_mono _ _ _ _ _ _ (fun a h => h.elim)
      (Segs_mono _ _ _ _ _ _ hXFel hSeg)
  · intro r0 h0 w hw
    rw [hReq] at h0
    exact hGL r0 h0 w hw
  · intro w hw
    obtain ⟨z, hz1, hz2, hz3⟩ := hP2 w hw
    refine ⟨z, hz1, hz2, ?_⟩
    show d'.graph.Reaches w z
    rw [hg']
    exact hz3
  · intro u2 hu2 hnT w2 hstep
    have hstep2 : s.dfs.graph.Step u2 w2 := by rw [← hg']; exact hstep
    obtain ⟨hw2V, hw2T⟩ := hDC u2 ((hVset u2).mp hu2) hnT w2 hstep2
    exact ⟨(hVset w2).mpr hw2V, hw2T⟩
  · intro u2 hu2 hnR w2 hw2
    rw [hReq] at hnR
    have hw2' : w2 ∈ s.dfs.graph.adj u2 := by rw [← hg']; exact hw2
    exact EDGp_iffV _ _ _ _ _ hVset (hE1 u2 hu2 hnR w2 hw2')
  · intro f hf hfe pre hpre w hw
    have hpre2 : s.dfs.graph.adj f.id = pre ++ f.current_neighbour.toList ++ f.neighbours := by
      rw [← hg']
      exact hpre
    exact EDGp_iffV _ _ _ _ _ hVset (hE2' f hf hfe pre hpre2 w hw)
  · intro v hqv w hw
    have hw2 : w ∈ s.dfs.graph.adj v := by rw [← hg']; exact hw
    exact EDGp_iffV _ _ _ _ _ hVset (hE3' v hqv w hw2)

theorem Tar_BE (s : SCC) (u t : VertexId) (d' : graph.DepthFirst) (gtr : List DFSEntry)
    (hS : SCCInv s) (hT : TarInv s)
    (hshape : graph.EmitShape s.dfs (DFSEntry.BeginEdge (u, t)) d')
    (hTr : graph.GTr gtr s.dfs)
    (hTr' : graph.GTr (gtr ++ [DFSEntry.BeginEdge (u, t)]) d')
    (hReq : graph.Req d' = graph.Req s.dfs)
    (hg' : d'.graph = s.dfs.graph) :
    TarInv ⟨d', s.unfinished_components⟩ := by
  obtain ⟨hG, hgtr0, hTab, hND, hSub, hTV⟩ := hS
  obtain ⟨hge, hinv, hqbv, hqs, hxb, hcons⟩ := hG
  have hXIpre := hT.1
  have hE2 := hT.2.2.2.2.2.2.2.2.2.1
  have hVset : ∀ w, w ∈ d'.visited ↔ w ∈ s.dfs.visited :=
    GTr_nonBV_visited gtr s.dfs d' _ hTr hTr' (fun w h => DFSEntry.noConfusion h)
  rcases hshape with ⟨en2, hnt, hd', hbv⟩ | ⟨f0, S, en2, hstk, hf0ne, hf0x, hnt, hd', hnbv⟩ |
    ⟨hrnil, rt, hebv, hcont, hd'e⟩
  · -- direct emission from the active tree
    have hen' : d'.enumeration = en2 := by rw [hd']
    have hXI' : tree.XInv d'.enumeration := by
      rw [hen']
      exact tree.XInv_next s.dfs.enumeration hinv hXIpre _ _ hnt
    rcases tree.next_spec s.dfs.enumeration hinv.1 with
      ⟨e0, q0, hq0, hnc⟩ | ⟨hst, hq0, hnc⟩ | ⟨f, rest, hst, hq0, hf, hnc⟩ |
      ⟨fid, rest, hst, hq0, hf, hnc⟩ | ⟨fid, c, rest, hst, hq0, hf, hnc⟩ |
      ⟨fid, n, ns, rest, hst, hq0, hf, hold, hnc⟩ |
      ⟨fid, n, ns, rest, hst, hq0, hf, hnew, hnc⟩ |
      ⟨fid, c, n, ns, rest, hst, hq0, hf, hold, hnc⟩ |
      ⟨fid, c, n, ns, rest, hst, hq0, hf, hnew, hnc⟩
    · -- queued event: by the queue shape it is the queued BeginEdge
      rw [hnc] at hnt
      injection hnt with h1 h2
      injection h1 with h1
      rcases hqs with hq1 | ⟨x, hq1⟩ | ⟨a, b, hq1⟩
      · rw [hq1] at hq0
        simp at hq0
      · rw [hq1] at hq0
        obtain ⟨hq0a, hq0b⟩ := singleton_eq_append _ _ _ hq0
        exact DFSEntry.noConfusion (h1.symm.trans hq0b)
      · rw [hq1] at hq0
        obtain ⟨hq0a, hq0b⟩ := singleton_eq_append _ _ _ hq0
        subst hq0a
        refine TarInv_same_table s d' ⟨hXIpre, hT.2.1, hT.2.2.1, hT.2.2.2.1, hT.2.2.2.2.1,
          hT.2.2.2.2.2.1, hT.2.2.2.2.2.2.1, hT.2.2.2.2.2.2.2.1, hT.2.2.2.2.2.2.2.2.1,
          hE2, hT.2.2.2.2.2.2.2.2.2.2.1, hT.2.2.2.2.2.2.2.2.2.2.2⟩
          hReq hg' hVset ?_ hXI' ?_ ?_ ?_ ?_
        · rintro a2 ⟨hqe, h2x⟩
          rw [hq1] at hqe
          exact List.noConfusion hqe
        · intro w hw
          rw [hen', ← h2]
          exact hT.2.2.2.2.2.2.1 w hw
        · rw [hen', ← h2]
          intro f hf hfe pre hpre w hw
          exact hE2 f hf hfe pre hpre w hw
        · rw [hen', ← h2]
          intro v hqv
          exact absurd hqv (by simp)
        · rw [hen', ← h2]
          intro v hqv
          exact absurd hqv (by simp)
    · rw [hnc] at hnt
      injection hnt with h1 h2
      injection h1
    · rw [hnc] at hnt
      injection hnt with h1 h2
      injection h1 with h1
      exact DFSEntry.noConfusion h1
    · rw [hnc] at hnt
      injection hnt with h1 h2
      injection h1 with h1
      exact DFSEntry.noConfusion h1
    · rw [hnc] at hnt
      injection hnt with h1 h2
      injection h1 with h1
      exact DFSEntry.noConfusion h1
    · -- beginEOld
      rw [hnc] at hnt
      injection hnt with h1 h2
      injection h1 with h1
      injection h1 with h1
      injection h1 with h1a h1b
      refine TarInv_same_table s d' ⟨hXIpre, hT.2.1, hT.2.2.1, hT.2.2.2.1, hT.2.2.2.2.1,
        hT.2.2.2.2.2.1, hT.2.2.2.2.2.2.1, hT.2.2.2.2.2.2.2.1, hT.2.2.2.2.2.2.2.2.1,
        hE2, hT.2.2.2.2.2.2.2.2.2.2.1, hT.2.2.2.2.2.2.2.2.2.2.2⟩
        hReq hg' hVset ?_ hXI' ?_ ?_ ?_ ?_
      · rintro a2 ⟨hqe, r2, x2, ns2, rest2, hsh, hxT, hll⟩
        rw [hst] at hsh
        injection hsh with hsh1 hsh2
        injection hsh1 with e1 e2 e3 e4
        exact Option.noConfusion e2
      · intro w hw
        rw [hen', ← h2]
        exact hT.2.2.2.2.2.2.1 w hw
      · rw [hen', ← h2]
        intro f hfmem hfe pre hpre w hw
        rcases List.mem_cons.mp hfmem with hftop | hfrest
        · subst hftop
          have hadj2 : s.dfs.graph.adj fid = pre ++ [] ++ n :: ns := by
            have hpre2 : s.dfs.graph.adj fid = pre ++ [n] ++ ns := hpre
            rw [hpre2]
            simp
          exact hE2 ⟨fid, none, n :: ns, false⟩
            (by rw [hst]; exact List.mem_cons_self _ _) hfe pre hadj2 w hw
        · exact hE2 f (by rw [hst]; exact List.mem_cons_of_mem _ hfrest) hfe pre hpre w hw
      · rw [hen', ← h2]
        intro v hqv
        exact absurd hqv (by simp)
      · rw [hen', ← h2]
        intro v hqv
        exact absurd hqv (by simp)
    · -- beginENew
      rw [hnc] at hnt
      injection hnt with h1 h2
      injection h1 with h1
      injection h1 with h1
      injection h1 with h1a h1b
      refine TarInv_same_table s d' ⟨hXIpre, hT.2.1, hT.2.2.1, hT.2.2.2.1, hT.2.2.2.2.1,
        hT.2.2.2.2.2.1, hT.2.2.2.2.2.2.1, hT.2.2.2.2.2.2.2.1, hT.2.2.2.2.2.2.2.2.1,
        hE2, hT.2.2.2.2.2.2.2.2.2.2.1, hT.2.2.2.2.2.2.2.2.2.2.2⟩
        hReq hg' hVset ?_ hXI' ?_ ?_ ?_ ?_
      · rintro a2 ⟨hqe, r2, x2, ns2, rest2, hsh, hxT, hll⟩
        rw [hst] at hsh
        injection hsh with hsh1 hsh2
        injection hsh1 with e1 e2 e3 e4
        exact Option.noConfusion e2
      · intro w hw
        rw [hen', ← h2]
        exact hT.2.2.2.2.2.2.1 w hw
      · rw [hen', ← h2]
        intro f hfmem hfe pre hpre w hw
        rcases List.mem_cons.mp hfmem with hftop | hfrest
        · subst hftop
          exact absurd hfe hnew
        · rcases List.mem_cons.mp hfrest with hfmid | hfrest2
          · subst hfmid
            have hadj2 : s.dfs.graph.adj fid = pre ++ [] ++ n :: ns := by
              have hpre2 : s.dfs.graph.adj fid = pre ++ [n] ++ ns := hpre
              rw [hpre2]
              simp
            exact hE2 ⟨fid, none, n :: ns, false⟩
              (by rw [hst]; exact List.mem_cons_self _ _) hfe pre hadj2 w hw
          · exact hE2 f (by rw [hst]; exact List.mem_cons_of_mem _ hfrest2) hfe pre hpre w hw
      · rw [hen', ← h2]
        intro v hqv
        exact absurd hqv (by simp)
      · rw [hen', ← h2]
        intro v hqv
        exact absurd hqv (by simp)
    · rw [hnc] at hnt
      injection hnt with h1 h2
      injection h1 with h1
      exact DFSEntry.noConfusion h1
    · rw [hnc] at hnt
      injection hnt with h1 h2
      injection h1 with h1
      exact DFSEntry.noConfusion h1
  · -- a suppressed BeginVertex always re-emits an EndEdge, not a BeginEdge
    have hPA2 := hXIpre.2.2.2
    rw [hstk] at hPA2
    have hinv2 : tree.Inv ⟨s.dfs.enumeration.graph, f0 :: S, s.dfs.enumeration.explored,
        s.dfs.enumeration.output_queue⟩ := by
      rw [← hstk]
      exact hinv
    rw [← hge] at hnt
    obtain ⟨u2, ns2, rest2, hseq, hu2ex, hee, hrest⟩ :=
      tree.next_suppressed _ f0 S _ _ hinv2 hPA2 _ en2 hnt
    exact DFSEntry.noConfusion hee
  · exact DFSEntry.noConfusion hebv

theorem idxOf_eq (m : List (VertexId × scc.Vertex)) (w : VertexId) (vx : scc.Vertex)
    (h : scc.lookupV m w = some vx) : scc.idxOf m w = vx.index := by
  unfold scc.idxOf
  rw [h]

theorem llOf_eq (m : List (VertexId × scc.Vertex)) (w : VertexId) (vx : scc.Vertex)
    (h : scc.lookupV m w = some vx) : scc.llOf m w = vx.low_link := by
  unfold scc.llOf
  rw [h]

theorem tree.mem_ReqT_of_frame (en : DepthFirst) (f : Frame)
    (hf : f ∈ en.stack) (hfe : f.id ∈ en.explored) : f.id ∈ tree.ReqT en := by
  unfold tree.ReqT
  apply List.mem_append_right
  exact List.mem_map.mpr ⟨f, List.mem_filter.mpr ⟨hf, by simp [hfe]⟩, rfl⟩

theorem tree.XInv_restart (g : Graph) (rt : VertexId) :
    tree.XInv ⟨g, [Frame.fromId rt g], [rt], []⟩ := by
  show tree.ChainStk g [Frame.fromId rt g] ∧ tree.Frames g [Frame.fromId rt g] ∧
    tree.PendExpl g [Frame.fromId rt g] [rt] ∧ tree.PAR [Frame.fromId rt g]
  refine ⟨?_, ?_, ?_, ?_⟩
  · intro A u B h2 c hc
    have h2' : [(Frame.fromId rt g).id] = A ++ u :: B := h2
    cases A with
    | nil => simp at hc
    | cons a A2 =>
      injection h2' with h3 h4
      cases A2 with
      | nil => simp at h4
      | cons a2 A3 => simp at h4
  · intro f hf
    simp only [List.mem_singleton] at hf
    subst hf
    refine ⟨[], ?_⟩
    simp [Frame.fromId, Graph.adj]
  · left
    intro f hf c hc
    simp only [List.mem_singleton] at hf
    subst hf
    simp [Frame.fromId] at hc
  · intro A f f2 B h2
    cases A with
    | nil =>
      injection h2 with h3 h4
      simp at h4
    | cons a A2 =>
      injection h2 with h3 h4
      simp at h4

theorem EDGp_push (m : List (VertexId × scc.Vertex)) (V V' : List VertexId) (ni : Nat)
    (v u w : VertexId)
    (hIB : ∀ w2 vx, scc.lookupV m w2 = some vx → vx.index < ni ∧ vx.low_link ≤ vx.index)
    (vu : scc.Vertex) (hu : scc.lookupV m u = some vu)
    (hV : ∀ x, x ∈ V' ↔ (x ∈ V ∨ x = v))
    (hvnew : scc.lookupV m v = none)
    (h : scc.EDGp m V u w) :
    scc.EDGp (scc.insertV m v ⟨ni, ni⟩) V' u w := by
  have huv : u ≠ v := fun he => by rw [he, hvnew] at hu; exact Option.noConfusion hu
  have hllu : scc.llOf (scc.insertV m v ⟨ni, ni⟩) u = scc.llOf m u :=
    llOf_insert_ne m v ⟨ni, ni⟩ u huv
  constructor
  · exact (hV w).mpr (Or.inl h.1)
  · intro vw hvw
    by_cases hwv : w = v
    · subst hwv
      rw [scc.lookupV_insertV_self] at hvw
      injection hvw with hvw
      rw [← hvw, hllu]
      show scc.llOf m u ≤ ni
      rw [llOf_eq m u vu hu]
      have h2 := hIB u vu hu
      omega
    · rw [scc.lookupV_insertV_ne _ _ _ _ hwv] at hvw
      rw [hllu]
      exact h.2 vw hvw

theorem Tar_BV (s : SCC) (v : VertexId) (d' : graph.DepthFirst) (gtr : List DFSEntry)
    (hS : SCCInv s) (hT : TarInv s)
    (hshape : graph.EmitShape s.dfs (DFSEntry.BeginVertex v) d')
    (hTr : graph.GTr gtr s.dfs)
    (hTr' : graph.GTr (gtr ++ [DFSEntry.BeginVertex v]) d')
    (hReq : graph.Req d' = v :: graph.Req s.dfs)
    (hnv : v ∉ s.dfs.visited)
    (hg' : d'.graph = s.dfs.graph) :
    TarInv ⟨d', s.unfinished_components.push v⟩ := by
  obtain ⟨hG, hgtr0, hTab, hND, hSub, hTV⟩ := hS
  obtain ⟨hge, hinv, hqbv, hqs, hxb, hcons⟩ := hG
  obtain ⟨hXIpre, hSeg, hIB, hDE, hGL, hP2, hCT, hDC, hE1, hE2, hE3, hFL⟩ := hT
  have hVset : ∀ w, w ∈ d'.visited ↔ (w ∈ s.dfs.visited ∨ w = v) :=
    GTr_BV_visited gtr s.dfs d' v hTr hTr'
  have hvT : v ∉ s.unfinished_components.stack := fun hm => hnv (hTV v hm)
  have hvnone : scc.lookupV s.unfinished_components.vertices v = none := by
    rcases hlk : scc.lookupV s.unfinished_components.vertices v with _ | vx
    · rfl
    · exact absurd ((hTab v).mpr (by rw [hlk]; rfl)) hvT
  have hlk_ne : ∀ w, w ≠ v →
      scc.lookupV (scc.insertV s.unfinished_components.vertices v
        ⟨s.unfinished_components.next_vertex_index,
         s.unfinished_components.next_vertex_index⟩) w
      = scc.lookupV s.unfinished_components.vertices w :=
    fun w hw => scc.lookupV_insertV_ne _ _ _ _ hw
  have hbr : (∃ f rest, s.dfs.enumeration.stack = f :: rest ∧ f.id = v ∧
      v ∉ s.dfs.enumeration.explored ∧
      d'.enumeration = ⟨s.dfs.enumeration.graph, f :: rest,
        v :: s.dfs.enumeration.explored, []⟩ ∧ tree.XInv d'.enumeration) ∨
      (graph.Req s.dfs = [] ∧
        d'.enumeration = ⟨s.dfs.graph, [Frame.fromId v s.dfs.graph], [v], []⟩ ∧
        tree.XInv d'.enumeration) := by
    rcases hshape with ⟨en2, hnt, hd', hbv⟩ | ⟨f0, S, en2, hstk, hf0ne, hf0x, hnt, hd', hnbv⟩ |
      ⟨hrnil, rt, hebv, hcont, hd'e⟩
    · have hen' : d'.enumeration = en2 := by rw [hd']
      have hXI' : tree.XInv d'.enumeration := by
        rw [hen']
        exact tree.XInv_next s.dfs.enumeration hinv hXIpre _ _ hnt
      left
      rcases tree.next_spec s.dfs.enumeration hinv.1 with
        ⟨e0, q0, hq0, hnc⟩ | ⟨hst, hq0, hnc⟩ | ⟨f, rest, hst, hq0, hf, hnc⟩ |
        ⟨fid, rest, hst, hq0, hf, hnc⟩ | ⟨fid, c, rest, hst, hq0, hf, hnc⟩ |
        ⟨fid, n, ns, rest, hst, hq0, hf, hnc2, hnc⟩ |
        ⟨fid, n, ns, rest, hst, hq0, hf, hnc2, hnc⟩ |
        ⟨fid, c, n, ns, rest, hst, hq0, hf, hnc2, hnc⟩ |
        ⟨fid, c, n, ns, rest, hst, hq0, hf, hnc2, hnc⟩
      · rw [hnc] at hnt
        injection hnt with h1 h2
        injection h1 with h1
        exact absurd h1 (hqbv e0
          (by rw [hq0]; exact List.mem_append_right _ (List.mem_cons_self _ _)) v)
      · rw [hnc] at hnt
        injection hnt with h1 h2
        exact Option.noConfusion h1
      · rw [hnc] at hnt
        injection hnt with h1 h2
        injection h1 with h1
        injection h1 with hfid
        refine ⟨f, rest, hst, hfid, by rw [← hfid]; exact hf, ?_, hXI'⟩
        rw [hen', ← h2, hfid]
      · rw [hnc] at hnt
        injection hnt with h1 h2
        injection h1 with h1
        exact DFSEntry.noConfusion h1
      · rw [hnc] at hnt
        injection hnt with h1 h2
        injection h1 with h1
        exact DFSEntry.noConfusion h1
      · rw [hnc] at hnt
        injection hnt with h1 h2
        injection h1 with h1
        exact DFSEntry.noConfusion h1
      · rw [hnc] at hnt
        injection hnt with h1 h2
        injection h1 with h1
        exact DFSEntry.noConfusion h1
      · rw [hnc] at hnt
        injection hnt with h1 h2
        injection h1 with h1
        exact DFSEntry.noConfusion h1
      · rw [hnc] at hnt
        injection hnt with h1 h2
        injection h1 with h1
        exact DFSEntry.noConfusion h1
    · have hPA2 := hXIpre.2.2.2
      rw [hstk] at hPA2
      have hinv2 : tree.Inv ⟨s.dfs.enumeration.graph, f0 :: S, s.dfs.enumeration.explored,
          s.dfs.enumeration.output_queue⟩ := by
        rw [← hstk]
        exact hinv
      rw [← hge] at hnt
      obtain ⟨u2, ns2, rest2, hseq, hu2ex, hee, hrest⟩ :=
        tree.next_suppressed _ f0 S _ _ hinv2 hPA2 _ en2 hnt
      exact DFSEntry.noConfusion hee
    · right
      injection hebv with hrt
      rw [← hrt] at hd'e
      refine ⟨hrnil, hd'e, ?_⟩
      rw [hd'e]
      exact tree.XInv_restart s.dfs.graph v
  rcases hbr with ⟨f, rest, hst, hfid, hvE, hen', hXI'⟩ | ⟨hrnil, hen', hXI'⟩
  · -- a fresh frame of the active tree was opened
    have hXFel : ∀ a, SCC.XF s a → False := by
      rintro a ⟨hqe, r2, x2, ns2, rest2, hsh, hxT, hll⟩
      rw [hst] at hsh
      injection hsh with hsh1 hsh2
      have hcn := (hinv.2.2.2.1 f (by rw [hst]; exact List.mem_cons_self _ _)
        (by rw [hfid]; exact hvE)).1
      rw [hsh1] at hcn
      exact Option.noConfusion hcn
  
    refine ⟨hXI', ?_, ?_, ?_, ?_, ?_, ?_, ?_, ?_, ?_, ?_, ?_⟩
    · -- Segs
      show Segs d'.graph (scc.insertV s.unfinished_components.vertices v
          ⟨s.unfinished_components.next_vertex_index,
           s.unfinished_components.next_vertex_index⟩)
        (SCC.XF ⟨d', s.unfinished_components.push v⟩)
        (v :: s.unfinished_components.stack) (graph.Req d')
      rw [hReq, hg']
      have htail : Segs s.dfs.graph (scc.insertV s.unfinished_components.vertices v
          ⟨s.unfinished_components.next_vertex_index,
           s.unfinished_components.next_vertex_index⟩) (fun _ => False)
          s.unfinished_components.stack (graph.Req s.dfs) :=
        Segs_congr _ _ _ _ _ _ (Segs_mono _ _ _ _ _ _ hXFel hSeg)
          (fun w hw => hlk_ne w (fun he => hvT (he ▸ hw)))
      exact Segs.cons _ [] v _ _ (by simp) (by simp) (by simp) htail
    · -- index bounds
      show ∀ w vx, scc.lookupV (scc.insertV s.unfinished_components.vertices v
          ⟨s.unfinished_components.next_vertex_index,
           s.unfinished_components.next_vertex_index⟩) w = some vx →
        vx.index < s.unfinished_components.next_vertex_index + 1 ∧ vx.low_link ≤ vx.index
      intro w vx hvw
      by_cases hwv : w = v
      · subst hwv
        rw [scc.lookupV_insertV_self] at hvw
        injection hvw with hvw
        rw [← hvw]
        exact ⟨Nat.lt_succ_self _, Nat.le_refl _⟩
      · rw [hlk_ne w hwv] at hvw
        have h2 := hIB w vx hvw
        exact ⟨Nat.lt_succ_of_lt h2.1, h2.2⟩
    · -- descending indices
      show (v :: s.unfinished_components.stack).Pairwise
        (fun a b => scc.idxOf (scc.insertV s.unfinished_components.vertices v
            ⟨s.unfinished_components.next_vertex_index,
             s.unfinished_components.next_vertex_index⟩) b <
          scc.idxOf (scc.insertV s.unfinished_components.vertices v
            ⟨s.unfinished_components.next_vertex_index,
             s.unfinished_components.next_vertex_index⟩) a)
      rw [List.pairwise_cons]
      constructor
      · intro b hb
        have hbv : b ≠ v := fun he => hvT (he ▸ hb)
        obtain ⟨vx, hlk⟩ := Option.isSome_iff_exists.mp ((hTab b).mp hb)
        rw [idxOf_insert_self, idxOf_insert_ne _ _ _ _ hbv, idxOf_eq _ _ _ hlk]
        exact (hIB b vx hlk).1
      · refine List.Pairwise.imp_of_mem ?_ hDE
        intro a b ha hb hab
        have hav : a ≠ v := fun he => hvT (he ▸ ha)
        have hbv : b ≠ v := fun he => hvT (he ▸ hb)
        rw [idxOf_insert_ne _ _ _ _ hav, idxOf_insert_ne _ _ _ _ hbv]
        exact hab
    · -- global lower bound
      intro r0 h0 w hw
      rw [hReq] at h0
      show scc.idxOf (scc.insertV s.unfinished_components.vertices v
          ⟨s.unfinished_components.next_vertex_index,
           s.unfinished_components.next_vertex_index⟩) r0 ≤
        scc.llOf (scc.insertV s.unfinished_components.vertices v
          ⟨s.unfinished_components.next_vertex_index,
           s.unfinished_components.next_vertex_index⟩) w
      have hwm : w ∈ v :: s.unfinished_components.stack := hw
      rcases hR : graph.Req s.dfs with _ | ⟨r1, R2⟩
      · rw [hR] at h0
        have h0' : some v = some r0 := h0
        injection h0' with h0'
        have hTnil : s.unfinished_components.stack = [] := by
          rw [hR] at hSeg
          exact Segs_nilR _ _ _ _ hSeg
        rw [hTnil] at hwm
        simp only [List.mem_singleton] at hwm
        subst hwm
        rw [← h0', idxOf_insert_self, llOf_insert_self]
      · rw [hR] at h0
        rw [List.getLast?_cons_cons] at h0
        have hr0R : r0 ∈ graph.Req s.dfs := by
          rw [hR]
          exact List.mem_of_mem_getLast? h0
        have hr0T : r0 ∈ s.unfinished_components.stack := hSub.subset hr0R
        have hr0v : r0 ≠ v := fun he => hvT (he ▸ hr0T)
        obtain ⟨v0, hlk0⟩ := Option.isSome_iff_exists.mp ((hTab r0).mp hr0T)
        rcases List.mem_cons.mp hwm with hwv | hwT
        · subst hwv
          rw [llOf_insert_self, idxOf_insert_ne _ _ _ _ hr0v, idxOf_eq _ _ _ hlk0]
          exact Nat.le_of_lt (hIB r0 v0 hlk0).1
        · have hwv : w ≠ v := fun he => hvT (he ▸ hwT)
          rw [llOf_insert_ne _ _ _ _ hwv, idxOf_insert_ne _ _ _ _ hr0v]
          apply hGL r0 _ w hwT
          rw [hR]
          exact h0
    · -- low-link soundness
      intro w hw
      have hwm : w ∈ v :: s.unfinished_components.stack := hw
      rcases List.mem_cons.mp hwm with hwv | hwT
      · refine ⟨v, List.mem_cons_self _ _, ?_, ?_⟩
        · show scc.idxOf (scc.insertV s.unfinished_components.vertices v
              ⟨s.unfinished_components.next_vertex_index,
               s.unfinished_components.next_vertex_index⟩) v =
            scc.llOf (scc.insertV s.unfinished_components.vertices v
              ⟨s.unfinished_components.next_vertex_index,
               s.unfinished_components.next_vertex_index⟩) w
          rw [hwv, idxOf_insert_self, llOf_insert_self]
        · show d'.graph.Reaches w v
          rw [hwv, hg']
          exact Relation.ReflTransGen.refl
      · obtain ⟨z, hz1, hz2, hz3⟩ := hP2 w hwT
        have hwv : w ≠ v := fun he => hvT (he ▸ hwT)
        have hzv : z ≠ v := fun he => hvT (he ▸ hz1)
        refine ⟨z, List.mem_cons_of_mem _ hz1, ?_, ?_⟩
        · show scc.idxOf (scc.insertV s.unfinished_components.vertices v
              ⟨s.unfinished_components.next_vertex_index,
               s.unfinished_components.next_vertex_index⟩) z =
            scc.llOf (scc.insertV s.unfinished_components.vertices v
              ⟨s.unfinished_components.next_vertex_index,
               s.unfinished_components.next_vertex_index⟩) w
          rw [idxOf_insert_ne _ _ _ _ hzv, llOf_insert_ne _ _ _ _ hwv]
          exact hz2
        · show d'.graph.Reaches w z
          rw [hg']
          exact hz3
    · -- live vertices in current tree
      intro w hw
      have hwm : w ∈ v :: s.unfinished_components.stack := hw
      rw [hen']
      show w ∈ v :: s.dfs.enumeration.explored
      rcases List.mem_cons.mp hwm with hwv | hwT
      · rw [hwv]
        exact List.mem_cons_self _ _
      · exact List.mem_cons_of_mem _ (hCT w hwT)
    · -- dead set closed
      intro u2 hu2 hnT w2 hstep
      have hu2v : u2 ∈ s.dfs.visited := by
        rcases (hVset u2).mp hu2 with h3 | h3
        · exact h3
        · exact absurd (by rw [h3]; exact List.mem_cons_self _ _) hnT
      have hu2T : u2 ∉ s.unfinished_components.stack :=
        fun hm => hnT (List.mem_cons_of_mem _ hm)
      have hstep2 : s.dfs.graph.Step u2 w2 := by rw [← hg']; exact hstep
      obtain ⟨hw2V, hw2T⟩ := hDC u2 hu2v hu2T w2 hstep2
      refine ⟨(hVset w2).mpr (Or.inl hw2V), ?_⟩
      intro hm
      rcases List.mem_cons.mp hm with h3 | h3
      · rw [h3] at hw2V
        exact hnv hw2V
      · exact hw2T h3
    · -- processed edges of closed live vertices
      intro u2 hu2 hnR w2 hw2
      have hu2m : u2 ∈ v :: s.unfinished_components.stack := hu2
      have hnR2 : u2 ∉ v :: graph.Req s.dfs := by
        rw [hReq] at hnR
        exact hnR
      have hu2v : u2 ≠ v := fun he => hnR2 (he ▸ List.mem_cons_self _ _)
      have hu2T : u2 ∈ s.unfinished_components.stack := by
        rcases List.mem_cons.mp hu2m with h3 | h3
        · exact absurd h3 hu2v
        · exact h3
      have hnRp : u2 ∉ graph.Req s.dfs := fun hm => hnR2 (List.mem_cons_of_mem _ hm)
      have hw2' : w2 ∈ s.dfs.graph.adj u2 := by rw [← hg']; exact hw2
      obtain ⟨vu, hlku⟩ := Option.isSome_iff_exists.mp ((hTab u2).mp hu2T)
      exact EDGp_push _ _ _ _ _ _ _ hIB vu hlku hVset hvnone (hE1 u2 hu2T hnRp w2 hw2')
    · -- processed cursor prefixes
      rw [hen']
      intro f2 hf2 hfe2 pre hpre w hw
      have hf2m : f2 ∈ f :: rest := hf2
      have hfe2m : f2.id ∈ v :: s.dfs.enumeration.explored := hfe2
      have hpre2 : s.dfs.graph.adj f2.id =
          pre ++ f2.current_neighbour.toList ++ f2.neighbours := by
        rw [← hg']
        exact hpre
      rcases List.mem_cons.mp hf2m with hftop | hfrest
      · subst hftop
        have hfr := hinv.2.2.2.1 f2 (by rw [hst]; exact List.mem_cons_self _ _)
          (by rw [hfid]; exact hvE)
        rw [hfr.1, hfr.2, hge] at hpre2
        have hlen := congrArg List.length hpre2
        simp at hlen
        rw [hlen] at hw
        exact absurd hw (List.not_mem_nil w)
      · rcases List.mem_cons.mp hfe2m with hfv | hfE
        · exfalso
          have hnd := hinv.2.1
          rw [hst] at hnd
          have hnd2 := List.nodup_cons.mp hnd
          exact hnd2.1 (List.mem_map.mpr ⟨f2, hfrest, by rw [hfv, hfid]⟩)
        · obtain ⟨vu, hlku⟩ := Option.isSome_iff_exists.mp ((hTab f2.id).mp
            (hSub.subset (tree.mem_ReqT_of_frame s.dfs.enumeration f2
              (by rw [hst]; exact List.mem_cons_of_mem _ hfrest) hfE)))
          exact EDGp_push _ _ _ _ _ _ _ hIB vu hlku hVset hvnone
            (hE2 f2 (by rw [hst]; exact List.mem_cons_of_mem _ hfrest) hfE pre hpre2 w hw)
    · -- queued EndVertex edges: no queued event
      rw [hen']
      intro v2 hq2
      exact absurd hq2 (by simp)
    · -- queued EndVertex frame link: no queued event
      rw [hen']
      intro v2 hq2
      exact absurd hq2 (by simp)
  · -- a fresh tree was started at v
    have hTnil : s.unfinished_components.stack = [] := by
      rw [hrnil] at hSeg
      exact Segs_nilR _ _ _ _ hSeg
    have hmnone : ∀ w, scc.lookupV s.unfinished_components.vertices w = none := by
      intro w
      rcases hlk : scc.lookupV s.unfinished_components.vertices w with _ | vx
      · rfl
      · exact absurd ((hTab w).mpr (by rw [hlk]; rfl)) (by rw [hTnil]; simp)
    refine ⟨hXI', ?_, ?_, ?_, ?_, ?_, ?_, ?_, ?_, ?_, ?_, ?_⟩
    · show Segs d'.graph (scc.insertV s.unfinished_components.vertices v
          ⟨s.unfinished_components.next_vertex_index,
           s.unfinished_components.next_vertex_index⟩)
        (SCC.XF ⟨d', s.unfinished_components.push v⟩)
        (v :: s.unfinished_components.stack) (graph.Req d')
      rw [hReq, hg', hrnil, hTnil]
      exact Segs.cons _ [] v _ _ (by simp) (by simp) (by simp) (Segs.nil _)
    · show ∀ w vx, scc.lookupV (scc.insertV s.unfinished_components.vertices v
          ⟨s.unfinished_components.next_vertex_index,
           s.unfinished_components.next_vertex_index⟩) w = some vx →
        vx.index < s.unfinished_components.next_vertex_index + 1 ∧ vx.low_link ≤ vx.index
      intro w vx hvw
      by_cases hwv : w = v
      · subst hwv
        rw [scc.lookupV_insertV_self] at hvw
        injection hvw with hvw
        rw [← hvw]
        exact ⟨Nat.lt_succ_self _, Nat.le_refl _⟩
      · rw [hlk_ne w hwv, hmnone w] at hvw
        exact Option.noConfusion hvw
    · show (v :: s.unfinished_components.stack).Pairwise _
      rw [hTnil]
      exact List.pairwise_singleton _ _
    · intro r0 h0 w hw
      rw [hReq, hrnil] at h0
      have h0' : some v = some r0 := h0
      injection h0' with h0'
      have hwm : w ∈ v :: s.unfinished_components.stack := hw
      rw [hTnil] at hwm
      simp only [List.mem_singleton] at hwm
      show scc.idxOf (scc.insertV s.unfinished_components.vertices v
          ⟨s.unfinished_components.next_vertex_index,
           s.unfinished_components.next_vertex_index⟩) r0 ≤
        scc.llOf (scc.insertV s.unfinished_components.vertices v
          ⟨s.unfinished_components.next_vertex_index,
           s.unfinished_components.next_vertex_index⟩) w
      rw [hwm, ← h0', idxOf_insert_self, llOf_insert_self]
    · intro w hw
      have hwm : w ∈ v :: s.unfinished_components.stack := hw
      rw [hTnil] at hwm
      simp only [List.mem_singleton] at hwm
      subst hwm
      refine ⟨w, List.mem_cons_self _ _, ?_, Relation.ReflTransGen.refl⟩
      show scc.idxOf (scc.insertV s.unfinished_components.vertices w
          ⟨s.unfinished_components.next_vertex_index,
           s.unfinished_components.next_vertex_index⟩) w =
        scc.llOf (scc.insertV s.unfinished_components.vertices w
          ⟨s.unfinished_components.next_vertex_index,
           s.unfinished_components.next_vertex_index⟩) w
      rw [idxOf_insert_self, llOf_insert_self]
    · intro w hw
      have hwm : w ∈ v :: s.unfinished_components.stack := hw
      rw [hTnil] at hwm
      simp only [List.mem_singleton] at hwm
      subst hwm
      rw [hen']
      exact List.mem_cons_self _ _
    · intro u2 hu2 hnT w2 hstep
      have hu2v : u2 ∈ s.dfs.visited := by
        rcases (hVset u2).mp hu2 with h3 | h3
        · exact h3
        · exact absurd (by rw [h3]; exact List.mem_cons_self _ _) hnT
      have hu2T : u2 ∉ s.unfinished_components.stack := by
        rw [hTnil]
        simp
      have hstep2 : s.dfs.graph.Step u2 w2 := by rw [← hg']; exact hstep
      obtain ⟨hw2V, hw2T⟩ := hDC u2 hu2v hu2T w2 hstep2
      refine ⟨(hVset w2).mpr (Or.inl hw2V), ?_⟩
      intro hm
      rcases List.mem_cons.mp hm with h3 | h3
      · rw [h3] at hw2V
        exact hnv hw2V
      · rw [hTnil] at h3
        simp at h3
    · intro u2 hu2 hnR w2 hw2
      exfalso
      have hu2m : u2 ∈ v :: s.unfinished_components.stack := hu2
      rw [hTnil] at hu2m
      simp only [List.mem_singleton] at hu2m
      apply hnR
      rw [hReq, hu2m]
      exact List.mem_cons_self _ _
    · rw [hen']
      intro f2 hf2 hfe2 pre hpre w hw
      have hf2m : f2 ∈ [Frame.fromId v s.dfs.graph] := hf2
      simp only [List.mem_singleton] at hf2m
      subst hf2m
      have hpre' := hpre
      rw [hg'] at hpre'
      have hpre2 : s.dfs.graph.adj v =
          pre ++ ([] : List VertexId) ++ s.dfs.graph.adj v := hpre'
      have hlen := congrArg List.length hpre2
      simp at hlen
      rw [hlen] at hw
      exact absurd hw (List.not_mem_nil w)
    · rw [hen']
      intro v2 hq2
      exact absurd hq2 (by simp)
    · rw [hen']
      intro v2 hq2
      exact absurd hq2 (by simp)

theorem EDGp_upd (m : List (VertexId × scc.Vertex)) (V V' : List VertexId)
    (u u2 w : VertexId) (vu : scc.Vertex)
    (hu : scc.lookupV m u = some vu) (l2 : Nat)
    (hV : ∀ x, x ∈ V' ↔ x ∈ V)
    (h : scc.EDGp m V u2 w) :
    scc.EDGp (scc.insertV m u ⟨vu.index, min vu.low_link l2⟩) V' u2 w := by
  have hll2 : scc.llOf (scc.insertV m u ⟨vu.index, min vu.low_link l2⟩) u2 ≤
      scc.llOf m u2 := by
    by_cases hu2 : u2 = u
    · subst hu2
      rw [llOf_insert_self, llOf_eq m u2 vu hu]
      exact Nat.min_le_left _ _
    · rw [llOf_insert_ne _ _ _ _ hu2]
  refine ⟨(hV w).mpr h.1, ?_⟩
  intro vw hvw
  by_cases hwu : w = u
  · subst hwu
    rw [scc.lookupV_insertV_self] at hvw
    injection hvw with hvw
    rw [← hvw]
    show _ ≤ vu.index
    exact Nat.le_trans hll2 (h.2 vu hu)
  · rw [scc.lookupV_insertV_ne _ _ _ _ hwu] at hvw
    exact Nat.le_trans hll2 (h.2 vw hvw)

theorem Segs_cons_inv (g : Graph) (m : List (VertexId × scc.Vertex))
    (FB : VertexId → Prop) (T : List VertexId) (r : VertexId) (R' : List VertexId)
    (h : Segs g m FB T (r :: R')) :
    ∃ A T', T = A ++ r :: T' ∧ (∀ a ∈ A, g.Reaches r a) ∧
      (∀ a ∈ A, scc.llOf m a < scc.idxOf m a) ∧
      (∀ a ∈ A, scc.llOf m r ≤ scc.llOf m a ∨ FB a) ∧
      Segs g m (fun _ => False) T' R' := by
  cases h with
  | cons FB A r T' R' hreach hcls hbnd htail => exact ⟨A, T', rfl, hreach, hcls, hbnd, htail⟩

theorem Tar_EE (s : SCC) (u t : VertexId) (d' : graph.DepthFirst) (gtr : List DFSEntry)
    (hS : SCCInv s) (hT : TarInv s)
    (hshape : graph.EmitShape s.dfs (DFSEntry.EndEdge (u, t)) d')
    (hTr : graph.GTr gtr s.dfs)
    (hTr' : graph.GTr (gtr ++ [DFSEntry.EndEdge (u, t)]) d')
    (hReq : graph.Req d' = graph.Req s.dfs)
    (hg' : d'.graph = s.dfs.graph)
    (vu : scc.Vertex) (hvu : scc.lookupV s.unfinished_components.vertices u = some vu)
    (st2 : scc.Stack) (hup : s.unfinished_components.update_with_minimum u t = some st2) :
    TarInv ⟨d', st2⟩ := by
  obtain ⟨hG, hgtr0, hTab, hND, hSub, hTV⟩ := hS
  obtain ⟨hge, hinv, hqbv, hqs, hxb, hcons⟩ := hG
  obtain ⟨hXIpre, hSeg, hIB, hDE, hGL, hP2, hCT, hDC, hE1, hE2, hE3, hFL⟩ := hT
  have hVset : ∀ w, w ∈ d'.visited ↔ w ∈ s.dfs.visited :=
    GTr_nonBV_visited gtr s.dfs d' _ hTr hTr' (fun w h => DFSEntry.noConfusion h)
  have huT : u ∈ s.unfinished_components.stack := (hTab u).mpr (by rw [hvu]; rfl)
  have hbr : ∃ Rtail, graph.Req s.dfs = u :: Rtail ∧
      t ∈ s.dfs.visited ∧
      ((scc.lookupV s.unfinished_components.vertices t).isSome = true →
        s.dfs.graph.Step u t) ∧
      (∀ a, SCC.XF s a → t ∈ s.unfinished_components.stack ∧
        scc.llOf s.unfinished_components.vertices t ≤
          scc.llOf s.unfinished_components.vertices a) ∧
      tree.XInv d'.enumeration ∧
      (∀ w ∈ s.dfs.enumeration.explored, w ∈ d'.enumeration.explored) ∧
      (∀ f ∈ d'.enumeration.stack, f.id ∈ d'.enumeration.explored →
        ∀ pre, s.dfs.graph.adj f.id = pre ++ f.current_neighbour.toList ++ f.neighbours →
          ∀ w ∈ pre, (f.id = u ∧ w = t) ∨
            scc.EDGp s.unfinished_components.vertices s.dfs.visited f.id w) ∧
      (∀ v2, d'.enumeration.output_queue = [DFSEntry.EndVertex v2] →
        ∀ w ∈ s.dfs.graph.adj v2, (v2 = u ∧ w = t) ∨
          scc.EDGp s.unfinished_components.vertices s.dfs.visited v2 w) ∧
      (∀ v2, d'.enumeration.output_queue = [DFSEntry.EndVertex v2] →
        d'.enumeration.stack = [] ∨
        ∃ f rest, d'.enumeration.stack = f :: rest ∧ f.id ∈ d'.enumeration.explored ∧
          f.current_neighbour = some v2) := by
    rcases hshape with ⟨en2, hnt, hd', hbv⟩ | ⟨f0, S, en2, hstk, hf0ne, hf0x, hnt, hd', hnbv⟩ |
      ⟨hrnil, rt, hebv, hcont, hd'e⟩
    · have hen' : d'.enumeration = en2 := by rw [hd']
      have hXI' : tree.XInv d'.enumeration := by
        rw [hen']
        exact tree.XInv_next s.dfs.enumeration hinv hXIpre _ _ hnt
      rcases tree.next_spec s.dfs.enumeration hinv.1 with
        ⟨e0, q0, hq0, hnc⟩ | ⟨hst, hq0, hnc⟩ | ⟨f, rest, hst, hq0, hf, hnc⟩ |
        ⟨fid, rest, hst, hq0, hf, hnc⟩ | ⟨fid, c, rest, hst, hq0, hf, hnc⟩ |
        ⟨fid, n, ns, rest, hst, hq0, hf, hnc2, hnc⟩ |
        ⟨fid, n, ns, rest, hst, hq0, hf, hnc2, hnc⟩ |
        ⟨fid, c, n, ns, rest, hst, hq0, hf, hnc2, hnc⟩ |
        ⟨fid, c, n, ns, rest, hst, hq0, hf, hnc2, hnc⟩
      · -- queued events are never EndEdge
        rw [hnc] at hnt
        injection hnt with h1 h2
        injection h1 with h1
        rcases hqs with hq1 | ⟨x, hq1⟩ | ⟨a, b, hq1⟩
        · rw [hq1] at hq0
          simp at hq0
        · rw [hq1] at hq0
          obtain ⟨hq0a, hq0b⟩ := singleton_eq_append _ _ _ hq0
          exact DFSEntry.noConfusion (h1.symm.trans hq0b)
        · rw [hq1] at hq0
          obtain ⟨hq0a, hq0b⟩ := singleton_eq_append _ _ _ hq0
          exact DFSEntry.noConfusion (h1.symm.trans hq0b)
      · rw [hnc] at hnt
        injection hnt with h1 h2
        exact Option.noConfusion h1
      · rw [hnc] at hnt
        injection hnt with h1 h2
        injection h1 with h1
        exact DFSEntry.noConfusion h1
      · rw [hnc] at hnt
        injection hnt with h1 h2
        injection h1 with h1
        exact DFSEntry.noConfusion h1
      · -- endELast
        rw [hnc] at hnt
        injection hnt with h1 h2
        injection h1 with h1
        injection h1 with h1
        injection h1 with h1a h1b
        rw [h1a] at hst hf h2
        rw [h1b] at hst
        have htop : (⟨u, some t, [], false⟩ : Frame) ∈ s.dfs.enumeration.stack := by
          rw [hst]
          exact List.mem_cons_self _ _
        have htE : t ∈ s.dfs.enumeration.explored := by
          rcases hXIpre.2.2.1 with hpe | ⟨c2, rest3, hsh2, hc2, hrest3⟩
          · exact hpe ⟨u, some t, [], false⟩ htop t rfl
          · rw [hst] at hsh2
            injection hsh2 with hsh2a hsh2b
            have hcn2 := congrArg Frame.current_neighbour hsh2a
            exact Option.noConfusion hcn2
        obtain ⟨pre0, hadj0⟩ := hXIpre.2.1 ⟨u, some t, [], false⟩ htop
        have hadj0' : s.dfs.graph.adj u = pre0 ++ [t] := by
          rw [← hge]
          have hadj0'' : s.dfs.enumeration.graph.adj u = pre0 ++ [t] ++ [] := hadj0
          rw [hadj0'']
          simp
        refine ⟨_, tree.ReqT_top s.dfs.enumeration _ rest hq0 hst hf,
          List.mem_append_right _ htE, ?_, ?_, hXI', ?_, ?_, ?_, ?_⟩
        · intro _
          show t ∈ s.dfs.graph.adj u
          rw [hadj0']
          exact List.mem_append_right _ (List.mem_cons_self _ _)
        · rintro a ⟨hqe2, r2, x2, ns2, rest2, hsh2, hxT2, hll2⟩
          rw [hst] at hsh2
          injection hsh2 with hA hB
          injection hA with e1 e2 e3 e4
          injection e2 with e2
          rw [← e2] at hxT2 hll2
          exact ⟨hxT2, hll2⟩
        · rw [hen', ← h2]
          exact fun w hw => hw
        · rw [hen', ← h2]
          intro f2 hf2 hfe2 pre hpre w hw
          exact Or.inr (hE2 f2 (by rw [hst]; exact List.mem_cons_of_mem _ hf2)
            hfe2 pre hpre w hw)
        · rw [hen', ← h2]
          intro v2 hq2 w hw
          injection hq2 with hq2a hq2b
          injection hq2a with hq2a
          rw [← hq2a] at hw
          rw [hadj0'] at hw
          rcases List.mem_append.mp hw with hw1 | hw2
          · refine Or.inr ?_
            have := hE2 ⟨u, some t, [], false⟩ htop hf pre0 (by
              show s.dfs.graph.adj u = pre0 ++ [t] ++ []
              rw [hadj0']
              simp) w hw1
            rw [← hq2a]
            exact this
          · simp only [List.mem_singleton] at hw2
            exact Or.inl ⟨hq2a.symm, hw2⟩
        · rw [hen', ← h2]
          intro v2 hq2
          injection hq2 with hq2a hq2b
          injection hq2a with hq2a
          cases rest with
          | nil => exact Or.inl rfl
          | cons f1 rest3 =>
            refine Or.inr ⟨f1, rest3, rfl, ?_, ?_⟩
            · exact hinv.2.2.1 f1 (by rw [hst]; exact List.mem_cons_self _ _)
            · have := hXIpre.2.2.2 [] ⟨u, some t, [], false⟩ f1 rest3
                (by rw [hst]; rfl)
              rw [← hq2a]
              exact this
      · rw [hnc] at hnt
        injection hnt with h1 h2
        injection h1 with h1
        exact DFSEntry.noConfusion h1
      · rw [hnc] at hnt
        injection hnt with h1 h2
        injection h1 with h1
        exact DFSEntry.noConfusion h1
      · -- endEOld
        rw [hnc] at hnt
        injection hnt with h1 h2
        injection h1 with h1
        injection h1 with h1
        injection h1 with h1a h1b
        rw [h1a] at hst hf h2
        rw [h1b] at hst
        have htop : (⟨u, some t, n :: ns, false⟩ : Frame) ∈ s.dfs.enumeration.stack := by
          rw [hst]
          exact List.mem_cons_self _ _
        have htE : t ∈ s.dfs.enumeration.explored := by
          rcases hXIpre.2.2.1 with hpe | ⟨c2, rest3, hsh2, hc2, hrest3⟩
          · exact hpe ⟨u, some t, n :: ns, false⟩ htop t rfl
          · rw [hst] at hsh2
            injection hsh2 with hsh2a hsh2b
            have hcn2 := congrArg Frame.current_neighbour hsh2a
            exact Option.noConfusion hcn2
        obtain ⟨pre0, hadj0⟩ := hXIpre.2.1 ⟨u, some t, n :: ns, false⟩ htop
        have hadj0' : s.dfs.graph.adj u = pre0 ++ [t] ++ n :: ns := by
          rw [← hge]
          exact hadj0
        refine ⟨_, tree.ReqT_top s.dfs.enumeration _ rest hq0 hst hf,
          List.mem_append_right _ htE, ?_, ?_, hXI', ?_, ?_, ?_, ?_⟩
        · intro _
          show t ∈ s.dfs.graph.adj u
          rw [hadj0']
          exact List.mem_append_left _ (List.mem_append_right _ (List.mem_cons_self _ _))
        · rintro a ⟨hqe2, r2, x2, ns2, rest2, hsh2, hxT2, hll2⟩
          rw [hst] at hsh2
          injection hsh2 with hA hB
          injection hA with e1 e2 e3 e4
          injection e2 with e2
          rw [← e2] at hxT2 hll2
          exact ⟨hxT2, hll2⟩
        · rw [hen', ← h2]
          exact fun w hw => hw
        · rw [hen', ← h2]
          intro f2 hf2 hfe2 pre hpre w hw
          rcases List.mem_cons.mp hf2 with hftop | hfrest
          · subst hftop
            have hpre2 : s.dfs.graph.adj u = pre ++ [n] ++ ns := hpre
            have hpreq : pre = pre0 ++ [t] := by
              have he2 : (pre0 ++ [t]) ++ (n :: ns) = pre ++ (n :: ns) := by
                rw [← hadj0', hpre2]
                simp
              exact (List.append_inj' he2 rfl).1.symm
            rw [hpreq] at hw
            rcases List.mem_append.mp hw with hw1 | hw2
            · exact Or.inr (hE2 ⟨u, some t, n :: ns, false⟩ htop hfe2 pre0 (by
                show s.dfs.graph.adj u = pre0 ++ [t] ++ n :: ns
                exact hadj0') w hw1)
            · simp only [List.mem_singleton] at hw2
              exact Or.inl ⟨rfl, hw2⟩
          · exact Or.inr (hE2 f2 (by rw [hst]; exact List.mem_cons_of_mem _ hfrest)
              hfe2 pre hpre w hw)
        · rw [hen', ← h2]
          intro v2 hq2
          injection hq2 with hq2a hq2b
          exact DFSEntry.noConfusion hq2a
        · rw [hen', ← h2]
          intro v2 hq2
          injection hq2 with hq2a hq2b
          exact DFSEntry.noConfusion hq2a
      · -- endENew
        rw [hnc] at hnt
        injection hnt with h1 h2
        injection h1 with h1
        injection h1 with h1
        injection h1 with h1a h1b
        rw [h1a] at hst hf h2
        rw [h1b] at hst
        have htop : (⟨u, some t, n :: ns, false⟩ : Frame) ∈ s.dfs.enumeration.stack := by
          rw [hst]
          exact List.mem_cons_self _ _
        have htE : t ∈ s.dfs.enumeration.explored := by
          rcases hXIpre.2.2.1 with hpe | ⟨c2, rest3, hsh2, hc2, hrest3⟩
          · exact hpe ⟨u, some t, n :: ns, false⟩ htop t rfl
          · rw [hst] at hsh2
            injection hsh2 with hsh2a hsh2b
            have hcn2 := congrArg Frame.current_neighbour hsh2a
            exact Option.noConfusion hcn2
        obtain ⟨pre0, hadj0⟩ := hXIpre.2.1 ⟨u, some t, n :: ns, false⟩ htop
        have hadj0' : s.dfs.graph.adj u = pre0 ++ [t] ++ n :: ns := by
          rw [← hge]
          exact hadj0
        refine ⟨_, tree.ReqT_top s.dfs.enumeration _ rest hq0 hst hf,
          List.mem_append_right _ htE, ?_, ?_, hXI', ?_, ?_, ?_, ?_⟩
        · intro _
          show t ∈ s.dfs.graph.adj u
          rw [hadj0']
          exact List.mem_append_left _ (List.mem_append_right _ (List.mem_cons_self _ _))
        · rintro a ⟨hqe2, r2, x2, ns2, rest2, hsh2, hxT2, hll2⟩
          rw [hst] at hsh2
          injection hsh2 with hA hB
          injection hA with e1 e2 e3 e4
          injection e2 with e2
          rw [← e2] at hxT2 hll2
          exact ⟨hxT2, hll2⟩
        · rw [hen', ← h2]
          exact fun w hw => hw
        · rw [hen', ← h2]
          intro f2 hf2 hfe2 pre hpre w hw
          rcases List.mem_cons.mp hf2 with hftop | hfrest
          · subst hftop
            exact absurd hfe2 hnc2
          · rcases List.mem_cons.mp hfrest with hfmid | hfrest2
            · subst hfmid
              have hpre2 : s.dfs.graph.adj u = pre ++ [n] ++ ns := hpre
              have hpreq : pre = pre0 ++ [t] := by
                have he2 : (pre0 ++ [t]) ++ (n :: ns) = pre ++ (n :: ns) := by
                  rw [← hadj0', hpre2]
                  simp
                exact (List.append_inj' he2 rfl).1.symm
              rw [hpreq] at hw
              rcases List.mem_append.mp hw with hw1 | hw2
              · exact Or.inr (hE2 ⟨u, some t, n :: ns, false⟩ htop hfe2 pre0 (by
                  show s.dfs.graph.adj u = pre0 ++ [t] ++ n :: ns
                  exact hadj0') w hw1)
              · simp only [List.mem_singleton] at hw2
                exact Or.inl ⟨rfl, hw2⟩
            · exact Or.inr (hE2 f2 (by rw [hst]; exact List.mem_cons_of_mem _ hfrest2)
                hfe2 pre hpre w hw)
        · rw [hen', ← h2]
          intro v2 hq2
          injection hq2 with hq2a hq2b
          exact DFSEntry.noConfusion hq2a
        · rw [hen', ← h2]
          intro v2 hq2
          injection hq2 with hq2a hq2b
          exact DFSEntry.noConfusion hq2a
    · -- suppressed BeginVertex followed by the EndEdge into the dead target
      have hen' : d'.enumeration = en2 := by rw [hd']
      have hPA2 := hXIpre.2.2.2
      rw [hstk] at hPA2
      have hinv2 : tree.Inv ⟨s.dfs.enumeration.graph, f0 :: S, s.dfs.enumeration.explored,
          s.dfs.enumeration.output_queue⟩ := by
        rw [← hstk]
        exact hinv
      rw [← hge] at hnt
      obtain ⟨u2, ns2, rest2, hseq, hu2ex, hee, hrest⟩ :=
        tree.next_suppressed _ f0 S _ _ hinv2 hPA2 _ en2 hnt
      injection hee with hee
      injection hee with heeu heet
      subst heeu
      have heet2 : f0.id = t := heet.symm
      have htnE : t ∉ s.dfs.enumeration.explored := by
        rw [← heet2]
        exact hf0ne
      have htnT : t ∉ s.unfinished_components.stack := fun hm => htnE (hCT t hm)
      have hXFel : ∀ a, SCC.XF s a → False := by
        rintro a ⟨hqe2, r2, x2, ns3, rest3, hsh2, hxT2, hll2⟩
        rw [hstk] at hsh2
        injection hsh2 with hA hB
        have hcn := (hinv.2.2.2.1 f0 (by rw [hstk]; exact List.mem_cons_self _ _) hf0ne).1
        rw [hA] at hcn
        exact Option.noConfusion hcn
      have hXI2 : tree.XInv ⟨s.dfs.enumeration.graph, S,
          f0.id :: s.dfs.enumeration.explored, []⟩ := by
        apply tree.XInv_suppress
        show tree.XInv ⟨s.dfs.enumeration.graph, f0 :: S, s.dfs.enumeration.explored,
          s.dfs.enumeration.output_queue⟩
        rw [← hstk]
        exact hXIpre
      have hinv3 : tree.Inv ⟨s.dfs.enumeration.graph, S,
          f0.id :: s.dfs.enumeration.explored, []⟩ :=
        tree.Inv_suppress _ f0 S _ _ hinv2
      have hXI' : tree.XInv d'.enumeration := by
        rw [hen']
        exact tree.XInv_next _ hinv3 hXI2 _ _ hnt
      have huS : (⟨u, some f0.id, ns2, false⟩ : Frame) ∈ s.dfs.enumeration.stack := by
        rw [hstk, hseq]
        exact List.mem_cons_of_mem _ (List.mem_cons_self _ _)
      obtain ⟨pre0, hadj0⟩ := hXIpre.2.1 ⟨u, some f0.id, ns2, false⟩ huS
      have hadj0' : s.dfs.graph.adj u = pre0 ++ [t] ++ ns2 := by
        rw [← hge]
        have hadj0'' : s.dfs.enumeration.graph.adj u = pre0 ++ [f0.id] ++ ns2 := hadj0
        rw [hadj0'', heet2]
      have hqR : tree.queueReq s.dfs.enumeration.output_queue = [] := by
        rcases hqs with hq1 | ⟨x, hq1⟩ | ⟨a, b, hq1⟩
        · rw [hq1]
          rfl
        · rcases hFL x hq1 with hnil | ⟨f1, rest3, hsh1, hfe1, hcn1⟩
          · rw [hnil] at hstk
            exact List.noConfusion hstk
          · rw [hstk] at hsh1
            injection hsh1 with hA hB
            rw [← hA] at hfe1
            exact absurd hfe1 hf0ne
        · rw [hq1]
          rfl
      have hRu : graph.Req s.dfs = u :: idsOf (rest2.filter
          (fun f2 => decide (f2.id ∈ s.dfs.enumeration.explored))) := by
        show tree.ReqT s.dfs.enumeration = _
        unfold tree.ReqT
        rw [hqR, hstk, hseq]
        rw [List.filter_cons, if_neg (by simp [hf0ne]), List.filter_cons,
          if_pos (by simp [hu2ex])]
        rfl
      have hmemE2 : ∀ f2 ∈ rest2, f2 ∈ s.dfs.enumeration.stack := by
        intro f2 hf2
        rw [hstk, hseq]
        exact List.mem_cons_of_mem _ (List.mem_cons_of_mem _ hf2)
      have hf0nid : ∀ f2 ∈ S, f2.id ≠ f0.id := by
        intro f2 hf2 he
        have hnd := hinv.2.1
        rw [hstk] at hnd
        have hnd2 := List.nodup_cons.mp hnd
        exact hnd2.1 (List.mem_map.mpr ⟨f2, hf2, he⟩)
      refine ⟨_, hRu, by rw [← heet2]; exact List.mem_append_left _ hf0x, ?_, ?_, hXI',
        ?_, ?_, ?_, ?_⟩
      · intro hsome
        exact absurd ((hTab t).mpr hsome) htnT
      · intro a hxf
        exact absurd hxf (hXFel a)
      · intro w hw
        rcases hrest with ⟨hns, hen2⟩ | ⟨n, ns3, hns, hn, hen2⟩ | ⟨n, ns3, hns, hn, hen2⟩ <;>
          rw [hen', hen2] <;> exact List.mem_cons_of_mem _ hw
      · intro f2 hf2 hfe2 pre hpre w hw
        rcases hrest with ⟨hns, hen2⟩ | ⟨n, ns3, hns, hn, hen2⟩ | ⟨n, ns3, hns, hn, hen2⟩
        · rw [hen', hen2] at hf2 hfe2
          have hf2m : f2 ∈ rest2 := hf2
          have hfe2m : f2.id ∈ f0.id :: s.dfs.enumeration.explored := hfe2
          have hfe2' : f2.id ∈ s.dfs.enumeration.explored := by
            rcases List.mem_cons.mp hfe2m with hx | hx
            · exact absurd hx (hf0nid f2 (by rw [hseq]; exact List.mem_cons_of_mem _ hf2m))
            · exact hx
          exact Or.inr (hE2 f2 (hmemE2 f2 hf2m) hfe2' pre hpre w hw)
        · rw [hen', hen2] at hf2 hfe2
          have hf2m : f2 ∈ (⟨u, some n, ns3, false⟩ : Frame) :: rest2 := hf2
          rcases List.mem_cons.mp hf2m with hftop | hfrest
          · subst hftop
            have hpre2 : s.dfs.graph.adj u = pre ++ [n] ++ ns3 := hpre
            have hns2 : ns2 = n :: ns3 := hns
            rw [hns2] at hadj0'
            have hpreq : pre = pre0 ++ [t] := by
              have he2 : (pre0 ++ [t]) ++ (n :: ns3) = pre ++ (n :: ns3) := by
                rw [← hadj0', hpre2]
                simp
              exact (List.append_inj' he2 rfl).1.symm
            rw [hpreq] at hw
            rcases List.mem_append.mp hw with hw1 | hw2
            · refine Or.inr ?_
              have := hE2 ⟨u, some f0.id, ns2, false⟩ huS hu2ex pre0 (by
                show s.dfs.graph.adj u = pre0 ++ [f0.id] ++ ns2
                rw [hadj0', ← hns2, heet2]) w hw1
              exact this
            · simp only [List.mem_singleton] at hw2
              exact Or.inl ⟨rfl, hw2⟩
          · have hfe2m : f2.id ∈ f0.id :: s.dfs.enumeration.explored := hfe2
            have hfe2' : f2.id ∈ s.dfs.enumeration.explored := by
              rcases List.mem_cons.mp hfe2m with hx | hx
              · exact absurd hx (hf0nid f2 (by rw [hseq]; exact List.mem_cons_of_mem _ hfrest))
              · exact hx
            exact Or.inr (hE2 f2 (hmemE2 f2 hfrest) hfe2' pre hpre w hw)
        · rw [hen', hen2] at hf2 hfe2
          have hf2m : f2 ∈ Frame.fromId n s.dfs.enumeration.graph ::
              (⟨u, some n, ns3, false⟩ : Frame) :: rest2 := hf2
          rcases List.mem_cons.mp hf2m with hftop | hfrest
          · subst hftop
            exact absurd hfe2 (by
              intro hx
              exact hn (by exact hx))
          · rcases List.mem_cons.mp hfrest with hfmid | hfrest2
            · subst hfmid
              have hpre2 : s.dfs.graph.adj u = pre ++ [n] ++ ns3 := hpre
              have hns2 : ns2 = n :: ns3 := hns
              rw [hns2] at hadj0'
              have hpreq : pre = pre0 ++ [t] := by
                have he2 : (pre0 ++ [t]) ++ (n :: ns3) = pre ++ (n :: ns3) := by
                  rw [← hadj0', hpre2]
                  simp
                exact (List.append_inj' he2 rfl).1.symm
              rw [hpreq] at hw
              rcases List.mem_append.mp hw with hw1 | hw2
              · refine Or.inr ?_
                have := hE2 ⟨u, some f0.id, ns2, false⟩ huS hu2ex pre0 (by
                  show s.dfs.graph.adj u = pre0 ++ [f0.id] ++ ns2
                  rw [hadj0', ← hns2, heet2]) w hw1
                exact this
              · simp only [List.mem_singleton] at hw2
                exact Or.inl ⟨rfl, hw2⟩
            · have hfe2m : f2.id ∈ f0.id :: s.dfs.enumeration.explored := hfe2
              have hfe2' : f2.id ∈ s.dfs.enumeration.explored := by
                rcases List.mem_cons.mp hfe2m with hx | hx
                · exact absurd hx (hf0nid f2 (by rw [hseq]; exact List.mem_cons_of_mem _ hfrest2))
                · exact hx
              exact Or.inr (hE2 f2 (hmemE2 f2 hfrest2) hfe2' pre hpre w hw)
      · intro v2 hq2 w hw
        rcases hrest with ⟨hns, hen2⟩ | ⟨n, ns3, hns, hn, hen2⟩ | ⟨n, ns3, hns, hn, hen2⟩
        · rw [hen', hen2] at hq2
          have hq2m : [DFSEntry.EndVertex u] = [DFSEntry.EndVertex v2] := hq2
          injection hq2m with hq2a hq2b
          injection hq2a with hq2a
          rw [← hq2a] at hw
          have hns2 : ns2 = [] := hns
          rw [hns2] at hadj0'
          rw [hadj0'] at hw
          rcases List.mem_append.mp hw with hw1 | hw2
          · rcases List.mem_append.mp hw1 with hw1a | hw1b
            · refine Or.inr ?_
              have := hE2 ⟨u, some f0.id, ns2, false⟩ huS hu2ex pre0 (by
                show s.dfs.graph.adj u = pre0 ++ [f0.id] ++ ns2
                rw [hadj0', hns2, heet2]) w hw1a
              rw [← hq2a]
              exact this
            · simp only [List.mem_singleton] at hw1b
              exact Or.inl ⟨hq2a.symm, hw1b⟩
          · simp at hw2
        · rw [hen', hen2] at hq2
          have hq2m : [DFSEntry.BeginEdge (u, n)] = [DFSEntry.EndVertex v2] := hq2
          injection hq2m with hq2a hq2b
          exact DFSEntry.noConfusion hq2a
        · rw [hen', hen2] at hq2
          have hq2m : [DFSEntry.BeginEdge (u, n)] = [DFSEntry.EndVertex v2] := hq2
          injection hq2m with hq2a hq2b
          exact DFSEntry.noConfusion hq2a
      · intro v2 hq2
        rcases hrest with ⟨hns, hen2⟩ | ⟨n, ns3, hns, hn, hen2⟩ | ⟨n, ns3, hns, hn, hen2⟩
        · rw [hen', hen2] at hq2 ⊢
          have hq2m : [DFSEntry.EndVertex u] = [DFSEntry.EndVertex v2] := hq2
          injection hq2m with hq2a hq2b
          injection hq2a with hq2a
          cases rest2 with
          | nil => exact Or.inl rfl
          | cons f1 rest4 =>
            refine Or.inr ⟨f1, rest4, rfl, ?_, ?_⟩
            · show f1.id ∈ f0.id :: s.dfs.enumeration.explored
              exact hinv3.2.2.1 f1 (by
                show f1 ∈ (⟨s.dfs.enumeration.graph, S,
                  f0.id :: s.dfs.enumeration.explored, []⟩ : tree.DepthFirst).stack.tail
                rw [hseq]
                exact List.mem_cons_self _ _)
            · have := hPA2 [f0] ⟨u, some f0.id, ns2, false⟩ f1 rest4
                (by rw [hseq]; rfl)
              rw [← hq2a]
              exact this
        · rw [hen', hen2] at hq2
          have hq2m : [DFSEntry.BeginEdge (u, n)] = [DFSEntry.EndVertex v2] := hq2
          injection hq2m with hq2a hq2b
          exact DFSEntry.noConfusion hq2a
        · rw [hen', hen2] at hq2
          have hq2m : [DFSEntry.BeginEdge (u, n)] = [DFSEntry.EndVertex v2] := hq2
          injection hq2m with hq2a hq2b
          exact DFSEntry.noConfusion hq2a
    · exact DFSEntry.noConfusion hebv
  obtain ⟨Rtail, hRu, htV, hStept, hXFres, hXI', hEmono, hE2n, hE3n, hFLn⟩ := hbr
  rcases hlkt : scc.lookupV s.unfinished_components.vertices t with _ | vt
  · -- dead target: the table update is a no-op
    have hup2 := (update_with_minimum_tbl s.unfinished_components u t vu hvu).1 hlkt
    rw [hup2] at hup
    injection hup with hup
    subst hup
    have htnT : t ∉ s.unfinished_components.stack := by
      intro hm
      have h3 := (hTab t).mp hm
      rw [hlkt] at h3
      exact Bool.noConfusion h3
    refine TarInv_same_table s d'
      ⟨hXIpre, hSeg, hIB, hDE, hGL, hP2, hCT, hDC, hE1, hE2, hE3, hFL⟩
      hReq hg' hVset (fun a hxf => absurd (hXFres a hxf).1 htnT) hXI'
      (fun w hw => hEmono w (hCT w hw)) ?_ ?_ hFLn
    · intro f hf hfe pre hpre w hw
      rcases hE2n f hf hfe pre hpre w hw with ⟨hfu, hwt⟩ | hedg
      · rw [hfu, hwt]
        exact ⟨htV, fun vw hvw => by rw [hlkt] at hvw; exact Option.noConfusion hvw⟩
      · exact hedg
    · intro v2 hq2 w hw
      rcases hE3n v2 hq2 w hw with ⟨hvu2, hwt⟩ | hedg
      · rw [hvu2, hwt]
        exact ⟨htV, fun vw hvw => by rw [hlkt] at hvw; exact Option.noConfusion hvw⟩
      · exact hedg
  · -- live target: the low link of the top open vertex is lowered
    have hup2 := (update_with_minimum_tbl s.unfinished_components u t vu hvu).2 vt hlkt
    rw [hup2] at hup
    injection hup with hup
    subst hup
    have htT : t ∈ s.unfinished_components.stack := (hTab t).mpr (by rw [hlkt]; rfl)
    have hStep : s.dfs.graph.Step u t := hStept (by rw [hlkt]; rfl)
    have hidx_all : ∀ x, scc.idxOf (scc.insertV s.unfinished_components.vertices u ⟨vu.index, min vu.low_link vt.low_link⟩) x =
        scc.idxOf s.unfinished_components.vertices x := by
      intro x
      by_cases hx : x = u
      · subst hx
        rw [idxOf_insert_self, idxOf_eq _ _ _ hvu]
      · rw [idxOf_insert_ne _ _ _ _ hx]
    have hll_ne : ∀ x, x ≠ u → scc.llOf (scc.insertV s.unfinished_components.vertices u ⟨vu.index, min vu.low_link vt.low_link⟩) x =
        scc.llOf s.unfinished_components.vertices x :=
      fun x hx => llOf_insert_ne _ _ _ _ hx
    have hllu' : scc.llOf (scc.insertV s.unfinished_components.vertices u ⟨vu.index, min vu.low_link vt.low_link⟩) u = min vu.low_link vt.low_link :=
      llOf_insert_self _ _ _
    have hSegu : Segs s.dfs.graph s.unfinished_components.vertices (SCC.XF s)
        s.unfinished_components.stack (u :: Rtail) := hRu ▸ hSeg
    obtain ⟨A, T', hTdec, hreach, hcls, hbnd, htail⟩ := Segs_cons_inv _ _ _ _ _ _ hSegu
    have hNDdec := hND
    rw [hTdec] at hNDdec
    obtain ⟨hAnd, hUT'nd, hdsj⟩ := List.nodup_append.mp hNDdec
    obtain ⟨huT', hT'nd⟩ := List.nodup_cons.mp hUT'nd
    have huA : u ∉ A := fun hm => hdsj hm (List.mem_cons_self _ _)
    have hEDGnew : scc.EDGp (scc.insertV s.unfinished_components.vertices u ⟨vu.index, min vu.low_link vt.low_link⟩) d'.visited u t := by
      refine ⟨(hVset t).mpr htV, ?_⟩
      intro vw hvw
      by_cases htu : t = u
      · rw [htu, scc.lookupV_insertV_self] at hvw
        injection hvw with hvw
        rw [← hvw]
        show scc.llOf (scc.insertV s.unfinished_components.vertices u ⟨vu.index, min vu.low_link vt.low_link⟩) u ≤ vu.index
        rw [hllu']
        exact Nat.le_trans (Nat.min_le_left _ _) (hIB u vu hvu).2
      · rw [scc.lookupV_insertV_ne _ _ _ _ htu, hlkt] at hvw
        injection hvw with hvw
        rw [← hvw]
        show scc.llOf (scc.insertV s.unfinished_components.vertices u ⟨vu.index, min vu.low_link vt.low_link⟩) u ≤ vt.index
        rw [hllu']
        exact Nat.le_trans (Nat.min_le_right _ _) (hIB t vt hlkt).2
    have hSEG' : Segs d'.graph (scc.insertV s.unfinished_components.vertices u ⟨vu.index, min vu.low_link vt.low_link⟩)
        (SCC.XF ⟨d', ⟨s.unfinished_components.stack, scc.insertV s.unfinished_components.vertices u ⟨vu.index, min vu.low_link vt.low_link⟩,
          s.unfinished_components.next_vertex_index⟩⟩)
        s.unfinished_components.stack (graph.Req d') := by
      rw [hReq, hg', hRu, hTdec]
      refine Segs.cons _ A u T' Rtail hreach ?_ ?_ ?_
      · intro a ha
        have hau : a ≠ u := fun he => huA (he ▸ ha)
        rw [hll_ne a hau, hidx_all]
        exact hcls a ha
      · intro a ha
        have hau : a ≠ u := fun he => huA (he ▸ ha)
        refine Or.inl ?_
        rw [hll_ne a hau, hllu']
        rcases hbnd a ha with hl | hfb
        · have h3 : scc.llOf s.unfinished_components.vertices u = vu.low_link :=
            llOf_eq _ _ _ hvu
          rw [h3] at hl
          exact Nat.le_trans (Nat.min_le_left _ _) hl
        · have h4 := (hXFres a hfb).2
          rw [llOf_eq _ _ _ hlkt] at h4
          exact Nat.le_trans (Nat.min_le_right _ _) h4
      · exact Segs_congr _ _ _ _ _ _ htail
          (fun w hw => scc.lookupV_insertV_ne _ _ _ _ (fun he => huT' (he ▸ hw)))
    have hIB' : ∀ w vx, scc.lookupV (scc.insertV s.unfinished_components.vertices u ⟨vu.index, min vu.low_link vt.low_link⟩) w = some vx →
        vx.index < s.unfinished_components.next_vertex_index ∧ vx.low_link ≤ vx.index := by
      intro w vx hvw
      by_cases hwu : w = u
      · subst hwu
        rw [scc.lookupV_insertV_self] at hvw
        injection hvw with hvw
        rw [← hvw]
        have h2 := hIB w vu hvu
        exact ⟨h2.1, Nat.le_trans (Nat.min_le_left _ _) h2.2⟩
      · rw [scc.lookupV_insertV_ne _ _ _ _ hwu] at hvw
        exact hIB w vx hvw
    have hDE' : s.unfinished_components.stack.Pairwise
        (fun a b => scc.idxOf (scc.insertV s.unfinished_components.vertices u ⟨vu.index, min vu.low_link vt.low_link⟩) b < scc.idxOf (scc.insertV s.unfinished_components.vertices u ⟨vu.index, min vu.low_link vt.low_link⟩) a) :=
      hDE.imp (fun hab => by rw [hidx_all, hidx_all]; exact hab)
    have hGL' : ∀ r0, (graph.Req d').getLast? = some r0 →
        ∀ w ∈ s.unfinished_components.stack,
          scc.idxOf (scc.insertV s.unfinished_components.vertices u ⟨vu.index, min vu.low_link vt.low_link⟩) r0 ≤ scc.llOf (scc.insertV s.unfinished_components.vertices u ⟨vu.index, min vu.low_link vt.low_link⟩) w := by
      intro r0 h0 w hw
      rw [hReq] at h0
      rw [hidx_all]
      by_cases hwu : w = u
      · subst hwu
        rw [hllu']
        refine Nat.le_min.mpr ⟨?_, ?_⟩
        · have h3 := hGL r0 h0 w hw
          rw [llOf_eq _ _ _ hvu] at h3
          exact h3
        · have h3 := hGL r0 h0 t htT
          rw [llOf_eq _ _ _ hlkt] at h3
          exact h3
      · rw [hll_ne w hwu]
        exact hGL r0 h0 w hw
    have hP2' : ∀ w ∈ s.unfinished_components.stack,
        ∃ z ∈ s.unfinished_components.stack,
          scc.idxOf (scc.insertV s.unfinished_components.vertices u ⟨vu.index, min vu.low_link vt.low_link⟩) z = scc.llOf (scc.insertV s.unfinished_components.vertices u ⟨vu.index, min vu.low_link vt.low_link⟩) w ∧ d'.graph.Reaches w z := by
      intro w hw
      by_cases hwu : w = u
      · subst hwu
        rcases Nat.le_total vu.low_link vt.low_link with hmn | hmn
        · obtain ⟨z, hz1, hz2, hz3⟩ := hP2 w hw
          refine ⟨z, hz1, ?_, ?_⟩
          · rw [hidx_all, hllu', Nat.min_eq_left hmn, hz2]
            exact llOf_eq _ _ _ hvu
          · show d'.graph.Reaches w z
            rw [hg']
            exact hz3
        · obtain ⟨z, hz1, hz2, hz3⟩ := hP2 t htT
          refine ⟨z, hz1, ?_, ?_⟩
          · rw [hidx_all, hllu', Nat.min_eq_right hmn, hz2]
            exact llOf_eq _ _ _ hlkt
          · show d'.graph.Reaches w z
            rw [hg']
            exact Relation.ReflTransGen.head hStep hz3
      · obtain ⟨z, hz1, hz2, hz3⟩ := hP2 w hw
        refine ⟨z, hz1, ?_, ?_⟩
        · rw [hidx_all, hll_ne w hwu]
          exact hz2
        · show d'.graph.Reaches w z
          rw [hg']
          exact hz3
    have hCT' : ∀ w ∈ s.unfinished_components.stack, w ∈ d'.enumeration.explored :=
      fun w hw => hEmono w (hCT w hw)
    have hDC' : ∀ u2, u2 ∈ d'.visited → u2 ∉ s.unfinished_components.stack →
        ∀ w2, d'.graph.Step u2 w2 → w2 ∈ d'.visited ∧
          w2 ∉ s.unfinished_components.stack := by
      intro u2 hu2 hnT w2 hstep
      have hstep2 : s.dfs.graph.Step u2 w2 := by rw [← hg']; exact hstep
      obtain ⟨hw2V, hw2T⟩ := hDC u2 ((hVset u2).mp hu2) hnT w2 hstep2
      exact ⟨(hVset w2).mpr hw2V, hw2T⟩
    have hE1' : ∀ u2 ∈ s.unfinished_components.stack, u2 ∉ graph.Req d' →
        ∀ w ∈ d'.graph.adj u2, scc.EDGp (scc.insertV s.unfinished_components.vertices u ⟨vu.index, min vu.low_link vt.low_link⟩) d'.visited u2 w := by
      intro u2 hu2 hnR w hw
      rw [hReq] at hnR
      have hw2 : w ∈ s.dfs.graph.adj u2 := by rw [← hg']; exact hw
      exact EDGp_upd _ _ _ _ _ _ vu hvu vt.low_link hVset (hE1 u2 hu2 hnR w hw2)
    have hE2' : ∀ f ∈ d'.enumeration.stack, f.id ∈ d'.enumeration.explored →
        ∀ pre, d'.graph.adj f.id = pre ++ f.current_neighbour.toList ++ f.neighbours →
          ∀ w ∈ pre, scc.EDGp (scc.insertV s.unfinished_components.vertices u ⟨vu.index, min vu.low_link vt.low_link⟩) d'.visited f.id w := by
      intro f hf hfe pre hpre w hw
      have hpre2 : s.dfs.graph.adj f.id =
          pre ++ f.current_neighbour.toList ++ f.neighbours := by
        rw [← hg']
        exact hpre
      rcases hE2n f hf hfe pre hpre2 w hw with ⟨hfu, hwt⟩ | hedg
      · rw [hfu, hwt]
        exact hEDGnew
      · exact EDGp_upd _ _ _ _ _ _ vu hvu vt.low_link hVset hedg
    have hE3' : ∀ v2, d'.enumeration.output_queue = [DFSEntry.EndVertex v2] →
        ∀ w ∈ d'.graph.adj v2, scc.EDGp (scc.insertV s.unfinished_components.vertices u ⟨vu.index, min vu.low_link vt.low_link⟩) d'.visited v2 w := by
      intro v2 hq2 w hw
      have hw2 : w ∈ s.dfs.graph.adj v2 := by rw [← hg']; exact hw
      rcases hE3n v2 hq2 w hw2 with ⟨hvu2, hwt⟩ | hedg
      · rw [hvu2, hwt]
        exact hEDGnew
      · exact EDGp_upd _ _ _ _ _ _ vu hvu vt.low_link hVset hedg
    exact ⟨hXI', hSEG', hIB', hDE', hGL', hP2', hCT', hDC', hE1', hE2', hE3', hFLn⟩

/-- Tree-machine facts shared by all `EndVertex` emissions of the graph-scoped
traversal: the post state keeps the structural invariants with the same stack
members and explored set and an empty queue, the pre-state fallback window is
closed, the closing vertex has all its edges processed, and when vertices stay
open the new top frame is the parent still pending on the closed vertex. -/
theorem EV_tree_facts (s : SCC) (v : VertexId) (d' : graph.DepthFirst)
    (hS : SCCInv s) (hT : TarInv s)
    (hshape : graph.EmitShape s.dfs (DFSEntry.EndVertex v) d') :
    tree.XInv d'.enumeration ∧
    (∀ w ∈ s.dfs.enumeration.explored, w ∈ d'.enumeration.explored) ∧
    d'.enumeration.output_queue = [] ∧
    (∀ a, SCC.XF s a → False) ∧
    (∀ w ∈ s.dfs.graph.adj v,
      scc.EDGp s.unfinished_components.vertices s.dfs.visited v w) ∧
    (∀ f ∈ d'.enumeration.stack, f ∈ s.dfs.enumeration.stack) ∧
    d'.enumeration.explored = s.dfs.enumeration.explored ∧
    (∀ r2 R2, graph.Req d' = r2 :: R2 → ∃ ns2 rest2,
      d'.enumeration.stack = (⟨r2, some v, ns2, false⟩ : Frame) :: rest2 ∧
      v ∈ s.dfs.graph.adj r2) := by
  obtain ⟨hG, hgtr0, hTab, hND, hSub, hTV⟩ := hS
  obtain ⟨hge, hinv, hqbv, hqs, hxb, hcons⟩ := hG
  obtain ⟨hXIpre, hSeg, hIB, hDE, hGL, hP2, hCT, hDC, hE1, hE2, hE3, hFL⟩ := hT
  rcases hshape with ⟨en2, hnt, hd', hbv⟩ | ⟨f0, S, en2, hstk, hf0ne, hf0x, hnt, hd', hnbv⟩ |
    ⟨hrnil, rt, hebv, hcont, hd'e⟩
  · have hen' : d'.enumeration = en2 := by rw [hd']
    have hXI' : tree.XInv d'.enumeration := by
      rw [hen']
      exact tree.XInv_next s.dfs.enumeration hinv hXIpre _ _ hnt
    rcases tree.next_spec s.dfs.enumeration hinv.1 with
      ⟨e0, q0, hq0, hnc⟩ | ⟨hst, hq0, hnc⟩ | ⟨f, rest, hst, hq0, hf, hnc⟩ |
      ⟨fid, rest, hst, hq0, hf, hnc⟩ | ⟨fid, c, rest, hst, hq0, hf, hnc⟩ |
      ⟨fid, n, ns, rest, hst, hq0, hf, hnc2, hnc⟩ |
      ⟨fid, n, ns, rest, hst, hq0, hf, hnc2, hnc⟩ |
      ⟨fid, c, n, ns, rest, hst, hq0, hf, hnc2, hnc⟩ |
      ⟨fid, c, n, ns, rest, hst, hq0, hf, hnc2, hnc⟩
    · -- queued EndVertex flushed
      rw [hnc] at hnt
      injection hnt with h1 h2
      injection h1 with h1
      rcases hqs with hq1 | ⟨x, hq1⟩ | ⟨a, b, hq1⟩
      · rw [hq1] at hq0
        simp at hq0
      · rw [hq1] at hq0
        obtain ⟨hq0a, hq0b⟩ := singleton_eq_append _ _ _ hq0
        have hxv : x = v := by
          injection hq0b.symm.trans h1
        rw [hxv] at hq1
        refine ⟨hXI', ?_, ?_, ?_, hE3 v hq1, ?_, ?_, ?_⟩
        · rw [hen', ← h2]
          exact fun w hw => hw
        · rw [hen', ← h2]
          exact hq0a
        · rintro a ⟨hqe2, r3, x3, ns3, rest3, hsh2, hxT2, hll2⟩
          rw [hq1] at hqe2
          exact List.noConfusion hqe2
        · rw [hen', ← h2]
          exact fun f hf => hf
        · rw [hen', ← h2]
        · intro r2 R2 hR2
          rcases hFL v hq1 with hstknil | ⟨f, rest, hst2, hfx, hfcn⟩
          · exfalso
            have hq'2 : d'.enumeration.output_queue = [] := by
              rw [hen', ← h2]
              exact hq0a
            have hs'2 : d'.enumeration.stack = [] := by
              rw [hen', ← h2]
              exact hstknil
            have hnil : graph.Req d' = [] := by
              show tree.ReqT d'.enumeration = []
              unfold tree.ReqT
              rw [hq'2, hs'2]
              rfl
            rw [hnil] at hR2
            exact List.noConfusion hR2
          · have hfd : f.dropped = false :=
              hinv.1 f (by rw [hst2]; exact List.mem_cons_self _ _)
            obtain ⟨fid, fcn, fns, fdr⟩ := f
            simp only at hfd hfx hfcn
            subst hfcn
            subst hfd
            have hRd' : graph.Req d' = fid :: idsOf (rest.filter
                (fun f2 => decide (f2.id ∈ d'.enumeration.explored))) := by
              show tree.ReqT d'.enumeration = _
              refine tree.ReqT_top d'.enumeration ⟨fid, some v, fns, false⟩ rest ?_ ?_ ?_
              · rw [hen', ← h2]
                exact hq0a
              · rw [hen', ← h2]
                exact hst2
              · rw [hen', ← h2]
                exact hfx
            have hcmp := hRd'.symm.trans hR2
            injection hcmp with hR2a hR2b
            subst hR2a
            refine ⟨fns, rest, ?_, ?_⟩
            · rw [hen', ← h2]
              exact hst2
            · obtain ⟨pre2, hadj2⟩ := hXIpre.2.1 ⟨fid, some v, fns, false⟩
                (by rw [hst2]; exact List.mem_cons_self _ _)
              have hadj2' : s.dfs.enumeration.graph.adj fid = pre2 ++ [v] ++ fns := hadj2
              rw [← hge, hadj2']
              exact List.mem_append_left _ (List.mem_append_right _ (List.mem_cons_self _ _))
      · rw [hq1] at hq0
        obtain ⟨hq0a, hq0b⟩ := singleton_eq_append _ _ _ hq0
        exact DFSEntry.noConfusion (h1.symm.trans hq0b)
    · rw [hnc] at hnt
      injection hnt with h1 h2
      exact Option.noConfusion h1
    · rw [hnc] at hnt
      injection hnt with h1 h2
      injection h1 with h1
      exact DFSEntry.noConfusion h1
    · -- endV: the top frame of the closing vertex is popped
      rw [hnc] at hnt
      injection hnt with h1 h2
      injection h1 with h1
      injection h1 with h1
      rw [h1] at hst hf
      have htop : (⟨v, none, [], false⟩ : Frame) ∈ s.dfs.enumeration.stack := by
        rw [hst]
        exact List.mem_cons_self _ _
      have hAdjV : ∀ w ∈ s.dfs.graph.adj v,
          scc.EDGp s.unfinished_components.vertices s.dfs.visited v w := by
        intro w hw
        refine hE2 ⟨v, none, [], false⟩ htop hf (s.dfs.graph.adj v) ?_ w hw
        show s.dfs.graph.adj v = s.dfs.graph.adj v ++ [] ++ []
        simp
      refine ⟨hXI', ?_, ?_, ?_, hAdjV, ?_, ?_, ?_⟩
      · rw [hen', ← h2]
        exact fun w hw => hw
      · rw [hen', ← h2]
      · rintro a ⟨hqe2, r3, x3, ns3, rest3, hsh2, hxT2, hll2⟩
        rw [hst] at hsh2
        injection hsh2 with hA hB
        injection hA with e1 e2 e3 e4
        exact Option.noConfusion e2
      · rw [hen', ← h2]
        intro f2 hf2
        rw [hst]
        exact List.mem_cons_of_mem _ hf2
      · rw [hen', ← h2]
      · intro r2 R2 hR2
        cases rest with
        | nil =>
          exfalso
          have hnil : graph.Req d' = [] := by
            show tree.ReqT d'.enumeration = []
            rw [hen', ← h2]
            rfl
          rw [hnil] at hR2
          exact List.noConfusion hR2
        | cons f2 rest3 =>
          have hf2cn : f2.current_neighbour = some v :=
            hXIpre.2.2.2 [] ⟨v, none, [], false⟩ f2 rest3 (by rw [hst]; rfl)
          have hf2ex : f2.id ∈ s.dfs.enumeration.explored := by
            refine hinv.2.2.1 f2 ?_
            rw [hst]
            exact List.mem_cons_self f2 rest3
          have hf2d : f2.dropped = false :=
            hinv.1 f2 (by rw [hst]; exact List.mem_cons_of_mem _ (List.mem_cons_self _ _))
          have hf2mem : f2 ∈ s.dfs.enumeration.stack := by
            rw [hst]
            exact List.mem_cons_of_mem _ (List.mem_cons_self _ _)
          obtain ⟨f2id, f2cn, f2ns, f2dr⟩ := f2
          simp only at hf2cn hf2ex hf2d
          subst hf2cn
          subst hf2d
          have hRd' : graph.Req d' = f2id :: idsOf (rest3.filter
              (fun f3 => decide (f3.id ∈ d'.enumeration.explored))) := by
            show tree.ReqT d'.enumeration = _
            refine tree.ReqT_top d'.enumeration ⟨f2id, some v, f2ns, false⟩ rest3 ?_ ?_ ?_
            · rw [hen', ← h2]
            · rw [hen', ← h2]
            · rw [hen', ← h2]
              exact hf2ex
          have hcmp := hRd'.symm.trans hR2
          injection hcmp with hR2a hR2b
          subst hR2a
          refine ⟨f2ns, rest3, ?_, ?_⟩
          · rw [hen', ← h2]
          · obtain ⟨pre2, hadj2⟩ := hXIpre.2.1 ⟨f2id, some v, f2ns, false⟩ hf2mem
            have hadj2' : s.dfs.enumeration.graph.adj f2id = pre2 ++ [v] ++ f2ns := hadj2
            rw [← hge, hadj2']
            exact List.mem_append_left _ (List.mem_append_right _ (List.mem_cons_self _ _))
    · rw [hnc] at hnt
      injection hnt with h1 h2
      injection h1 with h1
      exact DFSEntry.noConfusion h1
    · rw [hnc] at hnt
      injection hnt with h1 h2
      injection h1 with h1
      exact DFSEntry.noConfusion h1
    · rw [hnc] at hnt
      injection hnt with h1 h2
      injection h1 with h1
      exact DFSEntry.noConfusion h1
    · rw [hnc] at hnt
      injection hnt with h1 h2
      injection h1 with h1
      exact DFSEntry.noConfusion h1
    · rw [hnc] at hnt
      injection hnt with h1 h2
      injection h1 with h1
      exact DFSEntry.noConfusion h1
  · -- a suppressed BeginVertex is followed by an EndEdge, never an EndVertex
    have hPA2 := hXIpre.2.2.2
    rw [hstk] at hPA2
    have hinv2 : tree.Inv ⟨s.dfs.enumeration.graph, f0 :: S, s.dfs.enumeration.explored,
        s.dfs.enumeration.output_queue⟩ := by
      rw [← hstk]
      exact hinv
    rw [← hge] at hnt
    obtain ⟨u2, ns2, rest2, hseq, hu2ex, hee, hrest⟩ :=
      tree.next_suppressed _ f0 S _ _ hinv2 hPA2 _ en2 hnt
    exact DFSEntry.noConfusion hee
  · exact DFSEntry.noConfusion hebv

/-- A non-root `EndVertex` event preserves the Tarjan invariant: the top
segment of the Tarjan stack merges into its parent segment, the closing
vertex supplying the pending-`EndEdge` fallback bound through its parent
frame's still-open edge. -/
theorem Tar_EVnr (s : SCC) (v : VertexId) (d' : graph.DepthFirst) (gtr : List DFSEntry)
    (hS : SCCInv s) (hT : TarInv s)
    (hshape : graph.EmitShape s.dfs (DFSEntry.EndVertex v) d')
    (hTr : graph.GTr gtr s.dfs)
    (hTr' : graph.GTr (gtr ++ [DFSEntry.EndVertex v]) d')
    (hReq : graph.Req s.dfs = v :: graph.Req d')
    (hg' : d'.graph = s.dfs.graph)
    (vv : scc.Vertex) (hvv : scc.lookupV s.unfinished_components.vertices v = some vv)
    (hnr : vv.is_root = false) :
    TarInv ⟨d', s.unfinished_components⟩ := by
  have hbr := EV_tree_facts s v d' hS hT hshape
  obtain ⟨hG, hgtr0, hTab, hND, hSub, hTV⟩ := hS
  obtain ⟨hge, hinv, hqbv, hqs, hxb, hcons⟩ := hG
  obtain ⟨hXIpre, hSeg, hIB, hDE, hGL, hP2, hCT, hDC, hE1, hE2, hE3, hFL⟩ := hT
  have hVset : ∀ w, w ∈ d'.visited ↔ w ∈ s.dfs.visited :=
    GTr_nonBV_visited gtr s.dfs d' _ hTr hTr' (fun w h => DFSEntry.noConfusion h)
  have hvT : v ∈ s.unfinished_components.stack := (hTab v).mpr (by rw [hvv]; rfl)
  obtain ⟨hXI', hEmono, hq', hXFel, hAdjV, hStkSub, hExEq, hTopW⟩ := hbr
  rcases hR' : graph.Req d' with _ | ⟨r2, R2⟩
  · -- a lone open vertex that closes is a root: contradiction
    exfalso
    have hglast : (graph.Req s.dfs).getLast? = some v := by
      rw [hReq, hR']
      simp
    have h1 := hGL v hglast v hvT
    have h2 := (hIB v vv hvv).2
    rw [idxOf_eq _ _ _ hvv, llOf_eq _ _ _ hvv] at h1
    have heq : vv.index = vv.low_link := Nat.le_antisymm h1 h2
    unfold scc.Vertex.is_root at hnr
    rw [heq] at hnr
    simp at hnr
  · obtain ⟨ns2, rest2, hstk', hvadj⟩ := hTopW r2 R2 hR'
    have hSegu : Segs s.dfs.graph s.unfinished_components.vertices (SCC.XF s)
        s.unfinished_components.stack (v :: r2 :: R2) := by
      rw [← hR', ← hReq]
      exact hSeg
    obtain ⟨A1, T2, hTdec, hreach1, hcls1, hbnd1, htail⟩ := Segs_cons_inv _ _ _ _ _ _ hSegu
    obtain ⟨A2, T3, hTdec2, hreach2, hcls2, hbnd2, htail3⟩ := Segs_cons_inv _ _ _ _ _ _ htail
    have hllv : scc.llOf s.unfinished_components.vertices v <
        scc.idxOf s.unfinished_components.vertices v := by
      rw [idxOf_eq _ _ _ hvv, llOf_eq _ _ _ hvv]
      have h2 := (hIB v vv hvv).2
      rcases Nat.lt_or_ge vv.low_link vv.index with h | h
      · exact h
      · exfalso
        have heq : vv.low_link = vv.index := Nat.le_antisymm h2 h
        unfold scc.Vertex.is_root at hnr
        rw [heq] at hnr
        simp at hnr
    have hXFpost : ∀ a, scc.llOf s.unfinished_components.vertices v ≤
        scc.llOf s.unfinished_components.vertices a →
        SCC.XF ⟨d', s.unfinished_components⟩ a := by
      intro a hla
      exact ⟨hq', r2, v, ns2, rest2, hstk', hvT, hla⟩
    have hbnd1' : ∀ a ∈ A1, scc.llOf s.unfinished_components.vertices v ≤
        scc.llOf s.unfinished_components.vertices a := by
      intro a ha
      rcases hbnd1 a ha with h | hxf
      · exact h
      · exact (hXFel a hxf).elim
    have hr2v : s.dfs.graph.Reaches r2 v := Relation.ReflTransGen.single hvadj
    have hSEG' : Segs d'.graph s.unfinished_components.vertices
        (SCC.XF ⟨d', s.unfinished_components⟩)
        s.unfinished_components.stack (graph.Req d') := by
      rw [hR', hg', hTdec, hTdec2]
      have hfix : A1 ++ v :: (A2 ++ r2 :: T3) = (A1 ++ v :: A2) ++ r2 :: T3 := by simp
      rw [hfix]
      refine Segs.cons _ (A1 ++ v :: A2) r2 T3 R2 ?_ ?_ ?_ htail3
      · intro a ha
        rcases List.mem_append.mp ha with h1 | h2
        · exact hr2v.trans (hreach1 a h1)
        · rcases List.mem_cons.mp h2 with rfl | h3
          · exact hr2v
          · exact hreach2 a h3
      · intro a ha
        rcases List.mem_append.mp ha with h1 | h2
        · exact hcls1 a h1
        · rcases List.mem_cons.mp h2 with rfl | h3
          · exact hllv
          · exact hcls2 a h3
      · intro a ha
        rcases List.mem_append.mp ha with h1 | h2
        · exact Or.inr (hXFpost a (hbnd1' a h1))
        · rcases List.mem_cons.mp h2 with rfl | h3
          · exact Or.inr (hXFpost a (Nat.le_refl _))
          · rcases hbnd2 a h3 with h | hfalse
            · exact Or.inl h
            · exact hfalse.elim
    have hGL' : ∀ r0, (graph.Req d').getLast? = some r0 →
        ∀ w ∈ s.unfinished_components.stack,
          scc.idxOf s.unfinished_components.vertices r0 ≤
            scc.llOf s.unfinished_components.vertices w := by
      intro r0 h0 w hw
      refine hGL r0 ?_ w hw
      rw [hReq, hR']
      rw [hR'] at h0
      rw [List.getLast?_cons_cons]
      exact h0
    have hP2' : ∀ w ∈ s.unfinished_components.stack, ∃ z ∈ s.unfinished_components.stack,
        scc.idxOf s.unfinished_components.vertices z =
          scc.llOf s.unfinished_components.vertices w ∧ d'.graph.Reaches w z := by
      intro w hw
      obtain ⟨z, hz1, hz2, hz3⟩ := hP2 w hw
      exact ⟨z, hz1, hz2, by rw [hg']; exact hz3⟩
    have hCT' : ∀ w ∈ s.unfinished_components.stack, w ∈ d'.enumeration.explored :=
      fun w hw => hEmono w (hCT w hw)
    have hDC' : ∀ u2, u2 ∈ d'.visited → u2 ∉ s.unfinished_components.stack →
        ∀ w2, d'.graph.Step u2 w2 → w2 ∈ d'.visited ∧
          w2 ∉ s.unfinished_components.stack := by
      intro u2 hu2 hnT w2 hstep
      have hstep2 : s.dfs.graph.Step u2 w2 := by rw [← hg']; exact hstep
      obtain ⟨hw2V, hw2T⟩ := hDC u2 ((hVset u2).mp hu2) hnT w2 hstep2
      exact ⟨(hVset w2).mpr hw2V, hw2T⟩
    have hE1' : ∀ u2 ∈ s.unfinished_components.stack, u2 ∉ graph.Req d' →
        ∀ w ∈ d'.graph.adj u2,
          scc.EDGp s.unfinished_components.vertices d'.visited u2 w := by
      intro u2 hu2 hnR w hw
      have hw2 : w ∈ s.dfs.graph.adj u2 := by rw [← hg']; exact hw
      by_cases hu2v : u2 = v
      · subst hu2v
        exact EDGp_iffV _ _ _ _ _ hVset (hAdjV w hw2)
      · refine EDGp_iffV _ _ _ _ _ hVset (hE1 u2 hu2 ?_ w hw2)
        rw [hReq]
        intro hmem
        rcases List.mem_cons.mp hmem with h | h
        · exact hu2v h
        · exact hnR h
    have hE2' : ∀ f ∈ d'.enumeration.stack, f.id ∈ d'.enumeration.explored →
        ∀ pre, d'.graph.adj f.id = pre ++ f.current_neighbour.toList ++ f.neighbours →
          ∀ w ∈ pre, scc.EDGp s.unfinished_components.vertices d'.visited f.id w := by
      intro f hf hfe pre hpre w hw
      refine EDGp_iffV _ _ _ _ _ hVset (hE2 f (hStkSub f hf) ?_ pre ?_ w hw)
      · rw [← hExEq]
        exact hfe
      · rw [← hg']
        exact hpre
    have hE3' : ∀ v2, d'.enumeration.output_queue = [DFSEntry.EndVertex v2] →
        ∀ w ∈ d'.graph.adj v2,
          scc.EDGp s.unfinished_components.vertices d'.visited v2 w := by
      intro v2 hq2 w hw
      rw [hq'] at hq2
      exact List.noConfusion hq2
    have hFL' : ∀ v2, d'.enumeration.output_queue = [DFSEntry.EndVertex v2] →
        d'.enumeration.stack = [] ∨
        ∃ f rest, d'.enumeration.stack = f :: rest ∧ f.id ∈ d'.enumeration.explored ∧
          f.current_neighbour = some v2 := by
      intro v2 hq2
      rw [hq'] at hq2
      exact List.noConfusion hq2
    exact ⟨hXI', hSEG', hIB, hDE, hGL', hP2', hCT', hDC', hE1', hE2', hE3', hFL'⟩

/-- A root `EndVertex` event pops exactly the top segment plus the root as
the emitted component and preserves the Tarjan invariant on the remaining
stack; the emitted members are visited, mutually reachable through the
root, previously live, and exactly the delta of the dead set. -/
theorem Tar_EVroot (s : SCC) (v : VertexId) (d' : graph.DepthFirst) (gtr : List DFSEntry)
    (hS : SCCInv s) (hT : TarInv s)
    (hshape : graph.EmitShape s.dfs (DFSEntry.EndVertex v) d')
    (hTr : graph.GTr gtr s.dfs)
    (hTr' : graph.GTr (gtr ++ [DFSEntry.EndVertex v]) d')
    (hReq : graph.Req s.dfs = v :: graph.Req d')
    (hg' : d'.graph = s.dfs.graph)
    (vv : scc.Vertex) (hvv : scc.lookupV s.unfinished_components.vertices v = some vv)
    (hroot : vv.is_root = true)
    (c2 : Component) (st2 : scc.Stack)
    (hpop : s.unfinished_components.pop_until v = some (c2, st2)) :
    TarInv ⟨d', st2⟩ ∧
    st2.next_vertex_index = s.unfinished_components.next_vertex_index ∧
    v ∈ c2.members ∧
    (∀ x ∈ c2.members, x ∈ s.dfs.visited) ∧
    (∀ x ∈ c2.members, s.dfs.graph.Reaches x v ∧ s.dfs.graph.Reaches v x) ∧
    (∀ x ∈ c2.members, ¬ SCC.DeadP s x) ∧
    (∀ w, SCC.DeadP ⟨d', st2⟩ w ↔ (SCC.DeadP s w ∨ w ∈ c2.members)) := by
  have hbr := EV_tree_facts s v d' hS hT hshape
  obtain ⟨hXI', hEmono, hq', hXFel, hAdjV, hStkSub, hExEq, hTopW⟩ := hbr
  obtain ⟨hG, hgtr0, hTab, hND, hSub, hTV⟩ := hS
  obtain ⟨hge, hinv, hqbv, hqs, hxb, hcons⟩ := hG
  obtain ⟨hXIpre, hSeg, hIB, hDE, hGL, hP2, hCT, hDC, hE1, hE2, hE3, hFL⟩ := hT
  have hVset : ∀ w, w ∈ d'.visited ↔ w ∈ s.dfs.visited :=
    GTr_nonBV_visited gtr s.dfs d' _ hTr hTr' (fun w h => DFSEntry.noConfusion h)
  have hvT : v ∈ s.unfinished_components.stack := (hTab v).mpr (by rw [hvv]; rfl)
  obtain ⟨P, rest', c2', m2, hsp, hvP, hgo, hchar⟩ :=
    scc.popUntilGo_spec v s.unfinished_components.stack s.unfinished_components.vertices
      Component.new hvT
  obtain ⟨P2, hsp2, hmem0⟩ := popUntilGo_members v s.unfinished_components.stack
    s.unfinished_components.vertices Component.new c2' rest' m2 hgo
  have hPP2 : P = P2 := (List.append_inj' (hsp.symm.trans hsp2) rfl).1
  have hmem : ∀ x, x ∈ c2'.members ↔ x ∈ P ∨ x = v := by
    intro x
    rw [hmem0 x, ← hPP2]
    simp [Component.new]
  have hpop2 : s.unfinished_components.pop_until v =
      some (c2', { s.unfinished_components with stack := rest', vertices := m2 }) := by
    unfold scc.Stack.pop_until
    rw [hgo]
  have hpe := hpop.symm.trans hpop2
  injection hpe with hpe
  injection hpe with hc2eq hst2eq
  subst hc2eq
  subst hst2eq
  have hSegu : Segs s.dfs.graph s.unfinished_components.vertices (SCC.XF s)
      s.unfinished_components.stack (v :: graph.Req d') := by
    rw [← hReq]
    exact hSeg
  obtain ⟨A1, T2, hTdec, hreach1, hcls1, hbnd1, htail⟩ := Segs_cons_inv _ _ _ _ _ _ hSegu
  have hNDdec := hND
  rw [hTdec] at hNDdec
  obtain ⟨hA1nd, hvT2nd, hdsj⟩ := List.nodup_append.mp hNDdec
  obtain ⟨hvT2, hT2nd⟩ := List.nodup_cons.mp hvT2nd
  have hvA1 : v ∉ A1 := fun hm => hdsj hm (List.mem_cons_self _ _)
  obtain ⟨hPA1, hrest⟩ :=
    append_cons_eq_unique v A1 P T2 rest' (hTdec.symm.trans hsp) hvA1 hvP
  subst hPA1
  subst hrest
  have hDE2 := hDE
  rw [hTdec] at hDE2
  have hrooteq : vv.index = vv.low_link := by
    unfold scc.Vertex.is_root at hroot
    exact eq_of_beq hroot
  have hB : ∀ a ∈ A1, scc.idxOf s.unfinished_components.vertices v ≤
      scc.llOf s.unfinished_components.vertices a := by
    intro a ha
    rcases hbnd1 a ha with h | hxf
    · rw [idxOf_eq _ _ _ hvv, hrooteq]
      rw [llOf_eq _ _ _ hvv] at h
      exact h
    · exact (hXFel a hxf).elim
  have hreach2 : ∀ a ∈ A1, s.dfs.graph.Reaches a v := by
    refine segment_reaches_root s.dfs.graph s.unfinished_components.vertices A1 T2 v
      ?_ ?_ hcls1 hB
    · intro w hw
      rw [← hTdec] at hw
      obtain ⟨z, hz1, hz2, hz3⟩ := hP2 w hw
      rw [hTdec] at hz1
      exact ⟨z, hz1, hz2, hz3⟩
    · rw [← hTdec]
      exact hDE
  have hidxlt : ∀ w ∈ T2, scc.idxOf s.unfinished_components.vertices w <
      scc.idxOf s.unfinished_components.vertices v := by
    have h1 := (List.pairwise_append.mp hDE2).2.1
    exact (List.pairwise_cons.mp h1).1
  have hidxA : ∀ z ∈ A1, scc.idxOf s.unfinished_components.vertices v <
      scc.idxOf s.unfinished_components.vertices z := by
    intro z hz
    exact (List.pairwise_append.mp hDE2).2.2 z hz v (List.mem_cons_self _ _)
  have hllwlt : ∀ w ∈ T2, scc.llOf s.unfinished_components.vertices w <
      scc.idxOf s.unfinished_components.vertices v := by
    intro w hw
    have hwT : w ∈ s.unfinished_components.stack := by
      rw [hTdec]
      exact List.mem_append_right _ (List.mem_cons_of_mem _ hw)
    have hsome := (hTab w).mp hwT
    cases hlk : scc.lookupV s.unfinished_components.vertices w with
    | none =>
      rw [hlk] at hsome
      exact absurd hsome (by simp)
    | some vw =>
      have h2 := (hIB w vw hlk).2
      have h3 := hidxlt w hw
      rw [idxOf_eq _ _ _ hlk] at h3
      rw [llOf_eq _ _ _ hlk]
      omega
  have hsur : ∀ x ∈ T2, scc.lookupV m2 x =
      scc.lookupV s.unfinished_components.vertices x := by
    intro x hx
    rw [hchar x]
    refine if_neg ?_
    rintro (h | rfl)
    · exact hdsj h (List.mem_cons_of_mem _ hx)
    · exact hvT2 hx
  have hsurll : ∀ x ∈ T2, scc.llOf m2 x = scc.llOf s.unfinished_components.vertices x := by
    intro x hx
    unfold scc.llOf
    rw [hsur x hx]
  have hsuridx : ∀ x ∈ T2, scc.idxOf m2 x =
      scc.idxOf s.unfinished_components.vertices x := by
    intro x hx
    unfold scc.idxOf
    rw [hsur x hx]
  have hsubR : (graph.Req d').Sublist T2 := by
    have h0 := hSub
    rw [hReq, hTdec] at h0
    exact sublist_cons_append_elim v A1 (graph.Req d') T2 h0 hvA1
  have hEDGtrans : ∀ u2 w, u2 ∈ T2 →
      scc.EDGp s.unfinished_components.vertices s.dfs.visited u2 w →
      scc.EDGp m2 d'.visited u2 w := by
    intro u2 w hu2 h
    refine ⟨(hVset w).mpr h.1, ?_⟩
    intro vw hvw
    rw [hchar w] at hvw
    by_cases hc : w ∈ A1 ∨ w = v
    · rw [if_pos hc] at hvw
      exact Option.noConfusion hvw
    · rw [if_neg hc] at hvw
      rw [hsurll u2 hu2]
      exact h.2 vw hvw
  have hAdjA : ∀ u2, u2 ∈ A1 ∨ u2 = v → ∀ w ∈ s.dfs.graph.adj u2,
      scc.EDGp s.unfinished_components.vertices s.dfs.visited u2 w := by
    intro u2 hu2 w hw
    rcases hu2 with hu2 | rfl
    · refine hE1 u2 ?_ ?_ w hw
      · rw [hTdec]
        exact List.mem_append_left _ hu2
      · rw [hReq]
        intro hmem2
        rcases List.mem_cons.mp hmem2 with h | h
        · exact hvA1 (h ▸ hu2)
        · exact hdsj hu2 (List.mem_cons_of_mem _ (hsubR.subset h))
    · exact hAdjV w hw
  have hMemNoT2 : ∀ u2, (u2 ∈ A1 ∨ u2 = v) → ∀ w, s.dfs.graph.Step u2 w →
      w ∈ s.dfs.visited ∧ w ∉ T2 := by
    intro u2 hu2 w hstep
    have hED := hAdjA u2 hu2 w hstep
    refine ⟨hED.1, ?_⟩
    intro hwT2
    have hwT : w ∈ s.unfinished_components.stack := by
      rw [hTdec]
      exact List.mem_append_right _ (List.mem_cons_of_mem _ hwT2)
    have hsome := (hTab w).mp hwT
    cases hlk : scc.lookupV s.unfinished_components.vertices w with
    | none =>
      rw [hlk] at hsome
      exact absurd hsome (by simp)
    | some vw =>
      have h2 := hED.2 vw hlk
      have h3 : scc.idxOf s.unfinished_components.vertices v ≤
          scc.llOf s.unfinished_components.vertices u2 := by
        rcases hu2 with h4 | rfl
        · exact hB u2 h4
        · rw [idxOf_eq _ _ _ hvv, llOf_eq _ _ _ hvv, hrooteq]
      have h4 := hidxlt w hwT2
      rw [idxOf_eq _ _ _ hlk] at h4
      omega
  have hmemV : ∀ x, (x ∈ A1 ∨ x = v) → x ∈ s.dfs.visited := by
    intro x hx
    refine hTV x ?_
    rw [hTdec]
    rcases hx with h | rfl
    · exact List.mem_append_left _ h
    · exact List.mem_append_right _ (List.mem_cons_self _ _)
  have hSEG' : Segs d'.graph m2
      (SCC.XF ⟨d', { s.unfinished_components with stack := T2, vertices := m2 }⟩)
      T2 (graph.Req d') := by
    rw [hg']
    exact Segs_mono _ _ _ _ _ _ (fun a hf => hf.elim)
      (Segs_congr _ _ _ _ _ _ htail hsur)
  have hIB' : ∀ w vx, scc.lookupV m2 w = some vx →
      vx.index < s.unfinished_components.next_vertex_index ∧ vx.low_link ≤ vx.index := by
    intro w vx h
    rw [hchar w] at h
    by_cases hc : w ∈ A1 ∨ w = v
    · rw [if_pos hc] at h
      exact Option.noConfusion h
    · rw [if_neg hc] at h
      exact hIB w vx h
  have hsubT2 : T2.Sublist s.unfinished_components.stack := by
    rw [hTdec]
    exact (List.sublist_cons_self v T2).trans (List.sublist_append_right A1 (v :: T2))
  have hDE' : T2.Pairwise (fun a b => scc.idxOf m2 b < scc.idxOf m2 a) := by
    refine List.Pairwise.imp_of_mem ?_ (List.Pairwise.sublist hsubT2 hDE)
    intro a b ha hb hab
    rw [hsuridx a ha, hsuridx b hb]
    exact hab
  have hGL' : ∀ r0, (graph.Req d').getLast? = some r0 →
      ∀ w ∈ T2, scc.idxOf m2 r0 ≤ scc.llOf m2 w := by
    intro r0 h0 w hw
    have hr0T2 : r0 ∈ T2 := hsubR.subset (List.mem_of_mem_getLast? h0)
    rw [hsuridx r0 hr0T2, hsurll w hw]
    refine hGL r0 ?_ w ?_
    · rw [hReq]
      cases hR2 : graph.Req d' with
      | nil =>
        rw [hR2] at h0
        exact absurd h0 (by simp)
      | cons a l =>
        rw [hR2] at h0
        rw [List.getLast?_cons_cons]
        exact h0
    · rw [hTdec]
      exact List.mem_append_right _ (List.mem_cons_of_mem _ hw)
  have hP2' : ∀ w ∈ T2, ∃ z ∈ T2, scc.idxOf m2 z = scc.llOf m2 w ∧
      d'.graph.Reaches w z := by
    intro w hw
    obtain ⟨z, hz1, hz2, hz3⟩ := hP2 w (by
      rw [hTdec]
      exact List.mem_append_right _ (List.mem_cons_of_mem _ hw))
    have hllw := hllwlt w hw
    have hzT2 : z ∈ T2 := by
      rw [hTdec] at hz1
      rcases List.mem_append.mp hz1 with h | h
      · exfalso
        have h4 := hidxA z h
        rw [hz2] at h4
        omega
      · rcases List.mem_cons.mp h with rfl | h2
        · exfalso
          rw [hz2] at hllw
          omega
        · exact h2
    refine ⟨z, hzT2, ?_, ?_⟩
    · rw [hsuridx z hzT2, hsurll w hw]
      exact hz2
    · rw [hg']
      exact hz3
  have hCT' : ∀ w ∈ T2, w ∈ d'.enumeration.explored := by
    intro w hw
    refine hEmono w (hCT w ?_)
    rw [hTdec]
    exact List.mem_append_right _ (List.mem_cons_of_mem _ hw)
  have hDC' : ∀ u2, u2 ∈ d'.visited → u2 ∉ T2 → ∀ w2, d'.graph.Step u2 w2 →
      w2 ∈ d'.visited ∧ w2 ∉ T2 := by
    intro u2 hu2 hnT w2 hstep
    have hstep2 : s.dfs.graph.Step u2 w2 := by
      rw [← hg']
      exact hstep
    by_cases hmem2 : u2 ∈ s.unfinished_components.stack
    · have hA : u2 ∈ A1 ∨ u2 = v := by
        rw [hTdec] at hmem2
        rcases List.mem_append.mp hmem2 with h | h
        · exact Or.inl h
        · rcases List.mem_cons.mp h with h2 | h2
          · exact Or.inr h2
          · exact absurd h2 hnT
      obtain ⟨hw2V, hw2T⟩ := hMemNoT2 u2 hA w2 hstep2
      exact ⟨(hVset w2).mpr hw2V, hw2T⟩
    · obtain ⟨hw2V, hw2T⟩ := hDC u2 ((hVset u2).mp hu2) hmem2 w2 hstep2
      refine ⟨(hVset w2).mpr hw2V, ?_⟩
      intro hw2T2
      refine hw2T ?_
      rw [hTdec]
      exact List.mem_append_right _ (List.mem_cons_of_mem _ hw2T2)
  have hE1' : ∀ u2 ∈ T2, u2 ∉ graph.Req d' → ∀ w ∈ d'.graph.adj u2,
      scc.EDGp m2 d'.visited u2 w := by
    intro u2 hu2 hnR w hw
    have hw2 : w ∈ s.dfs.graph.adj u2 := by
      rw [← hg']
      exact hw
    refine hEDGtrans u2 w hu2 (hE1 u2 ?_ ?_ w hw2)
    · rw [hTdec]
      exact List.mem_append_right _ (List.mem_cons_of_mem _ hu2)
    · rw [hReq]
      intro hmem2
      rcases List.mem_cons.mp hmem2 with h | h
      · exact hvT2 (h ▸ hu2)
      · exact hnR h
  have hE2' : ∀ f ∈ d'.enumeration.stack, f.id ∈ d'.enumeration.explored →
      ∀ pre, d'.graph.adj f.id = pre ++ f.current_neighbour.toList ++ f.neighbours →
        ∀ w ∈ pre, scc.EDGp m2 d'.visited f.id w := by
    intro f hf hfe pre hpre w hw
    have hfid : f.id ∈ T2 :=
      hsubR.subset (tree.mem_ReqT_of_frame d'.enumeration f hf hfe)
    refine hEDGtrans _ w hfid (hE2 f (hStkSub f hf) ?_ pre ?_ w hw)
    · rw [← hExEq]
      exact hfe
    · rw [← hg']
      exact hpre
  have hE3' : ∀ v2, d'.enumeration.output_queue = [DFSEntry.EndVertex v2] →
      ∀ w ∈ d'.graph.adj v2, scc.EDGp m2 d'.visited v2 w := by
    intro v2 hq2 w hw
    rw [hq'] at hq2
    exact List.noConfusion hq2
  have hFL' : ∀ v2, d'.enumeration.output_queue = [DFSEntry.EndVertex v2] →
      d'.enumeration.stack = [] ∨
      ∃ f rest, d'.enumeration.stack = f :: rest ∧ f.id ∈ d'.enumeration.explored ∧
        f.current_neighbour = some v2 := by
    intro v2 hq2
    rw [hq'] at hq2
    exact List.noConfusion hq2
  refine ⟨⟨hXI', hSEG', hIB', hDE', hGL', hP2', hCT', hDC', hE1', hE2', hE3', hFL'⟩,
    rfl, (hmem v).mpr (Or.inr rfl), ?_, ?_, ?_, ?_⟩
  · intro x hx
    exact hmemV x ((hmem x).mp hx)
  · intro x hx
    rcases (hmem x).mp hx with h | rfl
    · exact ⟨hreach2 x h, hreach1 x h⟩
    · exact ⟨Relation.ReflTransGen.refl, Relation.ReflTransGen.refl⟩
  · intro x hx hdead
    refine hdead.2 ?_
    rw [hTdec]
    rcases (hmem x).mp hx with h | rfl
    · exact List.mem_append_left _ h
    · exact List.mem_append_right _ (List.mem_cons_self _ _)
  · intro w
    constructor
    · rintro ⟨hwV, hwT⟩
      by_cases hwTfull : w ∈ s.unfinished_components.stack
      · right
        rw [hTdec] at hwTfull
        rcases List.mem_append.mp hwTfull with h | h
        · exact (hmem w).mpr (Or.inl h)
        · rcases List.mem_cons.mp h with h2 | h2
          · exact (hmem w).mpr (Or.inr h2)
          · exact absurd h2 hwT
      · left
        exact ⟨(hVset w).mp hwV, hwTfull⟩
    · rintro (⟨hwV, hwT⟩ | hwm)
      · refine ⟨(hVset w).mpr hwV, ?_⟩
        intro hw2
        refine hwT ?_
        rw [hTdec]
        exact List.mem_append_right _ (List.mem_cons_of_mem _ hw2)
      · have h2 := (hmem w).mp hwm
        refine ⟨(hVset w).mpr (hmemV w h2), ?_⟩
        intro hw2
        rcases h2 with h | rfl
        · exact hdsj h (List.mem_cons_of_mem _ hw2)
        · exact hvT2 hw2

/-- One fuelled `SCC::next` call from a state carrying the full Tarjan
invariant either ends the stream with every graph vertex dead, or yields a
component and preserves the invariant: the yielded component is a non-empty
set of mutually reachable graph vertices that were all live before the
call, and the dead set grows by exactly its members. -/
theorem scc_nextF_full (fuel : Nat) :
    ∀ s : SCC, s.dfs.graph.WF → SCCInv s → TarInv s → s.dfs.mu ≤ fuel →
      (SCC.nextF fuel s = some SCCStep.done ∧
        ∀ v ∈ s.dfs.graph.vertices, SCC.DeadP s v) ∨
      (∃ c2 s2, SCC.nextF fuel s = some (SCCStep.yield c2 s2) ∧
        s2.dfs.graph = s.dfs.graph ∧ SCCInv s2 ∧ TarInv s2 ∧
        s2.dfs.mu < s.dfs.mu ∧
        c2.members ≠ [] ∧
        (∀ x ∈ c2.members, x ∈ s.dfs.graph.vertices) ∧
        (∀ a ∈ c2.members, ∀ b ∈ c2.members, s.dfs.graph.Reaches a b) ∧
        (∀ x ∈ c2.members, ¬ SCC.DeadP s x) ∧
        (∀ w, SCC.DeadP s2 w ↔ (SCC.DeadP s w ∨ w ∈ c2.members))) := by
  induction fuel with
  | zero =>
    intro s hwf hInv hTar hmu
    have := graph.mu_pos s.dfs
    omega
  | succ fuel ih =>
    intro s hwf hInv hTar hmu
    obtain ⟨hG, ⟨gtr, hT⟩, hT1, hT2, hT3, hT4⟩ := hInv
    have hInvRe : SCCInv s := ⟨hG, ⟨gtr, hT⟩, hT1, hT2, hT3, hT4⟩
    rcases graph.gnext_spec2 s.dfs gtr hwf hG hT with
      ⟨dF, hn, hRnil, hcov⟩ | ⟨e, d', hn, hg', hG', hT', hmu', hmono', hcase', hshape'⟩
    · left
      refine ⟨SCC.nextF_succ_done fuel s dF hn, ?_⟩
      have hTnil : s.unfinished_components.stack = [] := by
        refine Segs_nilR s.dfs.graph s.unfinished_components.vertices (SCC.XF s)
          s.unfinished_components.stack ?_
        have h2 := hTar.2.1
        rw [hRnil] at h2
        exact h2
      intro v hv
      refine ⟨hcov v hv, ?_⟩
      rw [hTnil]
      exact List.not_mem_nil v
    · rcases hcase' with ⟨v, he, hnv, hv', hReq⟩ | ⟨u, t, he, hReq⟩ |
        ⟨u, t, he, hReq, hmem⟩ | ⟨v, he, hReq⟩
      · -- BeginVertex: push
        subst he
        have hstep := SCC.nextF_succ_BV fuel s d' v hn
        have hvnotT : v ∉ s.unfinished_components.stack := fun hmem2 => hnv (hT4 v hmem2)
        have hInv2 : SCCInv ⟨d', s.unfinished_components.push v⟩ := by
          refine ⟨hG', ⟨gtr ++ [DFSEntry.BeginVertex v], hT'⟩, ?_, ?_, ?_, ?_⟩
          · intro w
            show w ∈ v :: s.unfinished_components.stack ↔
              (scc.lookupV (scc.insertV s.unfinished_components.vertices v
                ⟨s.unfinished_components.next_vertex_index,
                 s.unfinished_components.next_vertex_index⟩) w).isSome = true
            by_cases hwv : w = v
            · subst hwv
              rw [scc.lookupV_insertV_self]
              constructor
              · intro h2
                rfl
              · intro h2
                exact List.mem_cons_self _ _
            · rw [scc.lookupV_insertV_ne _ _ _ _ hwv, List.mem_cons]
              constructor
              · intro h2
                rcases h2 with h3 | h3
                · exact absurd h3 hwv
                · exact (hT1 w).mp h3
              · intro h2
                exact Or.inr ((hT1 w).mpr h2)
          · exact List.nodup_cons.mpr ⟨hvnotT, hT2⟩
          · show (graph.Req d').Sublist (v :: s.unfinished_components.stack)
            rw [hReq]
            exact List.cons_sublist_cons.mpr hT3
          · show ∀ w ∈ v :: s.unfinished_components.stack, w ∈ d'.visited
            intro w hw
            rcases List.mem_cons.mp hw with h3 | h3
            · rw [h3]
              exact hv'
            · exact hmono' w (hT4 w h3)
        have hTar2 : TarInv ⟨d', s.unfinished_components.push v⟩ :=
          Tar_BV s v d' gtr hInvRe hTar hshape' hT hT' hReq hnv hg'
        have hwf2 : d'.graph.WF := by
          rw [hg']
          exact hwf
        have hmu2 : d'.mu ≤ fuel := by omega
        have hDeq : ∀ w, SCC.DeadP ⟨d', s.unfinished_components.push v⟩ w ↔
            SCC.DeadP s w := by
          intro w
          have hVset := GTr_BV_visited gtr s.dfs d' v hT hT'
          constructor
          · rintro ⟨hwV, hwT⟩
            rcases (hVset w).mp hwV with h3 | h3
            · refine ⟨h3, ?_⟩
              intro h4
              exact hwT (show w ∈ (s.unfinished_components.push v).stack from
                List.mem_cons_of_mem _ h4)
            · exact absurd (show w ∈ (s.unfinished_components.push v).stack from
                by rw [h3]; exact List.mem_cons_self _ _) hwT
          · rintro ⟨hwV, hwT⟩
            refine ⟨(hVset w).mpr (Or.inl hwV), ?_⟩
            intro h4
            rcases List.mem_cons.mp (show w ∈ v :: s.unfinished_components.stack from h4)
              with h5 | h5
            · exact hnv (h5 ▸ hwV)
            · exact hwT h5
        rcases ih ⟨d', s.unfinished_components.push v⟩ hwf2 hInv2 hTar2 hmu2 with
          ⟨h0, hcov0⟩ |
          ⟨c2, s2, h0, hgs2, hI2, hTar2x, hmu2x, hne, hvert, hreachm, hfresh, hdelta⟩
        · left
          refine ⟨by rw [hstep]; exact h0, ?_⟩
          intro w hw
          refine (hDeq w).mp (hcov0 w ?_)
          show w ∈ d'.graph.vertices
          rw [hg']
          exact hw
        · right
          refine ⟨c2, s2, by rw [hstep]; exact h0, ?_, hI2, hTar2x, ?_, hne, ?_, ?_, ?_, ?_⟩
          · rw [hgs2]
            exact hg'
          · exact Nat.lt_trans hmu2x hmu'
          · intro x hx
            have h5 : x ∈ d'.graph.vertices := hvert x hx
            rw [hg'] at h5
            exact h5
          · intro a ha b hb
            have h5 : d'.graph.Reaches a b := hreachm a ha b hb
            rw [hg'] at h5
            exact h5
          · intro x hx hdead
            exact hfresh x hx ((hDeq x).mpr hdead)
          · intro w
            rw [hdelta w, hDeq w]
      · -- BeginEdge: pass through
        subst he
        have hstep := SCC.nextF_succ_BE fuel s d' (u, t) hn
        have hInv2 : SCCInv ⟨d', s.unfinished_components⟩ := by
          refine ⟨hG', ⟨gtr ++ [DFSEntry.BeginEdge (u, t)], hT'⟩, hT1, hT2, ?_, ?_⟩
          · show (graph.Req d').Sublist s.unfinished_components.stack
            rw [hReq]
            exact hT3
          · show ∀ w ∈ s.unfinished_components.stack, w ∈ d'.visited
            intro w hw
            exact hmono' w (hT4 w hw)
        have hTar2 : TarInv ⟨d', s.unfinished_components⟩ :=
          Tar_BE s u t d' gtr hInvRe hTar hshape' hT hT' hReq hg'
        have hwf2 : d'.graph.WF := by
          rw [hg']
          exact hwf
        have hmu2 : d'.mu ≤ fuel := by omega
        have hDeq : ∀ w, SCC.DeadP ⟨d', s.unfinished_components⟩ w ↔ SCC.DeadP s w := by
          intro w
          have hVset : ∀ x, x ∈ d'.visited ↔ x ∈ s.dfs.visited :=
            GTr_nonBV_visited gtr s.dfs d' _ hT hT' (fun x h => DFSEntry.noConfusion h)
          constructor
          · rintro ⟨h1, h2⟩
            exact ⟨(hVset w).mp h1, h2⟩
          · rintro ⟨h1, h2⟩
            exact ⟨(hVset w).mpr h1, h2⟩
        rcases ih ⟨d', s.unfinished_components⟩ hwf2 hInv2 hTar2 hmu2 with
          ⟨h0, hcov0⟩ |
          ⟨c2, s2, h0, hgs2, hI2, hTar2x, hmu2x, hne, hvert, hreachm, hfresh, hdelta⟩
        · left
          refine ⟨by rw [hstep]; exact h0, ?_⟩
          intro w hw
          refine (hDeq w).mp (hcov0 w ?_)
          show w ∈ d'.graph.vertices
          rw [hg']
          exact hw
        · right
          refine ⟨c2, s2, by rw [hstep]; exact h0, ?_, hI2, hTar2x, ?_, hne, ?_, ?_, ?_, ?_⟩
          · rw [hgs2]
            exact hg'
          · exact Nat.lt_trans hmu2x hmu'
          · intro x hx
            have h5 : x ∈ d'.graph.vertices := hvert x hx
            rw [hg'] at h5
            exact h5
          · intro a ha b hb
            have h5 : d'.graph.Reaches a b := hreachm a ha b hb
            rw [hg'] at h5
            exact h5
          · intro x hx hdead
            exact hfresh x hx ((hDeq x).mpr hdead)
          · intro w
            rw [hdelta w, hDeq w]
      · -- EndEdge: fold the minimum into the top open vertex
        subst he
        have huT : u ∈ s.unfinished_components.stack := hT3.subset hmem
        have husome : (scc.lookupV s.unfinished_components.vertices u).isSome = true :=
          (hT1 u).mp huT
        obtain ⟨vu, hvu⟩ := Option.isSome_iff_exists.mp husome
        obtain ⟨st, hup, hstk, hidx, hpres⟩ :=
          scc.update_with_minimum_spec s.unfinished_components u t vu hvu
        have hstep := SCC.nextF_succ_EE fuel s d' (u, t) st hn hup
        have hInv2 : SCCInv ⟨d', st⟩ := by
          refine ⟨hG', ⟨gtr ++ [DFSEntry.EndEdge (u, t)], hT'⟩, ?_, ?_, ?_, ?_⟩
          · intro w
            show w ∈ st.stack ↔ (scc.lookupV st.vertices w).isSome = true
            rw [hstk]
            constructor
            · intro h2
              rw [hpres w]
              exact (hT1 w).mp h2
            · intro h2
              apply (hT1 w).mpr
              rw [← hpres w]
              exact h2
          · show st.stack.Nodup
            rw [hstk]
            exact hT2
          · show (graph.Req d').Sublist st.stack
            rw [hReq, hstk]
            exact hT3
          · show ∀ w ∈ st.stack, w ∈ d'.visited
            intro w hw
            rw [hstk] at hw
            exact hmono' w (hT4 w hw)
        have hTar2 : TarInv ⟨d', st⟩ :=
          Tar_EE s u t d' gtr hInvRe hTar hshape' hT hT' hReq hg' vu hvu st hup
        have hwf2 : d'.graph.WF := by
          rw [hg']
          exact hwf
        have hmu2 : d'.mu ≤ fuel := by omega
        have hDeq : ∀ w, SCC.DeadP ⟨d', st⟩ w ↔ SCC.DeadP s w := by
          intro w
          have hVset : ∀ x, x ∈ d'.visited ↔ x ∈ s.dfs.visited :=
            GTr_nonBV_visited gtr s.dfs d' _ hT hT' (fun x h => DFSEntry.noConfusion h)
          constructor
          · rintro ⟨h1, h2⟩
            refine ⟨(hVset w).mp h1, ?_⟩
            intro h3
            refine h2 ?_
            show w ∈ st.stack
            rw [hstk]
            exact h3
          · rintro ⟨h1, h2⟩
            refine ⟨(hVset w).mpr h1, ?_⟩
            intro h3
            have h4 : w ∈ st.stack := h3
            rw [hstk] at h4
            exact h2 h4
        rcases ih ⟨d', st⟩ hwf2 hInv2 hTar2 hmu2 with
          ⟨h0, hcov0⟩ |
          ⟨c2, s2, h0, hgs2, hI2, hTar2x, hmu2x, hne, hvert, hreachm, hfresh, hdelta⟩
        · left
          refine ⟨by rw [hstep]; exact h0, ?_⟩
          intro w hw
          refine (hDeq w).mp (hcov0 w ?_)
          show w ∈ d'.graph.vertices
          rw [hg']
          exact hw
        · right
          refine ⟨c2, s2, by rw [hstep]; exact h0, ?_, hI2, hTar2x, ?_, hne, ?_, ?_, ?_, ?_⟩
          · rw [hgs2]
            exact hg'
          · exact Nat.lt_trans hmu2x hmu'
          · intro x hx
            have h5 : x ∈ d'.graph.vertices := hvert x hx
            rw [hg'] at h5
            exact h5
          · intro a ha b hb
            have h5 : d'.graph.Reaches a b := hreachm a ha b hb
            rw [hg'] at h5
            exact h5
          · intro x hx hdead
            exact hfresh x hx ((hDeq x).mpr hdead)
          · intro w
            rw [hdelta w, hDeq w]
      · -- EndVertex: close the top open vertex
        subst he
        have hvReq : v ∈ graph.Req s.dfs := by
          rw [hReq]
          exact List.mem_cons_self _ _
        have hvT : v ∈ s.unfinished_components.stack := hT3.subset hvReq
        have hvsome : (scc.lookupV s.unfinished_components.vertices v).isSome = true :=
          (hT1 v).mp hvT
        obtain ⟨vv, hvv⟩ := Option.isSome_iff_exists.mp hvsome
        have hroot : s.unfinished_components.is_root v = some vv.is_root := by
          unfold scc.Stack.is_root
          rw [hvv]
          rfl
        cases hb : vv.is_root with
        | false =>
          rw [hb] at hroot
          have hstep := SCC.nextF_succ_EV_notroot fuel s d' v hn hroot
          have hT3v : (v :: graph.Req d').Sublist s.unfinished_components.stack := by
            rw [← hReq]
            exact hT3
          have hInv2 : SCCInv ⟨d', s.unfinished_components⟩ := by
            refine ⟨hG', ⟨gtr ++ [DFSEntry.EndVertex v], hT'⟩, hT1, hT2, ?_, ?_⟩
            · show (graph.Req d').Sublist s.unfinished_components.stack
              exact List.sublist_of_cons_sublist hT3v
            · show ∀ w ∈ s.unfinished_components.stack, w ∈ d'.visited
              intro w hw
              exact hmono' w (hT4 w hw)
          have hTar2 : TarInv ⟨d', s.unfinished_components⟩ :=
            Tar_EVnr s v d' gtr hInvRe hTar hshape' hT hT' hReq hg' vv hvv hb
          have hwf2 : d'.graph.WF := by
            rw [hg']
            exact hwf
          have hmu2 : d'.mu ≤ fuel := by omega
          have hDeq : ∀ w, SCC.DeadP ⟨d', s.unfinished_components⟩ w ↔ SCC.DeadP s w := by
            intro w
            have hVset : ∀ x, x ∈ d'.visited ↔ x ∈ s.dfs.visited :=
              GTr_nonBV_visited gtr s.dfs d' _ hT hT' (fun x h => DFSEntry.noConfusion h)
            constructor
            · rintro ⟨h1, h2⟩
              exact ⟨(hVset w).mp h1, h2⟩
            · rintro ⟨h1, h2⟩
              exact ⟨(hVset w).mpr h1, h2⟩
          rcases ih ⟨d', s.unfinished_components⟩ hwf2 hInv2 hTar2 hmu2 with
            ⟨h0, hcov0⟩ |
            ⟨c2, s2, h0, hgs2, hI2, hTar2x, hmu2x, hne, hvert, hreachm, hfresh, hdelta⟩
          · left
            refine ⟨by rw [hstep]; exact h0, ?_⟩
            intro w hw
            refine (hDeq w).mp (hcov0 w ?_)
            show w ∈ d'.graph.vertices
            rw [hg']
            exact hw
          · right
            refine ⟨c2, s2, by rw [hstep]; exact h0, ?_, hI2, hTar2x, ?_, hne, ?_, ?_, ?_, ?_⟩
            · rw [hgs2]
              exact hg'
            · exact Nat.lt_trans hmu2x hmu'
            · intro x hx
              have h5 : x ∈ d'.graph.vertices := hvert x hx
              rw [hg'] at h5
              exact h5
            · intro a ha b hb2
              have h5 : d'.graph.Reaches a b := hreachm a ha b hb2
              rw [hg'] at h5
              exact h5
            · intro x hx hdead
              exact hfresh x hx ((hDeq x).mpr hdead)
            · intro w
              rw [hdelta w, hDeq w]
        | true =>
          rw [hb] at hroot
          obtain ⟨P, rest, c2, m2, hsp, hvP, hpop, hchar⟩ :=
            scc.pop_until_spec s.unfinished_components v hvT
          have hstep := SCC.nextF_succ_EV_root fuel s d' v c2 _ hn hroot hpop
          have hT2' : (P ++ v :: rest).Nodup := by
            rw [← hsp]
            exact hT2
          obtain ⟨hPnd, hvrn, hdisj⟩ := List.nodup_append.mp hT2'
          obtain ⟨hvnr, hrnd⟩ := List.nodup_cons.mp hvrn
          have hInv2 : SCCInv ⟨d',
              { s.unfinished_components with stack := rest, vertices := m2 }⟩ := by
            refine ⟨hG', ⟨gtr ++ [DFSEntry.EndVertex v], hT'⟩, ?_, hrnd, ?_, ?_⟩
            · intro w
              show w ∈ rest ↔ (scc.lookupV m2 w).isSome = true
              constructor
              · intro hw
                have hwnv : ¬ w = v := fun h2 => hvnr (h2 ▸ hw)
                have hwnP : w ∉ P := fun h2 => hdisj h2 (List.mem_cons_of_mem _ hw)
                rw [hchar w, if_neg (by
                  intro h4
                  rcases h4 with h5 | h5
                  · exact hwnP h5
                  · exact hwnv h5)]
                apply (hT1 w).mp
                rw [hsp]
                exact List.mem_append_right _ (List.mem_cons_of_mem _ hw)
              · intro hw
                by_cases hcond : w ∈ P ∨ w = v
                · rw [hchar w, if_pos hcond] at hw
                  exact absurd hw (by simp)
                · rw [hchar w, if_neg hcond] at hw
                  have hwT := (hT1 w).mpr hw
                  rw [hsp] at hwT
                  rcases List.mem_append.mp hwT with h5 | h5
                  · exact absurd (Or.inl h5) hcond
                  · rcases List.mem_cons.mp h5 with h6 | h6
                    · exact absurd (Or.inr h6) hcond
                    · exact h6
            · show (graph.Req d').Sublist rest
              have hT3' : (v :: graph.Req d').Sublist (P ++ v :: rest) := by
                rw [← hReq, ← hsp]
                exact hT3
              exact sublist_cons_append_elim v P (graph.Req d') rest hT3' hvP
            · show ∀ w ∈ rest, w ∈ d'.visited
              intro w hw
              apply hmono' w
              apply hT4 w
              rw [hsp]
              exact List.mem_append_right _ (List.mem_cons_of_mem _ hw)
          obtain ⟨hTar2, hnvi, hvmem, hmemvis, hpair, hfresh, hdelta⟩ :=
            Tar_EVroot s v d' gtr hInvRe hTar hshape' hT hT' hReq hg' vv hvv hb c2 _ hpop
          right
          refine ⟨c2, ⟨d', { s.unfinished_components with stack := rest, vertices := m2 }⟩,
            hstep, hg', hInv2, hTar2, hmu', ?_, ?_, ?_, hfresh, hdelta⟩
          · exact List.ne_nil_of_mem hvmem
          · intro x hx
            exact visited_sub_vertices s.dfs hwf hG x (hmemvis x hx)
          · intro a ha b hb2
            exact (hpair a ha).1.trans (hpair b hb2).2
